import Mathlib

/-!
# Kuhn–Munkres assignment solver (`run_munkres_algorithm`) over the dense `Matrix` class

Shallow embedding of `src/advanced_algorithms/code/matrix.hpp` and
`src/advanced_algorithms/code/hungarian_algorithm.cpp`.

* `int` values are mathematical integers (`Int`). The theorems about the values that the
  reduction and the adjustment compute carry the hypothesis that every such value is a value of
  `int` (`ReductionFits`, `AdjustFits`, `RunFits`); under it the arithmetic of the code is the
  arithmetic of `Int`.
* `std::size_t` values are natural numbers; where a size is computed from free arguments (the
  element count of a constructor, the linear index of `operator()`) the result is reduced
  modulo `SIZE_MODULUS`.
* `for` loops over `0 .. matrixSize-1` are folds over `List.range matrixSize`; a scan that
  leaves through `break` at the first hit is `List.find?`.
* The two `while` loops take a step budget; exhausting it is the outcome `Error.OutOfFuel`.
* A thrown `Matrix<int>::Invalid` is `Error.Invalid`; an element access that the assertion of
  `operator()` rejects is `Error.AssertionFailed`.
* Inside `run_munkres_algorithm` every index comes from a loop over `0 .. matrixSize-1` or from
  a scan over that range, on matrices with `matrixSize` rows and columns, so the assertion of
  `operator()` holds there (`linear_index_lt`) and `Matrix.get` / `Matrix.set` are the plain
  read and write of the element list. The one index that can be −1, `columnWithPrimedZero`, is
  treated in `buildPath`.
* A matrix is a value in these definitions. The section `InMemory` repeats the solver on
  matrix objects that keep their arrays in an explicit memory, for the statement about what a
  call does to the matrix of its caller.
-/

namespace Munkres

/-- Ways in which a run can end without a result. -/
inductive Error where
  | Invalid
  | AssertionFailed
  | OutOfFuel
deriving DecidableEq, Repr

/-- The class `Matrix<ElementType>`: the two dimensions and the row-major element array. -/
structure Matrix (α : Type) where
  totalRows_ : Nat
  totalColumns_ : Nat
  rawData_ : List α
deriving DecidableEq, Repr

/-- Getter `nrows()`. -/
def Matrix.nrows {α : Type} (m : Matrix α) : Nat := m.totalRows_

/-- Getter `ncols()`. -/
def Matrix.ncols {α : Type} (m : Matrix α) : Nat := m.totalColumns_

/-- Number of values of `std::size_t`, taken as the 64-bit unsigned type: sums and products of
sizes are computed modulo this number. -/
def SIZE_MODULUS : Nat := 2 ^ 64

/-- Constructor `Matrix(numberOfRows, numberOfColumns, initialValue)` (lines 20–34): the array
is allocated with `numberOfRows * numberOfColumns` elements, a product of `std::size_t`
values; then `Invalid` is thrown when a dimension is zero; otherwise every allocated element is
set to `initialValue`. -/
def Matrix.filled {α : Type} (numberOfRows numberOfColumns : Nat) (initialValue : α) :
    Except Error (Matrix α) :=
  if numberOfRows = 0 ∨ numberOfColumns = 0 then
    Except.error Error.Invalid
  else
    Except.ok ⟨numberOfRows, numberOfColumns,
      List.replicate ((numberOfRows * numberOfColumns) % SIZE_MODULUS) initialValue⟩

/-- Read access `operator()(rowIndex, columnIndex)`: the element at linear index
`rowIndex * totalColumns_ + columnIndex`. -/
def Matrix.get (m : Matrix Int) (rowIndex columnIndex : Nat) : Int :=
  m.rawData_.getD (rowIndex * m.totalColumns_ + columnIndex) 0

/-- Write access through `operator()(rowIndex, columnIndex)`. -/
def Matrix.set (m : Matrix Int) (rowIndex columnIndex : Nat) (value : Int) : Matrix Int :=
  { m with rawData_ := m.rawData_.set (rowIndex * m.totalColumns_ + columnIndex) value }

/-- The constant `std::numeric_limits<int>::max()`. -/
def INT_MAX : Int := 2147483647

/-! ## Cost reduction (lines 23–51) -/

/-- Lines 25–31: the running minimum of row `currentRow`, started at column 0. -/
def minimumRowValue (costMatrix : Matrix Int) (matrixSize currentRow : Nat) : Int :=
  (List.range' 1 (matrixSize - 1)).foldl
    (fun minimumRowValue currentColumn =>
      if costMatrix.get currentRow currentColumn < minimumRowValue then
        costMatrix.get currentRow currentColumn
      else minimumRowValue)
    (costMatrix.get currentRow 0)

/-- Lines 33–35: subtract `value` from every entry of row `currentRow`. -/
def subtractFromRow (costMatrix : Matrix Int) (matrixSize currentRow : Nat) (value : Int) :
    Matrix Int :=
  (List.range matrixSize).foldl
    (fun m currentColumn => m.set currentRow currentColumn (m.get currentRow currentColumn - value))
    costMatrix

/-- Lines 24–36: row reduction. -/
def reduceRows (costMatrix : Matrix Int) (matrixSize : Nat) : Matrix Int :=
  (List.range matrixSize).foldl
    (fun m currentRow => subtractFromRow m matrixSize currentRow (minimumRowValue m matrixSize currentRow))
    costMatrix

/-- Lines 40–46: the running minimum of column `currentColumn`, started at row 0. -/
def minimumColumnValue (costMatrix : Matrix Int) (matrixSize currentColumn : Nat) : Int :=
  (List.range' 1 (matrixSize - 1)).foldl
    (fun minimumColumnValue currentRow =>
      if costMatrix.get currentRow currentColumn < minimumColumnValue then
        costMatrix.get currentRow currentColumn
      else minimumColumnValue)
    (costMatrix.get 0 currentColumn)

/-- Lines 48–50: subtract `value` from every entry of column `currentColumn`. -/
def subtractFromColumn (costMatrix : Matrix Int) (matrixSize currentColumn : Nat) (value : Int) :
    Matrix Int :=
  (List.range matrixSize).foldl
    (fun m currentRow => m.set currentRow currentColumn (m.get currentRow currentColumn - value))
    costMatrix

/-- Lines 39–51: column reduction. -/
def reduceColumns (costMatrix : Matrix Int) (matrixSize : Nat) : Matrix Int :=
  (List.range matrixSize).foldl
    (fun m currentColumn =>
      subtractFromColumn m matrixSize currentColumn (minimumColumnValue m matrixSize currentColumn))
    costMatrix

/-- Lines 23–51: row reduction followed by column reduction. -/
def reduce (costMatrix : Matrix Int) (matrixSize : Nat) : Matrix Int :=
  reduceColumns (reduceRows costMatrix matrixSize) matrixSize

/-! ## Mark grid and coverage -/

/-- The mutable variables of `run_munkres_algorithm` that live across the main loop. -/
structure State where
  costMatrix : Matrix Int
  zeroMarkMatrix : Matrix Int
  isRowCurrentlyCovered : List Bool
  isColumnCurrentlyCovered : List Bool
  numberOfCoveredColumns : Nat
deriving DecidableEq, Repr

/-- Lines 56–63: the body of the initial starring scan at one cell. -/
def starCell (costMatrix : Matrix Int) (currentRow : Nat)
    (acc : Matrix Int × List Bool × List Bool) (currentColumn : Nat) :
    Matrix Int × List Bool × List Bool :=
  if costMatrix.get currentRow currentColumn = 0 ∧
      acc.2.1.getD currentRow false = false ∧
      acc.2.2.getD currentColumn false = false then
    (acc.1.set currentRow currentColumn 1, acc.2.1.set currentRow true,
      acc.2.2.set currentColumn true)
  else acc

/-- Lines 54–65: initial starring in row-major order; the triple is the mark grid, the row
flags and the column flags. -/
def initialStarring (costMatrix zeroMarkMatrix : Matrix Int) (matrixSize : Nat) :
    Matrix Int × List Bool × List Bool :=
  (List.range matrixSize).foldl
    (fun acc currentRow => (List.range matrixSize).foldl (starCell costMatrix currentRow) acc)
    (zeroMarkMatrix, List.replicate matrixSize false, List.replicate matrixSize false)

/-- Lines 68–71: uncover everything. -/
def uncoverAll (flags : List Bool) (matrixSize : Nat) : List Bool :=
  (List.range matrixSize).foldl (fun v i => v.set i false) flags

/-- Lines 74–80 and 226–232: cover every column that holds a starred zero. -/
def coverStarredColumns (zeroMarkMatrix : Matrix Int) (matrixSize : Nat)
    (isColumnCurrentlyCovered : List Bool) : List Bool :=
  (List.range matrixSize).foldl
    (fun v currentRow => (List.range matrixSize).foldl
      (fun v currentColumn =>
        if zeroMarkMatrix.get currentRow currentColumn = 1 then v.set currentColumn true else v) v)
    isColumnCurrentlyCovered

/-- Lines 83–88 and 234–238: count the covered columns. -/
def countCoveredColumns (isColumnCurrentlyCovered : List Bool) (matrixSize : Nat) : Nat :=
  (List.range matrixSize).foldl
    (fun numberOfCoveredColumns currentColumn =>
      if isColumnCurrentlyCovered.getD currentColumn false = true then numberOfCoveredColumns + 1
      else numberOfCoveredColumns)
    0

/-- Lines 13–88: everything before the main loop, for a square matrix of size `matrixSize`
and the freshly built mark grid. -/
def initialState (costMatrix zeroMarkMatrix : Matrix Int) (matrixSize : Nat) : State :=
  let reduced := reduce costMatrix matrixSize
  let starred := initialStarring reduced zeroMarkMatrix matrixSize
  let isRowCurrentlyCovered := uncoverAll starred.2.1 matrixSize
  let isColumnCurrentlyCovered :=
    coverStarredColumns starred.1 matrixSize (uncoverAll starred.2.2 matrixSize)
  { costMatrix := reduced
    zeroMarkMatrix := starred.1
    isRowCurrentlyCovered := isRowCurrentlyCovered
    isColumnCurrentlyCovered := isColumnCurrentlyCovered
    numberOfCoveredColumns := countCoveredColumns isColumnCurrentlyCovered matrixSize }

/-! ## Search for an uncovered zero (lines 96–128) -/

/-- Lines 98–127: one row of the search. The second component is the primed zero that starts
an augmenting path (`uncoveredZeroFound` with its two indices), if this row produced one. -/
def searchRow (matrixSize : Nat) (s : State) (currentRow : Nat) : State × Option (Nat × Nat) :=
  if s.isRowCurrentlyCovered.getD currentRow false = false then
    match (List.range matrixSize).find? (fun currentColumn =>
        decide (s.costMatrix.get currentRow currentColumn = 0 ∧
          s.isColumnCurrentlyCovered.getD currentColumn false = false)) with
    | none => (s, none)
    | some currentColumn =>
      let zeroMarkMatrix := s.zeroMarkMatrix.set currentRow currentColumn 2
      match (List.range matrixSize).find? (fun j => decide (zeroMarkMatrix.get currentRow j = 1)) with
      | some starredZeroColumnIndex =>
        ({ s with
            zeroMarkMatrix := zeroMarkMatrix
            isRowCurrentlyCovered := s.isRowCurrentlyCovered.set currentRow true
            isColumnCurrentlyCovered :=
              s.isColumnCurrentlyCovered.set starredZeroColumnIndex false }, none)
      | none => ({ s with zeroMarkMatrix := zeroMarkMatrix }, some (currentRow, currentColumn))
  else (s, none)

/-- Lines 97–128: the search over the rows, which stops at the first row that sets
`uncoveredZeroFound`. -/
def search (matrixSize : Nat) (s : State) : State × Option (Nat × Nat) :=
  (List.range matrixSize).foldl
    (fun acc currentRow =>
      match acc.2 with
      | some _ => acc
      | none => searchRow matrixSize acc.1 currentRow)
    (s, none)

/-! ## Matrix adjustment (lines 130–156) -/

/-- Lines 132–143: the smallest value among the cells whose row and column are uncovered,
started at `INT_MAX`. -/
def smallestUncoveredValue (matrixSize : Nat) (s : State) : Int :=
  (List.range matrixSize).foldl
    (fun smallest currentRow =>
      if s.isRowCurrentlyCovered.getD currentRow false = false then
        (List.range matrixSize).foldl
          (fun smallest currentColumn =>
            if s.isColumnCurrentlyCovered.getD currentColumn false = false ∧
                s.costMatrix.get currentRow currentColumn < smallest then
              s.costMatrix.get currentRow currentColumn
            else smallest)
          smallest
      else smallest)
    INT_MAX

/-- Lines 148–153: the two updates of one cell. -/
def adjustCell (s : State) (delta : Int) (currentRow : Nat) (m : Matrix Int)
    (currentColumn : Nat) : Matrix Int :=
  let m1 :=
    if s.isRowCurrentlyCovered.getD currentRow false = true then
      m.set currentRow currentColumn (m.get currentRow currentColumn + delta)
    else m
  if s.isColumnCurrentlyCovered.getD currentColumn false = false then
    m1.set currentRow currentColumn (m1.get currentRow currentColumn - delta)
  else m1

/-- Lines 146–155: add the value to covered rows, subtract it from uncovered columns. -/
def adjustMatrix (matrixSize : Nat) (s : State) (delta : Int) : Matrix Int :=
  (List.range matrixSize).foldl
    (fun m currentRow => (List.range matrixSize).foldl (adjustCell s delta currentRow) m)
    s.costMatrix

/-- Lines 130–156: the adjustment branch. -/
def adjust (matrixSize : Nat) (s : State) : State :=
  { s with costMatrix := adjustMatrix matrixSize s (smallestUncoveredValue matrixSize s) }

/-! ## Augmentation (lines 157–239) -/

/-- Lines 166–195: extend the alternating path until the column of its last cell holds no
starred zero. The two index vectors are kept as one list of (row, column) pairs. When the row
of a starred zero holds no primed zero, `columnWithPrimedZero` stays −1 and the next access
`zeroMarkMatrix(0, -1)` is rejected. -/
def buildPath (zeroMarkMatrix : Matrix Int) (matrixSize : Nat) :
    Nat → List (Nat × Nat) → Except Error (List (Nat × Nat))
  | 0, _ => Except.error Error.OutOfFuel
  | fuel + 1, path =>
    match path.getLast? with
    | none => Except.error Error.AssertionFailed
    | some last =>
      match (List.range matrixSize).find? (fun row => decide (zeroMarkMatrix.get row last.2 = 1)) with
      | none => Except.ok path
      | some rowWithStarredZero =>
        match (List.range matrixSize).find?
            (fun col => decide (zeroMarkMatrix.get rowWithStarredZero col = 2)) with
        | none => Except.error Error.AssertionFailed
        | some columnWithPrimedZero =>
          buildPath zeroMarkMatrix matrixSize fuel
            (path ++ [(rowWithStarredZero, last.2), (rowWithStarredZero, columnWithPrimedZero)])

/-- Lines 199–207: flip one cell of the path. -/
def flipCell (zeroMarkMatrix : Matrix Int) (cell : Nat × Nat) : Matrix Int :=
  if zeroMarkMatrix.get cell.1 cell.2 = 1 then zeroMarkMatrix.set cell.1 cell.2 0
  else if zeroMarkMatrix.get cell.1 cell.2 = 2 then zeroMarkMatrix.set cell.1 cell.2 1
  else zeroMarkMatrix

/-- Lines 198–208: flip stars and primes along the path, in path order. -/
def flipPath (zeroMarkMatrix : Matrix Int) (path : List (Nat × Nat)) : Matrix Int :=
  path.foldl flipCell zeroMarkMatrix

/-- Lines 213–217: erase the primes (done inside the loop that uncovers the rows). -/
def clearPrimes (zeroMarkMatrix : Matrix Int) (matrixSize : Nat) : Matrix Int :=
  (List.range matrixSize).foldl
    (fun m row => (List.range matrixSize).foldl
      (fun m col => if m.get row col = 2 then m.set row col 0 else m) m)
    zeroMarkMatrix

/-- Lines 158–239: the augmentation branch, started at the primed zero `start`. -/
def augment (matrixSize fuel : Nat) (s : State) (start : Nat × Nat) : Except Error State :=
  match buildPath s.zeroMarkMatrix matrixSize fuel [start] with
  | Except.error e => Except.error e
  | Except.ok path =>
    let zeroMarkMatrix := clearPrimes (flipPath s.zeroMarkMatrix path) matrixSize
    let isColumnCurrentlyCovered :=
      coverStarredColumns zeroMarkMatrix matrixSize
        (uncoverAll s.isColumnCurrentlyCovered matrixSize)
    Except.ok
      { costMatrix := s.costMatrix
        zeroMarkMatrix := zeroMarkMatrix
        isRowCurrentlyCovered := uncoverAll s.isRowCurrentlyCovered matrixSize
        isColumnCurrentlyCovered := isColumnCurrentlyCovered
        numberOfCoveredColumns := countCoveredColumns isColumnCurrentlyCovered matrixSize }

/-! ## Main loop and entry point -/

/-- Lines 92–239: one pass through the body of the main loop. -/
def loopBody (matrixSize fuel : Nat) (s : State) : Except Error State :=
  match search matrixSize s with
  | (s1, none) => Except.ok (adjust matrixSize s1)
  | (s1, some start) => augment matrixSize fuel s1 start

/-- Lines 91–240: `while (numberOfCoveredColumns < matrixSize)`, with `fuel` passes allowed;
`pathFuel` is the budget of each path-building loop. -/
def mainLoop (matrixSize pathFuel : Nat) : Nat → State → Except Error State
  | 0, s => if s.numberOfCoveredColumns < matrixSize then Except.error Error.OutOfFuel else Except.ok s
  | fuel + 1, s =>
    if s.numberOfCoveredColumns < matrixSize then
      match loopBody matrixSize pathFuel s with
      | Except.error e => Except.error e
      | Except.ok s1 => mainLoop matrixSize pathFuel fuel s1
    else Except.ok s

/-- Lines 245–251: copy the starred cells into the result. -/
def extractAssignment (zeroMarkMatrix resultAssignmentMatrix : Matrix Int) (matrixSize : Nat) :
    Matrix Int :=
  (List.range matrixSize).foldl
    (fun m row => (List.range matrixSize).foldl
      (fun m col => if zeroMarkMatrix.get row col = 1 then m.set row col 1 else m) m)
    resultAssignmentMatrix

/-- The function `run_munkres_algorithm` (lines 6–254). `fuel` bounds the number of passes of
the main loop and of each path-building loop. -/
def run_munkres_algorithm (fuel : Nat) (costMatrix : Matrix Int) : Except Error (Matrix Int) :=
  if costMatrix.nrows ≠ costMatrix.ncols then Except.error Error.Invalid
  else
    let matrixSize := costMatrix.nrows
    match Matrix.filled matrixSize matrixSize (0 : Int) with
    | Except.error e => Except.error e
    | Except.ok zeroMarkMatrix =>
      match mainLoop matrixSize fuel fuel (initialState costMatrix zeroMarkMatrix matrixSize) with
      | Except.error e => Except.error e
      | Except.ok s =>
        match Matrix.filled matrixSize matrixSize (0 : Int) with
        | Except.error e => Except.error e
        | Except.ok resultAssignmentMatrix =>
          Except.ok (extractAssignment s.zeroMarkMatrix resultAssignmentMatrix matrixSize)

/-! ## Vocabulary of the statements -/

/-- A matrix object with `n` rows, `n` columns and `n * n` stored elements. -/
def Square (n : Nat) (m : Matrix Int) : Prop :=
  m.totalRows_ = n ∧ m.totalColumns_ = n ∧ m.rawData_.length = n * n

/-- A valid input of size `n`: a square matrix object whose element count is a value of
`std::size_t` and whose entries are non-negative values of the type `int`. -/
def ValidCost (n : Nat) (costMatrix : Matrix Int) : Prop :=
  Square n costMatrix ∧ n * n < SIZE_MODULUS ∧
    ∀ r c, r < n → c < n → 0 ≤ costMatrix.get r c ∧ costMatrix.get r c ≤ INT_MAX

/-- Cost of the assignment that sends row `r` to column `σ r`. -/
def permutationCost {n : Nat} (m : Matrix Int) (σ : Equiv.Perm (Fin n)) : Int :=
  ∑ r : Fin n, m.get r.val (σ r).val

/-- Sum of `costMatrix[r][c]` over the cells where `assignment[r][c]` is 1. -/
def selectedCost (n : Nat) (costMatrix assignment : Matrix Int) : Int :=
  ∑ r in Finset.range n, ∑ c in Finset.range n,
    if assignment.get r c = 1 then costMatrix.get r c else 0

/-- The amount that cost reduction removes from every assignment: the subtracted row minima
plus the subtracted column minima. -/
def reductionConstant (n : Nat) (costMatrix : Matrix Int) : Int :=
  (∑ r in Finset.range n, minimumRowValue costMatrix n r) +
    ∑ c in Finset.range n, minimumColumnValue (reduceRows costMatrix n) n c

/-- A 0/1 matrix of size `n` with exactly one 1 in every row and in every column. -/
def IsPermutationMatrix (n : Nat) (m : Matrix Int) : Prop :=
  Square n m ∧
    (∀ r c, r < n → c < n → m.get r c = 0 ∨ m.get r c = 1) ∧
    (∀ r, r < n → ∃ c, c < n ∧ m.get r c = 1 ∧ ∀ c', c' < n → m.get r c' = 1 → c' = c) ∧
    (∀ c, c < n → ∃ r, r < n ∧ m.get r c = 1 ∧ ∀ r', r' < n → m.get r' c = 1 → r' = r)

/-- Columns that hold a starred zero. -/
def starredColumns (n : Nat) (marks : Matrix Int) : Finset Nat :=
  (Finset.range n).filter (fun c => ∃ r, r < n ∧ marks.get r c = 1)

/-- Rows that are covered. -/
def coveredRows (n : Nat) (flags : List Bool) : Finset Nat :=
  (Finset.range n).filter (fun r => flags.getD r false = true)

/-- Some zero of the working matrix lies in an uncovered row and an uncovered column. -/
def HasUncoveredZero (n : Nat) (s : State) : Prop :=
  ∃ r c, r < n ∧ c < n ∧ s.isRowCurrentlyCovered.getD r false = false ∧
    s.isColumnCurrentlyCovered.getD c false = false ∧ s.costMatrix.get r c = 0

/-- The facts that hold of the loop variables at every evaluation of the main loop condition
and after every row of the search, for the input matrix `C`. -/
structure Inv (n : Nat) (C : Matrix Int) (s : State) : Prop where
  cost_square : Square n s.costMatrix
  marks_square : Square n s.zeroMarkMatrix
  rows_length : s.isRowCurrentlyCovered.length = n
  cols_length : s.isColumnCurrentlyCovered.length = n
  cost_nonneg : ∀ r c, r < n → c < n → 0 ≤ s.costMatrix.get r c
  marks_range : ∀ r c, r < n → c < n →
    s.zeroMarkMatrix.get r c = 0 ∨ s.zeroMarkMatrix.get r c = 1 ∨ s.zeroMarkMatrix.get r c = 2
  marked_zero : ∀ r c, r < n → c < n → s.zeroMarkMatrix.get r c ≠ 0 → s.costMatrix.get r c = 0
  star_row_unique : ∀ r c c', r < n → c < n → c' < n →
    s.zeroMarkMatrix.get r c = 1 → s.zeroMarkMatrix.get r c' = 1 → c = c'
  star_col_unique : ∀ r r' c, r < n → r' < n → c < n →
    s.zeroMarkMatrix.get r c = 1 → s.zeroMarkMatrix.get r' c = 1 → r = r'
  star_cover : ∀ r c, r < n → c < n → s.zeroMarkMatrix.get r c = 1 →
    (s.isRowCurrentlyCovered.getD r false = true ↔ s.isColumnCurrentlyCovered.getD c false = false)
  col_cover_star : ∀ c, c < n → s.isColumnCurrentlyCovered.getD c false = true →
    ∃ r, r < n ∧ s.zeroMarkMatrix.get r c = 1
  row_cover_star : ∀ r, r < n → s.isRowCurrentlyCovered.getD r false = true →
    ∃ c, c < n ∧ s.zeroMarkMatrix.get r c = 1
  row_cover_prime : ∀ r, r < n → s.isRowCurrentlyCovered.getD r false = true →
    ∃ c, c < n ∧ s.zeroMarkMatrix.get r c = 2
  prime_cover : ∀ r c, r < n → c < n → s.zeroMarkMatrix.get r c = 2 →
    s.isRowCurrentlyCovered.getD r false = true ∧ s.isColumnCurrentlyCovered.getD c false = false
  prime_row_unique : ∀ r c c', r < n → c < n → c' < n →
    s.zeroMarkMatrix.get r c = 2 → s.zeroMarkMatrix.get r c' = 2 → c = c'
  rank : ∃ rank : Nat → Nat, ∀ r c r', r < n → c < n → r' < n →
    s.zeroMarkMatrix.get r c = 2 → s.zeroMarkMatrix.get r' c = 1 → rank r' < rank r
  potentials : ∃ u v : Nat → Int, ∀ r c, r < n → c < n →
    s.costMatrix.get r c = C.get r c - u r - v c
  bound : ∀ r, r < n → (∀ c, c < n → s.zeroMarkMatrix.get r c ≠ 1) →
    ∀ c, c < n → s.costMatrix.get r c ≤ INT_MAX
  count : s.numberOfCoveredColumns = (starredColumns n s.zeroMarkMatrix).card

/-- The cell `(r0, c0)` is an uncovered zero in a row without starred zero: the situation in
which the search sets `uncoveredZeroFound`. -/
structure AugStart (n : Nat) (s : State) (r0 c0 : Nat) : Prop where
  row_lt : r0 < n
  col_lt : c0 < n
  zero : s.costMatrix.get r0 c0 = 0
  row_uncovered : s.isRowCurrentlyCovered.getD r0 false = false
  col_uncovered : s.isColumnCurrentlyCovered.getD c0 false = false
  no_star : ∀ j, j < n → s.zeroMarkMatrix.get r0 j ≠ 1

/-- What the path-building loop relies on in a mark grid `M` in which a zero of row `r0` has
just been primed. -/
structure PathReady (n : Nat) (M : Matrix Int) (r0 : Nat) : Prop where
  square : Square n M
  star_row_unique : ∀ r c c', r < n → c < n → c' < n → M.get r c = 1 → M.get r c' = 1 → c = c'
  star_col_unique : ∀ r r' c, r < n → r' < n → c < n → M.get r c = 1 → M.get r' c = 1 → r = r'
  prime_row_unique : ∀ r c c', r < n → c < n → c' < n → M.get r c = 2 → M.get r c' = 2 → c = c'
  no_star : ∀ c, c < n → M.get r0 c ≠ 1
  prime_of_star : ∀ r c r', r < n → c < n → r' < n → M.get r c = 2 → M.get r' c = 1 →
    ∃ c', c' < n ∧ M.get r' c' = 2
  rank : ∃ rank : Nat → Nat, ∀ r c r', r < n → c < n → r' < n →
    M.get r c = 2 → M.get r' c = 1 → rank r' < rank r

/-- Shape of an alternating path in the mark grid `M` that starts in row `r0` and whose last
cell is `last`. -/
structure GoodPath (n : Nat) (M : Matrix Int) (r0 : Nat) (path : List (Nat × Nat))
    (last : Nat × Nat) : Prop where
  last_mem : last ∈ path
  last_prime : M.get last.1 last.2 = 2
  nodup : path.Nodup
  cells : ∀ x ∈ path, x.1 < n ∧ x.2 < n ∧ (M.get x.1 x.2 = 1 ∨ M.get x.1 x.2 = 2)
  star_row_prime : ∀ x ∈ path, M.get x.1 x.2 = 1 → ∃ c', (x.1, c') ∈ path ∧ M.get x.1 c' = 2
  prime_col_star : ∀ x ∈ path, M.get x.1 x.2 = 2 → x ≠ last →
    ∃ r', (r', x.2) ∈ path ∧ M.get r' x.2 = 1
  star_col_prime : ∀ x ∈ path, M.get x.1 x.2 = 1 → ∃ r', (r', x.2) ∈ path ∧ M.get r' x.2 = 2
  prime_row_star : ∀ x ∈ path, M.get x.1 x.2 = 2 →
    x.1 = r0 ∨ ∃ c', (x.1, c') ∈ path ∧ M.get x.1 c' = 1
  prime_col_unique : ∀ x ∈ path, ∀ y ∈ path, M.get x.1 x.2 = 2 → M.get y.1 y.2 = 2 →
    x.2 = y.2 → x = y

/-- The bookkeeping of the path-building loop: `rows` lists the distinct rows visited so far,
none of which ranks below the row of the last cell. -/
structure PathRows (n : Nat) (rank : Nat → Nat) (path : List (Nat × Nat)) (last : Nat × Nat)
    (rows : List Nat) : Prop where
  last_eq : path.getLast? = some last
  rows_nodup : rows.Nodup
  rows_lt : ∀ r ∈ rows, r < n
  rows_mem : ∀ x ∈ path, x.1 ∈ rows
  rows_rank : ∀ r ∈ rows, rank last.1 ≤ rank r

/-- The facts that hold of the mark grid and the two flag vectors throughout the initial
starring scan over the matrix `cost`. -/
structure StarringInv (n : Nat) (cost : Matrix Int) (acc : Matrix Int × List Bool × List Bool) :
    Prop where
  square : Square n acc.1
  rows_length : acc.2.1.length = n
  cols_length : acc.2.2.length = n
  range : ∀ r c, r < n → c < n → acc.1.get r c = 0 ∨ acc.1.get r c = 1
  zero : ∀ r c, r < n → c < n → acc.1.get r c = 1 → cost.get r c = 0
  row_flag : ∀ r c, r < n → c < n → acc.1.get r c = 1 → acc.2.1.getD r false = true
  col_flag : ∀ r c, r < n → c < n → acc.1.get r c = 1 → acc.2.2.getD c false = true
  row_unique : ∀ r c c', r < n → c < n → c' < n → acc.1.get r c = 1 → acc.1.get r c' = 1 → c = c'
  col_unique : ∀ r r' c, r < n → r' < n → c < n → acc.1.get r c = 1 → acc.1.get r' c = 1 → r = r'

/-! ## The remaining members of the class `Matrix` -/

/-- The invariant of the class: the array holds `totalRows_ * totalColumns_` elements, the
product being one of `std::size_t` values. -/
def Matrix.WellFormed {α : Type} (m : Matrix α) : Prop :=
  m.rawData_.length = (m.totalRows_ * m.totalColumns_) % SIZE_MODULUS

/-- Copy constructor (lines 62–71): same dimensions, a new array of
`totalRows_ * totalColumns_` elements, filled by `std::copy` with that many elements of the
original. -/
def Matrix.copy {α : Type} (originalMatrix : Matrix α) : Matrix α :=
  { totalRows_ := originalMatrix.nrows
    totalColumns_ := originalMatrix.ncols
    rawData_ :=
      originalMatrix.rawData_.take ((originalMatrix.nrows * originalMatrix.ncols) % SIZE_MODULUS) }

/-- Lines 54–57: store the values of one row at consecutive linear indices; the pair is the
array and `linearIndex`. -/
def storeValues {α : Type} (acc : List α × Nat) (rowList : List α) : List α × Nat :=
  rowList.foldl (fun a value => (a.1.set a.2 value, a.2 + 1)) acc

/-- Lines 48–58: the loop over the rows; a row whose length differs from `totalColumns_` throws
`Invalid`. -/
def storeRows {α : Type} (totalColumns : Nat) :
    List (List α) → List α × Nat → Except Error (List α × Nat)
  | [], acc => Except.ok acc
  | rowList :: rest, acc =>
    if rowList.length ≠ totalColumns then Except.error Error.Invalid
    else storeRows totalColumns rest (storeValues acc rowList)

/-- Constructor from a 2D initializer list (lines 37–59). The array is value-initialised, so it
starts with the default value of the element type. -/
def Matrix.ofRows {α : Type} [Inhabited α] (initElements : List (List α)) :
    Except Error (Matrix α) :=
  if initElements.length = 0 ∨ (initElements.headD []).length = 0 then
    Except.error Error.Invalid
  else
    let totalRows := initElements.length
    let totalColumns := (initElements.headD []).length
    match storeRows totalColumns initElements
        (List.replicate ((totalRows * totalColumns) % SIZE_MODULUS) default, 0) with
    | Except.error e => Except.error e
    | Except.ok acc => Except.ok ⟨totalRows, totalColumns, acc.1⟩

/-- The assertion of `operator()` (lines 96 and 101): the linear index is below the element
count, both computed in `std::size_t`. -/
def Matrix.accessCheck {α : Type} (m : Matrix α) (rowIndex columnIndex : Nat) : Bool :=
  decide ((rowIndex * m.totalColumns_ + columnIndex) % SIZE_MODULUS <
    (m.totalRows_ * m.totalColumns_) % SIZE_MODULUS)

/-- The element access `operator()(rowIndex, columnIndex) const` (lines 100–103) with its
assertion: the element stored at the linear index, or `AssertionFailed`. -/
def Matrix.access {α : Type} (m : Matrix α) (rowIndex columnIndex : Nat) : Except Error α :=
  if m.accessCheck rowIndex columnIndex = true then
    match m.rawData_[(rowIndex * m.totalColumns_ + columnIndex) % SIZE_MODULUS]? with
    | some value => Except.ok value
    | none => Except.error Error.AssertionFailed
  else Except.error Error.AssertionFailed

/-! ## Reference definition of the cost reduction -/

/-- Reference: the minimum of row `r`. -/
def referenceRowMinimum (C : Matrix Int) (n r : Nat) : Int :=
  (((List.range n).map (fun c => C.get r c)).min?).getD 0

/-- Reference: the minimum of column `c`. -/
def referenceColumnMinimum (C : Matrix Int) (n c : Nat) : Int :=
  (((List.range n).map (fun r => C.get r c)).min?).getD 0

/-- Reference: every entry minus the minimum of its row. -/
def referenceRowReduced (C : Matrix Int) (n : Nat) : Matrix Int :=
  ⟨n, n, (List.range (n * n)).map
    (fun i => C.get (i / n) (i % n) - referenceRowMinimum C n (i / n))⟩

/-- Reference: the row-reduced matrix, every entry minus the minimum of its column in the
row-reduced matrix. -/
def referenceReduced (C : Matrix Int) (n : Nat) : Matrix Int :=
  ⟨n, n, (List.range (n * n)).map
    (fun i => (referenceRowReduced C n).get (i / n) (i % n) -
      referenceColumnMinimum (referenceRowReduced C n) n (i % n))⟩

/-! ## Mark grids met during a run -/

/-- Every row of the mark grid holds at most one starred cell. -/
def StarsUniqueInRows (n : Nat) (marks : Matrix Int) : Prop :=
  ∀ r c c', r < n → c < n → c' < n → marks.get r c = 1 → marks.get r c' = 1 → c = c'

/-- Every column of the mark grid holds at most one starred cell. -/
def StarsUniqueInColumns (n : Nat) (marks : Matrix Int) : Prop :=
  ∀ r r' c, r < n → r' < n → c < n → marks.get r c = 1 → marks.get r' c = 1 → r = r'

/-- Lines 54–65 stopped when the scan arrives at the cell `(currentRow, currentColumn)`: the
rows before `currentRow` are done, and so are the cells of `currentRow` before
`currentColumn`. -/
def initialStarringUpTo (costMatrix zeroMarkMatrix : Matrix Int)
    (matrixSize currentRow currentColumn : Nat) : Matrix Int × List Bool × List Bool :=
  (List.range currentColumn).foldl (starCell costMatrix currentRow)
    ((List.range currentRow).foldl
      (fun acc row => (List.range matrixSize).foldl (starCell costMatrix row) acc)
      (zeroMarkMatrix, List.replicate matrixSize false, List.replicate matrixSize false))

/-- Lines 97–128 stopped when the search arrives at row `currentRow`. -/
def searchUpTo (matrixSize : Nat) (s : State) (currentRow : Nat) : State × Option (Nat × Nat) :=
  (List.range currentRow).foldl
    (fun acc row =>
      match acc.2 with
      | some _ => acc
      | none => searchRow matrixSize acc.1 row)
    (s, none)

/-- Lines 211–218, mark grid only, stopped when the scan arrives at the cell `(row, col)`. -/
def clearPrimesUpTo (zeroMarkMatrix : Matrix Int) (matrixSize row col : Nat) : Matrix Int :=
  (List.range col).foldl (fun m j => if m.get row j = 2 then m.set row j 0 else m)
    ((List.range row).foldl
      (fun m i => (List.range matrixSize).foldl
        (fun m j => if m.get i j = 2 then m.set i j 0 else m) m)
      zeroMarkMatrix)

/-- The values of the loop variables at the evaluations of the main loop condition, in a run
that arrives at the loop with the values `s0`. -/
inductive LoopState (matrixSize pathFuel : Nat) (s0 : State) : State → Prop where
  | start : LoopState matrixSize pathFuel s0 s0
  | pass {s s1 : State} : LoopState matrixSize pathFuel s0 s →
      s.numberOfCoveredColumns < matrixSize →
      loopBody matrixSize pathFuel s = Except.ok s1 → LoopState matrixSize pathFuel s0 s1

/-- Positions along an alternating path in the mark grid `M`: the cells at even positions are
primed, those at odd positions are starred, and a starred cell lies in the column of the cell
before it and in the row of the cell after it. -/
structure Alternating (M : Matrix Int) (path : List (Nat × Nat)) : Prop where
  odd_length : path.length % 2 = 1
  prime_at : ∀ k x, k % 2 = 0 → path[k]? = some x → M.get x.1 x.2 = 2
  star_at : ∀ k x, k % 2 = 1 → path[k]? = some x → M.get x.1 x.2 = 1 ∧
    (∃ y, path[k - 1]? = some y ∧ y.2 = x.2) ∧ (∃ z, path[k + 1]? = some z ∧ z.1 = x.1)

/-! ## Counting the passes of the main loop -/

/-- The cells of the mark grid that are starred. -/
def starredCells (n : Nat) (marks : Matrix Int) : Finset (Nat × Nat) :=
  (Finset.range n ×ˢ Finset.range n).filter (fun p => marks.get p.1 p.2 = 1)

/-- Columns that are not covered. -/
def uncoveredColumns (n : Nat) (flags : List Bool) : Finset Nat :=
  (Finset.range n).filter (fun c => flags.getD c false = false)

/-- The values of the loop variables at the evaluations of the main loop condition, together
with two counters: the number of passes so far that took the augmentation branch, and the
number of passes since the last of these (or since the start) that took the adjustment
branch. -/
inductive LoopCount (matrixSize pathFuel : Nat) (s0 : State) : State → Nat → Nat → Prop where
  | start : LoopCount matrixSize pathFuel s0 s0 0 0
  | adjusted {s s1 : State} {augmentations adjustments : Nat} :
      LoopCount matrixSize pathFuel s0 s augmentations adjustments →
      s.numberOfCoveredColumns < matrixSize →
      search matrixSize s = (s1, none) →
      LoopCount matrixSize pathFuel s0 (adjust matrixSize s1) augmentations (adjustments + 1)
  | augmented {s s1 s2 : State} {first : Nat × Nat} {augmentations adjustments : Nat} :
      LoopCount matrixSize pathFuel s0 s augmentations adjustments →
      s.numberOfCoveredColumns < matrixSize →
      search matrixSize s = (s1, some first) →
      augment matrixSize pathFuel s1 first = Except.ok s2 →
      LoopCount matrixSize pathFuel s0 s2 (augmentations + 1) 0

/-! ## The covering loop, cell by cell -/

/-- Lines 74–80 and 226–232 stopped when the scan arrives at the cell `(row, col)`: the rows
before `row` are done, and so are the cells of `row` before `col`. -/
def coverStarredColumnsUpTo (zeroMarkMatrix : Matrix Int) (matrixSize : Nat)
    (isColumnCurrentlyCovered : List Bool) (row col : Nat) : List Bool :=
  (List.range col).foldl
    (fun v currentColumn =>
      if zeroMarkMatrix.get row currentColumn = 1 then v.set currentColumn true else v)
    ((List.range row).foldl
      (fun v currentRow => (List.range matrixSize).foldl
        (fun v currentColumn =>
          if zeroMarkMatrix.get currentRow currentColumn = 1 then v.set currentColumn true else v) v)
      isColumnCurrentlyCovered)

/-- How marks and covers fit together while the search runs: every starred cell is covered by
exactly one of its row and its column; a covered row holds a starred cell and a primed cell;
every primed cell lies in a covered row and an uncovered column; no row holds two primed
cells. -/
def CoverageConsistent (n : Nat) (s : State) : Prop :=
  (∀ r c, r < n → c < n → s.zeroMarkMatrix.get r c = 1 →
    ((s.isRowCurrentlyCovered.getD r false = true ∧
        s.isColumnCurrentlyCovered.getD c false = false) ∨
      (s.isRowCurrentlyCovered.getD r false = false ∧
        s.isColumnCurrentlyCovered.getD c false = true))) ∧
  (∀ r, r < n → s.isRowCurrentlyCovered.getD r false = true →
    (∃ c, c < n ∧ s.zeroMarkMatrix.get r c = 1) ∧ ∃ c, c < n ∧ s.zeroMarkMatrix.get r c = 2) ∧
  (∀ r c, r < n → c < n → s.zeroMarkMatrix.get r c = 2 →
    s.isRowCurrentlyCovered.getD r false = true ∧
      s.isColumnCurrentlyCovered.getD c false = false) ∧
  (∀ r c c', r < n → c < n → c' < n →
    s.zeroMarkMatrix.get r c = 2 → s.zeroMarkMatrix.get r c' = 2 → c = c')

/-! ## Runs in which every computed value is a value of `int`

The definitions above compute with mathematical integers. The three predicates below say that
a phase of the run never leaves the range of the type `int`; for such a run the values of the
definitions are the values the program computes. -/

/-- The constant `std::numeric_limits<int>::min()`. -/
def INT_MIN : Int := -2147483648

/-- The integer `x` is a value of the type `int`. -/
def FitsInt (x : Int) : Prop := INT_MIN ≤ x ∧ x ≤ INT_MAX

instance (x : Int) : Decidable (FitsInt x) :=
  inferInstanceAs (Decidable (INT_MIN ≤ x ∧ x ≤ INT_MAX))

/-- No subtraction of the reduction phase leaves the type `int`: the entries of the input are
values of `int`, and so are the differences of line 34 (entry minus the minimum of its row) and
of line 49 (row-reduced entry minus the minimum of its column). -/
def ReductionFits (n : Nat) (costMatrix : Matrix Int) : Prop :=
  ∀ r c, r < n → c < n →
    FitsInt (costMatrix.get r c) ∧
    FitsInt (costMatrix.get r c - minimumRowValue costMatrix n r) ∧
    FitsInt ((reduceRows costMatrix n).get r c -
      minimumColumnValue (reduceRows costMatrix n) n c)

/-- No operation of the adjustment branch started in state `s` leaves the type `int`: the
entries of the working matrix are values of `int`, and so are the sum of line 149 at every cell
of a covered row and the difference of line 152 at every cell of an uncovered column. -/
def AdjustFits (n : Nat) (s : State) : Prop :=
  ∀ r c, r < n → c < n →
    FitsInt (s.costMatrix.get r c) ∧
    (s.isRowCurrentlyCovered.getD r false = true →
      FitsInt (s.costMatrix.get r c + smallestUncoveredValue n s)) ∧
    (s.isColumnCurrentlyCovered.getD c false = false →
      FitsInt ((if s.isRowCurrentlyCovered.getD r false = true then
          s.costMatrix.get r c + smallestUncoveredValue n s
        else s.costMatrix.get r c) - smallestUncoveredValue n s))

/-- No adjustment of the run leaves the type `int`: whenever a pass that starts in a state met
at the loop condition takes the adjustment branch, the adjustment satisfies `AdjustFits`. -/
def RunFits (n pathFuel : Nat) (s0 : State) : Prop :=
  ∀ s, LoopState n pathFuel s0 s → s.numberOfCoveredColumns < n →
    ∀ s1, search n s = (s1, none) → AdjustFits n s1

/-! ## The solver on matrices that live in memory

The definitions above treat a matrix as a value. To talk about the matrix of the caller and
the parameter of a call as two objects, this section repeats the solver with explicit storage:
the memory is the list of the arrays that `std::make_unique<int[]>` has handed out, an address
is a position in that list, and a `Matrix<int>` object holds its two dimensions and the address
of its array. Reading `m(r, c)` reads the array at that address, and an assignment to `m(r, c)`
replaces an element of the array at that address. Each definition is the one of the same name
above with the element accesses made in memory; an array stays in the list after the object
that owns it is destroyed. -/

namespace InMemory

/-- An object of the class `Matrix<int>`: the two dimensions and the address held by
`rawData_`. -/
structure MatrixObject where
  totalRows_ : Nat
  totalColumns_ : Nat
  rawData_ : Nat
deriving DecidableEq, Repr

/-- Getter `nrows()`. -/
def MatrixObject.nrows (m : MatrixObject) : Nat := m.totalRows_

/-- Getter `ncols()`. -/
def MatrixObject.ncols (m : MatrixObject) : Nat := m.totalColumns_

/-- The array that `rawData_` points to. -/
def MatrixObject.data (m : MatrixObject) (memory : List (List Int)) : List Int :=
  memory.getD m.rawData_ []

/-- Read access `operator()(rowIndex, columnIndex)`. -/
def MatrixObject.get (m : MatrixObject) (memory : List (List Int)) (rowIndex columnIndex : Nat) :
    Int :=
  (m.data memory).getD (rowIndex * m.totalColumns_ + columnIndex) 0

/-- Write access through `operator()(rowIndex, columnIndex)`: the element of the array at the
address of `m` is replaced; no other array changes. -/
def MatrixObject.set (m : MatrixObject) (memory : List (List Int)) (rowIndex columnIndex : Nat)
    (value : Int) : List (List Int) :=
  memory.set m.rawData_ ((m.data memory).set (rowIndex * m.totalColumns_ + columnIndex) value)

/-- The matrix value that the object stands for. -/
def MatrixObject.value (m : MatrixObject) (memory : List (List Int)) : Matrix Int :=
  ⟨m.totalRows_, m.totalColumns_, m.data memory⟩

/-- The call `std::make_unique<int[]>(count)`: a new array of `count` zeros at the first unused
address; the pair is the memory after the call and the address. -/
def allocate (memory : List (List Int)) (count : Nat) : List (List Int) × Nat :=
  (memory ++ [List.replicate count 0], memory.length)

/-- Constructor `Matrix(numberOfRows, numberOfColumns, initialValue)` (lines 20–34): the array
is allocated first; then `Invalid` is thrown when a dimension is zero; otherwise every element
is set to `initialValue`. -/
def construct (memory : List (List Int)) (numberOfRows numberOfColumns : Nat)
    (initialValue : Int) : List (List Int) × Except Error MatrixObject :=
  let allocated := allocate memory ((numberOfRows * numberOfColumns) % SIZE_MODULUS)
  if numberOfRows = 0 ∨ numberOfColumns = 0 then (allocated.1, Except.error Error.Invalid)
  else
    (allocated.1.set allocated.2
        (List.replicate ((numberOfRows * numberOfColumns) % SIZE_MODULUS) initialValue),
      Except.ok ⟨numberOfRows, numberOfColumns, allocated.2⟩)

/-- Copy constructor (lines 62–71): the dimensions of the original, a new array of
`totalRows_ * totalColumns_` elements, and `std::copy` of that many elements of the array of
the original into the new array. -/
def copyConstruct (memory : List (List Int)) (originalMatrix : MatrixObject) :
    List (List Int) × MatrixObject :=
  let count := (originalMatrix.nrows * originalMatrix.ncols) % SIZE_MODULUS
  let allocated := allocate memory count
  (allocated.1.set allocated.2 ((originalMatrix.data memory).take count),
    ⟨originalMatrix.nrows, originalMatrix.ncols, allocated.2⟩)

/-! ### Cost reduction (lines 23–51) -/

/-- Lines 25–31. -/
def minimumRowValue (memory : List (List Int)) (costMatrix : MatrixObject)
    (matrixSize currentRow : Nat) : Int :=
  (List.range' 1 (matrixSize - 1)).foldl
    (fun minimumRowValue currentColumn =>
      if costMatrix.get memory currentRow currentColumn < minimumRowValue then
        costMatrix.get memory currentRow currentColumn
      else minimumRowValue)
    (costMatrix.get memory currentRow 0)

/-- Lines 33–35. -/
def subtractFromRow (memory : List (List Int)) (costMatrix : MatrixObject)
    (matrixSize currentRow : Nat) (value : Int) : List (List Int) :=
  (List.range matrixSize).foldl
    (fun memory currentColumn =>
      costMatrix.set memory currentRow currentColumn
        (costMatrix.get memory currentRow currentColumn - value))
    memory

/-- Lines 24–36: row reduction. -/
def reduceRows (memory : List (List Int)) (costMatrix : MatrixObject) (matrixSize : Nat) :
    List (List Int) :=
  (List.range matrixSize).foldl
    (fun memory currentRow =>
      subtractFromRow memory costMatrix matrixSize currentRow
        (minimumRowValue memory costMatrix matrixSize currentRow))
    memory

/-- Lines 40–46. -/
def minimumColumnValue (memory : List (List Int)) (costMatrix : MatrixObject)
    (matrixSize currentColumn : Nat) : Int :=
  (List.range' 1 (matrixSize - 1)).foldl
    (fun minimumColumnValue currentRow =>
      if costMatrix.get memory currentRow currentColumn < minimumColumnValue then
        costMatrix.get memory currentRow currentColumn
      else minimumColumnValue)
    (costMatrix.get memory 0 currentColumn)

/-- Lines 48–50. -/
def subtractFromColumn (memory : List (List Int)) (costMatrix : MatrixObject)
    (matrixSize currentColumn : Nat) (value : Int) : List (List Int) :=
  (List.range matrixSize).foldl
    (fun memory currentRow =>
      costMatrix.set memory currentRow currentColumn
        (costMatrix.get memory currentRow currentColumn - value))
    memory

/-- Lines 39–51: column reduction. -/
def reduceColumns (memory : List (List Int)) (costMatrix : MatrixObject) (matrixSize : Nat) :
    List (List Int) :=
  (List.range matrixSize).foldl
    (fun memory currentColumn =>
      subtractFromColumn memory costMatrix matrixSize currentColumn
        (minimumColumnValue memory costMatrix matrixSize currentColumn))
    memory

/-- Lines 23–51. -/
def reduce (memory : List (List Int)) (costMatrix : MatrixObject) (matrixSize : Nat) :
    List (List Int) :=
  reduceColumns (reduceRows memory costMatrix matrixSize) costMatrix matrixSize

/-! ### Mark grid and coverage -/

/-- The variables of `run_munkres_algorithm` that live across the main loop, with the memory in
which the two matrix objects keep their arrays. -/
structure Variables where
  memory : List (List Int)
  costMatrix : MatrixObject
  zeroMarkMatrix : MatrixObject
  isRowCurrentlyCovered : List Bool
  isColumnCurrentlyCovered : List Bool
  numberOfCoveredColumns : Nat
deriving DecidableEq, Repr

/-- The state of the value model that the variables stand for. -/
def Variables.state (s : Variables) : State :=
  { costMatrix := s.costMatrix.value s.memory
    zeroMarkMatrix := s.zeroMarkMatrix.value s.memory
    isRowCurrentlyCovered := s.isRowCurrentlyCovered
    isColumnCurrentlyCovered := s.isColumnCurrentlyCovered
    numberOfCoveredColumns := s.numberOfCoveredColumns }

/-- Lines 56–63: the body of the initial starring scan at one cell. -/
def starCell (costMatrix zeroMarkMatrix : MatrixObject) (currentRow : Nat)
    (acc : List (List Int) × List Bool × List Bool) (currentColumn : Nat) :
    List (List Int) × List Bool × List Bool :=
  if costMatrix.get acc.1 currentRow currentColumn = 0 ∧
      acc.2.1.getD currentRow false = false ∧
      acc.2.2.getD currentColumn false = false then
    (zeroMarkMatrix.set acc.1 currentRow currentColumn 1, acc.2.1.set currentRow true,
      acc.2.2.set currentColumn true)
  else acc

/-- Lines 54–65: initial starring in row-major order. -/
def initialStarring (memory : List (List Int)) (costMatrix zeroMarkMatrix : MatrixObject)
    (matrixSize : Nat) : List (List Int) × List Bool × List Bool :=
  (List.range matrixSize).foldl
    (fun acc currentRow =>
      (List.range matrixSize).foldl (starCell costMatrix zeroMarkMatrix currentRow) acc)
    (memory, List.replicate matrixSize false, List.replicate matrixSize false)

/-- Lines 74–80 and 226–232: cover every column that holds a starred zero. -/
def coverStarredColumns (memory : List (List Int)) (zeroMarkMatrix : MatrixObject)
    (matrixSize : Nat) (isColumnCurrentlyCovered : List Bool) : List Bool :=
  (List.range matrixSize).foldl
    (fun v currentRow => (List.range matrixSize).foldl
      (fun v currentColumn =>
        if zeroMarkMatrix.get memory currentRow currentColumn = 1 then v.set currentColumn true
        else v) v)
    isColumnCurrentlyCovered

/-- Lines 23–88: reduction, initial starring and the first covering, on the parameter object
and the freshly built mark grid. -/
def initialState (memory : List (List Int)) (costMatrix zeroMarkMatrix : MatrixObject)
    (matrixSize : Nat) : Variables :=
  let reduced := reduce memory costMatrix matrixSize
  let starred := initialStarring reduced costMatrix zeroMarkMatrix matrixSize
  let isRowCurrentlyCovered := uncoverAll starred.2.1 matrixSize
  let isColumnCurrentlyCovered :=
    coverStarredColumns starred.1 zeroMarkMatrix matrixSize (uncoverAll starred.2.2 matrixSize)
  { memory := starred.1
    costMatrix := costMatrix
    zeroMarkMatrix := zeroMarkMatrix
    isRowCurrentlyCovered := isRowCurrentlyCovered
    isColumnCurrentlyCovered := isColumnCurrentlyCovered
    numberOfCoveredColumns := countCoveredColumns isColumnCurrentlyCovered matrixSize }

/-! ### Search, adjustment and augmentation -/

/-- Lines 98–127: one row of the search. -/
def searchRow (matrixSize : Nat) (s : Variables) (currentRow : Nat) :
    Variables × Option (Nat × Nat) :=
  if s.isRowCurrentlyCovered.getD currentRow false = false then
    match (List.range matrixSize).find? (fun currentColumn =>
        decide (s.costMatrix.get s.memory currentRow currentColumn = 0 ∧
          s.isColumnCurrentlyCovered.getD currentColumn false = false)) with
    | none => (s, none)
    | some currentColumn =>
      let memory := s.zeroMarkMatrix.set s.memory currentRow currentColumn 2
      match (List.range matrixSize).find?
          (fun j => decide (s.zeroMarkMatrix.get memory currentRow j = 1)) with
      | some starredZeroColumnIndex =>
        ({ s with
            memory := memory
            isRowCurrentlyCovered := s.isRowCurrentlyCovered.set currentRow true
            isColumnCurrentlyCovered :=
              s.isColumnCurrentlyCovered.set starredZeroColumnIndex false }, none)
      | none => ({ s with memory := memory }, some (currentRow, currentColumn))
  else (s, none)

/-- Lines 97–128: the search over the rows. -/
def search (matrixSize : Nat) (s : Variables) : Variables × Option (Nat × Nat) :=
  (List.range matrixSize).foldl
    (fun acc currentRow =>
      match acc.2 with
      | some _ => acc
      | none => searchRow matrixSize acc.1 currentRow)
    (s, none)

/-- Lines 132–143. -/
def smallestUncoveredValue (matrixSize : Nat) (s : Variables) : Int :=
  (List.range matrixSize).foldl
    (fun smallest currentRow =>
      if s.isRowCurrentlyCovered.getD currentRow false = false then
        (List.range matrixSize).foldl
          (fun smallest currentColumn =>
            if s.isColumnCurrentlyCovered.getD currentColumn false = false ∧
                s.costMatrix.get s.memory currentRow currentColumn < smallest then
              s.costMatrix.get s.memory currentRow currentColumn
            else smallest)
          smallest
      else smallest)
    INT_MAX

/-- Lines 148–153: the two updates of one cell. -/
def adjustCell (s : Variables) (delta : Int) (currentRow : Nat) (memory : List (List Int))
    (currentColumn : Nat) : List (List Int) :=
  let memory1 :=
    if s.isRowCurrentlyCovered.getD currentRow false = true then
      s.costMatrix.set memory currentRow currentColumn
        (s.costMatrix.get memory currentRow currentColumn + delta)
    else memory
  if s.isColumnCurrentlyCovered.getD currentColumn false = false then
    s.costMatrix.set memory1 currentRow currentColumn
      (s.costMatrix.get memory1 currentRow currentColumn - delta)
  else memory1

/-- Lines 146–155. -/
def adjustMatrix (matrixSize : Nat) (s : Variables) (delta : Int) : List (List Int) :=
  (List.range matrixSize).foldl
    (fun memory currentRow =>
      (List.range matrixSize).foldl (adjustCell s delta currentRow) memory)
    s.memory

/-- Lines 130–156: the adjustment branch. -/
def adjust (matrixSize : Nat) (s : Variables) : Variables :=
  { s with memory := adjustMatrix matrixSize s (smallestUncoveredValue matrixSize s) }

/-- Lines 166–195: the path-building loop. -/
def buildPath (memory : List (List Int)) (zeroMarkMatrix : MatrixObject) (matrixSize : Nat) :
    Nat → List (Nat × Nat) → Except Error (List (Nat × Nat))
  | 0, _ => Except.error Error.OutOfFuel
  | fuel + 1, path =>
    match path.getLast? with
    | none => Except.error Error.AssertionFailed
    | some last =>
      match (List.range matrixSize).find?
          (fun row => decide (zeroMarkMatrix.get memory row last.2 = 1)) with
      | none => Except.ok path
      | some rowWithStarredZero =>
        match (List.range matrixSize).find?
            (fun col => decide (zeroMarkMatrix.get memory rowWithStarredZero col = 2)) with
        | none => Except.error Error.AssertionFailed
        | some columnWithPrimedZero =>
          buildPath memory zeroMarkMatrix matrixSize fuel
            (path ++ [(rowWithStarredZero, last.2), (rowWithStarredZero, columnWithPrimedZero)])

/-- Lines 199–207: flip one cell of the path. -/
def flipCell (zeroMarkMatrix : MatrixObject) (memory : List (List Int)) (cell : Nat × Nat) :
    List (List Int) :=
  if zeroMarkMatrix.get memory cell.1 cell.2 = 1 then zeroMarkMatrix.set memory cell.1 cell.2 0
  else if zeroMarkMatrix.get memory cell.1 cell.2 = 2 then
    zeroMarkMatrix.set memory cell.1 cell.2 1
  else memory

/-- Lines 198–208. -/
def flipPath (memory : List (List Int)) (zeroMarkMatrix : MatrixObject)
    (path : List (Nat × Nat)) : List (List Int) :=
  path.foldl (flipCell zeroMarkMatrix) memory

/-- Lines 213–217: erase the primes. -/
def clearPrimes (memory : List (List Int)) (zeroMarkMatrix : MatrixObject) (matrixSize : Nat) :
    List (List Int) :=
  (List.range matrixSize).foldl
    (fun memory row => (List.range matrixSize).foldl
      (fun memory col =>
        if zeroMarkMatrix.get memory row col = 2 then zeroMarkMatrix.set memory row col 0
        else memory) memory)
    memory

/-- Lines 158–239: the augmentation branch. -/
def augment (matrixSize fuel : Nat) (s : Variables) (start : Nat × Nat) :
    Except Error Variables :=
  match buildPath s.memory s.zeroMarkMatrix matrixSize fuel [start] with
  | Except.error e => Except.error e
  | Except.ok path =>
    let memory := clearPrimes (flipPath s.memory s.zeroMarkMatrix path) s.zeroMarkMatrix matrixSize
    let isColumnCurrentlyCovered :=
      coverStarredColumns memory s.zeroMarkMatrix matrixSize
        (uncoverAll s.isColumnCurrentlyCovered matrixSize)
    Except.ok
      { memory := memory
        costMatrix := s.costMatrix
        zeroMarkMatrix := s.zeroMarkMatrix
        isRowCurrentlyCovered := uncoverAll s.isRowCurrentlyCovered matrixSize
        isColumnCurrentlyCovered := isColumnCurrentlyCovered
        numberOfCoveredColumns := countCoveredColumns isColumnCurrentlyCovered matrixSize }

/-! ### Main loop and entry point -/

/-- Lines 92–239: one pass through the body of the main loop. -/
def loopBody (matrixSize fuel : Nat) (s : Variables) : Except Error Variables :=
  match search matrixSize s with
  | (s1, none) => Except.ok (adjust matrixSize s1)
  | (s1, some start) => augment matrixSize fuel s1 start

/-- Lines 91–240: the main loop. The first component is the memory when the loop is left, by
its condition or by an error. -/
def mainLoop (matrixSize pathFuel : Nat) : Nat → Variables → List (List Int) × Except Error Variables
  | 0, s =>
    if s.numberOfCoveredColumns < matrixSize then (s.memory, Except.error Error.OutOfFuel)
    else (s.memory, Except.ok s)
  | fuel + 1, s =>
    if s.numberOfCoveredColumns < matrixSize then
      match loopBody matrixSize pathFuel s with
      | Except.error e => ((search matrixSize s).1.memory, Except.error e)
      | Except.ok s1 => mainLoop matrixSize pathFuel fuel s1
    else (s.memory, Except.ok s)

/-- Lines 245–251: copy the starred cells into the result. -/
def extractAssignment (memory : List (List Int))
    (zeroMarkMatrix resultAssignmentMatrix : MatrixObject) (matrixSize : Nat) : List (List Int) :=
  (List.range matrixSize).foldl
    (fun memory row => (List.range matrixSize).foldl
      (fun memory col =>
        if zeroMarkMatrix.get memory row col = 1 then resultAssignmentMatrix.set memory row col 1
        else memory) memory)
    memory

/-- The body of `run_munkres_algorithm` (lines 6–254) on the parameter object `costMatrix`:
the memory when the function is left, and the result object or the error. -/
def run_munkres_algorithm (fuel : Nat) (memory : List (List Int)) (costMatrix : MatrixObject) :
    List (List Int) × Except Error MatrixObject :=
  if costMatrix.nrows ≠ costMatrix.ncols then (memory, Except.error Error.Invalid)
  else
    let matrixSize := costMatrix.nrows
    match construct memory matrixSize matrixSize 0 with
    | (memory1, Except.error e) => (memory1, Except.error e)
    | (memory1, Except.ok zeroMarkMatrix) =>
      match mainLoop matrixSize fuel fuel
          (initialState memory1 costMatrix zeroMarkMatrix matrixSize) with
      | (memory2, Except.error e) => (memory2, Except.error e)
      | (_, Except.ok s) =>
        match construct s.memory matrixSize matrixSize 0 with
        | (memory3, Except.error e) => (memory3, Except.error e)
        | (memory3, Except.ok resultAssignmentMatrix) =>
          (extractAssignment memory3 s.zeroMarkMatrix resultAssignmentMatrix matrixSize,
            Except.ok resultAssignmentMatrix)

/-- A call `run_munkres_algorithm(callerMatrix)`: the parameter is declared `Matrix<int>
costMatrix`, so it is copy-constructed from the argument, and the body runs on the
parameter. -/
def callSolve (fuel : Nat) (memory : List (List Int)) (callerMatrix : MatrixObject) :
    List (List Int) × Except Error MatrixObject :=
  let copied := copyConstruct memory callerMatrix
  run_munkres_algorithm fuel copied.1 copied.2

/-- A call of a function with the same body that takes its parameter by reference: the body
runs on the object of the caller. The solver does not do this; the definition serves to show
what the copy is for. -/
def callSolveByReference (fuel : Nat) (memory : List (List Int)) (callerMatrix : MatrixObject) :
    List (List Int) × Except Error MatrixObject :=
  run_munkres_algorithm fuel memory callerMatrix

/-- The arrays of `base` are still in the memory of `s`, at their addresses and unchanged, and
the two matrix objects of `s` keep their arrays at addresses that `base` does not have. -/
def Variables.Extends (base : List (List Int)) (s : Variables) : Prop :=
  base <+: s.memory ∧ base.length ≤ s.costMatrix.rawData_ ∧
    base.length ≤ s.zeroMarkMatrix.rawData_

/-- The two matrix objects of `s` own two different arrays of the memory. -/
def Variables.Separate (s : Variables) : Prop :=
  s.costMatrix.rawData_ < s.memory.length ∧ s.zeroMarkMatrix.rawData_ < s.memory.length ∧
    s.costMatrix.rawData_ ≠ s.zeroMarkMatrix.rawData_

/-- The memory `memory1` arises from `memory` by writes to the array of the object `m` alone,
and `m` stands for the matrix `result` in it. -/
def Writes (m : MatrixObject) (memory memory1 : List (List Int)) (result : Matrix Int) : Prop :=
  m.value memory1 = result ∧ memory1.length = memory.length ∧
    ∀ a, a ≠ m.rawData_ → memory1.getD a [] = memory.getD a []

/-- The variables `s`, with the matrix objects `costMatrix` and `zeroMarkMatrix` and a memory of
`size` arrays, stand for the state `S` of the value model. -/
def Variables.Represents (costMatrix zeroMarkMatrix : MatrixObject) (size : Nat)
    (s : Variables) (S : State) : Prop :=
  s.costMatrix = costMatrix ∧ s.zeroMarkMatrix = zeroMarkMatrix ∧ s.memory.length = size ∧
    s.state = S

/-- The outcome of a step in memory stands for the outcome of the same step of the value
model: the same error, or variables that stand for the state. -/
def RepresentsOutcome (costMatrix zeroMarkMatrix : MatrixObject) (size : Nat) :
    Except Error Variables → Except Error State → Prop
  | Except.error e, Except.error E => e = E
  | Except.ok s, Except.ok S => s.Represents costMatrix zeroMarkMatrix size S
  | _, _ => False

/-- The outcome of a call in memory stands for the outcome of the call of the value model: the
same error, or a result object that stands for the result matrix. -/
def RepresentsResult (memory : List (List Int)) :
    Except Error MatrixObject → Except Error (Matrix Int) → Prop
  | Except.error e, Except.error E => e = E
  | Except.ok m, Except.ok M => m.value memory = M
  | _, _ => False

end InMemory

end Munkres

/-! # k-mer hashing (`src/stl_iterators/code/nskip_kmer_counter.cpp`)

A `std::string` is a list of characters, a `uint64_t` a natural number below `2 ^ 64`; the
length `k` of a k-mer is a natural number. -/

namespace Kmer

/-- Number of values of `uint64_t`. -/
def UINT64_MODULUS : Nat := 2 ^ 64

/-- The function `base_to_int` (lines 105–112). -/
def base_to_int (b : Char) : Int :=
  if b = 'A' then 0
  else if b = 'C' then 1
  else if b = 'G' then 2
  else if b = 'T' then 3
  else -1

/-- The function `int_to_base` (lines 116–122): `lookup[v & 3]`; the last two bits of an `int`
are its remainder modulo 4. -/
def int_to_base (v : Int) : Char :=
  ['A', 'C', 'G', 'T'].getD (v % 4).toNat 'A'

/-- The conversion `static_cast<uint64_t>(val)` of an `int`. -/
def toUInt64 (val : Int) : Nat := (val % (UINT64_MODULUS : Int)).toNat

/-- The function `hash_kmer` (lines 127–143). -/
def hash_kmer (kmer : List Char) : Nat :=
  (List.range kmer.length).foldl
    (fun h i =>
      h ||| ((toUInt64 (base_to_int (kmer.getD i 'A')) <<< (2 * (kmer.length - i - 1)))
        % UINT64_MODULUS))
    0

/-- The function `unhash_kmer` (lines 148–160): the loop runs `i = k-1, …, 0`; the pair is the
string under construction and the remaining `id`. -/
def unhash_kmer (id k : Nat) : List Char :=
  ((List.range k).foldl
    (fun (acc : List Char × Nat) t =>
      (acc.1.set (k - 1 - t) (int_to_base ((acc.2 &&& 3 : Nat) : Int)), acc.2 >>> 2))
    (List.replicate k 'A', id)).1

/-- A string over the alphabet `{A, C, G, T}`. -/
def IsDna (s : List Char) : Prop := ∀ ch ∈ s, ch = 'A' ∨ ch = 'C' ∨ ch = 'G' ∨ ch = 'T'

/-- The number whose base-4 digits, most significant first, are the codes of the letters. -/
def base4Value (s : List Char) : Nat :=
  s.foldl (fun a ch => 4 * a + (base_to_int ch).toNat) 0

end Kmer

/-! # Range coverage (`src/advanced_algorithms/code/range_coverage_minimization.cpp`)

A `vector<int>` is a list of integers, a `vector<bool>` a list of booleans. `int` values are
mathematical integers; the statement about `finding_beamers` carries the hypothesis `SumsFit`,
under which no sum that the function forms leaves the type `int`. A `for` loop over a range of
indices is a fold over the list of these indices, a scan that leaves through `break` at the
first hit is `List.find?`, and the `while` loop takes a step budget. -/

namespace Beamers

/-- Lines 20–28 of `finding_beamers`: the downward scan `j = min(n - 1, i + (k - 1)), …,
max(0, i - (k - 1))` for an entry equal to 1; the value of `found` after it. -/
def findBeamer (cities : List Int) (i k : Int) : Int :=
  let n : Int := cities.length
  let high := min (n - 1) (i + (k - 1))
  let low := max 0 (i - (k - 1))
  match ((List.range (high - low + 1).toNat).map (fun (t : Nat) => high - (t : Int))).find?
      (fun j => decide (cities.getD j.toNat 0 = 1)) with
  | some j => j
  | none => -1

/-- Lines 35–38: mark the cities `max(0, found - (k - 1)), …, min(n - 1, found + (k - 1))`. -/
def markCovered (covered : List Bool) (n found k : Int) : List Bool :=
  let low := max 0 (found - (k - 1))
  let high := min (n - 1) (found + (k - 1))
  ((List.range (high - low + 1).toNat).map (fun (t : Nat) => low + (t : Int))).foldl
    (fun cov j => cov.set j.toNat true) covered

/-- Lines 14–44: the `while` loop with `fuel` passes allowed, started with the given values of
`i`, `covered` and `count`; `none` when the budget runs out. -/
def beamerLoop (cities : List Int) (k : Int) : Nat → Int → List Bool → Int → Option Int
  | 0, _, _, _ => none
  | fuel + 1, i, covered, count =>
    if i < (cities.length : Int) then
      if covered.getD i.toNat false = true then beamerLoop cities k fuel (i + 1) covered count
      else
        let found := findBeamer cities i k
        if found = -1 then some (-1)
        else
          beamerLoop cities k fuel (found + k)
            (markCovered covered (cities.length : Int) found k) (count + 1)
    else some count

/-- The function `finding_beamers` (lines 8–45). -/
def finding_beamers (fuel : Nat) (cities : List Int) (k : Int) : Option Int :=
  beamerLoop cities k fuel 0 (List.replicate cities.length false) 0

/-- The constant `std::numeric_limits<int>::max()`. -/
def INT_MAX : Int := 2147483647

/-- No sum that `finding_beamers` forms leaves the type `int`: the number of cities and `k` are
values of `int`, and for every position `j` of the vector the sum `j + k` is one. The sums of
lines 23, 35 and 41 are `i + (k - 1)`, `found + (k - 1)` and `found + k` with `i` and `found` a
position of the vector. -/
def SumsFit (cities : List Int) (k : Int) : Prop :=
  (cities.length : Int) ≤ INT_MAX ∧ k ≤ INT_MAX ∧
    ∀ j : Int, 0 ≤ j → j < (cities.length : Int) → j + k ≤ INT_MAX

/-- Position `j` holds a beamer: an entry equal to 1. -/
def IsBeamer (cities : List Int) (j : Int) : Prop :=
  0 ≤ j ∧ j < (cities.length : Int) ∧ cities.getD j.toNat 0 = 1

/-- The positions in `chosen` hold beamers, and every city from position `first` on lies
within `radius` positions of a chosen one. -/
def CoversFrom (cities : List Int) (radius first : Int) (chosen : Finset Int) : Prop :=
  (∀ j ∈ chosen, IsBeamer cities j) ∧
    ∀ c : Int, first ≤ c → c < (cities.length : Int) →
      ∃ j ∈ chosen, j - radius ≤ c ∧ c ≤ j + radius

/-- A choice of beamers that covers every city, a beamer covering the cities within `radius`
positions of its own. -/
def IsCover (cities : List Int) (radius : Int) (chosen : Finset Int) : Prop :=
  CoversFrom cities radius 0 chosen

end Beamers

/-! # Maximal cliques (`src/advanced_algorithms/code/bron_kerbosch_maximal_cliques.cpp`)

The adjacency matrix is a list of rows. A `set<int>` of node indices is the list of its
elements in ascending order, which is the order in which a range-`for` visits them; the
vector `allCliques` is a list of such lists. The recursion takes a depth budget. -/

namespace Cliques

/-- The call `s.insert(v)` on a `set<int>`. -/
def setInsert (v : Nat) (s : List Nat) : List Nat :=
  if v ∈ s then s else s.orderedInsert (fun a b => a ≤ b) v

/-- Lines 34–39 of `findCliques`: the set of the indices `neighborIdx < graph.size()` with
`graph[candidateNode][neighborIdx] == 1`. -/
def neighborNodes (graph : List (List Int)) (candidateNode : Nat) : List Nat :=
  (List.range graph.length).filter
    (fun neighborIdx => decide ((graph.getD candidateNode []).getD neighborIdx 0 = 1))

/-- Lines 31–63: the loop over the copy `candidateNodes` of `possibleNodes`, with the current
values of `possibleNodes`, `excludedNodes` and `allCliques`; `call` is the recursive call. -/
def candidateLoop
    (call : List Nat → List Nat → List Nat → List (List Nat) → Option (List (List Nat)))
    (graph : List (List Int)) (currentClique : List Nat) :
    List Nat → List Nat → List Nat → List (List Nat) → Option (List (List Nat))
  | [], _, _, allCliques => some allCliques
  | candidateNode :: rest, possibleNodes, excludedNodes, allCliques =>
    match call (setInsert candidateNode currentClique)
        (possibleNodes.filter (fun u => decide (u ∈ neighborNodes graph candidateNode)))
        (excludedNodes.filter (fun u => decide (u ∈ neighborNodes graph candidateNode)))
        allCliques with
    | none => none
    | some allCliques' =>
      candidateLoop call graph currentClique rest (possibleNodes.erase candidateNode)
        (setInsert candidateNode excludedNodes) allCliques'

/-- The function `findCliques` (lines 14–64) with recursion depth at most `fuel`; the value is
`allCliques` after the call, `none` when the budget runs out. -/
def findCliques (graph : List (List Int)) :
    Nat → List Nat → List Nat → List Nat → List (List Nat) → Option (List (List Nat))
  | 0, _, _, _, _ => none
  | fuel + 1, currentClique, possibleNodes, excludedNodes, allCliques =>
    if possibleNodes = [] ∧ excludedNodes = [] then some (allCliques ++ [currentClique])
    else
      candidateLoop (findCliques graph fuel) graph currentClique possibleNodes possibleNodes
        excludedNodes allCliques

/-- Nodes `u` and `v` are joined: `graph[u][v] == 1`. -/
def Adjacent (graph : List (List Int)) (u v : Nat) : Prop :=
  (graph.getD u []).getD v 0 = 1

/-- A symmetric 0/1 adjacency matrix with zero diagonal. -/
def IsAdjacencyMatrix (graph : List (List Int)) : Prop :=
  (∀ row ∈ graph, row.length = graph.length ∧ ∀ x ∈ row, x = 0 ∨ x = 1) ∧
    (∀ u v, u < graph.length → v < graph.length → Adjacent graph u v → Adjacent graph v u) ∧
    ∀ u, u < graph.length → ¬ Adjacent graph u u

/-- A set of nodes that are pairwise joined. -/
def IsClique (graph : List (List Int)) (S : Finset Nat) : Prop :=
  (∀ u ∈ S, u < graph.length) ∧ ∀ u ∈ S, ∀ v ∈ S, u ≠ v → Adjacent graph u v

/-- A clique that no node extends. -/
def IsMaximalClique (graph : List (List Int)) (S : Finset Nat) : Prop :=
  IsClique graph S ∧ ∀ w, w < graph.length → w ∉ S → ¬ ∀ u ∈ S, Adjacent graph u w

/-- Node `w` extends the clique `R`: it lies outside `R` and is joined to every node of `R`. -/
def Extends (graph : List (List Int)) (R : List Nat) (w : Nat) : Prop :=
  w < graph.length ∧ w ∉ R ∧ ∀ u ∈ R, Adjacent graph u w

/-- What a call of `findCliques` relies on: the current clique is a clique, the possible and
the excluded nodes together are the nodes that extend it, and no node is both. -/
structure CallReady (graph : List (List Int)) (R P X : List Nat) : Prop where
  clique : IsClique graph R.toFinset
  candidates : ∀ w, (w ∈ P ∨ w ∈ X) ↔ Extends graph R w
  disjoint : ∀ w ∈ P, w ∉ X
  nodup : P.Nodup

/-- What a call of `findCliques` appends: the maximal cliques that contain the current clique
`R` and avoid the excluded nodes `X`, each one once. -/
structure Listed (graph : List (List Int)) (R X : List Nat) (out : List (List Nat)) : Prop where
  sound : ∀ K ∈ out, IsMaximalClique graph K.toFinset ∧ (∀ u ∈ R, u ∈ K) ∧ ∀ x ∈ X, x ∉ K
  complete : ∀ M : Finset Nat, IsMaximalClique graph M → (∀ u ∈ R, u ∈ M) → (∀ x ∈ X, x ∉ M) →
    ∃ K ∈ out, K.toFinset = M
  once : (out.map List.toFinset).Nodup

end Cliques

namespace Munkres

/-! ## Elementary facts about lists, flags and element access -/

theorem getD_set_self {α : Type} (l : List α) (i : Nat) (v d : α) (h : i < l.length) :
    (l.set i v).getD i d = v := by
  simp [List.getD_eq_getElem?_getD, List.getElem?_set, h]

theorem getD_set_other {α : Type} (l : List α) (i j : Nat) (v d : α) (h : i ≠ j) :
    (l.set i v).getD j d = l.getD j d := by
  simp [List.getD_eq_getElem?_getD, List.getElem?_set, h]

theorem getD_replicate_lt {α : Type} (n i : Nat) (v d : α) (h : i < n) :
    (List.replicate n v).getD i d = v := by
  simp [List.getD_eq_getElem?_getD, List.getElem?_replicate, h]

/-- Loop rule for a `for` loop over `0 .. n-1`. -/
theorem foldl_range_rule {β : Type} (P : Nat → β → Prop) (body : β → Nat → β) (init : β) (n : Nat)
    (h0 : P 0 init) (hstep : ∀ k, k < n → ∀ acc, P k acc → P (k + 1) (body acc k)) :
    P n ((List.range n).foldl body init) := by
  induction n with
  | zero => simpa using h0
  | succ m ih =>
    rw [List.range_succ, List.foldl_append]
    simp only [List.foldl_cons, List.foldl_nil]
    exact hstep m (Nat.lt_succ_self m) _
      (ih (fun k hk acc hacc => hstep k (Nat.lt_succ_of_lt hk) acc hacc))

theorem linear_index_lt {n r c : Nat} (hr : r < n) (hc : c < n) : r * n + c < n * n := by
  have h1 : r * n + n ≤ n * n := by
    have : (r + 1) * n ≤ n * n := Nat.mul_le_mul_right n hr
    simpa [Nat.succ_mul] using this
  omega

theorem linear_index_inj {n r c r' c' : Nat} (hc : c < n) (hc' : c' < n)
    (h : r * n + c = r' * n + c') : r = r' ∧ c = c' := by
  have hn : 0 < n := by omega
  have e1 : (r * n + c) / n = r := by
    rw [Nat.add_comm, Nat.add_mul_div_right _ _ hn, Nat.div_eq_of_lt hc, Nat.zero_add]
  have e2 : (r' * n + c') / n = r' := by
    rw [Nat.add_comm, Nat.add_mul_div_right _ _ hn, Nat.div_eq_of_lt hc', Nat.zero_add]
  have hr : r = r' := by rw [← e1, ← e2, h]
  subst hr
  exact ⟨rfl, by omega⟩

theorem Square.set {n : Nat} {m : Matrix Int} (h : Square n m) (r c : Nat) (v : Int) :
    Square n (m.set r c v) := by
  obtain ⟨h1, h2, h3⟩ := h
  exact ⟨h1, h2, by simp [Matrix.set, h3]⟩

theorem get_set_self {n : Nat} {m : Matrix Int} (h : Square n m) {r c : Nat}
    (hr : r < n) (hc : c < n) (v : Int) : (m.set r c v).get r c = v := by
  obtain ⟨_, h2, h3⟩ := h
  simp only [Matrix.get, Matrix.set]
  apply getD_set_self
  rw [h3, h2]
  exact linear_index_lt hr hc

theorem get_set_other {n : Nat} {m : Matrix Int} (h : Square n m) {r c r' c' : Nat}
    (hc : c < n) (hc' : c' < n) (hne : ¬ (r = r' ∧ c = c')) (v : Int) :
    (m.set r c v).get r' c' = m.get r' c' := by
  obtain ⟨_, h2, _⟩ := h
  simp only [Matrix.get, Matrix.set]
  apply getD_set_other
  rw [h2]
  intro e
  exact hne (linear_index_inj hc hc' e)

theorem get_set {n : Nat} {m : Matrix Int} (h : Square n m) {r c r' c' : Nat}
    (hr : r < n) (hc : c < n) (hc' : c' < n) (v : Int) :
    (m.set r c v).get r' c' = if r = r' ∧ c = c' then v else m.get r' c' := by
  by_cases e : r = r' ∧ c = c'
  · obtain ⟨e1, e2⟩ := e
    subst e1; subst e2
    simp [get_set_self h hr hc]
  · simp [e, get_set_other h hc hc' e]

theorem filled_square {n : Nat} (hn : 0 < n) (hsz : n * n < SIZE_MODULUS) (v : Int) :
    ∃ m, Matrix.filled n n v = Except.ok m ∧ Square n m ∧ ∀ r c, r < n → c < n → m.get r c = v := by
  refine ⟨⟨n, n, List.replicate (n * n) v⟩, ?_, ⟨rfl, rfl, by simp⟩, ?_⟩
  · have : n ≠ 0 := by omega
    simp [Matrix.filled, this, Nat.mod_eq_of_lt hsz]
  · intro r c hr hc
    simp only [Matrix.get]
    exact getD_replicate_lt _ _ _ _ (linear_index_lt hr hc)

/-! ## Cost reduction -/

/-- A running minimum over a list of indices stays below the start value and below every
visited value, and it is the start value or one of the visited values. -/
theorem foldl_min_spec (f : Nat → Int) (l : List Nat) (init : Int) :
    l.foldl (fun mn c => if f c < mn then f c else mn) init ≤ init ∧
      (∀ c ∈ l, l.foldl (fun mn c => if f c < mn then f c else mn) init ≤ f c) ∧
      (l.foldl (fun mn c => if f c < mn then f c else mn) init = init ∨
        ∃ c ∈ l, l.foldl (fun mn c => if f c < mn then f c else mn) init = f c) := by
  induction l generalizing init with
  | nil => simp
  | cons a t ih =>
    simp only [List.foldl_cons]
    by_cases hlt : f a < init
    · obtain ⟨h1, h2, h3⟩ := ih (f a)
      simp only [hlt, if_true]
      refine ⟨by omega, ?_, ?_⟩
      · intro c hc
        rcases List.mem_cons.mp hc with rfl | hc
        · exact h1
        · exact h2 c hc
      · rcases h3 with h3 | ⟨c, hc, h3⟩
        · exact Or.inr ⟨a, List.mem_cons_self _ _, h3⟩
        · exact Or.inr ⟨c, List.mem_cons_of_mem _ hc, h3⟩
    · obtain ⟨h1, h2, h3⟩ := ih init
      simp only [hlt, if_false]
      refine ⟨h1, ?_, ?_⟩
      · intro c hc
        rcases List.mem_cons.mp hc with rfl | hc
        · omega
        · exact h2 c hc
      · rcases h3 with h3 | ⟨c, hc, h3⟩
        · exact Or.inl h3
        · exact Or.inr ⟨c, List.mem_cons_of_mem _ hc, h3⟩

theorem minimumRowValue_le (m : Matrix Int) {n r c : Nat} (hc : c < n) :
    minimumRowValue m n r ≤ m.get r c := by
  obtain ⟨h1, h2, _⟩ := foldl_min_spec (fun c => m.get r c) (List.range' 1 (n - 1)) (m.get r 0)
  by_cases h0 : c = 0
  · subst h0; exact h1
  · exact h2 c (by rw [List.mem_range'_1]; omega)

theorem minimumRowValue_attained (m : Matrix Int) {n : Nat} (hn : 0 < n) (r : Nat) :
    ∃ c, c < n ∧ minimumRowValue m n r = m.get r c := by
  obtain ⟨_, _, h3⟩ := foldl_min_spec (fun c => m.get r c) (List.range' 1 (n - 1)) (m.get r 0)
  rcases h3 with h3 | ⟨c, hc, h3⟩
  · exact ⟨0, hn, h3⟩
  · rw [List.mem_range'_1] at hc
    exact ⟨c, by omega, h3⟩

theorem minimumColumnValue_le (m : Matrix Int) {n r c : Nat} (hr : r < n) :
    minimumColumnValue m n c ≤ m.get r c := by
  obtain ⟨h1, h2, _⟩ := foldl_min_spec (fun r => m.get r c) (List.range' 1 (n - 1)) (m.get 0 c)
  by_cases h0 : r = 0
  · subst h0; exact h1
  · exact h2 r (by rw [List.mem_range'_1]; omega)

theorem minimumColumnValue_attained (m : Matrix Int) {n : Nat} (hn : 0 < n) (c : Nat) :
    ∃ r, r < n ∧ minimumColumnValue m n c = m.get r c := by
  obtain ⟨_, _, h3⟩ := foldl_min_spec (fun r => m.get r c) (List.range' 1 (n - 1)) (m.get 0 c)
  rcases h3 with h3 | ⟨r, hr, h3⟩
  · exact ⟨0, hn, h3⟩
  · rw [List.mem_range'_1] at hr
    exact ⟨r, by omega, h3⟩

theorem minimumRowValue_congr {m m' : Matrix Int} {n r : Nat} (hn : 0 < n)
    (h : ∀ c, c < n → m.get r c = m'.get r c) :
    minimumRowValue m n r = minimumRowValue m' n r := by
  unfold minimumRowValue
  rw [h 0 hn]
  apply List.foldl_ext
  intro a b hb
  rw [List.mem_range'_1] at hb
  rw [h b (by omega)]

theorem minimumColumnValue_congr {m m' : Matrix Int} {n c : Nat} (hn : 0 < n)
    (h : ∀ r, r < n → m.get r c = m'.get r c) :
    minimumColumnValue m n c = minimumColumnValue m' n c := by
  unfold minimumColumnValue
  rw [h 0 hn]
  apply List.foldl_ext
  intro a b hb
  rw [List.mem_range'_1] at hb
  rw [h b (by omega)]

theorem subtractFromRow_spec {n : Nat} {m : Matrix Int} (hm : Square n m) {r : Nat} (hr : r < n)
    (v : Int) :
    Square n (subtractFromRow m n r v) ∧
      ∀ r' c', r' < n → c' < n →
        (subtractFromRow m n r v).get r' c' = if r' = r then m.get r' c' - v else m.get r' c' := by
  have key := foldl_range_rule
    (fun k acc => Square n acc ∧ ∀ r' c', r' < n → c' < n →
      acc.get r' c' = if r' = r ∧ c' < k then m.get r' c' - v else m.get r' c')
    (fun m currentColumn => m.set r currentColumn (m.get r currentColumn - v)) m n
    ⟨hm, by intro r' c' _ _; simp⟩
    (by
      rintro k hk acc ⟨hsq, hacc⟩
      refine ⟨hsq.set _ _ _, ?_⟩
      intro r' c' hr' hc'
      rw [get_set hsq hr hk hc', hacc r' c' hr' hc', hacc r k hr hk]
      by_cases e1 : r' = r
      · subst e1
        by_cases e2 : k = c'
        · subst e2; simp
        · by_cases e3 : c' < k
          · have e4 : c' < k + 1 := by omega
            simp [e2, e3, e4]
          · have e4 : ¬ c' < k + 1 := by omega
            simp [e2, e3, e4]
      · have e2 : ¬ (r = r' ∧ k = c') := fun h => e1 h.1.symm
        simp [e1, e2])
  obtain ⟨key1, key2⟩ := key
  refine ⟨key1, ?_⟩
  intro r' c' hr' hc'
  have e := key2 r' c' hr' hc'
  simp only [hc', hr', and_true] at e
  exact e

theorem subtractFromColumn_spec {n : Nat} {m : Matrix Int} (hm : Square n m) {c : Nat}
    (hc : c < n) (v : Int) :
    Square n (subtractFromColumn m n c v) ∧
      ∀ r' c', r' < n → c' < n →
        (subtractFromColumn m n c v).get r' c' =
          if c' = c then m.get r' c' - v else m.get r' c' := by
  have key := foldl_range_rule
    (fun k acc => Square n acc ∧ ∀ r' c', r' < n → c' < n →
      acc.get r' c' = if c' = c ∧ r' < k then m.get r' c' - v else m.get r' c')
    (fun m currentRow => m.set currentRow c (m.get currentRow c - v)) m n
    ⟨hm, by intro r' c' _ _; simp⟩
    (by
      rintro k hk acc ⟨hsq, hacc⟩
      refine ⟨hsq.set _ _ _, ?_⟩
      intro r' c' hr' hc'
      rw [get_set hsq hk hc hc', hacc r' c' hr' hc', hacc k c hk hc]
      by_cases e1 : c' = c
      · subst e1
        by_cases e2 : k = r'
        · subst e2; simp
        · by_cases e3 : r' < k
          · have e4 : r' < k + 1 := by omega
            simp [e2, e3, e4]
          · have e4 : ¬ r' < k + 1 := by omega
            simp [e2, e3, e4]
      · have e2 : ¬ (k = r' ∧ c = c') := fun h => e1 h.2.symm
        simp [e1, e2])
  obtain ⟨key1, key2⟩ := key
  refine ⟨key1, ?_⟩
  intro r' c' hr' hc'
  have e := key2 r' c' hr' hc'
  simp only [hc', hr', and_true] at e
  exact e

theorem reduceRows_spec {n : Nat} {m : Matrix Int} (hm : Square n m) :
    Square n (reduceRows m n) ∧
      ∀ r c, r < n → c < n → (reduceRows m n).get r c = m.get r c - minimumRowValue m n r := by
  have key := foldl_range_rule
    (fun k acc => Square n acc ∧ ∀ r c, r < n → c < n →
      acc.get r c = if r < k then m.get r c - minimumRowValue m n r else m.get r c)
    (fun m currentRow =>
      subtractFromRow m n currentRow (minimumRowValue m n currentRow)) m n
    ⟨hm, by intro r c _ _; simp⟩
    (by
      rintro k hk acc ⟨hsq, hacc⟩
      obtain ⟨h1, h2⟩ := subtractFromRow_spec hsq hk (minimumRowValue acc n k)
      refine ⟨h1, ?_⟩
      intro r c hr hc
      have hmin : minimumRowValue acc n k = minimumRowValue m n k :=
        minimumRowValue_congr (by omega) (fun c hc => by rw [hacc k c hk hc]; simp)
      rw [h2 r c hr hc, hacc r c hr hc, hmin]
      by_cases e1 : r = k
      · subst e1; simp
      · by_cases e3 : r < k
        · have e4 : r < k + 1 := by omega
          simp [e1, e3, e4]
        · have e4 : ¬ r < k + 1 := by omega
          simp [e1, e3, e4])
  obtain ⟨key1, key2⟩ := key
  refine ⟨key1, ?_⟩
  intro r c hr hc
  have e := key2 r c hr hc
  simp only [hc, hr, if_true] at e
  exact e

theorem reduceColumns_spec {n : Nat} {m : Matrix Int} (hm : Square n m) :
    Square n (reduceColumns m n) ∧
      ∀ r c, r < n → c < n →
        (reduceColumns m n).get r c = m.get r c - minimumColumnValue m n c := by
  have key := foldl_range_rule
    (fun k acc => Square n acc ∧ ∀ r c, r < n → c < n →
      acc.get r c = if c < k then m.get r c - minimumColumnValue m n c else m.get r c)
    (fun m currentColumn =>
      subtractFromColumn m n currentColumn (minimumColumnValue m n currentColumn)) m n
    ⟨hm, by intro r c _ _; simp⟩
    (by
      rintro k hk acc ⟨hsq, hacc⟩
      obtain ⟨h1, h2⟩ := subtractFromColumn_spec hsq hk (minimumColumnValue acc n k)
      refine ⟨h1, ?_⟩
      intro r c hr hc
      have hmin : minimumColumnValue acc n k = minimumColumnValue m n k :=
        minimumColumnValue_congr (by omega) (fun r hr => by rw [hacc r k hr hk]; simp)
      rw [h2 r c hr hc, hacc r c hr hc, hmin]
      by_cases e1 : c = k
      · subst e1; simp
      · by_cases e3 : c < k
        · have e4 : c < k + 1 := by omega
          simp [e1, e3, e4]
        · have e4 : ¬ c < k + 1 := by omega
          simp [e1, e3, e4])
  obtain ⟨key1, key2⟩ := key
  refine ⟨key1, ?_⟩
  intro r c hr hc
  have e := key2 r c hr hc
  simp only [hc, hr, if_true] at e
  exact e

/-- Pointwise description of the reduced matrix. -/
theorem reduce_get {n : Nat} {m : Matrix Int} (hm : Square n m) {r c : Nat} (hr : r < n)
    (hc : c < n) :
    (reduce m n).get r c =
      m.get r c - minimumRowValue m n r - minimumColumnValue (reduceRows m n) n c := by
  unfold reduce
  rw [(reduceColumns_spec (reduceRows_spec hm).1).2 r c hr hc, (reduceRows_spec hm).2 r c hr hc]

theorem reduce_square {n : Nat} {m : Matrix Int} (hm : Square n m) : Square n (reduce m n) :=
  (reduceColumns_spec (reduceRows_spec hm).1).1

theorem reduceRows_nonneg {n : Nat} {m : Matrix Int} (hm : Square n m) {r c : Nat} (hr : r < n)
    (hc : c < n) : 0 ≤ (reduceRows m n).get r c := by
  rw [(reduceRows_spec hm).2 r c hr hc]
  have := minimumRowValue_le m (r := r) hc
  omega

theorem reduce_nonneg {n : Nat} {m : Matrix Int} (hm : Square n m) {r c : Nat} (hr : r < n)
    (hc : c < n) : 0 ≤ (reduce m n).get r c := by
  unfold reduce
  rw [(reduceColumns_spec (reduceRows_spec hm).1).2 r c hr hc]
  have := minimumColumnValue_le (reduceRows m n) (c := c) hr
  omega

theorem minimumColumnValue_reduceRows_nonneg {n : Nat} {m : Matrix Int} (hm : Square n m)
    (hn : 0 < n) {c : Nat} (hc : c < n) : 0 ≤ minimumColumnValue (reduceRows m n) n c := by
  obtain ⟨r, hr, e⟩ := minimumColumnValue_attained (reduceRows m n) hn c
  rw [e]
  exact reduceRows_nonneg hm hr hc

theorem reduce_row_has_zero {n : Nat} {m : Matrix Int} (hm : Square n m) (hn : 0 < n) {r : Nat}
    (hr : r < n) : ∃ c, c < n ∧ (reduce m n).get r c = 0 := by
  obtain ⟨c, hc, e⟩ := minimumRowValue_attained m hn r
  refine ⟨c, hc, ?_⟩
  have h1 : (reduceRows m n).get r c = 0 := by
    rw [(reduceRows_spec hm).2 r c hr hc, e]; omega
  have h2 := minimumColumnValue_le (reduceRows m n) (c := c) hr
  have h3 := minimumColumnValue_reduceRows_nonneg hm hn hc
  unfold reduce
  rw [(reduceColumns_spec (reduceRows_spec hm).1).2 r c hr hc]
  omega

theorem reduce_column_has_zero {n : Nat} {m : Matrix Int} (hm : Square n m) (hn : 0 < n)
    {c : Nat} (hc : c < n) : ∃ r, r < n ∧ (reduce m n).get r c = 0 := by
  obtain ⟨r, hr, e⟩ := minimumColumnValue_attained (reduceRows m n) hn c
  refine ⟨r, hr, ?_⟩
  unfold reduce
  rw [(reduceColumns_spec (reduceRows_spec hm).1).2 r c hr hc, e]
  omega

/-! ## Loops that visit every cell once -/

/-- Rule for the doubly nested loops whose body rewrites only the visited cell, as a function
`F` of the row, the column and the old value of that cell. -/
theorem nested_cells_spec {n : Nat} (F : Nat → Nat → Int → Int)
    (body : Nat → Matrix Int → Nat → Matrix Int)
    (hbody : ∀ m r c, Square n m → r < n → c < n →
      Square n (body r m c) ∧ ∀ r' c', r' < n → c' < n →
        (body r m c).get r' c' = if r' = r ∧ c' = c then F r c (m.get r c) else m.get r' c')
    (m : Matrix Int) (hm : Square n m) :
    Square n ((List.range n).foldl (fun m r => (List.range n).foldl (body r) m) m) ∧
      ∀ r c, r < n → c < n →
        ((List.range n).foldl (fun m r => (List.range n).foldl (body r) m) m).get r c =
          F r c (m.get r c) := by
  have inner : ∀ r, r < n → ∀ m0, Square n m0 →
      Square n ((List.range n).foldl (body r) m0) ∧ ∀ r' c', r' < n → c' < n →
        ((List.range n).foldl (body r) m0).get r' c' =
          if r' = r then F r c' (m0.get r c') else m0.get r' c' := by
    intro r hr m0 hm0
    have key := foldl_range_rule
      (fun j acc => Square n acc ∧ ∀ r' c', r' < n → c' < n →
        acc.get r' c' = if r' = r ∧ c' < j then F r c' (m0.get r c') else m0.get r' c')
      (body r) m0 n ⟨hm0, by intro r' c' _ _; simp⟩
      (by
        rintro j hj acc ⟨hsq, hacc⟩
        obtain ⟨h1, h2⟩ := hbody acc r j hsq hr hj
        refine ⟨h1, ?_⟩
        intro r' c' hr' hc'
        rw [h2 r' c' hr' hc', hacc r' c' hr' hc', hacc r j hr hj]
        by_cases e1 : r' = r
        · subst e1
          by_cases e2 : c' = j
          · subst e2; simp
          · by_cases e3 : c' < j
            · have e4 : c' < j + 1 := by omega
              simp [e2, e3, e4]
            · have e4 : ¬ c' < j + 1 := by omega
              simp [e2, e3, e4]
        · simp [e1])
    obtain ⟨key1, key2⟩ := key
    refine ⟨key1, ?_⟩
    intro r' c' hr' hc'
    have e := key2 r' c' hr' hc'
    simp only [hc', and_true] at e
    exact e
  have key := foldl_range_rule
    (fun k acc => Square n acc ∧ ∀ r c, r < n → c < n →
      acc.get r c = if r < k then F r c (m.get r c) else m.get r c)
    (fun m r => (List.range n).foldl (body r) m) m n ⟨hm, by intro r c _ _; simp⟩
    (by
      rintro k hk acc ⟨hsq, hacc⟩
      obtain ⟨h1, h2⟩ := inner k hk acc hsq
      refine ⟨h1, ?_⟩
      intro r c hr hc
      rw [h2 r c hr hc, hacc r c hr hc, hacc k c hk hc]
      by_cases e1 : r = k
      · subst e1; simp
      · by_cases e3 : r < k
        · have e4 : r < k + 1 := by omega
          simp [e1, e3, e4]
        · have e4 : ¬ r < k + 1 := by omega
          simp [e1, e3, e4])
  obtain ⟨key1, key2⟩ := key
  refine ⟨key1, ?_⟩
  intro r c hr hc
  have e := key2 r c hr hc
  simp only [hr, if_true] at e
  exact e

theorem adjustMatrix_spec {n : Nat} (s : State) (delta : Int) (hm : Square n s.costMatrix) :
    Square n (adjustMatrix n s delta) ∧
      ∀ r c, r < n → c < n →
        (adjustMatrix n s delta).get r c =
          s.costMatrix.get r c
            + (if s.isRowCurrentlyCovered.getD r false = true then delta else 0)
            - (if s.isColumnCurrentlyCovered.getD c false = false then delta else 0) := by
  unfold adjustMatrix
  apply nested_cells_spec
    (fun r c x => x + (if s.isRowCurrentlyCovered.getD r false = true then delta else 0)
      - (if s.isColumnCurrentlyCovered.getD c false = false then delta else 0))
    (adjustCell s delta) _ s.costMatrix hm
  intro m r c hsq hr hc
  unfold adjustCell
  by_cases h1 : s.isRowCurrentlyCovered.getD r false = true <;>
    by_cases h2 : s.isColumnCurrentlyCovered.getD c false = false
  · simp only [if_pos h1, if_pos h2]
    refine ⟨(hsq.set _ _ _).set _ _ _, ?_⟩
    intro r' c' hr' hc'
    rw [get_set (hsq.set _ _ _) hr hc hc', get_set_self hsq hr hc, get_set hsq hr hc hc']
    by_cases e : r = r' ∧ c = c'
    · obtain ⟨e1, e2⟩ := e; subst e1; subst e2; simp
    · have e' : ¬ (r' = r ∧ c' = c) := fun h => e ⟨h.1.symm, h.2.symm⟩
      simp [e, e']
  · simp only [if_pos h1, if_neg h2]
    refine ⟨hsq.set _ _ _, ?_⟩
    intro r' c' hr' hc'
    rw [get_set hsq hr hc hc']
    by_cases e : r = r' ∧ c = c'
    · obtain ⟨e1, e2⟩ := e; subst e1; subst e2; simp
    · have e' : ¬ (r' = r ∧ c' = c) := fun h => e ⟨h.1.symm, h.2.symm⟩
      simp [e, e']
  · simp only [if_neg h1, if_pos h2]
    refine ⟨hsq.set _ _ _, ?_⟩
    intro r' c' hr' hc'
    rw [get_set hsq hr hc hc']
    by_cases e : r = r' ∧ c = c'
    · obtain ⟨e1, e2⟩ := e; subst e1; subst e2; simp
    · have e' : ¬ (r' = r ∧ c' = c) := fun h => e ⟨h.1.symm, h.2.symm⟩
      simp [e, e']
  · simp only [if_neg h1, if_neg h2]
    refine ⟨hsq, ?_⟩
    intro r' c' hr' hc'
    by_cases e' : r' = r ∧ c' = c
    · obtain ⟨e1, e2⟩ := e'; subst e1; subst e2; simp
    · simp [e']

theorem clearPrimes_spec {n : Nat} {m : Matrix Int} (hm : Square n m) :
    Square n (clearPrimes m n) ∧
      ∀ r c, r < n → c < n →
        (clearPrimes m n).get r c = if m.get r c = 2 then 0 else m.get r c := by
  unfold clearPrimes
  apply nested_cells_spec (fun _ _ x => if x = 2 then 0 else x)
    (fun row m col => if m.get row col = 2 then m.set row col 0 else m) _ m hm
  intro m r c hsq hr hc
  by_cases h : m.get r c = 2
  · simp only [h, if_true]
    refine ⟨hsq.set _ _ _, ?_⟩
    intro r' c' hr' hc'
    rw [get_set hsq hr hc hc']
    by_cases e : r = r' ∧ c = c'
    · obtain ⟨e1, e2⟩ := e; subst e1; subst e2; simp
    · have e' : ¬ (r' = r ∧ c' = c) := fun h => e ⟨h.1.symm, h.2.symm⟩
      simp [e, e']
  · simp only [h, if_false]
    refine ⟨hsq, ?_⟩
    intro r' c' hr' hc'
    by_cases e' : r' = r ∧ c' = c
    · obtain ⟨e1, e2⟩ := e'; subst e1; subst e2; simp
    · simp [e']

theorem extractAssignment_spec {n : Nat} (marks : Matrix Int) {m : Matrix Int}
    (hm : Square n m) :
    Square n (extractAssignment marks m n) ∧
      ∀ r c, r < n → c < n →
        (extractAssignment marks m n).get r c = if marks.get r c = 1 then 1 else m.get r c := by
  unfold extractAssignment
  apply nested_cells_spec (fun r c x => if marks.get r c = 1 then 1 else x)
    (fun row m col => if marks.get row col = 1 then m.set row col 1 else m) _ m hm
  intro m r c hsq hr hc
  by_cases h : marks.get r c = 1
  · simp only [h, if_true]
    refine ⟨hsq.set _ _ _, ?_⟩
    intro r' c' hr' hc'
    rw [get_set hsq hr hc hc']
    by_cases e : r = r' ∧ c = c'
    · obtain ⟨e1, e2⟩ := e; subst e1; subst e2; simp
    · have e' : ¬ (r' = r ∧ c' = c) := fun h => e ⟨h.1.symm, h.2.symm⟩
      simp [e, e']
  · simp only [h, if_false]
    refine ⟨hsq, ?_⟩
    intro r' c' hr' hc'
    by_cases e' : r' = r ∧ c' = c
    · obtain ⟨e1, e2⟩ := e'; subst e1; subst e2; simp
    · simp [e']

/-! ## Coverage vectors -/

theorem uncoverAll_spec (flags : List Bool) (n : Nat) :
    (uncoverAll flags n).length = flags.length ∧
      ∀ i, i < n → (uncoverAll flags n).getD i false = false := by
  unfold uncoverAll
  have key := foldl_range_rule
    (fun k (acc : List Bool) => acc.length = flags.length ∧ ∀ i, i < k → acc.getD i false = false)
    (fun v i => v.set i false) flags n ⟨rfl, by intro i hi; omega⟩
    (by
      rintro k _ acc ⟨hl, hacc⟩
      refine ⟨by simp [hl], ?_⟩
      intro i hi
      by_cases e : k = i
      · subst e
        simp [List.getD_eq_getElem?_getD, List.getElem?_set]
        split_ifs <;> simp
      · rw [getD_set_other _ _ _ _ _ e]
        exact hacc i (by omega))
  exact key

theorem coverStarredColumns_spec (marks : Matrix Int) (n : Nat) (flags : List Bool)
    (hl : flags.length = n) :
    (coverStarredColumns marks n flags).length = n ∧
      ∀ c, c < n → ((coverStarredColumns marks n flags).getD c false = true ↔
        (flags.getD c false = true ∨ ∃ r, r < n ∧ marks.get r c = 1)) := by
  unfold coverStarredColumns
  have inner : ∀ r (v : List Bool), v.length = n →
      ((List.range n).foldl
        (fun v currentColumn => if marks.get r currentColumn = 1 then v.set currentColumn true else v)
        v).length = n ∧
      ∀ c, c < n → (((List.range n).foldl
        (fun v currentColumn => if marks.get r currentColumn = 1 then v.set currentColumn true else v)
        v).getD c false = true ↔ (v.getD c false = true ∨ marks.get r c = 1)) := by
    intro r v hv
    have key := foldl_range_rule
      (fun j (acc : List Bool) => acc.length = n ∧ ∀ c, c < n →
        (acc.getD c false = true ↔ (v.getD c false = true ∨ (c < j ∧ marks.get r c = 1))))
      (fun v currentColumn => if marks.get r currentColumn = 1 then v.set currentColumn true else v)
      v n ⟨hv, by intro c _; simp⟩
      (by
        rintro j hj acc ⟨hlen, hacc⟩
        by_cases hstar : marks.get r j = 1
        · simp only [hstar, if_true]
          refine ⟨by simp [hlen], ?_⟩
          intro c hc
          by_cases e : j = c
          · subst e
            rw [getD_set_self _ _ _ _ (by omega)]
            simp [hstar]
          · rw [getD_set_other _ _ _ _ _ e, hacc c hc]
            constructor
            · rintro (h | ⟨h1, h2⟩)
              · exact Or.inl h
              · exact Or.inr ⟨by omega, h2⟩
            · rintro (h | ⟨h1, h2⟩)
              · exact Or.inl h
              · exact Or.inr ⟨by omega, h2⟩
        · simp only [hstar, if_false]
          refine ⟨hlen, ?_⟩
          intro c hc
          rw [hacc c hc]
          constructor
          · rintro (h | ⟨h1, h2⟩)
            · exact Or.inl h
            · exact Or.inr ⟨by omega, h2⟩
          · rintro (h | ⟨h1, h2⟩)
            · exact Or.inl h
            · refine Or.inr ⟨?_, h2⟩
              by_contra hcj
              have : c = j := by omega
              subst this
              exact hstar h2)
    obtain ⟨key1, key2⟩ := key
    refine ⟨key1, ?_⟩
    intro c hc
    rw [key2 c hc]
    simp [hc]
  have key := foldl_range_rule
    (fun k (acc : List Bool) => acc.length = n ∧ ∀ c, c < n →
      (acc.getD c false = true ↔ (flags.getD c false = true ∨ ∃ r, r < k ∧ marks.get r c = 1)))
    (fun v currentRow => (List.range n).foldl
      (fun v currentColumn =>
        if marks.get currentRow currentColumn = 1 then v.set currentColumn true else v) v)
    flags n ⟨hl, by intro c _; simp⟩
    (by
      rintro k hk acc ⟨hlen, hacc⟩
      obtain ⟨h1, h2⟩ := inner k acc hlen
      refine ⟨h1, ?_⟩
      intro c hc
      rw [h2 c hc, hacc c hc]
      constructor
      · rintro ((h | ⟨r, hr, h⟩) | h)
        · exact Or.inl h
        · exact Or.inr ⟨r, by omega, h⟩
        · exact Or.inr ⟨k, by omega, h⟩
      · rintro (h | ⟨r, hr, h⟩)
        · exact Or.inl (Or.inl h)
        · by_cases e : r = k
          · subst e; exact Or.inr h
          · exact Or.inl (Or.inr ⟨r, by omega, h⟩))
  exact key

theorem countCoveredColumns_eq (flags : List Bool) (n : Nat) :
    countCoveredColumns flags n =
      ((Finset.range n).filter (fun c => flags.getD c false = true)).card := by
  unfold countCoveredColumns
  have key := foldl_range_rule
    (fun k (acc : Nat) =>
      acc = ((Finset.range k).filter (fun c => flags.getD c false = true)).card)
    (fun numberOfCoveredColumns currentColumn =>
      if flags.getD currentColumn false = true then numberOfCoveredColumns + 1
      else numberOfCoveredColumns) 0 n (by simp)
    (by
      intro k _ acc hacc
      simp only at hacc ⊢
      rw [Finset.range_succ, Finset.filter_insert]
      by_cases h : flags.getD k false = true
      · simp only [h, if_true]
        rw [Finset.card_insert_of_not_mem (by simp), hacc]
      · simp only [h, if_false]
        exact hacc)
  exact key

/-! ## The smallest uncovered value -/

theorem smallestUncoveredValue_spec (n : Nat) (s : State) :
    smallestUncoveredValue n s ≤ INT_MAX ∧
      (∀ r c, r < n → c < n → s.isRowCurrentlyCovered.getD r false = false →
        s.isColumnCurrentlyCovered.getD c false = false →
        smallestUncoveredValue n s ≤ s.costMatrix.get r c) ∧
      (smallestUncoveredValue n s = INT_MAX ∨
        ∃ r c, r < n ∧ c < n ∧ s.isRowCurrentlyCovered.getD r false = false ∧
          s.isColumnCurrentlyCovered.getD c false = false ∧
          smallestUncoveredValue n s = s.costMatrix.get r c) := by
  have inner : ∀ r (a : Int),
      (List.range n).foldl
          (fun smallest currentColumn =>
            if s.isColumnCurrentlyCovered.getD currentColumn false = false ∧
                s.costMatrix.get r currentColumn < smallest then
              s.costMatrix.get r currentColumn
            else smallest) a ≤ a ∧
      (∀ c, c < n → s.isColumnCurrentlyCovered.getD c false = false →
        (List.range n).foldl
          (fun smallest currentColumn =>
            if s.isColumnCurrentlyCovered.getD currentColumn false = false ∧
                s.costMatrix.get r currentColumn < smallest then
              s.costMatrix.get r currentColumn
            else smallest) a ≤ s.costMatrix.get r c) ∧
      ((List.range n).foldl
          (fun smallest currentColumn =>
            if s.isColumnCurrentlyCovered.getD currentColumn false = false ∧
                s.costMatrix.get r currentColumn < smallest then
              s.costMatrix.get r currentColumn
            else smallest) a = a ∨
        ∃ c, c < n ∧ s.isColumnCurrentlyCovered.getD c false = false ∧
          (List.range n).foldl
            (fun smallest currentColumn =>
              if s.isColumnCurrentlyCovered.getD currentColumn false = false ∧
                  s.costMatrix.get r currentColumn < smallest then
                s.costMatrix.get r currentColumn
              else smallest) a = s.costMatrix.get r c) := by
    intro r a
    exact foldl_range_rule
      (fun j (acc : Int) => acc ≤ a ∧
        (∀ c, c < j → s.isColumnCurrentlyCovered.getD c false = false →
          acc ≤ s.costMatrix.get r c) ∧
        (acc = a ∨ ∃ c, c < j ∧ s.isColumnCurrentlyCovered.getD c false = false ∧
          acc = s.costMatrix.get r c))
      _ a n ⟨le_refl _, by intro c hc; omega, Or.inl rfl⟩
      (by
        rintro j _ acc ⟨h1, h2, h3⟩
        by_cases hcond : s.isColumnCurrentlyCovered.getD j false = false ∧
            s.costMatrix.get r j < acc
        · simp only [if_pos hcond]
          refine ⟨by omega, ?_, Or.inr ⟨j, by omega, hcond.1, rfl⟩⟩
          intro c hc hcov
          by_cases e : c = j
          · subst e; exact le_refl _
          · have := h2 c (by omega) hcov
            omega
        · simp only [if_neg hcond]
          refine ⟨h1, ?_, ?_⟩
          · intro c hc hcov
            by_cases e : c = j
            · subst e
              have : ¬ s.costMatrix.get r c < acc := fun h => hcond ⟨hcov, h⟩
              omega
            · exact h2 c (by omega) hcov
          · rcases h3 with h3 | ⟨c, hc, h4, h5⟩
            · exact Or.inl h3
            · exact Or.inr ⟨c, by omega, h4, h5⟩)
  exact foldl_range_rule
    (fun k (acc : Int) => acc ≤ INT_MAX ∧
      (∀ r c, r < k → c < n → s.isRowCurrentlyCovered.getD r false = false →
        s.isColumnCurrentlyCovered.getD c false = false → acc ≤ s.costMatrix.get r c) ∧
      (acc = INT_MAX ∨
        ∃ r c, r < k ∧ c < n ∧ s.isRowCurrentlyCovered.getD r false = false ∧
          s.isColumnCurrentlyCovered.getD c false = false ∧ acc = s.costMatrix.get r c))
    _ INT_MAX n ⟨le_refl _, by intro r c hr; omega, Or.inl rfl⟩
    (by
      rintro k _ acc ⟨h1, h2, h3⟩
      by_cases hrow : s.isRowCurrentlyCovered.getD k false = false
      · simp only [if_pos hrow]
        obtain ⟨i1, i2, i3⟩ := inner k acc
        refine ⟨by omega, ?_, ?_⟩
        · intro r c hr hc hrc hcc
          by_cases e : r = k
          · subst e; exact i2 c hc hcc
          · have := h2 r c (by omega) hc hrc hcc
            omega
        · rcases i3 with i3 | ⟨c, hc, hcc, i3⟩
          · rw [i3]
            rcases h3 with h3 | ⟨r, c, hr, hc, h4, h5, h6⟩
            · exact Or.inl h3
            · exact Or.inr ⟨r, c, by omega, hc, h4, h5, h6⟩
          · exact Or.inr ⟨k, c, by omega, hc, hrow, hcc, i3⟩
      · simp only [if_neg hrow]
        refine ⟨h1, ?_, ?_⟩
        · intro r c hr hc hrc hcc
          by_cases e : r = k
          · subst e; exact absurd hrc hrow
          · exact h2 r c (by omega) hc hrc hcc
        · rcases h3 with h3 | ⟨r, c, hr, hc, h4, h5, h6⟩
          · exact Or.inl h3
          · exact Or.inr ⟨r, c, by omega, hc, h4, h5, h6⟩)

/-! ## Initial starring -/

/-- One cell of the initial starring scan keeps the facts of `StarringInv`. -/
theorem starCell_inv {n : Nat} (cost : Matrix Int) {r c : Nat} (hr : r < n) (hc : c < n)
    {acc : Matrix Int × List Bool × List Bool} (hI : StarringInv n cost acc) :
    StarringInv n cost (starCell cost r acc c) := by
  obtain ⟨hsq, hl1, hl2, hrange, hzero, hrf, hcf, hru, hcu⟩ := hI
  unfold starCell
  by_cases hcond : cost.get r c = 0 ∧ acc.2.1.getD r false = false ∧
      acc.2.2.getD c false = false
  · rw [if_pos hcond]
    obtain ⟨hz, hrow, hcol⟩ := hcond
    have hg : ∀ r' c', r' < n → c' < n →
        (acc.1.set r c 1).get r' c' = if r = r' ∧ c = c' then 1 else acc.1.get r' c' :=
      fun r' c' _ hc' => get_set hsq hr hc hc' 1
    refine ⟨hsq.set _ _ _, by simp [hl1], by simp [hl2], ?_, ?_, ?_, ?_, ?_, ?_⟩
    · intro r' c' hr' hc'
      show (acc.1.set r c 1).get r' c' = 0 ∨ (acc.1.set r c 1).get r' c' = 1
      rw [hg r' c' hr' hc']
      by_cases e : r = r' ∧ c = c'
      · simp [e]
      · simp only [if_neg e]; exact hrange r' c' hr' hc'
    · intro r' c' hr' hc' h
      change (acc.1.set r c 1).get r' c' = 1 at h
      rw [hg r' c' hr' hc'] at h
      by_cases e : r = r' ∧ c = c'
      · obtain ⟨e1, e2⟩ := e; subst e1; subst e2; exact hz
      · rw [if_neg e] at h; exact hzero r' c' hr' hc' h
    · intro r' c' hr' hc' h
      change (acc.1.set r c 1).get r' c' = 1 at h
      show (acc.2.1.set r true).getD r' false = true
      rw [hg r' c' hr' hc'] at h
      by_cases e1 : r = r'
      · subst e1; exact getD_set_self _ _ _ _ (by omega)
      · rw [getD_set_other _ _ _ _ _ e1]
        rw [if_neg (fun h' => e1 h'.1)] at h
        exact hrf r' c' hr' hc' h
    · intro r' c' hr' hc' h
      change (acc.1.set r c 1).get r' c' = 1 at h
      show (acc.2.2.set c true).getD c' false = true
      rw [hg r' c' hr' hc'] at h
      by_cases e1 : c = c'
      · subst e1; exact getD_set_self _ _ _ _ (by omega)
      · rw [getD_set_other _ _ _ _ _ e1]
        rw [if_neg (fun h' => e1 h'.2)] at h
        exact hcf r' c' hr' hc' h
    · intro r' c1 c2 hr' hc1 hc2 h1 h2
      change (acc.1.set r c 1).get r' c1 = 1 at h1
      change (acc.1.set r c 1).get r' c2 = 1 at h2
      rw [hg r' c1 hr' hc1] at h1
      rw [hg r' c2 hr' hc2] at h2
      by_cases e1 : r = r'
      · subst e1
        have nostar : ∀ c', c' < n → acc.1.get r c' ≠ 1 := by
          intro c' hc' h
          have := hrf r c' hr hc' h
          rw [hrow] at this
          exact Bool.noConfusion this
        by_cases a1 : c = c1
        · by_cases a2 : c = c2
          · omega
          · rw [if_neg (fun h' => a2 h'.2)] at h2
            exact absurd h2 (nostar c2 hc2)
        · rw [if_neg (fun h' => a1 h'.2)] at h1
          exact absurd h1 (nostar c1 hc1)
      · rw [if_neg (fun h' => e1 h'.1)] at h1 h2
        exact hru r' c1 c2 hr' hc1 hc2 h1 h2
    · intro r1 r2 c' hr1 hr2 hc' h1 h2
      change (acc.1.set r c 1).get r1 c' = 1 at h1
      change (acc.1.set r c 1).get r2 c' = 1 at h2
      rw [hg r1 c' hr1 hc'] at h1
      rw [hg r2 c' hr2 hc'] at h2
      by_cases e1 : c = c'
      · subst e1
        have nostar : ∀ r', r' < n → acc.1.get r' c ≠ 1 := by
          intro r' hr' h
          have := hcf r' c hr' hc h
          rw [hcol] at this
          exact Bool.noConfusion this
        by_cases a1 : r = r1
        · by_cases a2 : r = r2
          · omega
          · rw [if_neg (fun h' => a2 h'.1)] at h2
            exact absurd h2 (nostar r2 hr2)
        · rw [if_neg (fun h' => a1 h'.1)] at h1
          exact absurd h1 (nostar r1 hr1)
      · rw [if_neg (fun h' => e1 h'.2)] at h1 h2
        exact hcu r1 r2 c' hr1 hr2 hc' h1 h2
  · rw [if_neg hcond]
    exact ⟨hsq, hl1, hl2, hrange, hzero, hrf, hcf, hru, hcu⟩

/-- The facts of `StarringInv` hold before the initial starring scan. -/
theorem starringInv_init {n : Nat} (cost : Matrix Int) {marks0 : Matrix Int} (hm : Square n marks0)
    (h0 : ∀ r c, r < n → c < n → marks0.get r c = 0) :
    StarringInv n cost (marks0, List.replicate n false, List.replicate n false) := by
  refine ⟨hm, by simp, by simp, ?_, ?_, ?_, ?_, ?_, ?_⟩
  · intro r c hr hc; exact Or.inl (h0 r c hr hc)
  · intro r c hr hc h; rw [h0 r c hr hc] at h; omega
  · intro r c hr hc h; rw [h0 r c hr hc] at h; omega
  · intro r c hr hc h; rw [h0 r c hr hc] at h; omega
  · intro r c c' hr hc _ h; rw [h0 r c hr hc] at h; omega
  · intro r r' c hr _ hc h; rw [h0 r c hr hc] at h; omega

/-- What the initial starring scan maintains about the mark grid and its two flag vectors. -/
theorem initialStarring_spec {n : Nat} (cost marks0 : Matrix Int) (hm : Square n marks0)
    (h0 : ∀ r c, r < n → c < n → marks0.get r c = 0) :
    Square n (initialStarring cost marks0 n).1 ∧
      (∀ r c, r < n → c < n → (initialStarring cost marks0 n).1.get r c = 0 ∨
        (initialStarring cost marks0 n).1.get r c = 1) ∧
      (∀ r c, r < n → c < n → (initialStarring cost marks0 n).1.get r c = 1 →
        cost.get r c = 0) ∧
      (∀ r c c', r < n → c < n → c' < n → (initialStarring cost marks0 n).1.get r c = 1 →
        (initialStarring cost marks0 n).1.get r c' = 1 → c = c') ∧
      (∀ r r' c, r < n → r' < n → c < n → (initialStarring cost marks0 n).1.get r c = 1 →
        (initialStarring cost marks0 n).1.get r' c = 1 → r = r') ∧
      (initialStarring cost marks0 n).2.1.length = n ∧
      (initialStarring cost marks0 n).2.2.length = n := by
  have hrow : ∀ r, r < n → ∀ acc, StarringInv n cost acc →
      StarringInv n cost ((List.range n).foldl (starCell cost r) acc) := by
    intro r hr acc hI
    exact foldl_range_rule (fun _ acc => StarringInv n cost acc) (starCell cost r) acc n hI
      (fun c hc acc hacc => starCell_inv cost hr hc hacc)
  have hall : StarringInv n cost (initialStarring cost marks0 n) := by
    unfold initialStarring
    exact foldl_range_rule (fun _ acc => StarringInv n cost acc) _ _ n
      (starringInv_init cost hm h0) (fun r hr acc hacc => hrow r hr acc hacc)
  obtain ⟨hsq, hl1, hl2, hrange, hzero, _, _, hru, hcu⟩ := hall
  exact ⟨hsq, hrange, hzero, hru, hcu, hl1, hl2⟩

/-! ## The state at the first evaluation of the loop condition -/

/-- After a full reset, the covered columns are exactly the columns that hold a starred zero,
and the recount equals their number. -/
theorem recount_spec (marks : Matrix Int) (n : Nat) (flags : List Bool) (hl : flags.length = n) :
    (coverStarredColumns marks n (uncoverAll flags n)).length = n ∧
      (∀ c, c < n → ((coverStarredColumns marks n (uncoverAll flags n)).getD c false = true ↔
        ∃ r, r < n ∧ marks.get r c = 1)) ∧
      countCoveredColumns (coverStarredColumns marks n (uncoverAll flags n)) n =
        (starredColumns n marks).card := by
  obtain ⟨u1, u2⟩ := uncoverAll_spec flags n
  obtain ⟨c1, c2⟩ := coverStarredColumns_spec marks n (uncoverAll flags n) (by omega)
  have h : ∀ c, c < n → ((coverStarredColumns marks n (uncoverAll flags n)).getD c false = true ↔
      ∃ r, r < n ∧ marks.get r c = 1) := by
    intro c hc
    rw [c2 c hc, u2 c hc]
    simp
  refine ⟨c1, h, ?_⟩
  rw [countCoveredColumns_eq]
  unfold starredColumns
  congr 1
  apply Finset.filter_congr
  intro c hc
  exact h c (Finset.mem_range.mp hc)

theorem initialState_inv {n : Nat} {C Z : Matrix Int} (hC : Square n C)
    (hZ : Square n Z) (hZ0 : ∀ r c, r < n → c < n → Z.get r c = 0)
    (hb : ∀ r c, r < n → c < n → (reduce C n).get r c ≤ INT_MAX) :
    Inv n C (initialState C Z n) := by
  obtain ⟨hsq, hrange, hzero, hru, hcu, hl1, hl2⟩ := initialStarring_spec (reduce C n) Z hZ hZ0
  obtain ⟨r1, r2, r3⟩ := recount_spec (initialStarring (reduce C n) Z n).1 n
    (initialStarring (reduce C n) Z n).2.2 hl2
  obtain ⟨u1, u2⟩ := uncoverAll_spec (initialStarring (reduce C n) Z n).2.1 n
  have noprime : ∀ r c, r < n → c < n → (initialStarring (reduce C n) Z n).1.get r c ≠ 2 := by
    intro r c hr hc h
    rcases hrange r c hr hc with h' | h' <;> omega
  have rowunc : ∀ r, r < n →
      ¬ (uncoverAll (initialStarring (reduce C n) Z n).2.1 n).getD r false = true := by
    intro r hr h
    rw [u2 r hr] at h
    exact Bool.noConfusion h
  exact {
    cost_square := reduce_square hC
    marks_square := hsq
    rows_length := by show (uncoverAll _ n).length = n; omega
    cols_length := r1
    cost_nonneg := fun r c hr hc => reduce_nonneg hC hr hc
    marks_range := fun r c hr hc => by
      rcases hrange r c hr hc with h | h
      · exact Or.inl h
      · exact Or.inr (Or.inl h)
    marked_zero := fun r c hr hc h => by
      rcases hrange r c hr hc with h' | h'
      · exact absurd h' h
      · exact hzero r c hr hc h'
    star_row_unique := hru
    star_col_unique := hcu
    star_cover := fun r c hr hc h => by
      constructor
      · intro h'; exact absurd h' (rowunc r hr)
      · intro h'
        have : (coverStarredColumns (initialStarring (reduce C n) Z n).1 n
            (uncoverAll (initialStarring (reduce C n) Z n).2.2 n)).getD c false = true :=
          (r2 c hc).mpr ⟨r, hr, h⟩
        change (coverStarredColumns (initialStarring (reduce C n) Z n).1 n
            (uncoverAll (initialStarring (reduce C n) Z n).2.2 n)).getD c false = false at h'
        rw [this] at h'
        exact Bool.noConfusion h'
    col_cover_star := fun c hc h => (r2 c hc).mp h
    row_cover_star := fun r hr h => absurd h (rowunc r hr)
    row_cover_prime := fun r hr h => absurd h (rowunc r hr)
    prime_cover := fun r c hr hc h => absurd h (noprime r c hr hc)
    prime_row_unique := fun r c c' hr hc _ h _ => absurd h (noprime r c hr hc)
    rank := ⟨fun _ => 0, fun r c r' hr hc _ h _ => absurd h (noprime r c hr hc)⟩
    potentials := ⟨fun r => minimumRowValue C n r,
      fun c => minimumColumnValue (reduceRows C n) n c,
      fun r c hr hc => reduce_get hC hr hc⟩
    bound := fun r hr _ c hc => hb r c hr hc
    count := r3 }

theorem reduce_le_of_valid {n : Nat} (hn : 0 < n) {C : Matrix Int} (hC : ValidCost n C)
    {r c : Nat} (hr : r < n) (hc : c < n) : (reduce C n).get r c ≤ INT_MAX := by
  rw [reduce_get hC.1 hr hc]
  obtain ⟨c0, hc0, e⟩ := minimumRowValue_attained C hn r
  have h1 := (hC.2.2 r c0 hr hc0).1
  have h2 := (hC.2.2 r c hr hc).2
  have h3 := minimumColumnValue_reduceRows_nonneg hC.1 hn hc
  omega

/-! ## The detour step of the search -/

theorem starredColumns_congr {n : Nat} {m m' : Matrix Int}
    (h : ∀ r c, r < n → c < n → (m.get r c = 1 ↔ m'.get r c = 1)) :
    starredColumns n m = starredColumns n m' := by
  unfold starredColumns
  apply Finset.filter_congr
  intro c hc
  have hc' := Finset.mem_range.mp hc
  constructor
  · rintro ⟨r, hr, e⟩; exact ⟨r, hr, (h r c hr hc').mp e⟩
  · rintro ⟨r, hr, e⟩; exact ⟨r, hr, (h r c hr hc').mpr e⟩

theorem coveredRows_set_true {n : Nat} (flags : List Bool) (hl : flags.length = n) {r : Nat}
    (hr : r < n) : coveredRows n (flags.set r true) = insert r (coveredRows n flags) := by
  unfold coveredRows
  ext i
  simp only [Finset.mem_filter, Finset.mem_range, Finset.mem_insert]
  by_cases e : r = i
  · subst e
    rw [getD_set_self _ _ _ _ (by omega)]
    simp [hr]
  · rw [getD_set_other _ _ _ _ _ e]
    constructor
    · intro h; exact Or.inr h
    · rintro (h | h)
      · exact absurd h.symm e
      · exact h

theorem coveredRows_card_le (n : Nat) (flags : List Bool) : (coveredRows n flags).card ≤ n := by
  have := Finset.card_filter_le (Finset.range n) (fun r => flags.getD r false = true)
  simpa [coveredRows] using this

theorem starredColumns_card_le (n : Nat) (marks : Matrix Int) :
    (starredColumns n marks).card ≤ n := by
  have := Finset.card_filter_le (Finset.range n) (fun c => ∃ r, r < n ∧ marks.get r c = 1)
  simpa [starredColumns] using this

/-- An uncovered cell is never a starred zero. -/
theorem Inv.uncovered_not_star {n : Nat} {C : Matrix Int} {s : State} (h : Inv n C s)
    {r c : Nat} (hr : r < n) (hc : c < n) (hrow : s.isRowCurrentlyCovered.getD r false = false)
    (hcol : s.isColumnCurrentlyCovered.getD c false = false) :
    s.zeroMarkMatrix.get r c ≠ 1 := by
  intro hs
  have := (h.star_cover r c hr hc hs).mpr hcol
  rw [hrow] at this
  exact Bool.noConfusion this

/-- The detour: priming an uncovered zero whose row holds a starred zero, covering that row and
uncovering the column of the starred zero keeps all loop facts. -/
theorem detour_inv {n : Nat} {C : Matrix Int} {s : State} (h : Inv n C s) {r c j : Nat}
    (hr : r < n) (hc : c < n) (hj : j < n)
    (hrow : s.isRowCurrentlyCovered.getD r false = false)
    (hcol : s.isColumnCurrentlyCovered.getD c false = false)
    (hzero : s.costMatrix.get r c = 0) (hstar : s.zeroMarkMatrix.get r j = 1) :
    Inv n C { s with
      zeroMarkMatrix := s.zeroMarkMatrix.set r c 2
      isRowCurrentlyCovered := s.isRowCurrentlyCovered.set r true
      isColumnCurrentlyCovered := s.isColumnCurrentlyCovered.set j false } := by
  have hg : ∀ r' c', r' < n → c' < n →
      (s.zeroMarkMatrix.set r c 2).get r' c' =
        if r = r' ∧ c = c' then 2 else s.zeroMarkMatrix.get r' c' :=
    fun r' c' _ hc' => get_set h.marks_square hr hc hc' 2
  have hns : s.zeroMarkMatrix.get r c ≠ 1 := h.uncovered_not_star hr hc hrow hcol
  have hjc : j ≠ c := fun e => hns (e ▸ hstar)
  have star_iff : ∀ r' c', r' < n → c' < n →
      ((s.zeroMarkMatrix.set r c 2).get r' c' = 1 ↔ s.zeroMarkMatrix.get r' c' = 1) := by
    intro r' c' hr' hc'
    rw [hg r' c' hr' hc']
    by_cases e : r = r' ∧ c = c'
    · obtain ⟨e1, e2⟩ := e; subst e1; subst e2
      simp [hns]
    · simp [e]
  have prime_iff : ∀ r' c', r' < n → c' < n →
      ((s.zeroMarkMatrix.set r c 2).get r' c' = 2 ↔
        ((r = r' ∧ c = c') ∨ s.zeroMarkMatrix.get r' c' = 2)) := by
    intro r' c' hr' hc'
    rw [hg r' c' hr' hc']
    by_cases e : r = r' ∧ c = c'
    · simp [e]
    · simp [e]
  have rowget : ∀ r', (s.isRowCurrentlyCovered.set r true).getD r' false =
      if r = r' then true else s.isRowCurrentlyCovered.getD r' false := by
    intro r'
    by_cases e : r = r'
    · subst e; rw [getD_set_self _ _ _ _ (by rw [h.rows_length]; exact hr)]; simp
    · rw [getD_set_other _ _ _ _ _ e]; simp [e]
  have colget : ∀ c', (s.isColumnCurrentlyCovered.set j false).getD c' false =
      if j = c' then false else s.isColumnCurrentlyCovered.getD c' false := by
    intro c'
    by_cases e : j = c'
    · subst e; rw [getD_set_self _ _ _ _ (by rw [h.cols_length]; exact hj)]; simp
    · rw [getD_set_other _ _ _ _ _ e]; simp [e]
  obtain ⟨rank, hrank⟩ := h.rank
  exact {
    cost_square := h.cost_square
    marks_square := h.marks_square.set _ _ _
    rows_length := by simp [h.rows_length]
    cols_length := by simp [h.cols_length]
    cost_nonneg := h.cost_nonneg
    marks_range := fun r' c' hr' hc' => by
      show (s.zeroMarkMatrix.set r c 2).get r' c' = 0 ∨ (s.zeroMarkMatrix.set r c 2).get r' c' = 1 ∨
        (s.zeroMarkMatrix.set r c 2).get r' c' = 2
      rw [hg r' c' hr' hc']
      by_cases e : r = r' ∧ c = c'
      · simp [e]
      · simp only [if_neg e]; exact h.marks_range r' c' hr' hc'
    marked_zero := fun r' c' hr' hc' hne => by
      change (s.zeroMarkMatrix.set r c 2).get r' c' ≠ 0 at hne
      show s.costMatrix.get r' c' = 0
      rw [hg r' c' hr' hc'] at hne
      by_cases e : r = r' ∧ c = c'
      · obtain ⟨e1, e2⟩ := e; subst e1; subst e2; exact hzero
      · rw [if_neg e] at hne; exact h.marked_zero r' c' hr' hc' hne
    star_row_unique := fun r' c1 c2 hr' hc1 hc2 h1 h2 =>
      h.star_row_unique r' c1 c2 hr' hc1 hc2 ((star_iff r' c1 hr' hc1).mp h1)
        ((star_iff r' c2 hr' hc2).mp h2)
    star_col_unique := fun r1 r2 c' hr1 hr2 hc' h1 h2 =>
      h.star_col_unique r1 r2 c' hr1 hr2 hc' ((star_iff r1 c' hr1 hc').mp h1)
        ((star_iff r2 c' hr2 hc').mp h2)
    star_cover := fun r' c' hr' hc' hs => by
      have hs' := (star_iff r' c' hr' hc').mp hs
      show (s.isRowCurrentlyCovered.set r true).getD r' false = true ↔
        (s.isColumnCurrentlyCovered.set j false).getD c' false = false
      rw [rowget, colget]
      by_cases e1 : r = r'
      · subst e1
        have : c' = j := h.star_row_unique r c' j hr hc' hj hs' hstar
        subst this
        simp
      · have e2 : j ≠ c' := by
          intro e; subst e
          exact e1 (h.star_col_unique r r' j hr hr' hj hstar hs')
        simp only [if_neg e1, if_neg e2]
        exact h.star_cover r' c' hr' hc' hs'
    col_cover_star := fun c' hc' hcov => by
      change (s.isColumnCurrentlyCovered.set j false).getD c' false = true at hcov
      rw [colget] at hcov
      by_cases e : j = c'
      · rw [if_pos e] at hcov; exact Bool.noConfusion hcov
      · rw [if_neg e] at hcov
        obtain ⟨r', hr', hs⟩ := h.col_cover_star c' hc' hcov
        exact ⟨r', hr', (star_iff r' c' hr' hc').mpr hs⟩
    row_cover_star := fun r' hr' hcov => by
      change (s.isRowCurrentlyCovered.set r true).getD r' false = true at hcov
      rw [rowget] at hcov
      by_cases e : r = r'
      · subst e; exact ⟨j, hj, (star_iff r j hr hj).mpr hstar⟩
      · rw [if_neg e] at hcov
        obtain ⟨c', hc', hs⟩ := h.row_cover_star r' hr' hcov
        exact ⟨c', hc', (star_iff r' c' hr' hc').mpr hs⟩
    row_cover_prime := fun r' hr' hcov => by
      change (s.isRowCurrentlyCovered.set r true).getD r' false = true at hcov
      rw [rowget] at hcov
      by_cases e : r = r'
      · subst e; exact ⟨c, hc, (prime_iff r c hr hc).mpr (Or.inl ⟨rfl, rfl⟩)⟩
      · rw [if_neg e] at hcov
        obtain ⟨c', hc', hp⟩ := h.row_cover_prime r' hr' hcov
        exact ⟨c', hc', (prime_iff r' c' hr' hc').mpr (Or.inr hp)⟩
    prime_cover := fun r' c' hr' hc' hp => by
      show (s.isRowCurrentlyCovered.set r true).getD r' false = true ∧
        (s.isColumnCurrentlyCovered.set j false).getD c' false = false
      rw [rowget, colget]
      rcases (prime_iff r' c' hr' hc').mp hp with ⟨e1, e2⟩ | hp'
      · subst e1; subst e2
        rw [if_pos rfl, if_neg hjc]
        exact ⟨rfl, hcol⟩
      · obtain ⟨p1, p2⟩ := h.prime_cover r' c' hr' hc' hp'
        constructor
        · split_ifs
          · rfl
          · exact p1
        · split_ifs
          · rfl
          · exact p2
    prime_row_unique := fun r' c1 c2 hr' hc1 hc2 h1 h2 => by
      have old_none : ∀ c', c' < n → s.zeroMarkMatrix.get r c' ≠ 2 := by
        intro c' hc' hp
        have := (h.prime_cover r c' hr hc' hp).1
        rw [hrow] at this
        exact Bool.noConfusion this
      rcases (prime_iff r' c1 hr' hc1).mp h1 with ⟨e1, e2⟩ | hp1
      · subst e1
        rcases (prime_iff r c2 hr' hc2).mp h2 with ⟨_, e4⟩ | hp2
        · omega
        · exact absurd hp2 (old_none c2 hc2)
      · rcases (prime_iff r' c2 hr' hc2).mp h2 with ⟨e3, _⟩ | hp2
        · subst e3; exact absurd hp1 (old_none c1 hc1)
        · exact h.prime_row_unique r' c1 c2 hr' hc1 hc2 hp1 hp2
    rank := by
      refine ⟨fun i => if i = r then (∑ k in Finset.range n, rank k) + 1 else rank i, ?_⟩
      intro r1 c1 r2 hr1 hc1 hr2 hp hs
      have hs' := (star_iff r2 c1 hr2 hc1).mp hs
      have hle : rank r2 ≤ ∑ k in Finset.range n, rank k :=
        Finset.single_le_sum (f := rank) (fun _ _ => Nat.zero_le _) (Finset.mem_range.mpr hr2)
      have col_unc : s.isColumnCurrentlyCovered.getD c1 false = false := by
        rcases (prime_iff r1 c1 hr1 hc1).mp hp with ⟨_, e2⟩ | hp'
        · subst e2; exact hcol
        · exact (h.prime_cover r1 c1 hr1 hc1 hp').2
      have r2cov : s.isRowCurrentlyCovered.getD r2 false = true :=
        (h.star_cover r2 c1 hr2 hc1 hs').mpr col_unc
      have r2ne : r2 ≠ r := by
        intro e; subst e
        rw [hrow] at r2cov
        exact Bool.noConfusion r2cov
      simp only [if_neg r2ne]
      rcases (prime_iff r1 c1 hr1 hc1).mp hp with ⟨e1, _⟩ | hp'
      · subst e1
        simp only [if_true]
        omega
      · have r1ne : r1 ≠ r := by
          intro e; subst e
          have := (h.prime_cover r1 c1 hr1 hc1 hp').1
          rw [hrow] at this
          exact Bool.noConfusion this
        simp only [if_neg r1ne]
        exact hrank r1 c1 r2 hr1 hc1 hr2 hp' hs'
    potentials := h.potentials
    bound := fun r' hr' hno c' hc' =>
      h.bound r' hr' (fun c'' hc'' hs => hno c'' hc'' ((star_iff r' c'' hr' hc'').mpr hs)) c' hc'
    count := by
      show s.numberOfCoveredColumns = (starredColumns n (s.zeroMarkMatrix.set r c 2)).card
      rw [starredColumns_congr star_iff]
      exact h.count }

/-! ## The search for an uncovered zero -/

/-- The three outcomes of one row of the search: nothing changes; a detour; or the start of an
augmenting path. -/
theorem searchRow_cases {n : Nat} {C : Matrix Int} {s : State} (h : Inv n C s) {r : Nat}
    (hr : r < n) :
    (searchRow n s r = (s, none) ∧
      (s.isRowCurrentlyCovered.getD r false = true ∨
        ∀ c, c < n → ¬ (s.costMatrix.get r c = 0 ∧
          s.isColumnCurrentlyCovered.getD c false = false))) ∨
    (∃ c j, c < n ∧ j < n ∧ s.isRowCurrentlyCovered.getD r false = false ∧
      s.isColumnCurrentlyCovered.getD c false = false ∧ s.costMatrix.get r c = 0 ∧
      s.zeroMarkMatrix.get r j = 1 ∧
      searchRow n s r = ({ s with
        zeroMarkMatrix := s.zeroMarkMatrix.set r c 2
        isRowCurrentlyCovered := s.isRowCurrentlyCovered.set r true
        isColumnCurrentlyCovered := s.isColumnCurrentlyCovered.set j false }, none)) ∨
    (∃ c, AugStart n s r c ∧
      searchRow n s r =
        ({ s with zeroMarkMatrix := s.zeroMarkMatrix.set r c 2 }, some (r, c))) := by
  by_cases hrow : s.isRowCurrentlyCovered.getD r false = false
  · cases hfind : (List.range n).find? (fun currentColumn =>
        decide (s.costMatrix.get r currentColumn = 0 ∧
          s.isColumnCurrentlyCovered.getD currentColumn false = false)) with
    | none =>
      left
      refine ⟨by simp only [searchRow, if_pos hrow, hfind], Or.inr ?_⟩
      intro c hc hcond
      have := List.find?_eq_none.mp hfind c (List.mem_range.mpr hc)
      simp only [decide_eq_true_eq] at this
      exact this hcond
    | some c =>
      have hc : c < n := List.mem_range.mp (List.mem_of_find?_eq_some hfind)
      have hcond := List.find?_some hfind
      simp only [decide_eq_true_eq] at hcond
      obtain ⟨hzero, hcol⟩ := hcond
      have hns : s.zeroMarkMatrix.get r c ≠ 1 := h.uncovered_not_star hr hc hrow hcol
      have hg : ∀ c', c' < n → (s.zeroMarkMatrix.set r c 2).get r c' =
          if r = r ∧ c = c' then 2 else s.zeroMarkMatrix.get r c' :=
        fun c' hc' => get_set h.marks_square hr hc hc' 2
      cases hstar : (List.range n).find?
          (fun j => decide ((s.zeroMarkMatrix.set r c 2).get r j = 1)) with
      | none =>
        right; right
        refine ⟨c, ⟨hr, hc, hzero, hrow, hcol, ?_⟩, by simp only [searchRow, if_pos hrow, hfind, hstar]⟩
        intro j hj hs
        have := List.find?_eq_none.mp hstar j (List.mem_range.mpr hj)
        simp only [decide_eq_true_eq] at this
        apply this
        rw [hg j hj]
        by_cases e : c = j
        · subst e; exact absurd hs hns
        · rw [if_neg (fun h' => e h'.2)]; exact hs
      | some j =>
        right; left
        have hj : j < n := List.mem_range.mp (List.mem_of_find?_eq_some hstar)
        have hs := List.find?_some hstar
        simp only [decide_eq_true_eq] at hs
        rw [hg j hj] at hs
        have hs' : s.zeroMarkMatrix.get r j = 1 := by
          by_cases e : c = j
          · rw [if_pos ⟨rfl, e⟩] at hs; omega
          · rw [if_neg (fun h' => e h'.2)] at hs; exact hs
        exact ⟨c, j, hc, hj, hrow, hcol, hzero, hs',
          by simp only [searchRow, if_pos hrow, hfind, hstar]⟩
  · left
    have hrow' : s.isRowCurrentlyCovered.getD r false = true := by
      cases hb : s.isRowCurrentlyCovered.getD r false
      · exact absurd hb hrow
      · rfl
    exact ⟨by simp only [searchRow, if_neg hrow], Or.inl hrow'⟩

/-- Outcome of the whole search from a state `s` that satisfies the loop facts. Without a
found zero the facts still hold, the cost matrix and the stars are as in `s`, and either
nothing was changed and no uncovered zero exists, or more rows are covered than before. With
a found zero, the state is a state satisfying the loop facts in which the found cell has just
been primed. -/
theorem search_spec {n : Nat} {C : Matrix Int} {s : State} (h : Inv n C s) :
    ((search n s).2 = none ∧ Inv n C (search n s).1 ∧
      starredColumns n (search n s).1.zeroMarkMatrix = starredColumns n s.zeroMarkMatrix ∧
      (((search n s).1 = s ∧ ¬ HasUncoveredZero n s) ∨
        (coveredRows n s.isRowCurrentlyCovered).card <
          (coveredRows n (search n s).1.isRowCurrentlyCovered).card)) ∨
    (∃ s0 r0 c0, (search n s).2 = some (r0, c0) ∧ Inv n C s0 ∧ AugStart n s0 r0 c0 ∧
      (search n s).1 = { s0 with zeroMarkMatrix := s0.zeroMarkMatrix.set r0 c0 2 } ∧
      starredColumns n s0.zeroMarkMatrix = starredColumns n s.zeroMarkMatrix) := by
  have key := foldl_range_rule
    (fun k (acc : State × Option (Nat × Nat)) =>
      (acc.2 = none ∧ Inv n C acc.1 ∧
        starredColumns n acc.1.zeroMarkMatrix = starredColumns n s.zeroMarkMatrix ∧
        ((acc.1 = s ∧ ∀ r c, r < k → c < n →
            ¬ (s.isRowCurrentlyCovered.getD r false = false ∧
              s.isColumnCurrentlyCovered.getD c false = false ∧ s.costMatrix.get r c = 0)) ∨
          (coveredRows n s.isRowCurrentlyCovered).card <
            (coveredRows n acc.1.isRowCurrentlyCovered).card)) ∨
      (∃ s0 r0 c0, acc.2 = some (r0, c0) ∧ Inv n C s0 ∧ AugStart n s0 r0 c0 ∧
        acc.1 = { s0 with zeroMarkMatrix := s0.zeroMarkMatrix.set r0 c0 2 } ∧
        starredColumns n s0.zeroMarkMatrix = starredColumns n s.zeroMarkMatrix))
    (fun acc currentRow =>
      match acc.2 with
      | some _ => acc
      | none => searchRow n acc.1 currentRow)
    (s, none) n
    (Or.inl ⟨rfl, h, rfl, Or.inl ⟨rfl, by intro r c hr; omega⟩⟩)
    (by
      rintro k hk ⟨a, found⟩ hacc
      rcases hacc with ⟨hnone, hinv, hstars, hprog⟩ | ⟨s0, r0, c0, hsome, hinv, haug, hst, hstars⟩
      · simp only at hnone hinv hstars hprog
        subst hnone
        simp only
        rcases searchRow_cases hinv hk with ⟨e, hno⟩ | ⟨c, j, hc, hj, hrow, hcol, hzero, hstar, e⟩ |
            ⟨c, haug, e⟩
        · rw [e]
          left
          refine ⟨rfl, hinv, hstars, ?_⟩
          rcases hprog with ⟨hs, hnz⟩ | hlt
          · left
            refine ⟨hs, ?_⟩
            intro r c hr hc
            by_cases e' : r = k
            · subst e'
              subst hs
              rintro ⟨q1, q2, q3⟩
              rcases hno with hno | hno
              · rw [q1] at hno; exact Bool.noConfusion hno
              · exact hno c hc ⟨q3, q2⟩
            · exact hnz r c (by omega) hc
          · exact Or.inr hlt
        · rw [e]
          left
          have hinv' := detour_inv hinv hk hc hj hrow hcol hzero hstar
          refine ⟨rfl, hinv', ?_, Or.inr ?_⟩
          · rw [← hstars]
            apply starredColumns_congr
            intro r' c' hr' hc'
            show (a.zeroMarkMatrix.set k c 2).get r' c' = 1 ↔ _
            rw [get_set hinv.marks_square hk hc hc' 2]
            by_cases e3 : k = r' ∧ c = c'
            · obtain ⟨e4, e5⟩ := e3; subst e4; subst e5
              have := hinv.uncovered_not_star hk hc hrow hcol
              simp [this]
            · simp [e3]
          · show _ < (coveredRows n (a.isRowCurrentlyCovered.set k true)).card
            rw [coveredRows_set_true _ hinv.rows_length hk,
              Finset.card_insert_of_not_mem (by
                unfold coveredRows
                simp only [Finset.mem_filter, Finset.mem_range, not_and]
                intro _
                rw [hrow]
                exact Bool.noConfusion)]
            rcases hprog with ⟨hs, _⟩ | hlt
            · rw [hs]; omega
            · omega
        · rw [e]
          right
          exact ⟨a, k, c, rfl, hinv, haug, rfl, hstars⟩
      · simp only at hsome hst
        subst hsome
        simp only
        right
        exact ⟨s0, r0, c0, rfl, hinv, haug, hst, hstars⟩)
  unfold search
  rcases key with ⟨hnone, hinv, hstars, hprog⟩ | hsome
  · left
    refine ⟨hnone, hinv, hstars, ?_⟩
    rcases hprog with ⟨hs, hnz⟩ | hlt
    · left
      refine ⟨hs, ?_⟩
      rintro ⟨r, c, hr, hc, q1, q2, q3⟩
      exact hnz r c hr hc ⟨q1, q2, q3⟩
    · exact Or.inr hlt
  · exact Or.inr hsome

/-! ## The adjustment step -/

/-- With fewer than `n` starred columns, some row holds no starred zero. -/
theorem Inv.exists_unstarred_row {n : Nat} {C : Matrix Int} {s : State} (h : Inv n C s)
    (hlt : (starredColumns n s.zeroMarkMatrix).card < n) :
    ∃ r, r < n ∧ ∀ c, c < n → s.zeroMarkMatrix.get r c ≠ 1 := by
  by_contra hcon
  have hall : ∀ r, ∃ c, r < n → c < n ∧ s.zeroMarkMatrix.get r c = 1 := by
    intro r
    by_cases hr : r < n
    · by_contra hno
      apply hcon
      refine ⟨r, hr, ?_⟩
      intro c hc hs
      exact hno ⟨c, fun _ => ⟨hc, hs⟩⟩
    · exact ⟨0, fun h' => absurd h' hr⟩
  choose f hf using hall
  have hle : (Finset.range n).card ≤ (starredColumns n s.zeroMarkMatrix).card := by
    apply Finset.card_le_card_of_injOn f
    · intro r hr
      have hr' := Finset.mem_range.mp hr
      unfold starredColumns
      simp only [Finset.mem_filter, Finset.mem_range]
      exact ⟨(hf r hr').1, r, hr', (hf r hr').2⟩
    · intro r1 h1 r2 h2 e
      have h1' : r1 < n := Finset.mem_range.mp h1
      have h2' : r2 < n := Finset.mem_range.mp h2
      have s1 := (hf r1 h1').2
      have s2 := (hf r2 h2').2
      rw [e] at s1
      exact h.star_col_unique r1 r2 (f r2) h1' h2' (hf r2 h2').1 s1 s2
  rw [Finset.card_range] at hle
  omega

/-- With fewer than `n` starred columns, some column is uncovered. -/
theorem Inv.exists_uncovered_column {n : Nat} {C : Matrix Int} {s : State} (h : Inv n C s)
    (hlt : (starredColumns n s.zeroMarkMatrix).card < n) :
    ∃ c, c < n ∧ s.isColumnCurrentlyCovered.getD c false = false := by
  by_contra hcon
  have hle : (Finset.range n).card ≤ (starredColumns n s.zeroMarkMatrix).card := by
    apply Finset.card_le_card
    intro c hc
    have hc' := Finset.mem_range.mp hc
    unfold starredColumns
    simp only [Finset.mem_filter, Finset.mem_range]
    refine ⟨hc', h.col_cover_star c hc' ?_⟩
    cases hb : s.isColumnCurrentlyCovered.getD c false
    · exact absurd ⟨c, hc', hb⟩ hcon
    · rfl
  rw [Finset.card_range] at hle
  omega

/-- In the adjustment branch the computed value is the value of an uncovered cell, it is a
lower bound of all uncovered cells, and it is not negative. -/
theorem smallestUncoveredValue_attained {n : Nat} {C : Matrix Int} {s : State} (h : Inv n C s)
    (hlt : (starredColumns n s.zeroMarkMatrix).card < n) :
    0 ≤ smallestUncoveredValue n s ∧
      (∀ r c, r < n → c < n → s.isRowCurrentlyCovered.getD r false = false →
        s.isColumnCurrentlyCovered.getD c false = false →
        smallestUncoveredValue n s ≤ s.costMatrix.get r c) ∧
      ∃ r c, r < n ∧ c < n ∧ s.isRowCurrentlyCovered.getD r false = false ∧
        s.isColumnCurrentlyCovered.getD c false = false ∧
        smallestUncoveredValue n s = s.costMatrix.get r c := by
  obtain ⟨h1, h2, h3⟩ := smallestUncoveredValue_spec n s
  obtain ⟨r0, hr0, hno⟩ := h.exists_unstarred_row hlt
  obtain ⟨c0, hc0, hcol⟩ := h.exists_uncovered_column hlt
  have hrow : s.isRowCurrentlyCovered.getD r0 false = false := by
    cases hb : s.isRowCurrentlyCovered.getD r0 false
    · rfl
    · obtain ⟨c, hc, hs⟩ := h.row_cover_star r0 hr0 hb
      exact absurd hs (hno c hc)
  have hatt : ∃ r c, r < n ∧ c < n ∧ s.isRowCurrentlyCovered.getD r false = false ∧
      s.isColumnCurrentlyCovered.getD c false = false ∧
      smallestUncoveredValue n s = s.costMatrix.get r c := by
    rcases h3 with h3 | h3
    · refine ⟨r0, c0, hr0, hc0, hrow, hcol, ?_⟩
      have a1 := h2 r0 c0 hr0 hc0 hrow hcol
      have a2 := h.bound r0 hr0 hno c0 hc0
      omega
    · exact h3
  refine ⟨?_, h2, hatt⟩
  obtain ⟨r, c, hr, hc, _, _, e⟩ := hatt
  rw [e]
  exact h.cost_nonneg r c hr hc

/-- The adjustment branch keeps the loop facts, leaves marks and covers alone, and produces an
uncovered zero. -/
theorem adjust_inv {n : Nat} {C : Matrix Int} {s : State} (h : Inv n C s)
    (hlt : (starredColumns n s.zeroMarkMatrix).card < n) :
    Inv n C (adjust n s) ∧ HasUncoveredZero n (adjust n s) := by
  obtain ⟨d0, dle, r1, c1, hr1, hc1, hrow1, hcol1, datt⟩ := smallestUncoveredValue_attained h hlt
  obtain ⟨asq, aget⟩ := adjustMatrix_spec s (smallestUncoveredValue n s) h.cost_square
  have bcase : ∀ b : Bool, b = true ∨ b = false := fun b => by cases b <;> simp
  constructor
  · obtain ⟨u, v, huv⟩ := h.potentials
    exact {
      cost_square := asq
      marks_square := h.marks_square
      rows_length := h.rows_length
      cols_length := h.cols_length
      cost_nonneg := fun r c hr hc => by
        show 0 ≤ (adjustMatrix n s (smallestUncoveredValue n s)).get r c
        rw [aget r c hr hc]
        have h0 := h.cost_nonneg r c hr hc
        rcases bcase (s.isRowCurrentlyCovered.getD r false) with e1 | e1 <;>
          rcases bcase (s.isColumnCurrentlyCovered.getD c false) with e2 | e2
        · simp only [e1, e2]; simp; omega
        · simp only [e1, e2]; simp; omega
        · simp only [e1, e2]; simp; omega
        · have := dle r c hr hc e1 e2
          simp only [e1, e2]; simp; omega
      marks_range := h.marks_range
      marked_zero := fun r c hr hc hne => by
        show (adjustMatrix n s (smallestUncoveredValue n s)).get r c = 0
        rw [aget r c hr hc, h.marked_zero r c hr hc hne]
        rcases h.marks_range r c hr hc with e | e | e
        · exact absurd e hne
        · have hsc := h.star_cover r c hr hc e
          rcases bcase (s.isRowCurrentlyCovered.getD r false) with e1 | e1
          · have e2 := hsc.mp e1
            simp only [e1, e2]; simp
          · have e2 : s.isColumnCurrentlyCovered.getD c false = true := by
              rcases bcase (s.isColumnCurrentlyCovered.getD c false) with e2 | e2
              · exact e2
              · have := hsc.mpr e2; rw [e1] at this; exact Bool.noConfusion this
            simp only [e1, e2]; simp
        · obtain ⟨e1, e2⟩ := h.prime_cover r c hr hc e
          simp only [e1, e2]; simp
      star_row_unique := h.star_row_unique
      star_col_unique := h.star_col_unique
      star_cover := h.star_cover
      col_cover_star := h.col_cover_star
      row_cover_star := h.row_cover_star
      row_cover_prime := h.row_cover_prime
      prime_cover := h.prime_cover
      prime_row_unique := h.prime_row_unique
      rank := h.rank
      potentials := by
        refine ⟨fun r => u r - (if s.isRowCurrentlyCovered.getD r false = true then
            smallestUncoveredValue n s else 0),
          fun c => v c + (if s.isColumnCurrentlyCovered.getD c false = false then
            smallestUncoveredValue n s else 0), ?_⟩
        intro r c hr hc
        show (adjustMatrix n s (smallestUncoveredValue n s)).get r c = _
        rw [aget r c hr hc, huv r c hr hc]
        ring
      bound := fun r hr hno c hc => by
        show (adjustMatrix n s (smallestUncoveredValue n s)).get r c ≤ INT_MAX
        rw [aget r c hr hc]
        have hb := h.bound r hr hno c hc
        have hrow : s.isRowCurrentlyCovered.getD r false = false := by
          rcases bcase (s.isRowCurrentlyCovered.getD r false) with e1 | e1
          · obtain ⟨c', hc', hs⟩ := h.row_cover_star r hr e1
            exact absurd hs (hno c' hc')
          · exact e1
        rcases bcase (s.isColumnCurrentlyCovered.getD c false) with e2 | e2
        · simp only [hrow, e2]; simp; omega
        · simp only [hrow, e2]; simp; omega
      count := h.count }
  · refine ⟨r1, c1, hr1, hc1, hrow1, hcol1, ?_⟩
    show (adjustMatrix n s (smallestUncoveredValue n s)).get r1 c1 = 0
    rw [aget r1 c1 hr1 hc1]
    simp only [hrow1, hcol1]
    simp
    omega

/-! ## Building the alternating path -/

theorem nodup_length_le {n : Nat} {rows : List Nat} (hnd : rows.Nodup)
    (hlt : ∀ r ∈ rows, r < n) : rows.length ≤ n := by
  have hsub : rows.toFinset ⊆ Finset.range n := by
    intro r hr
    exact Finset.mem_range.mpr (hlt r (List.mem_toFinset.mp hr))
  have := Finset.card_le_card hsub
  rw [List.toFinset_card_of_nodup hnd, Finset.card_range] at this
  exact this

/-- The path-building loop succeeds within `n` passes, and the completed path is alternating
and ends in a primed zero whose column holds no starred zero. -/
theorem buildPath_spec {n : Nat} {M : Matrix Int} {r0 : Nat} (hM : PathReady n M r0)
    (rank : Nat → Nat)
    (hrank : ∀ r c r', r < n → c < n → r' < n → M.get r c = 2 → M.get r' c = 1 →
      rank r' < rank r) :
    ∀ (fuel : Nat) (path : List (Nat × Nat)) (last : Nat × Nat) (rows : List Nat),
      GoodPath n M r0 path last → PathRows n rank path last rows →
      n + 1 ≤ fuel + rows.length →
      ∃ path' last', buildPath M n fuel path = Except.ok path' ∧ GoodPath n M r0 path' last' ∧
        ∀ r, r < n → M.get r last'.2 ≠ 1 := by
  intro fuel
  induction fuel with
  | zero =>
    intro path last rows _ hR hfuel
    have := nodup_length_le hR.rows_nodup hR.rows_lt
    omega
  | succ fuel ih =>
    intro path last rows hG hR hfuel
    obtain ⟨hl1, hl2, _⟩ := hG.cells last hG.last_mem
    unfold buildPath
    rw [hR.last_eq]
    simp only
    cases hfind : (List.range n).find? (fun row => decide (M.get row last.2 = 1)) with
    | none =>
      refine ⟨path, last, rfl, hG, ?_⟩
      intro r hr hs
      have := List.find?_eq_none.mp hfind r (List.mem_range.mpr hr)
      simp only [decide_eq_true_eq] at this
      exact this hs
    | some r' =>
      have hr' : r' < n := List.mem_range.mp (List.mem_of_find?_eq_some hfind)
      have hs := List.find?_some hfind
      simp only [decide_eq_true_eq] at hs
      obtain ⟨cp, hcp, hpp⟩ := hM.prime_of_star last.1 last.2 r' hl1 hl2 hr' hG.last_prime hs
      cases hfind2 : (List.range n).find? (fun col => decide (M.get r' col = 2)) with
      | none =>
        have := List.find?_eq_none.mp hfind2 cp (List.mem_range.mpr hcp)
        simp only [decide_eq_true_eq] at this
        exact absurd hpp this
      | some c' =>
        have hc' : c' < n := List.mem_range.mp (List.mem_of_find?_eq_some hfind2)
        have hp := List.find?_some hfind2
        simp only [decide_eq_true_eq] at hp
        simp only
        have hrk : rank r' < rank last.1 := hrank last.1 last.2 r' hl1 hl2 hr' hG.last_prime hs
        have hnotrow : r' ∉ rows := fun hmem => by
          have := hR.rows_rank r' hmem
          omega
        have hnotpath : ∀ x ∈ path, x.1 ≠ r' := fun x hx e =>
          hnotrow (e ▸ hR.rows_mem x hx)
        have hmem : ∀ x, x ∈ path ++ [(r', last.2), (r', c')] ↔
            x ∈ path ∨ x = (r', last.2) ∨ x = (r', c') := by
          intro x; simp
        have hab : (r', last.2) ≠ (r', c') := by
          intro e
          have : last.2 = c' := (Prod.mk.inj e).2
          rw [this] at hs
          omega
        rw [hfind2]
        apply ih (path ++ [(r', last.2), (r', c')]) (r', c') (r' :: rows)
        · exact {
            last_mem := (hmem _).mpr (Or.inr (Or.inr rfl))
            last_prime := hp
            nodup := by
              rw [List.nodup_append]
              refine ⟨hG.nodup, ?_, ?_⟩
              · simp [hab]
              · intro x hx hx'
                simp only [List.mem_cons, List.mem_singleton, List.not_mem_nil, or_false] at hx'
                rcases hx' with e | e
                · exact hnotpath x hx (by rw [e])
                · exact hnotpath x hx (by rw [e])
            cells := fun x hx => by
              rcases (hmem x).mp hx with h | h | h
              · exact hG.cells x h
              · subst h; exact ⟨hr', hl2, Or.inl hs⟩
              · subst h; exact ⟨hr', hc', Or.inr hp⟩
            star_row_prime := fun x hx hsx => by
              rcases (hmem x).mp hx with h | h | h
              · obtain ⟨c2, h1, h2⟩ := hG.star_row_prime x h hsx
                exact ⟨c2, (hmem _).mpr (Or.inl h1), h2⟩
              · subst h; exact ⟨c', (hmem _).mpr (Or.inr (Or.inr rfl)), hp⟩
              · subst h; simp only at hsx; omega
            prime_col_star := fun x hx hpx hne => by
              rcases (hmem x).mp hx with h | h | h
              · by_cases e : x = last
                · subst e
                  exact ⟨r', (hmem _).mpr (Or.inr (Or.inl rfl)), hs⟩
                · obtain ⟨r2, h1, h2⟩ := hG.prime_col_star x h hpx e
                  exact ⟨r2, (hmem _).mpr (Or.inl h1), h2⟩
              · subst h; simp only at hpx; omega
              · exact absurd h hne
            star_col_prime := fun x hx hsx => by
              rcases (hmem x).mp hx with h | h | h
              · obtain ⟨r2, h1, h2⟩ := hG.star_col_prime x h hsx
                exact ⟨r2, (hmem _).mpr (Or.inl h1), h2⟩
              · subst h
                exact ⟨last.1, (hmem _).mpr (Or.inl hG.last_mem), hG.last_prime⟩
              · subst h; simp only at hsx; omega
            prime_row_star := fun x hx hpx => by
              rcases (hmem x).mp hx with h | h | h
              · rcases hG.prime_row_star x h hpx with e | ⟨c2, h1, h2⟩
                · exact Or.inl e
                · exact Or.inr ⟨c2, (hmem _).mpr (Or.inl h1), h2⟩
              · subst h; simp only at hpx; omega
              · subst h
                exact Or.inr ⟨last.2, (hmem _).mpr (Or.inr (Or.inl rfl)), hs⟩
            prime_col_unique := by
              have newold : ∀ y ∈ path, M.get y.1 y.2 = 2 → c' = y.2 → False := by
                intro y hy hpy e
                by_cases el : y = last
                · subst el
                  rw [← e] at hs
                  omega
                · obtain ⟨r2, h1, h2⟩ := hG.prime_col_star y hy hpy el
                  have hr2 : r2 < n := (hG.cells _ h1).1
                  have k1 : rank r2 < rank r' := by
                    apply hrank r' c' r2 hr' hc' hr2 hp
                    rw [e]; exact h2
                  have k2 := hR.rows_rank r2 (hR.rows_mem _ h1)
                  omega
              intro x hx y hy hpx hpy e
              rcases (hmem x).mp hx with h | h | h
              · rcases (hmem y).mp hy with h' | h' | h'
                · exact hG.prime_col_unique x h y h' hpx hpy e
                · subst h'; simp only at hpy; omega
                · subst h'
                  exact absurd e.symm (fun e' => newold x h hpx e')
              · subst h; simp only at hpx; omega
              · rcases (hmem y).mp hy with h' | h' | h'
                · subst h
                  exact absurd e (fun e' => newold y h' hpy e')
                · subst h'; simp only at hpy; omega
                · rw [h, h'] }
        · exact {
            last_eq := by
              have : path ++ [(r', last.2), (r', c')] = (path ++ [(r', last.2)]) ++ [(r', c')] := by
                simp
              rw [this, List.getLast?_concat]
            rows_nodup := List.nodup_cons.mpr ⟨hnotrow, hR.rows_nodup⟩
            rows_lt := fun r hr => by
              rcases List.mem_cons.mp hr with e | e
              · rw [e]; exact hr'
              · exact hR.rows_lt r e
            rows_mem := fun x hx => by
              rcases (hmem x).mp hx with h | h | h
              · exact List.mem_cons_of_mem _ (hR.rows_mem x h)
              · subst h; exact List.mem_cons_self _ _
              · subst h; exact List.mem_cons_self _ _
            rows_rank := fun r hr => by
              rcases List.mem_cons.mp hr with e | e
              · rw [e]
              · have := hR.rows_rank r e
                show rank r' ≤ rank r
                omega }
        · simp only [List.length_cons]
          omega

/-! ## Flipping the path and clearing the primes -/

theorem flipCell_spec {n : Nat} {M : Matrix Int} (hM : Square n M) {x : Nat × Nat}
    (hx1 : x.1 < n) (hx2 : x.2 < n) :
    Square n (flipCell M x) ∧ ∀ r c, r < n → c < n →
      (flipCell M x).get r c =
        if (r, c) = x then
          (if M.get r c = 1 then 0 else if M.get r c = 2 then 1 else M.get r c)
        else M.get r c := by
  unfold flipCell
  by_cases h1 : M.get x.1 x.2 = 1
  · rw [if_pos h1]
    refine ⟨hM.set _ _ _, ?_⟩
    intro r c hr hc
    rw [get_set hM hx1 hx2 hc]
    by_cases e : (r, c) = x
    · subst e; simp at h1 ⊢; simp [h1]
    · have e' : ¬ (x.1 = r ∧ x.2 = c) := fun h => e (by rw [← h.1, ← h.2])
      rw [if_neg e', if_neg e]
  · rw [if_neg h1]
    by_cases h2 : M.get x.1 x.2 = 2
    · rw [if_pos h2]
      refine ⟨hM.set _ _ _, ?_⟩
      intro r c hr hc
      rw [get_set hM hx1 hx2 hc]
      by_cases e : (r, c) = x
      · subst e; simp at h1 h2 ⊢; simp [h2]
      · have e' : ¬ (x.1 = r ∧ x.2 = c) := fun h => e (by rw [← h.1, ← h.2])
        rw [if_neg e', if_neg e]
    · rw [if_neg h2]
      refine ⟨hM, ?_⟩
      intro r c hr hc
      by_cases e : (r, c) = x
      · subst e; simp at h1 h2 ⊢; simp [h1, h2]
      · rw [if_neg e]

/-- Flipping along a path without repeated cells changes exactly the cells of the path, each
according to its mark before the flip. -/
theorem flipPath_spec {n : Nat} :
    ∀ (path : List (Nat × Nat)) (M : Matrix Int), Square n M → path.Nodup →
      (∀ x ∈ path, x.1 < n ∧ x.2 < n) →
      Square n (flipPath M path) ∧ ∀ r c, r < n → c < n →
        (flipPath M path).get r c =
          if (r, c) ∈ path then
            (if M.get r c = 1 then 0 else if M.get r c = 2 then 1 else M.get r c)
          else M.get r c := by
  intro path
  induction path with
  | nil =>
    intro M hM _ _
    exact ⟨hM, by intro r c _ _; simp [flipPath]⟩
  | cons x t ih =>
    intro M hM hnd hin
    obtain ⟨hx1, hx2⟩ := hin x (List.mem_cons_self _ _)
    obtain ⟨f1, f2⟩ := flipCell_spec hM hx1 hx2
    have hnd' := List.nodup_cons.mp hnd
    obtain ⟨i1, i2⟩ := ih (flipCell M x) f1 hnd'.2 (fun y hy => hin y (List.mem_cons_of_mem _ hy))
    have e0 : flipPath M (x :: t) = flipPath (flipCell M x) t := rfl
    rw [e0]
    refine ⟨i1, ?_⟩
    intro r c hr hc
    rw [i2 r c hr hc, f2 r c hr hc]
    by_cases e : (r, c) = x
    · have hnt : (r, c) ∉ t := e ▸ hnd'.1
      have hin' : (r, c) ∈ x :: t := by rw [e]; exact List.mem_cons_self _ _
      simp only [if_neg hnt, if_pos e, if_pos hin']
    · by_cases ht : (r, c) ∈ t
      · have hin' : (r, c) ∈ x :: t := List.mem_cons_of_mem _ ht
        simp only [if_pos ht, if_neg e, if_pos hin']
      · have hin' : (r, c) ∉ x :: t := by
          intro hmem
          rcases List.mem_cons.mp hmem with h | h
          · exact e h
          · exact ht h
        simp only [if_neg ht, if_neg e, if_neg hin']

/-- The mark grid after flip and clearing: a cell is starred exactly if it is a primed cell of
the path or a starred cell off the path; no other mark remains. -/
theorem newMarks_spec {n : Nat} {M : Matrix Int} {r0 : Nat} {path : List (Nat × Nat)}
    {last : Nat × Nat} (hM : Square n M) (hG : GoodPath n M r0 path last)
    (hrange : ∀ r c, r < n → c < n → M.get r c = 0 ∨ M.get r c = 1 ∨ M.get r c = 2) :
    Square n (clearPrimes (flipPath M path) n) ∧
      (∀ r c, r < n → c < n → (clearPrimes (flipPath M path) n).get r c = 0 ∨
        (clearPrimes (flipPath M path) n).get r c = 1) ∧
      (∀ r c, r < n → c < n → ((clearPrimes (flipPath M path) n).get r c = 1 ↔
        (((r, c) ∈ path ∧ M.get r c = 2) ∨ ((r, c) ∉ path ∧ M.get r c = 1)))) := by
  obtain ⟨f1, f2⟩ := flipPath_spec path M hM hG.nodup
    (fun x hx => ⟨(hG.cells x hx).1, (hG.cells x hx).2.1⟩)
  obtain ⟨c1, c2⟩ := clearPrimes_spec f1
  have val : ∀ r c, r < n → c < n → (clearPrimes (flipPath M path) n).get r c =
      if (r, c) ∈ path then (if M.get r c = 2 then 1 else 0)
      else (if M.get r c = 1 then 1 else 0) := by
    intro r c hr hc
    rw [c2 r c hr hc, f2 r c hr hc]
    by_cases hp : (r, c) ∈ path
    · rw [if_pos hp, if_pos hp]
      rcases (hG.cells (r, c) hp).2.2 with e | e
      · simp only at e; simp [e]
      · simp only at e; simp [e]
    · rw [if_neg hp, if_neg hp]
      rcases hrange r c hr hc with e | e | e <;> simp [e]
  refine ⟨c1, ?_, ?_⟩
  · intro r c hr hc
    rw [val r c hr hc]
    split_ifs <;> simp
  · intro r c hr hc
    rw [val r c hr hc]
    by_cases hp : (r, c) ∈ path
    · rw [if_pos hp]
      by_cases e : M.get r c = 2
      · simp [hp, e]
      · simp [hp, e]
    · rw [if_neg hp]
      by_cases e : M.get r c = 1
      · simp [hp, e]
      · simp [hp, e]

/-- The starred cells after an augmentation, read off the completed path: they are again at
most one per row and per column, the starred columns are the old ones together with the
column of the last path cell, and every row that held a starred zero still holds one. -/
theorem augmented_stars {n : Nat} {M M' : Matrix Int} {r0 : Nat} {path : List (Nat × Nat)}
    {last : Nat × Nat} (hM : PathReady n M r0) (hG : GoodPath n M r0 path last)
    (hfree : ∀ r, r < n → M.get r last.2 ≠ 1)
    (hstar : ∀ r c, r < n → c < n → (M'.get r c = 1 ↔
      (((r, c) ∈ path ∧ M.get r c = 2) ∨ ((r, c) ∉ path ∧ M.get r c = 1)))) :
    (∀ r c c', r < n → c < n → c' < n → M'.get r c = 1 → M'.get r c' = 1 → c = c') ∧
      (∀ r r' c, r < n → r' < n → c < n → M'.get r c = 1 → M'.get r' c = 1 → r = r') ∧
      (∀ c, c < n → ((∃ r, r < n ∧ M'.get r c = 1) ↔
        ((∃ r, r < n ∧ M.get r c = 1) ∨ c = last.2))) ∧
      (∀ r c, r < n → c < n → M.get r c = 1 → ∃ c', c' < n ∧ M'.get r c' = 1) := by
  have rowmix : ∀ r c c', r < n → c < n → c' < n → (r, c) ∈ path → M.get r c = 2 →
      (r, c') ∉ path → M.get r c' = 1 → False := by
    intro r c c' hr hc hc' hp hpr hnp hs
    rcases hG.prime_row_star (r, c) hp hpr with e | ⟨c2, h1, h2⟩
    · simp only at e
      subst e
      exact hM.no_star c' hc' hs
    · simp only at h1 h2
      have hc2 : c2 < n := (hG.cells _ h1).2.1
      have : c2 = c' := hM.star_row_unique r c2 c' hr hc2 hc' h2 hs
      subst this
      exact hnp h1
  have colmix : ∀ r r' c, r < n → r' < n → c < n → (r, c) ∈ path → M.get r c = 2 →
      (r', c) ∉ path → M.get r' c = 1 → False := by
    intro r r' c hr hr' hc hp hpr hnp hs
    by_cases el : (r, c) = last
    · have : c = last.2 := by rw [← el]
      rw [this] at hs
      exact hfree r' hr' hs
    · obtain ⟨r2, h1, h2⟩ := hG.prime_col_star (r, c) hp hpr el
      simp only at h1 h2
      have hr2 : r2 < n := (hG.cells _ h1).1
      have : r2 = r' := hM.star_col_unique r2 r' c hr2 hr' hc h2 hs
      subst this
      exact hnp h1
  refine ⟨?_, ?_, ?_, ?_⟩
  · intro r c c' hr hc hc' h1 h2
    rcases (hstar r c hr hc).mp h1 with ⟨p1, q1⟩ | ⟨p1, q1⟩ <;>
      rcases (hstar r c' hr hc').mp h2 with ⟨p2, q2⟩ | ⟨p2, q2⟩
    · exact hM.prime_row_unique r c c' hr hc hc' q1 q2
    · exact (rowmix r c c' hr hc hc' p1 q1 p2 q2).elim
    · exact (rowmix r c' c hr hc' hc p2 q2 p1 q1).elim
    · exact hM.star_row_unique r c c' hr hc hc' q1 q2
  · intro r r' c hr hr' hc h1 h2
    rcases (hstar r c hr hc).mp h1 with ⟨p1, q1⟩ | ⟨p1, q1⟩ <;>
      rcases (hstar r' c hr' hc).mp h2 with ⟨p2, q2⟩ | ⟨p2, q2⟩
    · have := hG.prime_col_unique (r, c) p1 (r', c) p2 q1 q2 rfl
      exact (Prod.mk.inj this).1
    · exact (colmix r r' c hr hr' hc p1 q1 p2 q2).elim
    · exact (colmix r' r c hr' hr hc p2 q2 p1 q1).elim
    · exact hM.star_col_unique r r' c hr hr' hc q1 q2
  · intro c hc
    constructor
    · rintro ⟨r, hr, h1⟩
      rcases (hstar r c hr hc).mp h1 with ⟨p1, q1⟩ | ⟨_, q1⟩
      · by_cases el : (r, c) = last
        · right; rw [← el]
        · obtain ⟨r2, h1, h2⟩ := hG.prime_col_star (r, c) p1 q1 el
          exact Or.inl ⟨r2, (hG.cells _ h1).1, h2⟩
      · exact Or.inl ⟨r, hr, q1⟩
    · rintro (⟨r, hr, hs⟩ | e)
      · by_cases hp : (r, c) ∈ path
        · obtain ⟨r2, h1, h2⟩ := hG.star_col_prime (r, c) hp hs
          simp only at h1 h2
          have hr2 : r2 < n := (hG.cells _ h1).1
          exact ⟨r2, hr2, (hstar r2 c hr2 hc).mpr (Or.inl ⟨h1, h2⟩)⟩
        · exact ⟨r, hr, (hstar r c hr hc).mpr (Or.inr ⟨hp, hs⟩)⟩
      · subst e
        have hl := hG.cells last hG.last_mem
        exact ⟨last.1, hl.1, (hstar last.1 last.2 hl.1 hl.2.1).mpr
          (Or.inl ⟨hG.last_mem, hG.last_prime⟩)⟩
  · intro r c hr hc hs
    by_cases hp : (r, c) ∈ path
    · obtain ⟨c2, h1, h2⟩ := hG.star_row_prime (r, c) hp hs
      simp only at h1 h2
      have hc2 : c2 < n := (hG.cells _ h1).2.1
      exact ⟨c2, hc2, (hstar r c2 hr hc2).mpr (Or.inl ⟨h1, h2⟩)⟩
    · exact ⟨c, hc, (hstar r c hr hc).mpr (Or.inr ⟨hp, hs⟩)⟩

/-- The mark grid with the freshly primed zero satisfies what the path-building loop needs. -/
theorem pathReady_of_augStart {n : Nat} {C : Matrix Int} {s : State} (h : Inv n C s)
    {r0 c0 : Nat} (ha : AugStart n s r0 c0) :
    PathReady n (s.zeroMarkMatrix.set r0 c0 2) r0 ∧
      (∀ r c, r < n → c < n →
        ((s.zeroMarkMatrix.set r0 c0 2).get r c = 1 ↔ s.zeroMarkMatrix.get r c = 1)) ∧
      (∀ r c, r < n → c < n →
        ((s.zeroMarkMatrix.set r0 c0 2).get r c = 2 ↔
          ((r0 = r ∧ c0 = c) ∨ s.zeroMarkMatrix.get r c = 2))) := by
  have hr := ha.row_lt
  have hc := ha.col_lt
  have hg : ∀ r' c', r' < n → c' < n →
      (s.zeroMarkMatrix.set r0 c0 2).get r' c' =
        if r0 = r' ∧ c0 = c' then 2 else s.zeroMarkMatrix.get r' c' :=
    fun r' c' _ hc' => get_set h.marks_square hr hc hc' 2
  have star_iff : ∀ r' c', r' < n → c' < n →
      ((s.zeroMarkMatrix.set r0 c0 2).get r' c' = 1 ↔ s.zeroMarkMatrix.get r' c' = 1) := by
    intro r' c' hr' hc'
    rw [hg r' c' hr' hc']
    by_cases e : r0 = r' ∧ c0 = c'
    · obtain ⟨e1, e2⟩ := e; subst e1; subst e2
      simp [ha.no_star c0 hc]
    · simp [e]
  have prime_iff : ∀ r' c', r' < n → c' < n →
      ((s.zeroMarkMatrix.set r0 c0 2).get r' c' = 2 ↔
        ((r0 = r' ∧ c0 = c') ∨ s.zeroMarkMatrix.get r' c' = 2)) := by
    intro r' c' hr' hc'
    rw [hg r' c' hr' hc']
    by_cases e : r0 = r' ∧ c0 = c'
    · simp [e]
    · simp [e]
  have old_none : ∀ c', c' < n → s.zeroMarkMatrix.get r0 c' ≠ 2 := by
    intro c' hc' hp
    have := (h.prime_cover r0 c' hr hc' hp).1
    rw [ha.row_uncovered] at this
    exact Bool.noConfusion this
  have col_unc : ∀ r c, r < n → c < n → (s.zeroMarkMatrix.set r0 c0 2).get r c = 2 →
      s.isColumnCurrentlyCovered.getD c false = false := by
    intro r c hr' hc' hp
    rcases (prime_iff r c hr' hc').mp hp with ⟨_, e2⟩ | hp'
    · subst e2; exact ha.col_uncovered
    · exact (h.prime_cover r c hr' hc' hp').2
  obtain ⟨rank, hrank⟩ := h.rank
  refine ⟨?_, star_iff, prime_iff⟩
  exact {
    square := h.marks_square.set _ _ _
    star_row_unique := fun r c c' hr' hc1 hc2 h1 h2 =>
      h.star_row_unique r c c' hr' hc1 hc2 ((star_iff r c hr' hc1).mp h1)
        ((star_iff r c' hr' hc2).mp h2)
    star_col_unique := fun r r' c hr1 hr2 hc' h1 h2 =>
      h.star_col_unique r r' c hr1 hr2 hc' ((star_iff r c hr1 hc').mp h1)
        ((star_iff r' c hr2 hc').mp h2)
    prime_row_unique := fun r c1 c2 hr' hc1 hc2 h1 h2 => by
      rcases (prime_iff r c1 hr' hc1).mp h1 with ⟨e1, e2⟩ | hp1
      · subst e1
        rcases (prime_iff r0 c2 hr' hc2).mp h2 with ⟨_, e4⟩ | hp2
        · omega
        · exact absurd hp2 (old_none c2 hc2)
      · rcases (prime_iff r c2 hr' hc2).mp h2 with ⟨e3, _⟩ | hp2
        · subst e3; exact absurd hp1 (old_none c1 hc1)
        · exact h.prime_row_unique r c1 c2 hr' hc1 hc2 hp1 hp2
    no_star := fun c' hc' hs => ha.no_star c' hc' ((star_iff r0 c' hr hc').mp hs)
    prime_of_star := fun r c r' hr1 hc1 hr2 hp hs => by
      have hs' := (star_iff r' c hr2 hc1).mp hs
      have hcov : s.isRowCurrentlyCovered.getD r' false = true :=
        (h.star_cover r' c hr2 hc1 hs').mpr (col_unc r c hr1 hc1 hp)
      obtain ⟨c', hc', hp'⟩ := h.row_cover_prime r' hr2 hcov
      exact ⟨c', hc', (prime_iff r' c' hr2 hc').mpr (Or.inr hp')⟩
    rank := by
      refine ⟨fun i => if i = r0 then (∑ k in Finset.range n, rank k) + 1 else rank i, ?_⟩
      intro r1 c1 r2 hr1 hc1 hr2 hp hs
      have hs' := (star_iff r2 c1 hr2 hc1).mp hs
      have hle : rank r2 ≤ ∑ k in Finset.range n, rank k :=
        Finset.single_le_sum (f := rank) (fun _ _ => Nat.zero_le _) (Finset.mem_range.mpr hr2)
      have r2cov : s.isRowCurrentlyCovered.getD r2 false = true :=
        (h.star_cover r2 c1 hr2 hc1 hs').mpr (col_unc r1 c1 hr1 hc1 hp)
      have r2ne : r2 ≠ r0 := by
        intro e; subst e
        rw [ha.row_uncovered] at r2cov
        exact Bool.noConfusion r2cov
      simp only [if_neg r2ne]
      rcases (prime_iff r1 c1 hr1 hc1).mp hp with ⟨e1, _⟩ | hp'
      · subst e1
        simp only [if_true]
        omega
      · have r1ne : r1 ≠ r0 := by
          intro e; subst e
          exact old_none c1 hc1 hp'
        simp only [if_neg r1ne]
        exact hrank r1 c1 r2 hr1 hc1 hr2 hp' hs' }

/-- From a freshly primed uncovered zero in a row without starred zero, the path-building loop
succeeds with a budget of `n` passes, and the completed path is alternating and ends in a
column without starred zero. -/
theorem buildPath_from_start {n : Nat} {C : Matrix Int} {s : State} (h : Inv n C s)
    {r0 c0 : Nat} (ha : AugStart n s r0 c0) {fuel : Nat} (hfuel : n ≤ fuel) :
    ∃ path last, buildPath (s.zeroMarkMatrix.set r0 c0 2) n fuel [(r0, c0)] = Except.ok path ∧
      GoodPath n (s.zeroMarkMatrix.set r0 c0 2) r0 path last ∧
      ∀ r, r < n → (s.zeroMarkMatrix.set r0 c0 2).get r last.2 ≠ 1 := by
  obtain ⟨hPR, star_iff, prime_iff⟩ := pathReady_of_augStart h ha
  obtain ⟨rank, hrank⟩ := hPR.rank
  have hr := ha.row_lt
  have hc := ha.col_lt
  have hprime0 : (s.zeroMarkMatrix.set r0 c0 2).get r0 c0 = 2 :=
    (prime_iff r0 c0 hr hc).mpr (Or.inl ⟨rfl, rfl⟩)
  have hG0 : GoodPath n (s.zeroMarkMatrix.set r0 c0 2) r0 [(r0, c0)] (r0, c0) := {
    last_mem := List.mem_singleton.mpr rfl
    last_prime := hprime0
    nodup := List.nodup_singleton _
    cells := fun x hx => by
      rw [List.mem_singleton.mp hx]
      exact ⟨hr, hc, Or.inr hprime0⟩
    star_row_prime := fun x hx hs => by
      rw [List.mem_singleton.mp hx] at hs
      simp only at hs
      omega
    prime_col_star := fun x hx _ hne => absurd (List.mem_singleton.mp hx) hne
    star_col_prime := fun x hx hs => by
      rw [List.mem_singleton.mp hx] at hs
      simp only at hs
      omega
    prime_row_star := fun x hx _ => by
      rw [List.mem_singleton.mp hx]
      exact Or.inl rfl
    prime_col_unique := fun x hx y hy _ _ _ => by
      rw [List.mem_singleton.mp hx, List.mem_singleton.mp hy] }
  have hR0 : PathRows n rank [(r0, c0)] (r0, c0) [r0] := {
    last_eq := rfl
    rows_nodup := List.nodup_singleton _
    rows_lt := fun r hr' => by rw [List.mem_singleton.mp hr']; exact hr
    rows_mem := fun x hx => by
      rw [List.mem_singleton.mp hx]
      exact List.mem_singleton.mpr rfl
    rows_rank := fun r hr' => by rw [List.mem_singleton.mp hr'] }
  exact
    buildPath_spec hPR rank hrank fuel [(r0, c0)] (r0, c0) [r0] hG0 hR0
      (by simp only [List.length_singleton]; omega)

/-- The augmentation branch succeeds with a budget of `n` passes for the path-building loop,
re-establishes the loop facts and adds exactly one starred column. -/
theorem augment_spec {n : Nat} {C : Matrix Int} {s : State} (h : Inv n C s) {r0 c0 : Nat}
    (ha : AugStart n s r0 c0) {fuel : Nat} (hfuel : n ≤ fuel) :
    ∃ s', augment n fuel { s with zeroMarkMatrix := s.zeroMarkMatrix.set r0 c0 2 } (r0, c0) =
        Except.ok s' ∧ Inv n C s' ∧
      (starredColumns n s'.zeroMarkMatrix).card = (starredColumns n s.zeroMarkMatrix).card + 1 := by
  obtain ⟨hPR, star_iff, prime_iff⟩ := pathReady_of_augStart h ha
  obtain ⟨rank, hrank⟩ := hPR.rank
  have hr := ha.row_lt
  have hc := ha.col_lt
  obtain ⟨path, last, hbuild, hG, hfree⟩ := buildPath_from_start h ha hfuel
  have hrange : ∀ r c, r < n → c < n → (s.zeroMarkMatrix.set r0 c0 2).get r c = 0 ∨
      (s.zeroMarkMatrix.set r0 c0 2).get r c = 1 ∨ (s.zeroMarkMatrix.set r0 c0 2).get r c = 2 := by
    intro r c hr' hc'
    rw [get_set h.marks_square hr hc hc' 2]
    by_cases e : r0 = r ∧ c0 = c
    · simp [e]
    · simp only [if_neg e]; exact h.marks_range r c hr' hc'
  obtain ⟨m1, m2, m3⟩ := newMarks_spec hPR.square hG hrange
  obtain ⟨a1, a2, a3, a4⟩ := augmented_stars hPR hG hfree m3
  obtain ⟨r1, r2, r3⟩ := recount_spec
    (clearPrimes (flipPath (s.zeroMarkMatrix.set r0 c0 2) path) n) n
    s.isColumnCurrentlyCovered h.cols_length
  obtain ⟨u1, u2⟩ := uncoverAll_spec s.isRowCurrentlyCovered n
  have noprime : ∀ r c, r < n → c < n →
      (clearPrimes (flipPath (s.zeroMarkMatrix.set r0 c0 2) path) n).get r c ≠ 2 := by
    intro r c hr' hc' h'
    rcases m2 r c hr' hc' with e | e <;> omega
  have rowunc : ∀ r, r < n → ¬ (uncoverAll s.isRowCurrentlyCovered n).getD r false = true := by
    intro r hr' h'
    rw [u2 r hr'] at h'
    exact Bool.noConfusion h'
  simp only [augment, hbuild]
  refine ⟨_, rfl, ?_, ?_⟩
  · exact {
      cost_square := h.cost_square
      marks_square := m1
      rows_length := by show (uncoverAll _ n).length = n; rw [u1]; exact h.rows_length
      cols_length := r1
      cost_nonneg := h.cost_nonneg
      marks_range := fun r c hr' hc' => by
        rcases m2 r c hr' hc' with e | e
        · exact Or.inl e
        · exact Or.inr (Or.inl e)
      marked_zero := fun r c hr' hc' hne => by
        show s.costMatrix.get r c = 0
        have e1 : (clearPrimes (flipPath (s.zeroMarkMatrix.set r0 c0 2) path) n).get r c = 1 := by
          rcases m2 r c hr' hc' with e | e
          · exact absurd e hne
          · exact e
        rcases (m3 r c hr' hc').mp e1 with ⟨_, q⟩ | ⟨_, q⟩
        · rcases (prime_iff r c hr' hc').mp q with ⟨e2, e3⟩ | q'
          · subst e2; subst e3; exact ha.zero
          · exact h.marked_zero r c hr' hc' (by omega)
        · have q' := (star_iff r c hr' hc').mp q
          exact h.marked_zero r c hr' hc' (by omega)
      star_row_unique := a1
      star_col_unique := a2
      star_cover := fun r c hr' hc' hs => by
        constructor
        · intro h'; exact absurd h' (rowunc r hr')
        · intro h'
          have := (r2 c hc').mpr ⟨r, hr', hs⟩
          change (coverStarredColumns _ n (uncoverAll s.isColumnCurrentlyCovered n)).getD c false
            = false at h'
          rw [this] at h'
          exact Bool.noConfusion h'
      col_cover_star := fun c hc' hcov => (r2 c hc').mp hcov
      row_cover_star := fun r hr' hcov => absurd hcov (rowunc r hr')
      row_cover_prime := fun r hr' hcov => absurd hcov (rowunc r hr')
      prime_cover := fun r c hr' hc' hp => absurd hp (noprime r c hr' hc')
      prime_row_unique := fun r c c' hr' hc' _ hp _ => absurd hp (noprime r c hr' hc')
      rank := ⟨fun _ => 0, fun r c r' hr' hc' _ hp _ => absurd hp (noprime r c hr' hc')⟩
      potentials := h.potentials
      bound := fun r hr' hno c hc' => by
        apply h.bound r hr' _ c hc'
        intro c2 hc2 hs
        obtain ⟨c3, hc3, hs3⟩ := a4 r c2 hr' hc2 ((star_iff r c2 hr' hc2).mpr hs)
        exact hno c3 hc3 hs3
      count := r3 }
  · show (starredColumns n (clearPrimes (flipPath (s.zeroMarkMatrix.set r0 c0 2) path) n)).card = _
    have hl := hG.cells last hG.last_mem
    have e1 : starredColumns n (clearPrimes (flipPath (s.zeroMarkMatrix.set r0 c0 2) path) n) =
        insert last.2 (starredColumns n s.zeroMarkMatrix) := by
      ext c
      unfold starredColumns
      simp only [Finset.mem_filter, Finset.mem_range, Finset.mem_insert]
      constructor
      · rintro ⟨hc', hex⟩
        rcases (a3 c hc').mp hex with ⟨r, hr', hs⟩ | e
        · exact Or.inr ⟨hc', r, hr', (star_iff r c hr' hc').mp hs⟩
        · exact Or.inl e
      · rintro (e | ⟨hc', r, hr', hs⟩)
        · subst e
          exact ⟨hl.2.1, (a3 last.2 hl.2.1).mpr (Or.inr rfl)⟩
        · exact ⟨hc', (a3 c hc').mpr (Or.inl ⟨r, hr', (star_iff r c hr' hc').mpr hs⟩)⟩
    rw [e1, Finset.card_insert_of_not_mem]
    unfold starredColumns
    simp only [Finset.mem_filter, Finset.mem_range, not_and, not_exists]
    intro _ r hr' hs
    exact hfree r hr' ((star_iff r last.2 hr' hl.2.1).mpr hs)

/-! ## Termination of the main loop -/

/-- The main loop ends within the budget given by the number of missing stars, the number of
uncovered rows and the presence of an uncovered zero; at its end the loop facts hold and the
loop condition is false. -/
theorem mainLoop_spec {n : Nat} {C : Matrix Int} {pathFuel : Nat} (hpf : n ≤ pathFuel) :
    ∀ (fuel : Nat) (s : State), Inv n C s → ∀ b : Nat, (¬ HasUncoveredZero n s → 1 ≤ b) →
      (n - (starredColumns n s.zeroMarkMatrix).card) * (2 * n + 2) +
        2 * (n - (coveredRows n s.isRowCurrentlyCovered).card) + b ≤ fuel →
      ∃ s', mainLoop n pathFuel fuel s = Except.ok s' ∧ Inv n C s' ∧
        ¬ (s'.numberOfCoveredColumns < n) := by
  intro fuel
  induction fuel with
  | zero =>
    intro s h b _ hm
    have hcnt := h.count
    have hge : ¬ (s.numberOfCoveredColumns < n) := by
      intro hlt
      have h1 : 1 ≤ n - (starredColumns n s.zeroMarkMatrix).card := by omega
      have h2 := Nat.mul_le_mul_right (2 * n + 2) h1
      omega
    exact ⟨s, by simp only [mainLoop, if_neg hge], h, hge⟩
  | succ fuel ih =>
    intro s h b hb hm
    by_cases hlt : s.numberOfCoveredColumns < n
    · have hcnt := h.count
      have hstars : (starredColumns n s.zeroMarkMatrix).card < n := by omega
      have hsplit : (n - (starredColumns n s.zeroMarkMatrix).card) * (2 * n + 2) =
          (n - ((starredColumns n s.zeroMarkMatrix).card + 1)) * (2 * n + 2) + (2 * n + 2) := by
        have : n - (starredColumns n s.zeroMarkMatrix).card =
            (n - ((starredColumns n s.zeroMarkMatrix).card + 1)) + 1 := by omega
        rw [this, Nat.succ_mul]
      simp only [mainLoop, if_pos hlt, loopBody]
      rcases search_spec h with ⟨hnone, hinv, hst, hprog⟩ | ⟨s0, r0, c0, hsome, hinv, haug, hs1, hst⟩
      · cases hsr : search n s with
        | mk s1 found =>
          rw [hsr] at hnone hinv hst hprog
          simp only at hnone hinv hst hprog
          subst hnone
          simp only
          have hstars1 : (starredColumns n s1.zeroMarkMatrix).card < n := by rw [hst]; exact hstars
          obtain ⟨hinv2, huz⟩ := adjust_inv hinv hstars1
          have hcov := coveredRows_card_le n s1.isRowCurrentlyCovered
          apply ih (adjust n s1) hinv2 0 (fun hno => absurd huz hno)
          show (n - (starredColumns n s1.zeroMarkMatrix).card) * (2 * n + 2) +
            2 * (n - (coveredRows n s1.isRowCurrentlyCovered).card) + 0 ≤ fuel
          rw [hst]
          rcases hprog with ⟨e, hnz⟩ | hgt
          · subst e
            have := hb hnz
            omega
          · omega
      · cases hsr : search n s with
        | mk s1 found =>
          rw [hsr] at hsome hs1
          simp only at hsome hs1
          subst hsome
          subst hs1
          simp only
          obtain ⟨s2, haugeq, hinv2, hcard⟩ := augment_spec hinv haug hpf
          rw [haugeq]
          simp only
          have hcov := coveredRows_card_le n s2.isRowCurrentlyCovered
          apply ih s2 hinv2 1 (fun _ => le_refl 1)
          rw [hcard, hst]
          omega
    · exact ⟨s, by simp only [mainLoop, if_neg hlt], h, hlt⟩

/-- Number of passes of the main loop that suffices for every input of size `n`. -/
theorem initial_budget {n : Nat} (s : State) :
    (n - (starredColumns n s.zeroMarkMatrix).card) * (2 * n + 2) +
      2 * (n - (coveredRows n s.isRowCurrentlyCovered).card) + 1 ≤ 2 * n * n + 4 * n + 1 := by
  have h1 : (n - (starredColumns n s.zeroMarkMatrix).card) * (2 * n + 2) ≤ n * (2 * n + 2) :=
    Nat.mul_le_mul_right _ (Nat.sub_le _ _)
  have h2 : n * (2 * n + 2) = 2 * n * n + 2 * n := by ring
  omega

/-! ## The state at loop exit -/

/-- When the loop condition is false, every column and every row holds a starred zero. -/
theorem Inv.full_stars {n : Nat} {C : Matrix Int} {s : State} (h : Inv n C s)
    (hge : ¬ s.numberOfCoveredColumns < n) :
    (∀ c, c < n → ∃ r, r < n ∧ s.zeroMarkMatrix.get r c = 1) ∧
      (∀ r, r < n → ∃ c, c < n ∧ s.zeroMarkMatrix.get r c = 1) := by
  have hcnt := h.count
  have hsub : starredColumns n s.zeroMarkMatrix ⊆ Finset.range n := Finset.filter_subset _ _
  have heq : starredColumns n s.zeroMarkMatrix = Finset.range n :=
    Finset.eq_of_subset_of_card_le hsub (by rw [Finset.card_range]; omega)
  have hcols : ∀ c, c < n → ∃ r, r < n ∧ s.zeroMarkMatrix.get r c = 1 := by
    intro c hc
    have : c ∈ starredColumns n s.zeroMarkMatrix := by rw [heq]; exact Finset.mem_range.mpr hc
    unfold starredColumns at this
    simp only [Finset.mem_filter, Finset.mem_range] at this
    exact this.2
  refine ⟨hcols, ?_⟩
  have hall : ∀ c, ∃ r, c < n → r < n ∧ s.zeroMarkMatrix.get r c = 1 := by
    intro c
    by_cases hc : c < n
    · obtain ⟨r, hr, hs⟩ := hcols c hc
      exact ⟨r, fun _ => ⟨hr, hs⟩⟩
    · exact ⟨0, fun h' => absurd h' hc⟩
  choose g hg using hall
  have hinj : Set.InjOn g (Finset.range n : Set Nat) := by
    intro c1 h1 c2 h2 e
    have h1' : c1 < n := Finset.mem_range.mp h1
    have h2' : c2 < n := Finset.mem_range.mp h2
    have s1 := (hg c1 h1').2
    have s2 := (hg c2 h2').2
    rw [e] at s1
    exact h.star_row_unique (g c2) c1 c2 (hg c2 h2').1 h1' h2' s1 s2
  have himg : (Finset.range n).image g = Finset.range n := by
    apply Finset.eq_of_subset_of_card_le
    · intro r hr
      obtain ⟨c, hc, e⟩ := Finset.mem_image.mp hr
      rw [← e]
      exact Finset.mem_range.mpr (hg c (Finset.mem_range.mp hc)).1
    · rw [Finset.card_image_of_injOn hinj]
  intro r hr
  have : r ∈ (Finset.range n).image g := by rw [himg]; exact Finset.mem_range.mpr hr
  obtain ⟨c, hc, e⟩ := Finset.mem_image.mp this
  have hc' := Finset.mem_range.mp hc
  exact ⟨c, hc', by rw [← e]; exact (hg c hc').2⟩

/-- The number of starred cells of a mark grid. -/
theorem starred_cells_card {n : Nat} {M : Matrix Int}
    (hrow : ∀ r c c', r < n → c < n → c' < n → M.get r c = 1 → M.get r c' = 1 → c = c')
    (hall : ∀ r, r < n → ∃ c, c < n ∧ M.get r c = 1) :
    ((Finset.range n ×ˢ Finset.range n).filter (fun p => M.get p.1 p.2 = 1)).card = n := by
  have : ((Finset.range n ×ˢ Finset.range n).filter (fun p => M.get p.1 p.2 = 1)).card =
      (Finset.range n).card := by
    apply Finset.card_bij (fun p _ => p.1)
    · intro p hp
      simp only [Finset.mem_filter, Finset.mem_product, Finset.mem_range] at hp
      exact Finset.mem_range.mpr hp.1.1
    · intro p hp q hq e
      simp only [Finset.mem_filter, Finset.mem_product, Finset.mem_range] at hp hq
      have e2 : p.2 = q.2 := by
        apply hrow p.1 p.2 q.2 hp.1.1 hp.1.2 hq.1.2 hp.2
        rw [e]; exact hq.2
      exact Prod.ext e e2
    · intro r hr
      obtain ⟨c, hc, hs⟩ := hall r (Finset.mem_range.mp hr)
      refine ⟨(r, c), ?_, rfl⟩
      simp only [Finset.mem_filter, Finset.mem_product, Finset.mem_range]
      exact ⟨⟨Finset.mem_range.mp hr, hc⟩, hs⟩
  rw [this, Finset.card_range]

/-! ## Optimality -/

theorem selectedCost_eq_permutationCost {n : Nat} {R : Matrix Int} (σ : Equiv.Perm (Fin n))
    (hR : ∀ r c : Fin n, R.get r.val c.val = 1 ↔ σ r = c) (M : Matrix Int) :
    selectedCost n M R = permutationCost M σ := by
  unfold selectedCost permutationCost
  rw [← Fin.sum_univ_eq_sum_range
    (fun r => ∑ c in Finset.range n, if R.get r c = 1 then M.get r c else 0) n]
  apply Finset.sum_congr rfl
  intro r _
  rw [← Fin.sum_univ_eq_sum_range (fun c => if R.get r.val c = 1 then M.get r.val c else 0) n]
  rw [Finset.sum_eq_single (σ r)]
  · rw [if_pos ((hR r (σ r)).mpr rfl)]
  · intro c _ hne
    rw [if_neg (fun h => hne ((hR r c).mp h).symm)]
  · intro h; exact absurd (Finset.mem_univ _) h

/-- An assignment that uses only zeros of a non-negative matrix which differs from `C` by row
and column potentials is cost-minimal for `C`. -/
theorem potentials_optimal {n : Nat} {C W : Matrix Int} (u v : Nat → Int)
    (huv : ∀ r c, r < n → c < n → W.get r c = C.get r c - u r - v c)
    (hnn : ∀ r c, r < n → c < n → 0 ≤ W.get r c) (σ : Equiv.Perm (Fin n))
    (hz : ∀ r : Fin n, W.get r.val (σ r).val = 0) (τ : Equiv.Perm (Fin n)) :
    permutationCost C σ ≤ permutationCost C τ := by
  have expand : ∀ ρ : Equiv.Perm (Fin n), permutationCost C ρ =
      permutationCost W ρ + (∑ r : Fin n, u r.val) + ∑ c : Fin n, v c.val := by
    intro ρ
    unfold permutationCost
    have h1 : ∀ r : Fin n, C.get r.val (ρ r).val =
        W.get r.val (ρ r).val + u r.val + v (ρ r).val := by
      intro r
      rw [huv r.val (ρ r).val r.isLt (ρ r).isLt]
      ring
    rw [Finset.sum_congr rfl (fun r _ => h1 r), Finset.sum_add_distrib, Finset.sum_add_distrib,
      Equiv.sum_comp ρ (fun c : Fin n => v c.val)]
  rw [expand σ, expand τ]
  have hσ : permutationCost W σ = 0 := by
    unfold permutationCost
    exact Finset.sum_eq_zero (fun r _ => hz r)
  have hτ : 0 ≤ permutationCost W τ := by
    unfold permutationCost
    exact Finset.sum_nonneg (fun r _ => hnn r.val (τ r).val r.isLt (τ r).isLt)
  omega

/-- A 0/1 matrix with one 1 per row and per column is the matrix of a permutation. -/
theorem exists_perm_of_stars {n : Nat} {M : Matrix Int}
    (hrow : ∀ r c c', r < n → c < n → c' < n → M.get r c = 1 → M.get r c' = 1 → c = c')
    (hcol : ∀ r r' c, r < n → r' < n → c < n → M.get r c = 1 → M.get r' c = 1 → r = r')
    (hall : ∀ r, r < n → ∃ c, c < n ∧ M.get r c = 1) :
    ∃ σ : Equiv.Perm (Fin n), ∀ r c : Fin n, M.get r.val c.val = 1 ↔ σ r = c := by
  have hex : ∀ r : Fin n, ∃ c : Fin n, M.get r.val c.val = 1 := by
    intro r
    obtain ⟨c, hc, hs⟩ := hall r.val r.isLt
    exact ⟨⟨c, hc⟩, hs⟩
  choose f hf using hex
  have hinj : Function.Injective f := by
    intro r1 r2 e
    have s1 := hf r1
    have s2 := hf r2
    rw [e] at s1
    exact Fin.ext (hcol r1.val r2.val (f r2).val r1.isLt r2.isLt (f r2).isLt s1 s2)
  have hbij : Function.Bijective f := ⟨hinj, Finite.injective_iff_surjective.mp hinj⟩
  refine ⟨Equiv.ofBijective f hbij, ?_⟩
  intro r c
  constructor
  · intro hs
    apply Fin.ext
    exact hrow r.val (f r).val c.val r.isLt (f r).isLt c.isLt (hf r) hs
  · intro e
    rw [← e]
    exact hf r

/-! ## A larger step budget does not change a result -/

theorem buildPath_mono (M : Matrix Int) (n : Nat) :
    ∀ (fuel fuel' : Nat) (path result : List (Nat × Nat)), fuel ≤ fuel' →
      buildPath M n fuel path = Except.ok result →
      buildPath M n fuel' path = Except.ok result := by
  intro fuel
  induction fuel with
  | zero =>
    intro fuel' path result _ h
    simp [buildPath] at h
  | succ fuel ih =>
    intro fuel' path result hle h
    obtain ⟨f, rfl⟩ : ∃ f, fuel' = f + 1 := ⟨fuel' - 1, by omega⟩
    unfold buildPath at h ⊢
    cases hl : path.getLast? with
    | none => rw [hl] at h; simp at h
    | some last =>
      rw [hl] at h
      simp only at h ⊢
      cases h1 : (List.range n).find? (fun row => decide (M.get row last.2 = 1)) with
      | none => rw [h1] at h; simpa using h
      | some r' =>
        rw [h1] at h
        simp only at h ⊢
        cases h2 : (List.range n).find? (fun col => decide (M.get r' col = 2)) with
        | none => rw [h2] at h; simp at h
        | some c' =>
          rw [h2] at h
          simp only at h ⊢
          exact ih f _ _ (by omega) h

theorem loopBody_mono (n : Nat) {pathFuel pathFuel' : Nat} (hle : pathFuel ≤ pathFuel')
    {s s1 : State} (h : loopBody n pathFuel s = Except.ok s1) :
    loopBody n pathFuel' s = Except.ok s1 := by
  unfold loopBody at h ⊢
  cases hs : search n s with
  | mk a found =>
    rw [hs] at h
    cases found with
    | none => simpa using h
    | some start =>
      simp only at h ⊢
      unfold augment at h ⊢
      cases hb : buildPath a.zeroMarkMatrix n pathFuel [start] with
      | error e => rw [hb] at h; simp at h
      | ok path =>
        rw [hb] at h
        rw [buildPath_mono _ _ _ _ _ _ hle hb]
        exact h

theorem mainLoop_mono (n : Nat) {pathFuel pathFuel' : Nat} (hle : pathFuel ≤ pathFuel') :
    ∀ (fuel fuel' : Nat) (s result : State), fuel ≤ fuel' →
      mainLoop n pathFuel fuel s = Except.ok result →
      mainLoop n pathFuel' fuel' s = Except.ok result := by
  intro fuel
  induction fuel with
  | zero =>
    intro fuel' s result _ h
    by_cases hc : s.numberOfCoveredColumns < n
    · simp [mainLoop, hc] at h
    · simp only [mainLoop, if_neg hc] at h
      cases fuel' <;> simp only [mainLoop, if_neg hc] <;> exact h
  | succ fuel ih =>
    intro fuel' s result hle' h
    obtain ⟨f, rfl⟩ : ∃ f, fuel' = f + 1 := ⟨fuel' - 1, by omega⟩
    by_cases hc : s.numberOfCoveredColumns < n
    · simp only [mainLoop, if_pos hc] at h ⊢
      cases hb : loopBody n pathFuel s with
      | error e => rw [hb] at h; simp at h
      | ok s1 =>
        rw [hb] at h
        rw [loopBody_mono n hle hb]
        simp only at h ⊢
        exact ih f s1 result (by omega) h
    · simp only [mainLoop, if_neg hc] at h ⊢
      exact h

/-- Once a budget yields a result, every larger budget yields the same result. -/
theorem run_mono {fuel fuel' : Nat} (hle : fuel ≤ fuel') {C R : Matrix Int}
    (h : run_munkres_algorithm fuel C = Except.ok R) :
    run_munkres_algorithm fuel' C = Except.ok R := by
  unfold run_munkres_algorithm at h ⊢
  by_cases hd : C.nrows ≠ C.ncols
  · rw [if_pos hd] at h; simp at h
  · rw [if_neg hd] at h ⊢
    simp only at h ⊢
    cases hz : Matrix.filled C.nrows C.nrows (0 : Int) with
    | error e => rw [hz] at h; simp at h
    | ok Z =>
      rw [hz] at h
      simp only at h ⊢
      cases hm : mainLoop C.nrows fuel fuel (initialState C Z C.nrows) with
      | error e => rw [hm] at h; simp at h
      | ok s =>
        rw [hm] at h
        rw [mainLoop_mono C.nrows hle fuel fuel' _ _ hle hm]
        exact h

/-! ## The entry point on valid inputs -/

/-- On a square matrix of size `n ≥ 1` whose reduced entries fit the type `int`, a budget of
`2 n² + 4 n + 1` passes lets the main loop end with the loop facts and a false loop condition,
and the function returns the matrix extracted from the final mark grid. -/
theorem run_core {n : Nat} (hn : 0 < n) (hsz : n * n < SIZE_MODULUS) {C : Matrix Int}
    (hC : Square n C)
    (hb : ∀ r c, r < n → c < n → (reduce C n).get r c ≤ INT_MAX) {fuel : Nat}
    (hfuel : 2 * n * n + 4 * n + 1 ≤ fuel) :
    ∃ Z s, Matrix.filled n n (0 : Int) = Except.ok Z ∧ Square n Z ∧
      (∀ r c, r < n → c < n → Z.get r c = 0) ∧
      mainLoop n fuel fuel (initialState C Z n) = Except.ok s ∧ Inv n C s ∧
      ¬ (s.numberOfCoveredColumns < n) ∧
      run_munkres_algorithm fuel C = Except.ok (extractAssignment s.zeroMarkMatrix Z n) := by
  obtain ⟨Z, hZ, hZsq, hZ0⟩ := filled_square hn hsz 0
  have hinv := initialState_inv hC hZsq hZ0 hb
  have hpf : n ≤ fuel := by
    have : 0 ≤ 2 * n * n := Nat.zero_le _
    omega
  obtain ⟨s, hs, hsinv, hge⟩ := mainLoop_spec hpf fuel (initialState C Z n) hinv 1
    (fun _ => le_refl 1) (le_trans (initial_budget _) hfuel)
  refine ⟨Z, s, hZ, hZsq, hZ0, hs, hsinv, hge, ?_⟩
  have e1 : C.nrows = n := hC.1
  have e2 : C.ncols = n := hC.2.1
  unfold run_munkres_algorithm
  rw [e1, e2]
  simp only [ne_eq, not_true_eq_false, if_false, hZ, hs]

/-- The returned matrix in terms of the final stars: it is a permutation matrix, and the
permutation it encodes is cost-minimal for the input. -/
theorem run_result {n : Nat} (hn : 0 < n) (hsz : n * n < SIZE_MODULUS) {C : Matrix Int}
    (hC : Square n C)
    (hb : ∀ r c, r < n → c < n → (reduce C n).get r c ≤ INT_MAX) {fuel : Nat}
    (hfuel : 2 * n * n + 4 * n + 1 ≤ fuel) :
    ∃ R, run_munkres_algorithm fuel C = Except.ok R ∧ IsPermutationMatrix n R ∧
      ∃ σ : Equiv.Perm (Fin n), (∀ r c : Fin n, R.get r.val c.val = 1 ↔ σ r = c) ∧
        ∀ τ : Equiv.Perm (Fin n), permutationCost C σ ≤ permutationCost C τ := by
  obtain ⟨Z, s, _, hZsq, hZ0, _, hinv, hge, hrun⟩ := run_core hn hsz hC hb hfuel
  obtain ⟨x1, x2⟩ := extractAssignment_spec s.zeroMarkMatrix hZsq
  obtain ⟨hcols, hrows⟩ := hinv.full_stars hge
  have hval : ∀ r c, r < n → c < n → (extractAssignment s.zeroMarkMatrix Z n).get r c =
      if s.zeroMarkMatrix.get r c = 1 then 1 else 0 := by
    intro r c hr hc
    rw [x2 r c hr hc, hZ0 r c hr hc]
  have hiff : ∀ r c, r < n → c < n →
      ((extractAssignment s.zeroMarkMatrix Z n).get r c = 1 ↔ s.zeroMarkMatrix.get r c = 1) := by
    intro r c hr hc
    rw [hval r c hr hc]
    by_cases e : s.zeroMarkMatrix.get r c = 1 <;> simp [e]
  refine ⟨_, hrun, ⟨x1, ?_, ?_, ?_⟩, ?_⟩
  · intro r c hr hc
    rw [hval r c hr hc]
    by_cases e : s.zeroMarkMatrix.get r c = 1 <;> simp [e]
  · intro r hr
    obtain ⟨c, hc, hs⟩ := hrows r hr
    refine ⟨c, hc, (hiff r c hr hc).mpr hs, ?_⟩
    intro c' hc' h'
    exact hinv.star_row_unique r c' c hr hc' hc ((hiff r c' hr hc').mp h') hs
  · intro c hc
    obtain ⟨r, hr, hs⟩ := hcols c hc
    refine ⟨r, hr, (hiff r c hr hc).mpr hs, ?_⟩
    intro r' hr' h'
    exact hinv.star_col_unique r' r c hr' hr hc ((hiff r' c hr' hc).mp h') hs
  · obtain ⟨σ, hσ⟩ := exists_perm_of_stars hinv.star_row_unique hinv.star_col_unique hrows
    refine ⟨σ, ?_, ?_⟩
    · intro r c
      rw [hiff r.val c.val r.isLt c.isLt]
      exact hσ r c
    · obtain ⟨u, v, huv⟩ := hinv.potentials
      intro τ
      apply potentials_optimal u v huv hinv.cost_nonneg σ _ τ
      intro r
      apply hinv.marked_zero r.val (σ r).val r.isLt (σ r).isLt
      rw [(hσ r (σ r)).mpr rfl]
      omega

/-- The total cost of the returned assignment is the least cost of a permutation. -/
theorem run_optimal {n : Nat} (hn : 0 < n) {C : Matrix Int} (hC : ValidCost n C) {fuel : Nat}
    (hfuel : 2 * n * n + 4 * n + 1 ≤ fuel) :
    ∃ (R : Matrix Int) (σ : Equiv.Perm (Fin n)), run_munkres_algorithm fuel C = Except.ok R ∧
      IsPermutationMatrix n R ∧ (∀ M : Matrix Int, selectedCost n M R = permutationCost M σ) ∧
      ∀ τ : Equiv.Perm (Fin n), permutationCost C σ ≤ permutationCost C τ := by
  obtain ⟨R, hrun, hperm, σ, hσ, hopt⟩ :=
    run_result hn hC.2.1 hC.1 (fun r c hr hc => reduce_le_of_valid hn hC hr hc) hfuel
  exact ⟨R, σ, hrun, hperm, fun M => selectedCost_eq_permutationCost σ hσ M, hopt⟩

/-! ## Cost of a permutation under the reduced matrix -/

theorem permutationCost_reduce {n : Nat} {C : Matrix Int} (hC : Square n C)
    (σ : Equiv.Perm (Fin n)) :
    permutationCost (reduce C n) σ = permutationCost C σ - reductionConstant n C := by
  unfold permutationCost reductionConstant
  have h1 : ∀ r : Fin n, (reduce C n).get r.val (σ r).val =
      C.get r.val (σ r).val - minimumRowValue C n r.val
        - minimumColumnValue (reduceRows C n) n (σ r).val :=
    fun r => reduce_get hC r.isLt (σ r).isLt
  rw [Finset.sum_congr rfl (fun r _ => h1 r)]
  rw [Finset.sum_sub_distrib, Finset.sum_sub_distrib]
  have h2 : ∑ r : Fin n, minimumColumnValue (reduceRows C n) n (σ r).val =
      ∑ c : Fin n, minimumColumnValue (reduceRows C n) n c.val :=
    Equiv.sum_comp σ (fun c : Fin n => minimumColumnValue (reduceRows C n) n c.val)
  rw [h2, Fin.sum_univ_eq_sum_range (fun r => minimumRowValue C n r) n,
    Fin.sum_univ_eq_sum_range (fun c => minimumColumnValue (reduceRows C n) n c) n]
  ring

/-! ## Statements about the entry point -/

theorem shifted_permutationCost {n : Nat} {C C' : Matrix Int} {i : Nat} (hi : i < n) (k : Int)
    (hshift :
      (∀ r c, r < n → c < n → C'.get r c = C.get r c + if r = i then k else 0) ∨
      (∀ r c, r < n → c < n → C'.get r c = C.get r c + if c = i then k else 0))
    (τ : Equiv.Perm (Fin n)) : permutationCost C' τ = permutationCost C τ + k := by
  unfold permutationCost
  have hone : ∑ c : Fin n, (if c.val = i then k else 0) = k := by
    rw [Finset.sum_eq_single (⟨i, hi⟩ : Fin n)]
    · simp
    · intro c _ hne
      rw [if_neg (fun h => hne (Fin.ext h))]
    · intro h; exact absurd (Finset.mem_univ _) h
  rcases hshift with h | h
  · rw [Finset.sum_congr rfl (fun r _ => h r.val (τ r).val r.isLt (τ r).isLt),
      Finset.sum_add_distrib, hone]
  · rw [Finset.sum_congr rfl (fun r _ => h r.val (τ r).val r.isLt (τ r).isLt),
      Finset.sum_add_distrib,
      Equiv.sum_comp τ (fun c : Fin n => if c.val = i then k else 0), hone]

/-- Claim C1: for every valid square cost matrix of size `n ≥ 1` the function returns a matrix
of size `n` whose entries are 0 or 1, with exactly one 1 in every row and in every column. -/
theorem run_munkres_algorithm_returns_permutation_matrix (n fuel : Nat) (C : Matrix Int)
    (hn : 0 < n) (hC : ValidCost n C) (hfuel : 2 * n * n + 4 * n + 1 ≤ fuel) :
    ∃ R, run_munkres_algorithm fuel C = Except.ok R ∧ IsPermutationMatrix n R := by
  obtain ⟨R, _, hrun, hperm, _, _⟩ := run_optimal hn hC hfuel
  exact ⟨R, hrun, hperm⟩

/-- Claim C3: on a valid square matrix the main loop ends without error, and at its end the
mark grid holds exactly `n` starred cells, one in each row and one in each column; the whole
call returns a result. -/
theorem main_loop_terminates_with_n_stars (n fuel : Nat) (C : Matrix Int)
    (hn : 0 < n) (hC : ValidCost n C) (hfuel : 2 * n * n + 4 * n + 1 ≤ fuel) :
    ∃ Z s, Matrix.filled n n (0 : Int) = Except.ok Z ∧
      mainLoop n fuel fuel (initialState C Z n) = Except.ok s ∧
      ¬ (s.numberOfCoveredColumns < n) ∧
      ((Finset.range n ×ˢ Finset.range n).filter
        (fun p => s.zeroMarkMatrix.get p.1 p.2 = 1)).card = n ∧
      (∀ r, r < n → ∃ c, c < n ∧ s.zeroMarkMatrix.get r c = 1 ∧
        ∀ c', c' < n → s.zeroMarkMatrix.get r c' = 1 → c' = c) ∧
      (∀ c, c < n → ∃ r, r < n ∧ s.zeroMarkMatrix.get r c = 1 ∧
        ∀ r', r' < n → s.zeroMarkMatrix.get r' c = 1 → r' = r) ∧
      ∃ R, run_munkres_algorithm fuel C = Except.ok R := by
  obtain ⟨Z, s, hZ, _, _, hloop, hinv, hge, hrun⟩ :=
    run_core hn hC.2.1 hC.1 (fun r c hr hc => reduce_le_of_valid hn hC hr hc) hfuel
  obtain ⟨hcols, hrows⟩ := hinv.full_stars hge
  refine ⟨Z, s, hZ, hloop, hge, starred_cells_card hinv.star_row_unique hrows, ?_, ?_, _, hrun⟩
  · intro r hr
    obtain ⟨c, hc, hs⟩ := hrows r hr
    exact ⟨c, hc, hs, fun c' hc' h' => hinv.star_row_unique r c' c hr hc' hc h' hs⟩
  · intro c hc
    obtain ⟨r, hr, hs⟩ := hcols c hc
    exact ⟨r, hr, hs, fun r' hr' h' => hinv.star_col_unique r' r c hr' hr hc h' hs⟩

/-- Claim C6: on `[[1,2,3],[2,4,6],[3,6,9]]` the function returns exactly
`[[0,0,1],[0,1,0],[1,0,0]]`, for every budget of at least three passes; the selected cells
hold 3, 4 and 3 in the input and cost 10 in total. -/
theorem scenario_three_by_three (fuel : Nat) (hfuel : 3 ≤ fuel) :
    run_munkres_algorithm fuel ⟨3, 3, [1, 2, 3, 2, 4, 6, 3, 6, 9]⟩ =
        Except.ok ⟨3, 3, [0, 0, 1, 0, 1, 0, 1, 0, 0]⟩ ∧
      selectedCost 3 ⟨3, 3, [1, 2, 3, 2, 4, 6, 3, 6, 9]⟩ ⟨3, 3, [0, 0, 1, 0, 1, 0, 1, 0, 0]⟩ = 10 ∧
      (⟨3, 3, [1, 2, 3, 2, 4, 6, 3, 6, 9]⟩ : Matrix Int).get 0 2 = 3 ∧
      (⟨3, 3, [1, 2, 3, 2, 4, 6, 3, 6, 9]⟩ : Matrix Int).get 1 1 = 4 ∧
      (⟨3, 3, [1, 2, 3, 2, 4, 6, 3, 6, 9]⟩ : Matrix Int).get 2 0 = 3 := by
  refine ⟨run_mono hfuel (by rfl), by decide, by decide, by decide, by decide⟩

/-- Claim C7: on a 1×1 matrix `[[v]]` the function returns `[[1]]` for every step budget, zero
included: the loop condition is false at its first evaluation, so the loop body never runs. -/
theorem one_by_one_returns_one (fuel : Nat) (v : Int) :
    run_munkres_algorithm fuel ⟨1, 1, [v]⟩ = Except.ok ⟨1, 1, [1]⟩ ∧
      run_munkres_algorithm 0 ⟨1, 1, [v]⟩ = Except.ok ⟨1, 1, [1]⟩ ∧
      ¬ ((initialState ⟨1, 1, [v]⟩ ⟨1, 1, [0]⟩ 1).numberOfCoveredColumns < 1) := by
  have h0 : run_munkres_algorithm 0 ⟨1, 1, [v]⟩ = Except.ok ⟨1, 1, [1]⟩ := by
    simp [run_munkres_algorithm, Matrix.nrows, Matrix.ncols, Matrix.filled, initialState, reduce,
      reduceColumns, reduceRows, subtractFromColumn, subtractFromRow, minimumRowValue,
      minimumColumnValue, Matrix.get, Matrix.set, initialStarring, starCell, uncoverAll,
      coverStarredColumns, countCoveredColumns, mainLoop, extractAssignment, List.range_succ,
      SIZE_MODULUS]
  refine ⟨run_mono (Nat.zero_le _) h0, h0, ?_⟩
  simp [initialState, reduce, reduceColumns, reduceRows, subtractFromColumn, subtractFromRow,
    minimumRowValue, minimumColumnValue, Matrix.get, Matrix.set, initialStarring, starCell,
    uncoverAll, coverStarredColumns, countCoveredColumns, List.range_succ]

/-! ## The statements at concrete inputs -/

theorem scenario_valid : ValidCost 3 ⟨3, 3, [1, 2, 3, 2, 4, 6, 3, 6, 9]⟩ := by
  refine ⟨⟨rfl, rfl, rfl⟩, by decide, ?_⟩
  intro r c hr hc
  interval_cases r <;> interval_cases c <;> simp [Matrix.get, INT_MAX]

theorem small_valid : ValidCost 2 ⟨2, 2, [1, 2, 3, 4]⟩ := by
  refine ⟨⟨rfl, rfl, rfl⟩, by decide, ?_⟩
  intro r c hr hc
  interval_cases r <;> interval_cases c <;> simp [Matrix.get, INT_MAX]

theorem run_munkres_algorithm_returns_permutation_matrix_witness :
    (0 < 3 ∧ ValidCost 3 ⟨3, 3, [1, 2, 3, 2, 4, 6, 3, 6, 9]⟩ ∧ 2 * 3 * 3 + 4 * 3 + 1 ≤ 31) ∧
      ∃ R, run_munkres_algorithm 31 ⟨3, 3, [1, 2, 3, 2, 4, 6, 3, 6, 9]⟩ = Except.ok R ∧
        IsPermutationMatrix 3 R :=
  ⟨⟨by decide, scenario_valid, by decide⟩,
    run_munkres_algorithm_returns_permutation_matrix 3 31 ⟨3, 3, [1, 2, 3, 2, 4, 6, 3, 6, 9]⟩
      (by decide) scenario_valid (by decide)⟩

theorem main_loop_terminates_with_n_stars_witness :
    (0 < 2 ∧ ValidCost 2 ⟨2, 2, [1, 2, 3, 4]⟩ ∧ 2 * 2 * 2 + 4 * 2 + 1 ≤ 17) ∧
      ∃ Z s, Matrix.filled 2 2 (0 : Int) = Except.ok Z ∧
        mainLoop 2 17 17 (initialState ⟨2, 2, [1, 2, 3, 4]⟩ Z 2) = Except.ok s ∧
        ¬ (s.numberOfCoveredColumns < 2) ∧
        ((Finset.range 2 ×ˢ Finset.range 2).filter
          (fun p => s.zeroMarkMatrix.get p.1 p.2 = 1)).card = 2 ∧
        (∀ r, r < 2 → ∃ c, c < 2 ∧ s.zeroMarkMatrix.get r c = 1 ∧
          ∀ c', c' < 2 → s.zeroMarkMatrix.get r c' = 1 → c' = c) ∧
        (∀ c, c < 2 → ∃ r, r < 2 ∧ s.zeroMarkMatrix.get r c = 1 ∧
          ∀ r', r' < 2 → s.zeroMarkMatrix.get r' c = 1 → r' = r) ∧
        ∃ R, run_munkres_algorithm 17 ⟨2, 2, [1, 2, 3, 4]⟩ = Except.ok R :=
  ⟨⟨by decide, small_valid, by decide⟩,
    main_loop_terminates_with_n_stars 2 17 ⟨2, 2, [1, 2, 3, 4]⟩ (by decide) small_valid
      (by decide)⟩

theorem scenario_three_by_three_witness :
    3 ≤ 3 ∧
      (run_munkres_algorithm 3 ⟨3, 3, [1, 2, 3, 2, 4, 6, 3, 6, 9]⟩ =
          Except.ok ⟨3, 3, [0, 0, 1, 0, 1, 0, 1, 0, 0]⟩ ∧
        selectedCost 3 ⟨3, 3, [1, 2, 3, 2, 4, 6, 3, 6, 9]⟩
          ⟨3, 3, [0, 0, 1, 0, 1, 0, 1, 0, 0]⟩ = 10 ∧
        (⟨3, 3, [1, 2, 3, 2, 4, 6, 3, 6, 9]⟩ : Matrix Int).get 0 2 = 3 ∧
        (⟨3, 3, [1, 2, 3, 2, 4, 6, 3, 6, 9]⟩ : Matrix Int).get 1 1 = 4 ∧
        (⟨3, 3, [1, 2, 3, 2, 4, 6, 3, 6, 9]⟩ : Matrix Int).get 2 0 = 3) :=
  ⟨le_refl 3, scenario_three_by_three 3 (le_refl 3)⟩

/-! ## The class `Matrix`: constructors, copy and element access -/

theorem wellFormed_of_square {n : Nat} {m : Matrix Int} (h : Square n m)
    (hsz : n * n < SIZE_MODULUS) : m.WellFormed := by
  obtain ⟨h1, h2, h3⟩ := h
  unfold Matrix.WellFormed
  rw [h1, h2, h3, Nat.mod_eq_of_lt hsz]

theorem copy_eq_self {α : Type} {m : Matrix α} (h : m.WellFormed) : Matrix.copy m = m := by
  unfold Matrix.WellFormed at h
  unfold Matrix.copy Matrix.nrows Matrix.ncols
  rw [← h, List.take_length]

/-- The checked access agrees with the plain read wherever both indices are in range. -/
theorem access_eq_get {n : Nat} {m : Matrix Int} (h : Square n m) (hsz : n * n < SIZE_MODULUS)
    {r c : Nat} (hr : r < n) (hc : c < n) : m.access r c = Except.ok (m.get r c) := by
  obtain ⟨h1, h2, h3⟩ := h
  have hi := linear_index_lt hr hc
  have hi' : (r * n + c) % SIZE_MODULUS = r * n + c := Nat.mod_eq_of_lt (by omega)
  unfold Matrix.access Matrix.accessCheck Matrix.get
  rw [h1, h2, hi', Nat.mod_eq_of_lt hsz]
  have hlt : r * n + c < m.rawData_.length := by rw [h3]; exact hi
  simp [hi, List.getD_eq_getElem?_getD, List.getElem?_eq_getElem hlt]

theorem storeRows_error {α : Type} (cols : Nat) :
    ∀ (l : List (List α)) (acc : List α × Nat),
      (∀ e, storeRows cols l acc = Except.error e → e = Error.Invalid) ∧
      ((∃ e, storeRows cols l acc = Except.error e) ↔ ∃ row ∈ l, row.length ≠ cols) := by
  intro l
  induction l with
  | nil =>
    intro acc
    simp [storeRows]
  | cons row rest ih =>
    intro acc
    unfold storeRows
    by_cases h : row.length ≠ cols
    · rw [if_pos h]
      refine ⟨fun e he => (Except.error.inj he).symm, ?_⟩
      constructor
      · intro _
        exact ⟨row, List.mem_cons_self _ _, h⟩
      · intro _
        exact ⟨_, rfl⟩
    · rw [if_neg h]
      obtain ⟨i1, i2⟩ := ih (storeValues acc row)
      refine ⟨i1, ?_⟩
      rw [i2]
      constructor
      · rintro ⟨x, hx, hne⟩
        exact ⟨x, List.mem_cons_of_mem _ hx, hne⟩
      · rintro ⟨x, hx, hne⟩
        rcases List.mem_cons.mp hx with e | e
        · subst e; exact absurd hne h
        · exact ⟨x, e, hne⟩

theorem storeValues_spec {α : Type} (d : α) :
    ∀ (row pre : List α) (k : Nat), row.length ≤ k →
      storeValues (pre ++ List.replicate k d, pre.length) row =
        (pre ++ row ++ List.replicate (k - row.length) d, pre.length + row.length) := by
  intro row
  induction row with
  | nil =>
    intro pre k _
    simp [storeValues]
  | cons v t ih =>
    intro pre k hk
    obtain ⟨k', rfl⟩ : ∃ k', k = k' + 1 := ⟨k - 1, by simp at hk; omega⟩
    have hset : (pre ++ List.replicate (k' + 1) d).set pre.length v =
        (pre ++ [v]) ++ List.replicate k' d := by
      rw [List.replicate_succ, List.set_append_right _ _ (le_refl _)]
      simp
    have hstep : storeValues (pre ++ List.replicate (k' + 1) d, pre.length) (v :: t) =
        storeValues ((pre ++ [v]) ++ List.replicate k' d, (pre ++ [v]).length) t := by
      unfold storeValues
      simp only [List.foldl_cons, hset, List.length_append, List.length_singleton]
    rw [hstep, ih (pre ++ [v]) k' (by simp at hk; omega)]
    refine Prod.ext ?_ ?_
    · simp only [List.length_cons, List.append_assoc, List.singleton_append,
        Nat.add_sub_add_right]
    · simp only [List.length_append, List.length_singleton, List.length_cons, List.length_nil]
      omega

theorem storeRows_spec {α : Type} (d : α) (cols : Nat) :
    ∀ (l : List (List α)) (pre : List α) (k : Nat), (∀ row ∈ l, row.length = cols) →
      l.flatten.length ≤ k →
      storeRows cols l (pre ++ List.replicate k d, pre.length) =
        Except.ok (pre ++ l.flatten ++ List.replicate (k - l.flatten.length) d,
          pre.length + l.flatten.length) := by
  intro l
  induction l with
  | nil =>
    intro pre k _ _
    simp [storeRows]
  | cons row rest ih =>
    intro pre k hall hk
    have hrow : row.length = cols := hall row (List.mem_cons_self _ _)
    have hk' : row.length + rest.flatten.length ≤ k := by simpa using hk
    unfold storeRows
    rw [if_neg (by simpa using hrow), storeValues_spec d row pre k (by omega)]
    have e1 : (pre ++ row).length = pre.length + row.length := by simp
    rw [← e1, ih (pre ++ row) (k - row.length)
      (fun x hx => hall x (List.mem_cons_of_mem _ hx)) (by omega)]
    have e2 : k - row.length - rest.flatten.length = k - (row.length + rest.flatten.length) := by
      omega
    refine congrArg Except.ok (Prod.ext ?_ ?_)
    · simp only [List.flatten_cons, List.length_append, List.append_assoc, e2]
    · simp only [List.flatten_cons, List.length_append]
      omega

theorem flatten_getElem? {α : Type} (cols : Nat) :
    ∀ (l : List (List α)), (∀ row ∈ l, row.length = cols) →
      ∀ (r c : Nat) (row : List α) (v : α), l[r]? = some row → row[c]? = some v →
        l.flatten[r * cols + c]? = some v := by
  intro l
  induction l with
  | nil =>
    intro _ r c row v h
    simp at h
  | cons first rest ih =>
    intro hall r c row v hr hc
    have hfirst : first.length = cols := hall first (List.mem_cons_self _ _)
    cases r with
    | zero =>
      simp only [List.getElem?_cons_zero, Option.some.injEq] at hr
      subst hr
      have hlt : c < first.length := by
        by_contra hge
        rw [List.getElem?_eq_none (by omega)] at hc
        exact Option.noConfusion hc
      simp only [List.flatten_cons, Nat.zero_mul, Nat.zero_add]
      rw [List.getElem?_append_left hlt]
      exact hc
    | succ r =>
      simp only [List.getElem?_cons_succ] at hr
      have := ih (fun x hx => hall x (List.mem_cons_of_mem _ hx)) r c row v hr hc
      simp only [List.flatten_cons]
      have hidx : (r + 1) * cols + c = first.length + (r * cols + c) := by
        rw [hfirst, Nat.succ_mul]; omega
      rw [hidx, List.getElem?_append_right (by omega)]
      simpa using this

theorem flatten_length_of_uniform {α : Type} (cols : Nat) :
    ∀ (l : List (List α)), (∀ row ∈ l, row.length = cols) → l.flatten.length = l.length * cols := by
  intro l
  induction l with
  | nil => intro _; simp
  | cons first rest ih =>
    intro hall
    simp only [List.flatten_cons, List.length_append, List.length_cons]
    rw [ih (fun x hx => hall x (List.mem_cons_of_mem _ hx)), hall first (List.mem_cons_self _ _),
      Nat.succ_mul]
    omega

/-- Claim C12: the extraction writes, into a fresh matrix of the size of the input, 1 where the
mark grid holds a star (value 1) and 0 elsewhere; this holds for every mark grid of that size,
and the value returned by `run_munkres_algorithm` is the extraction of the final mark grid. -/
theorem extraction_copies_stars (n fuel : Nat) (C : Matrix Int) (hn : 0 < n)
    (hC : ValidCost n C) (hfuel : 2 * n * n + 4 * n + 1 ≤ fuel) :
    ∃ Z s R, Matrix.filled n n (0 : Int) = Except.ok Z ∧
      (∀ M : Matrix Int, Square n M →
        (extractAssignment M Z n).nrows = C.nrows ∧ (extractAssignment M Z n).ncols = C.ncols ∧
        ∀ r c, r < n → c < n →
          (extractAssignment M Z n).get r c = if M.get r c = 1 then 1 else 0) ∧
      mainLoop n fuel fuel (initialState C Z n) = Except.ok s ∧
      run_munkres_algorithm fuel C = Except.ok R ∧
      R = extractAssignment s.zeroMarkMatrix Z n ∧
      R.nrows = C.nrows ∧ R.ncols = C.ncols ∧
      ∀ r c, r < n → c < n → R.get r c = if s.zeroMarkMatrix.get r c = 1 then 1 else 0 := by
  obtain ⟨Z, s, hZ, hZsq, hZ0, hloop, hinv, _, hrun⟩ :=
    run_core hn hC.2.1 hC.1 (fun r c hr hc => reduce_le_of_valid hn hC hr hc) hfuel
  have gen : ∀ M : Matrix Int, Square n M →
      (extractAssignment M Z n).nrows = C.nrows ∧ (extractAssignment M Z n).ncols = C.ncols ∧
      ∀ r c, r < n → c < n →
        (extractAssignment M Z n).get r c = if M.get r c = 1 then 1 else 0 := by
    intro M _
    obtain ⟨x1, x2⟩ := extractAssignment_spec M hZsq
    refine ⟨x1.1.trans hC.1.1.symm, x1.2.1.trans hC.1.2.1.symm, ?_⟩
    intro r c hr hc
    rw [x2 r c hr hc, hZ0 r c hr hc]
  obtain ⟨g1, g2, g3⟩ := gen s.zeroMarkMatrix hinv.marks_square
  exact ⟨Z, s, _, hZ, gen, hloop, hrun, rfl, g1, g2, g3⟩

/-- Claim C14, as amended: the constructor throws `Invalid` exactly when a dimension is zero
and fails in no other way; otherwise the matrix has the two dimensions asked for and holds
`numberOfRows * numberOfColumns` (a `std::size_t` product) elements, all equal to
`initialValue`; when that product does not wrap around, every element `(r, c)` with
`r < nrows` and `c < ncols` exists and equals `initialValue`. -/
theorem filled_spec (numberOfRows numberOfColumns : Nat) (initialValue : Int) :
    (Matrix.filled numberOfRows numberOfColumns initialValue = Except.error Error.Invalid ↔
      (numberOfRows = 0 ∨ numberOfColumns = 0)) ∧
    (∀ e, Matrix.filled numberOfRows numberOfColumns initialValue = Except.error e →
      e = Error.Invalid) ∧
    (numberOfRows ≠ 0 → numberOfColumns ≠ 0 →
      ∃ m, Matrix.filled numberOfRows numberOfColumns initialValue = Except.ok m ∧
        m.nrows = numberOfRows ∧ m.ncols = numberOfColumns ∧ m.WellFormed ∧
        (∀ x ∈ m.rawData_, x = initialValue) ∧
        (numberOfRows * numberOfColumns < SIZE_MODULUS →
          ∀ r c, r < numberOfRows → c < numberOfColumns →
            m.access r c = Except.ok initialValue)) := by
  by_cases h : numberOfRows = 0 ∨ numberOfColumns = 0
  · refine ⟨?_, ?_, ?_⟩
    · simp [Matrix.filled, h]
    · intro e he
      simp only [Matrix.filled, if_pos h] at he
      exact (Except.error.inj he).symm
    · intro h1 h2
      rcases h with h | h
      · exact absurd h h1
      · exact absurd h h2
  · refine ⟨?_, ?_, ?_⟩
    · simp [Matrix.filled, h]
    · intro e he
      simp only [Matrix.filled, if_neg h] at he
      exact Except.noConfusion he
    · intro _ _
      refine ⟨⟨numberOfRows, numberOfColumns,
        List.replicate ((numberOfRows * numberOfColumns) % SIZE_MODULUS) initialValue⟩,
        by simp only [Matrix.filled, if_neg h], rfl, rfl, ?_, ?_, ?_⟩
      · simp [Matrix.WellFormed]
      · intro x hx
        exact (List.mem_replicate.mp hx).2
      · intro hsz r c hr hc
        have hi : r * numberOfColumns + c < numberOfRows * numberOfColumns := by
          have h1 : r * numberOfColumns + numberOfColumns ≤ numberOfRows * numberOfColumns := by
            have : (r + 1) * numberOfColumns ≤ numberOfRows * numberOfColumns :=
              Nat.mul_le_mul_right _ hr
            simpa [Nat.succ_mul] using this
          omega
        have hi' : (r * numberOfColumns + c) % SIZE_MODULUS = r * numberOfColumns + c :=
          Nat.mod_eq_of_lt (by omega)
        unfold Matrix.access Matrix.accessCheck
        simp only [hi', Nat.mod_eq_of_lt hsz, hi, decide_True, if_true,
          List.getElem?_replicate]

/-- Claim C14 fails where the product of the two dimensions wraps around: with 2³² rows and
2³² columns the constructor succeeds, the matrix reports these dimensions, the array holds no
element at all, and the access to element `(0, 0)` is rejected. -/
theorem filled_wraps_around :
    Matrix.filled 4294967296 4294967296 (7 : Int) =
        Except.ok ⟨4294967296, 4294967296, []⟩ ∧
      (⟨4294967296, 4294967296, []⟩ : Matrix Int).nrows = 4294967296 ∧
      (0 < (⟨4294967296, 4294967296, []⟩ : Matrix Int).nrows ∧
        0 < (⟨4294967296, 4294967296, []⟩ : Matrix Int).ncols) ∧
      (⟨4294967296, 4294967296, []⟩ : Matrix Int).access 0 0 ≠ Except.ok 7 := by
  refine ⟨by rfl, rfl, ⟨by decide, by decide⟩, ?_⟩
  intro h
  have : (⟨4294967296, 4294967296, []⟩ : Matrix Int).access 0 0 =
      Except.error Error.AssertionFailed := by rfl
  rw [this] at h
  exact Except.noConfusion h

/-- Claim C15: the initializer-list constructor throws `Invalid` exactly when the outer list is
empty, the first row is empty or some row differs in length from the first row, and it fails in
no other way; otherwise `nrows` is the number of rows, `ncols` the length of the first row and
element `(r, c)` is the `c`-th value of the `r`-th row. -/
theorem ofRows_spec (initElements : List (List Int))
    (hcount : initElements.length * (initElements.headD []).length < SIZE_MODULUS) :
    ((∃ e, Matrix.ofRows initElements = Except.error e) ↔
      (initElements.length = 0 ∨ (initElements.headD []).length = 0 ∨
        ∃ row ∈ initElements, row.length ≠ (initElements.headD []).length)) ∧
    (∀ e, Matrix.ofRows initElements = Except.error e → e = Error.Invalid) ∧
    (¬ (initElements.length = 0 ∨ (initElements.headD []).length = 0 ∨
        ∃ row ∈ initElements, row.length ≠ (initElements.headD []).length) →
      ∃ m, Matrix.ofRows initElements = Except.ok m ∧ m.nrows = initElements.length ∧
        m.ncols = (initElements.headD []).length ∧ m.WellFormed ∧
        ∀ r c row v, initElements[r]? = some row → row[c]? = some v →
          m.access r c = Except.ok v) := by
  by_cases h0 : initElements.length = 0 ∨ (initElements.headD []).length = 0
  · have herr : Matrix.ofRows initElements = Except.error Error.Invalid := by
      simp only [Matrix.ofRows, if_pos h0]
    refine ⟨⟨fun _ => ?_, fun _ => ⟨_, herr⟩⟩, ?_, ?_⟩
    · rcases h0 with h | h
      · exact Or.inl h
      · exact Or.inr (Or.inl h)
    · intro e he
      rw [herr] at he
      exact (Except.error.inj he).symm
    · intro hno
      exact absurd (by
        rcases h0 with h | h
        · exact Or.inl h
        · exact Or.inr (Or.inl h)) hno
  · obtain ⟨s1, s2⟩ := storeRows_error (initElements.headD []).length initElements
      (List.replicate
        ((initElements.length * (initElements.headD []).length) % SIZE_MODULUS) (default : Int), 0)
    by_cases hrow : ∃ row ∈ initElements, row.length ≠ (initElements.headD []).length
    · obtain ⟨e, he⟩ := s2.mpr hrow
      have he' := s1 e he
      subst he'
      have herr : Matrix.ofRows initElements = Except.error Error.Invalid := by
        simp only [Matrix.ofRows, if_neg h0, he]
      refine ⟨⟨fun _ => Or.inr (Or.inr hrow), fun _ => ⟨_, herr⟩⟩, ?_, ?_⟩
      · intro e he2
        rw [herr] at he2
        exact (Except.error.inj he2).symm
      · intro hno
        exact absurd (Or.inr (Or.inr hrow)) hno
    · have hall : ∀ row ∈ initElements, row.length = (initElements.headD []).length := by
        intro row hmem
        by_contra hne
        exact hrow ⟨row, hmem, hne⟩
      have hjl := flatten_length_of_uniform _ initElements hall
      have hst := storeRows_spec (default : Int) (initElements.headD []).length initElements []
        (initElements.length * (initElements.headD []).length) hall (by rw [hjl])
      simp only [List.nil_append, List.length_nil, Nat.zero_add, hjl, Nat.sub_self,
        List.replicate_zero, List.append_nil] at hst
      have hok : Matrix.ofRows initElements =
          Except.ok ⟨initElements.length, (initElements.headD []).length,
            initElements.flatten⟩ := by
        simp only [Matrix.ofRows, if_neg h0, Nat.mod_eq_of_lt hcount, hst]
      refine ⟨⟨?_, ?_⟩, ?_, ?_⟩
      · rintro ⟨e, he⟩
        rw [hok] at he
        exact Except.noConfusion he
      · rintro (h | h | h)
        · exact absurd (Or.inl h) h0
        · exact absurd (Or.inr h) h0
        · exact absurd h hrow
      · intro e he
        rw [hok] at he
        exact Except.noConfusion he
      · intro _
        refine ⟨_, hok, rfl, rfl, ?_, ?_⟩
        · simp only [Matrix.WellFormed, hjl, Nat.mod_eq_of_lt hcount]
        · intro r c row v hr hc
          have hget := flatten_getElem? _ initElements hall r c row v hr hc
          have hidx : r * (initElements.headD []).length + c < initElements.flatten.length := by
            by_contra hge
            rw [List.getElem?_eq_none (by omega)] at hget
            exact Option.noConfusion hget
          rw [hjl] at hidx
          have hi' : (r * (initElements.headD []).length + c) % SIZE_MODULUS =
              r * (initElements.headD []).length + c := Nat.mod_eq_of_lt (by omega)
          unfold Matrix.access Matrix.accessCheck
          simp only [hi', Nat.mod_eq_of_lt hcount, hidx, decide_True, if_true, hget]

/-- Claim C16 fails on the code: `operator()` asserts only that the linear index is below the
element count. On the 2×2 matrix `[[1,2],[3,4]]` the access `(0, 2)` has a column index that
is not below `ncols`, yet the assertion holds and the access yields the element `(1, 0)`. -/
theorem access_check_ignores_column_bound :
    (⟨2, 2, [1, 2, 3, 4]⟩ : Matrix Int).WellFormed ∧
      ¬ (2 < (⟨2, 2, [1, 2, 3, 4]⟩ : Matrix Int).ncols) ∧
      0 * (⟨2, 2, [1, 2, 3, 4]⟩ : Matrix Int).ncols + 2 <
        (⟨2, 2, [1, 2, 3, 4]⟩ : Matrix Int).nrows * (⟨2, 2, [1, 2, 3, 4]⟩ : Matrix Int).ncols ∧
      (⟨2, 2, [1, 2, 3, 4]⟩ : Matrix Int).accessCheck 0 2 = true ∧
      (⟨2, 2, [1, 2, 3, 4]⟩ : Matrix Int).access 0 2 = Except.ok 3 ∧
      (⟨2, 2, [1, 2, 3, 4]⟩ : Matrix Int).access 1 0 = Except.ok 3 := by
  refine ⟨by rfl, by decide, by decide, by decide, by rfl, by rfl⟩

/-! ## The reduction phase and its reference definition -/

theorem index_div {n r c : Nat} (hc : c < n) : (r * n + c) / n = r := by
  have hn : 0 < n := by omega
  rw [Nat.add_comm, Nat.add_mul_div_right _ _ hn, Nat.div_eq_of_lt hc, Nat.zero_add]

theorem index_mod {n r c : Nat} (hc : c < n) : (r * n + c) % n = c := by
  rw [Nat.add_comm, Nat.add_mul_mod_self_right, Nat.mod_eq_of_lt hc]

theorem tabulated_get (n : Nat) (g : Nat → Int) {r c : Nat} (hr : r < n) (hc : c < n) :
    (⟨n, n, (List.range (n * n)).map g⟩ : Matrix Int).get r c = g (r * n + c) := by
  unfold Matrix.get
  simp only [List.getD_eq_getElem?_getD, List.getElem?_map,
    List.getElem?_range (linear_index_lt hr hc), Option.map_some', Option.getD_some]

theorem tabulated_square (n : Nat) (g : Nat → Int) :
    Square n (⟨n, n, (List.range (n * n)).map g⟩ : Matrix Int) :=
  ⟨rfl, rfl, by simp⟩

/-- Two square matrices of the same size with the same entries are the same value. -/
theorem matrix_ext {n : Nat} {A B : Matrix Int} (hA : Square n A) (hB : Square n B)
    (h : ∀ r c, r < n → c < n → A.get r c = B.get r c) : A = B := by
  obtain ⟨a1, a2, a3⟩ := hA
  obtain ⟨b1, b2, b3⟩ := hB
  have hdata : A.rawData_ = B.rawData_ := by
    apply List.ext_getElem (by rw [a3, b3])
    intro i h1 h2
    have hi : i < n * n := by rw [← a3]; exact h1
    have hn : 0 < n := by
      rcases Nat.eq_zero_or_pos n with e | e
      · subst e; simp at hi
      · exact e
    have hdiv : i / n < n := Nat.div_lt_of_lt_mul hi
    have hmod : i % n < n := Nat.mod_lt _ hn
    have e := h (i / n) (i % n) hdiv hmod
    unfold Matrix.get at e
    rw [a2, b2] at e
    simp only [Nat.div_add_mod' i n, List.getD_eq_getElem?_getD,
      List.getElem?_eq_getElem h1, List.getElem?_eq_getElem h2, Option.getD_some] at e
    exact e
  cases A with
  | mk ra ca da =>
    cases B with
    | mk rb cb db =>
      simp only at a1 a2 b1 b2 hdata
      simp only [Matrix.mk.injEq]
      exact ⟨a1.trans b1.symm, a2.trans b2.symm, hdata⟩

theorem referenceRowMinimum_eq (C : Matrix Int) {n : Nat} (hn : 0 < n) (r : Nat) :
    referenceRowMinimum C n r = minimumRowValue C n r := by
  unfold referenceRowMinimum
  have : ((List.range n).map (fun c => C.get r c)).min? = some (minimumRowValue C n r) := by
    haveI : Std.Antisymm (fun (x1 x2 : Int) => x1 ≤ x2) :=
      ⟨fun h1 h2 => le_antisymm h1 h2⟩
    rw [List.min?_eq_some_iff (fun a => le_refl a) (fun a b => min_choice a b)
      (fun a b c => le_min_iff)]
    constructor
    · obtain ⟨c, hc, e⟩ := minimumRowValue_attained C hn r
      exact List.mem_map.mpr ⟨c, List.mem_range.mpr hc, e.symm⟩
    · intro b hb
      obtain ⟨c, hc, e⟩ := List.mem_map.mp hb
      rw [← e]
      exact minimumRowValue_le C (List.mem_range.mp hc)
  rw [this, Option.getD_some]

theorem referenceColumnMinimum_eq (C : Matrix Int) {n : Nat} (hn : 0 < n) (c : Nat) :
    referenceColumnMinimum C n c = minimumColumnValue C n c := by
  unfold referenceColumnMinimum
  have : ((List.range n).map (fun r => C.get r c)).min? = some (minimumColumnValue C n c) := by
    haveI : Std.Antisymm (fun (x1 x2 : Int) => x1 ≤ x2) :=
      ⟨fun h1 h2 => le_antisymm h1 h2⟩
    rw [List.min?_eq_some_iff (fun a => le_refl a) (fun a b => min_choice a b)
      (fun a b c => le_min_iff)]
    constructor
    · obtain ⟨r, hr, e⟩ := minimumColumnValue_attained C hn c
      exact List.mem_map.mpr ⟨r, List.mem_range.mpr hr, e.symm⟩
    · intro b hb
      obtain ⟨r, hr, e⟩ := List.mem_map.mp hb
      rw [← e]
      exact minimumColumnValue_le C (List.mem_range.mp hr)
  rw [this, Option.getD_some]

/-- The reference row minimum is the least entry of the row. -/
theorem referenceRowMinimum_isLeast (C : Matrix Int) {n : Nat} (hn : 0 < n) (r : Nat) :
    IsLeast {x | ∃ c, c < n ∧ x = C.get r c} (referenceRowMinimum C n r) := by
  rw [referenceRowMinimum_eq C hn r]
  constructor
  · obtain ⟨c, hc, e⟩ := minimumRowValue_attained C hn r
    exact ⟨c, hc, e⟩
  · rintro x ⟨c, hc, rfl⟩
    exact minimumRowValue_le C hc

/-- The reference column minimum is the least entry of the column. -/
theorem referenceColumnMinimum_isLeast (C : Matrix Int) {n : Nat} (hn : 0 < n) (c : Nat) :
    IsLeast {x | ∃ r, r < n ∧ x = C.get r c} (referenceColumnMinimum C n c) := by
  rw [referenceColumnMinimum_eq C hn c]
  constructor
  · obtain ⟨r, hr, e⟩ := minimumColumnValue_attained C hn c
    exact ⟨r, hr, e⟩
  · rintro x ⟨r, hr, rfl⟩
    exact minimumColumnValue_le C hr

theorem reduceRows_eq_reference {n : Nat} (hn : 0 < n) {C : Matrix Int} (hC : Square n C) :
    reduceRows C n = referenceRowReduced C n := by
  apply matrix_ext (reduceRows_spec hC).1 (tabulated_square n _)
  intro r c hr hc
  rw [(reduceRows_spec hC).2 r c hr hc, tabulated_get n _ hr hc, index_div hc, index_mod hc,
    referenceRowMinimum_eq C hn r]

/-! ## Star uniqueness at every mutation of the mark grid -/

/-- Rule for a doubly nested loop stopped at a cell: a fact kept by every cell visit holds at
every stopping point. -/
theorem nested_stop_rule {β : Type} (I : β → Prop) (body : Nat → β → Nat → β) (n : Nat)
    (hstep : ∀ r c, r < n → c < n → ∀ acc, I acc → I (body r acc c)) (init : β) (h0 : I init)
    (r c : Nat) (hr : r ≤ n) (hc : c ≤ n) (hrc : c = 0 ∨ r < n) :
    I ((List.range c).foldl (body r)
      ((List.range r).foldl (fun acc row => (List.range n).foldl (body row) acc) init)) := by
  have houter :
      I ((List.range r).foldl (fun acc row => (List.range n).foldl (body row) acc) init) :=
    foldl_range_rule (fun _ acc => I acc) _ init r h0
      (fun k hk acc hacc => foldl_range_rule (fun _ acc => I acc) (body k) acc n hacc
        (fun j hj acc' hacc' => hstep k j (by omega) hj acc' hacc'))
  exact foldl_range_rule (fun _ acc => I acc) (body r) _ c houter
    (fun j hj acc hacc => hstep r j (by omega) (by omega) acc hacc)

theorem initialStarringUpTo_inv {n : Nat} (cost : Matrix Int) {Z : Matrix Int} (hZ : Square n Z)
    (hZ0 : ∀ r c, r < n → c < n → Z.get r c = 0) (r c : Nat) (hr : r ≤ n) (hc : c ≤ n)
    (hrc : c = 0 ∨ r < n) : StarringInv n cost (initialStarringUpTo cost Z n r c) := by
  unfold initialStarringUpTo
  exact nested_stop_rule (StarringInv n cost) (starCell cost) n
    (fun r c hr hc acc hacc => starCell_inv cost hr hc hacc) _ (starringInv_init cost hZ hZ0)
    r c hr hc hrc

theorem initialStarringUpTo_full (cost Z : Matrix Int) (n : Nat) :
    initialStarringUpTo cost Z n n 0 = initialStarring cost Z n := by
  simp [initialStarringUpTo, initialStarring]

theorem clearPrimesUpTo_full (M : Matrix Int) (n : Nat) :
    clearPrimesUpTo M n n 0 = clearPrimes M n := by
  simp [clearPrimesUpTo, clearPrimes]

/-- Erasing primes, stopped anywhere, leaves the starred cells as they were. -/
theorem clearPrimesUpTo_stars {n : Nat} {M : Matrix Int} (hM : Square n M) (r c : Nat)
    (hr : r ≤ n) (hc : c ≤ n) (hrc : c = 0 ∨ r < n) :
    Square n (clearPrimesUpTo M n r c) ∧ ∀ i j, i < n → j < n →
      ((clearPrimesUpTo M n r c).get i j = 1 ↔ M.get i j = 1) := by
  unfold clearPrimesUpTo
  refine nested_stop_rule
    (fun acc => Square n acc ∧ ∀ i j, i < n → j < n → (acc.get i j = 1 ↔ M.get i j = 1))
    (fun row m col => if m.get row col = 2 then m.set row col 0 else m) n ?_ M
    ⟨hM, fun _ _ _ _ => Iff.rfl⟩ r c hr hc hrc
  rintro r c hr hc acc ⟨hsq, hacc⟩
  by_cases h : acc.get r c = 2
  · simp only [h, if_true]
    refine ⟨hsq.set _ _ _, ?_⟩
    intro i j hi hj
    rw [get_set hsq hr hc hj]
    by_cases e : r = i ∧ c = j
    · obtain ⟨e1, e2⟩ := e; subst e1; subst e2
      have := hacc r c hr hc
      rw [h] at this
      simp only [if_pos (And.intro rfl rfl)]
      constructor
      · intro h0; omega
      · intro h1; have := this.mpr h1; omega
    · rw [if_neg e]; exact hacc i j hi hj
  · simp only [h, if_false]
    exact ⟨hsq, hacc⟩

/-- The search stopped at any row: either nothing was found yet and the loop facts hold, or
the found cell has just been primed in a state satisfying the loop facts. -/
theorem searchUpTo_spec {n : Nat} {C : Matrix Int} {s : State} (h : Inv n C s) (k : Nat)
    (hk : k ≤ n) :
    ((searchUpTo n s k).2 = none ∧ Inv n C (searchUpTo n s k).1) ∨
    (∃ s0 r0 c0, (searchUpTo n s k).2 = some (r0, c0) ∧ Inv n C s0 ∧ AugStart n s0 r0 c0 ∧
      (searchUpTo n s k).1 = { s0 with zeroMarkMatrix := s0.zeroMarkMatrix.set r0 c0 2 }) := by
  unfold searchUpTo
  exact foldl_range_rule
    (fun _ (acc : State × Option (Nat × Nat)) =>
      (acc.2 = none ∧ Inv n C acc.1) ∨
      (∃ s0 r0 c0, acc.2 = some (r0, c0) ∧ Inv n C s0 ∧ AugStart n s0 r0 c0 ∧
        acc.1 = { s0 with zeroMarkMatrix := s0.zeroMarkMatrix.set r0 c0 2 }))
    (fun acc row =>
      match acc.2 with
      | some _ => acc
      | none => searchRow n acc.1 row)
    (s, none) k (Or.inl ⟨rfl, h⟩)
    (by
      rintro j hj ⟨a, found⟩ hacc
      have hjn : j < n := by omega
      rcases hacc with ⟨hnone, hinv⟩ | ⟨s0, r0, c0, hsome, hinv, haug, hst⟩
      · simp only at hnone hinv
        subst hnone
        simp only
        rcases searchRow_cases hinv hjn with ⟨e, _⟩ |
            ⟨c, j', hc, hj', hrow, hcol, hzero, hstar, e⟩ | ⟨c, haug, e⟩
        · rw [e]; exact Or.inl ⟨rfl, hinv⟩
        · rw [e]; exact Or.inl ⟨rfl, detour_inv hinv hjn hc hj' hrow hcol hzero hstar⟩
        · rw [e]; exact Or.inr ⟨a, j, c, rfl, hinv, haug, rfl⟩
      · simp only at hsome hst
        subst hsome
        simp only
        exact Or.inr ⟨s0, r0, c0, rfl, hinv, haug, hst⟩)

theorem searchUpTo_stars {n : Nat} {C : Matrix Int} {s : State} (h : Inv n C s) (k : Nat)
    (hk : k ≤ n) :
    StarsUniqueInRows n (searchUpTo n s k).1.zeroMarkMatrix ∧
      StarsUniqueInColumns n (searchUpTo n s k).1.zeroMarkMatrix := by
  rcases searchUpTo_spec h k hk with ⟨_, hinv⟩ | ⟨s0, r0, c0, _, hinv, haug, hst⟩
  · exact ⟨hinv.star_row_unique, hinv.star_col_unique⟩
  · rw [hst]
    obtain ⟨hPR, _, _⟩ := pathReady_of_augStart hinv haug
    exact ⟨hPR.star_row_unique, hPR.star_col_unique⟩

/-- One pass of the main loop keeps the loop facts. -/
theorem loopBody_inv {n : Nat} {C : Matrix Int} {s s1 : State} {pathFuel : Nat}
    (h : Inv n C s) (hlt : s.numberOfCoveredColumns < n)
    (hb : loopBody n pathFuel s = Except.ok s1) : Inv n C s1 := by
  have hb' := loopBody_mono n (Nat.le_max_left pathFuel n) hb
  have hcnt := h.count
  have hstars : (starredColumns n s.zeroMarkMatrix).card < n := by omega
  unfold loopBody at hb'
  rcases search_spec h with ⟨hnone, hinv, hst, _⟩ | ⟨s0, r0, c0, hsome, hinv, haug, hs1, _⟩
  · cases hsr : search n s with
    | mk a found =>
      rw [hsr] at hnone hinv hst hb'
      simp only at hnone hinv hst
      subst hnone
      simp only at hb'
      have e := Except.ok.inj hb'
      rw [← e]
      exact (adjust_inv hinv (by rw [hst]; exact hstars)).1
  · cases hsr : search n s with
    | mk a found =>
      rw [hsr] at hsome hs1 hb'
      simp only at hsome hs1
      subst hsome
      subst hs1
      simp only at hb'
      obtain ⟨s2, haugeq, hinv2, _⟩ := augment_spec hinv haug (Nat.le_max_right pathFuel n)
      rw [haugeq] at hb'
      have e := Except.ok.inj hb'
      rw [← e]
      exact hinv2

theorem loopState_inv {n : Nat} {C : Matrix Int} {s0 s : State} {pathFuel : Nat}
    (h0 : Inv n C s0) (hs : LoopState n pathFuel s0 s) : Inv n C s := by
  induction hs with
  | start => exact h0
  | pass _ hlt hb ih => exact loopBody_inv ih hlt hb

/-! ## Positions along the augmenting path -/

theorem alternating_singleton {M : Matrix Int} {start : Nat × Nat}
    (h : M.get start.1 start.2 = 2) : Alternating M [start] := by
  refine ⟨rfl, ?_, ?_⟩
  · intro k x _ hx
    have hk : k < 1 := by
      by_contra hge
      rw [List.getElem?_eq_none (by simp; omega)] at hx
      exact Option.noConfusion hx
    have : k = 0 := by omega
    subst this
    simp only [List.getElem?_cons_zero, Option.some.injEq] at hx
    rw [← hx]; exact h
  · intro k x hk hx
    have hk1 : k < 1 := by
      by_contra hge
      rw [List.getElem?_eq_none (by simp; omega)] at hx
      exact Option.noConfusion hx
    omega

/-- Two more cells, a starred one in the column of the last cell and a primed one in the row
of that starred cell, extend an alternating path. -/
theorem alternating_extend {M : Matrix Int} {path : List (Nat × Nat)} {last : Nat × Nat}
    (hA : Alternating M path) (hlast : path.getLast? = some last) {rs cp : Nat}
    (hs : M.get rs last.2 = 1) (hp : M.get rs cp = 2) :
    Alternating M (path ++ [(rs, last.2), (rs, cp)]) := by
  have hodd := hA.odd_length
  have hlen : (path ++ [(rs, last.2), (rs, cp)]).length = path.length + 2 := by simp
  have hlast' : path[path.length - 1]? = some last := by
    rw [← List.getLast?_eq_getElem?]; exact hlast
  have hin : ∀ k, k < path.length → (path ++ [(rs, last.2), (rs, cp)])[k]? = path[k]? :=
    fun k hk => List.getElem?_append_left hk
  have hat0 : (path ++ [(rs, last.2), (rs, cp)])[path.length]? = some (rs, last.2) := by
    rw [List.getElem?_append_right (le_refl _)]; simp
  have hat1 : (path ++ [(rs, last.2), (rs, cp)])[path.length + 1]? = some (rs, cp) := by
    rw [List.getElem?_append_right (by omega)]; simp
  have hbound : ∀ k x, (path ++ [(rs, last.2), (rs, cp)])[k]? = some x → k < path.length + 2 := by
    intro k x hx
    obtain ⟨hk, _⟩ := List.getElem?_eq_some.mp hx
    omega
  refine ⟨by rw [hlen]; omega, ?_, ?_⟩
  · intro k x hk hx
    have hb := hbound k x hx
    by_cases hlt : k < path.length
    · rw [hin k hlt] at hx; exact hA.prime_at k x hk hx
    · have : k = path.length + 1 := by omega
      subst this
      rw [hat1] at hx
      rw [← Option.some.inj hx]; exact hp
  · intro k x hk hx
    have hb := hbound k x hx
    by_cases hlt : k < path.length
    · rw [hin k hlt] at hx
      obtain ⟨h1, ⟨y, hy, hy2⟩, ⟨z, hz, hz2⟩⟩ := hA.star_at k x hk hx
      have hk1 : k + 1 < path.length := (List.getElem?_eq_some.mp hz).1
      exact ⟨h1, ⟨y, by rw [hin (k - 1) (by omega)]; exact hy, hy2⟩,
        ⟨z, by rw [hin (k + 1) hk1]; exact hz, hz2⟩⟩
    · have : k = path.length := by omega
      subst this
      rw [hat0] at hx
      rw [← Option.some.inj hx]
      exact ⟨hs, ⟨last, by rw [hin _ (by omega)]; exact hlast', rfl⟩, ⟨(rs, cp), hat1, rfl⟩⟩

/-- The completed path is alternating, starts with the cell the loop started with, and the
column of its last cell holds no starred zero. -/
theorem buildPath_alternating (M : Matrix Int) (n : Nat) :
    ∀ (fuel : Nat) (path result : List (Nat × Nat)), Alternating M path →
      buildPath M n fuel path = Except.ok result →
      Alternating M result ∧ result[0]? = path[0]? ∧
        ∃ last, result.getLast? = some last ∧ ∀ r, r < n → M.get r last.2 ≠ 1 := by
  intro fuel
  induction fuel with
  | zero =>
    intro path result _ h
    simp [buildPath] at h
  | succ fuel ih =>
    intro path result hA h
    unfold buildPath at h
    cases hl : path.getLast? with
    | none => rw [hl] at h; simp at h
    | some last =>
      rw [hl] at h
      simp only at h
      cases hfind : (List.range n).find? (fun row => decide (M.get row last.2 = 1)) with
      | none =>
        rw [hfind] at h
        simp only at h
        have e := Except.ok.inj h
        subst e
        refine ⟨hA, rfl, last, hl, ?_⟩
        intro r hr hs
        have := List.find?_eq_none.mp hfind r (List.mem_range.mpr hr)
        simp only [decide_eq_true_eq] at this
        exact this hs
      | some rs =>
        rw [hfind] at h
        simp only at h
        have hs := List.find?_some hfind
        simp only [decide_eq_true_eq] at hs
        cases hfind2 : (List.range n).find? (fun col => decide (M.get rs col = 2)) with
        | none => rw [hfind2] at h; simp at h
        | some cp =>
          rw [hfind2] at h
          simp only at h
          have hp := List.find?_some hfind2
          simp only [decide_eq_true_eq] at hp
          obtain ⟨r1, r2, r3⟩ := ih _ result (alternating_extend hA hl hs hp) h
          refine ⟨r1, ?_, r3⟩
          rw [r2]
          have hpos : 0 < path.length := by
            have := hA.odd_length
            omega
          exact List.getElem?_append_left hpos

theorem mem_take_iff {α : Type} (l : List α) (i : Nat) (a : α) :
    a ∈ l.take i ↔ ∃ k, k < i ∧ l[k]? = some a := by
  rw [List.mem_iff_getElem?]
  constructor
  · rintro ⟨k, hk⟩
    rw [List.getElem?_take] at hk
    by_cases h : k < i
    · rw [if_pos h] at hk; exact ⟨k, h, hk⟩
    · rw [if_neg h] at hk; exact Option.noConfusion hk
  · rintro ⟨k, h, hk⟩
    exact ⟨k, by rw [List.getElem?_take, if_pos h]; exact hk⟩

/-- After `i` flips the starred cells are the primed cells among the first `i` path cells and
the starred cells outside them. -/
theorem flips_so_far_stars {n : Nat} {M : Matrix Int} {r0 : Nat} {path : List (Nat × Nat)}
    {last : Nat × Nat} (hM : Square n M) (hG : GoodPath n M r0 path last) (i : Nat) :
    Square n (flipPath M (path.take i)) ∧ ∀ r c, r < n → c < n →
      ((flipPath M (path.take i)).get r c = 1 ↔
        (((r, c) ∈ path.take i ∧ M.get r c = 2) ∨ ((r, c) ∉ path.take i ∧ M.get r c = 1))) := by
  obtain ⟨f1, f2⟩ := flipPath_spec (path.take i) M hM
    (List.Nodup.sublist (List.take_sublist i path) hG.nodup)
    (fun x hx => ⟨(hG.cells x (List.mem_of_mem_take hx)).1,
      (hG.cells x (List.mem_of_mem_take hx)).2.1⟩)
  refine ⟨f1, ?_⟩
  intro r c hr hc
  rw [f2 r c hr hc]
  by_cases hp : (r, c) ∈ path.take i
  · rw [if_pos hp]
    rcases (hG.cells (r, c) (List.mem_of_mem_take hp)).2.2 with e | e
    · simp only at e; simp [e, hp]
    · simp only at e; simp [e, hp]
  · rw [if_neg hp]
    simp [hp]

/-- The stars after `i` flips of a completed alternating path: rows keep at most one star
throughout; columns do after an even number of flips and after the last flip; after an odd
number of flips short of the last, the column of the cell flipped last holds two stars. -/
theorem flips_so_far_unique {n : Nat} {M : Matrix Int} {r0 : Nat} {path : List (Nat × Nat)}
    {last : Nat × Nat} (hM : PathReady n M r0) (hG : GoodPath n M r0 path last)
    (hA : Alternating M path) (hfirst : ∃ c0, path[0]? = some (r0, c0))
    (hfree : ∃ x, path.getLast? = some x ∧ ∀ r, r < n → M.get r x.2 ≠ 1)
    (i : Nat) :
    StarsUniqueInRows n (flipPath M (path.take i)) ∧
      ((i % 2 = 0 ∨ i = path.length) → StarsUniqueInColumns n (flipPath M (path.take i))) ∧
      (i % 2 = 1 → i < path.length → ¬ StarsUniqueInColumns n (flipPath M (path.take i))) := by
  obtain ⟨_, hstar⟩ := flips_so_far_stars hM.square hG i
  have hodd := hA.odd_length
  -- a primed path cell sits at an even position, a starred one at an odd position
  have even_of_prime : ∀ k x, path[k]? = some x → M.get x.1 x.2 = 2 → k % 2 = 0 := by
    intro k x hx h2
    by_contra hk
    have := (hA.star_at k x (by omega) hx).1
    omega
  have rowmix : ∀ r c c', r < n → c < n → c' < n → (r, c) ∈ path.take i → M.get r c = 2 →
      (r, c') ∉ path.take i → M.get r c' = 1 → False := by
    intro r c c' hr hc hc' hp hpr hnp hs
    obtain ⟨k, hki, hk⟩ := (mem_take_iff path i (r, c)).mp hp
    have hkeven := even_of_prime k (r, c) hk hpr
    by_cases hk0 : k = 0
    · subst hk0
      obtain ⟨c0, h0⟩ := hfirst
      rw [h0] at hk
      have e : r0 = r := (Prod.mk.inj (Option.some.inj hk)).1
      subst e
      exact hM.no_star c' hc' hs
    · have hklen : k < path.length := (List.getElem?_eq_some.mp hk).1
      have hprev : path[k - 1]? = some (path[k - 1]) := List.getElem?_eq_getElem (by omega)
      obtain ⟨h1, _, ⟨z, hz, hz1⟩⟩ := hA.star_at (k - 1) _ (by omega) hprev
      have e1 : k - 1 + 1 = k := by omega
      rw [e1, hk] at hz
      have ez : z = (r, c) := (Option.some.inj hz).symm
      subst ez
      simp only at hz1
      have hmem : path[k - 1] ∈ path := List.getElem_mem _
      obtain ⟨_, hx2, _⟩ := hG.cells _ hmem
      rw [← hz1] at h1
      have ec : (path[k - 1]).2 = c' :=
        hM.star_row_unique r _ c' hr hx2 hc' h1 hs
      apply hnp
      refine (mem_take_iff path i (r, c')).mpr ⟨k - 1, by omega, ?_⟩
      rw [hprev]
      congr 1
      exact Prod.ext hz1.symm ec
  have colmix : (i % 2 = 0 ∨ i = path.length) → ∀ r r' c, r < n → r' < n → c < n →
      (r, c) ∈ path.take i → M.get r c = 2 → (r', c) ∉ path.take i → M.get r' c = 1 →
      False := by
    intro hpar r r' c hr hr' hc hp hpr hnp hs
    obtain ⟨k, hki, hk⟩ := (mem_take_iff path i (r, c)).mp hp
    have hkeven := even_of_prime k (r, c) hk hpr
    have hklen : k < path.length := (List.getElem?_eq_some.mp hk).1
    by_cases hnext : k + 1 < path.length
    · have hnx : path[k + 1]? = some (path[k + 1]) := List.getElem?_eq_getElem hnext
      obtain ⟨h1, ⟨y, hy, hy2⟩, _⟩ := hA.star_at (k + 1) _ (by omega) hnx
      have e1 : k + 1 - 1 = k := by omega
      rw [e1, hk] at hy
      have ey : y = (r, c) := (Option.some.inj hy).symm
      subst ey
      simp only at hy2
      have hmem : path[k + 1] ∈ path := List.getElem_mem _
      obtain ⟨hx1, _, _⟩ := hG.cells _ hmem
      rw [← hy2] at h1
      have er : (path[k + 1]).1 = r' :=
        hM.star_col_unique _ r' c hx1 hr' hc h1 hs
      apply hnp
      refine (mem_take_iff path i (r', c)).mpr ⟨k + 1, ?_, ?_⟩
      · rcases hpar with h | h <;> omega
      · rw [hnx]
        congr 1
        exact Prod.ext er hy2.symm
    · obtain ⟨x, hx, hxfree⟩ := hfree
      rw [List.getLast?_eq_getElem?] at hx
      have e1 : path.length - 1 = k := by omega
      rw [e1, hk] at hx
      have ex : x = (r, c) := (Option.some.inj hx).symm
      subst ex
      exact hxfree r' hr' hs
  refine ⟨?_, ?_, ?_⟩
  · intro r c c' hr hc hc' h1 h2
    rcases (hstar r c hr hc).mp h1 with ⟨p1, q1⟩ | ⟨p1, q1⟩ <;>
      rcases (hstar r c' hr hc').mp h2 with ⟨p2, q2⟩ | ⟨p2, q2⟩
    · exact hM.prime_row_unique r c c' hr hc hc' q1 q2
    · exact (rowmix r c c' hr hc hc' p1 q1 p2 q2).elim
    · exact (rowmix r c' c hr hc' hc p2 q2 p1 q1).elim
    · exact hM.star_row_unique r c c' hr hc hc' q1 q2
  · intro hpar r r' c hr hr' hc h1 h2
    rcases (hstar r c hr hc).mp h1 with ⟨p1, q1⟩ | ⟨p1, q1⟩ <;>
      rcases (hstar r' c hr' hc).mp h2 with ⟨p2, q2⟩ | ⟨p2, q2⟩
    · have := hG.prime_col_unique (r, c) (List.mem_of_mem_take p1) (r', c)
        (List.mem_of_mem_take p2) q1 q2 rfl
      exact (Prod.mk.inj this).1
    · exact (colmix hpar r r' c hr hr' hc p1 q1 p2 q2).elim
    · exact (colmix hpar r' r c hr' hr hc p2 q2 p1 q1).elim
    · exact hM.star_col_unique r r' c hr hr' hc q1 q2
  · intro hiodd hilt huniq
    obtain ⟨x, hx⟩ : ∃ x, path[i - 1]? = some x :=
      ⟨_, List.getElem?_eq_getElem (by omega : i - 1 < path.length)⟩
    obtain ⟨y, hy⟩ : ∃ y, path[i]? = some y := ⟨_, List.getElem?_eq_getElem hilt⟩
    have hxp := hA.prime_at (i - 1) x (by omega) hx
    obtain ⟨hys, ⟨y', hy', hy2⟩, _⟩ := hA.star_at i y hiodd hy
    rw [hx] at hy'
    have ey : y' = x := (Option.some.inj hy').symm
    rw [ey] at hy2
    obtain ⟨hx1, hx2, _⟩ := hG.cells x (List.mem_iff_getElem?.mpr ⟨_, hx⟩)
    obtain ⟨hy1, hyc, _⟩ := hG.cells y (List.mem_iff_getElem?.mpr ⟨_, hy⟩)
    have xin : (x.1, x.2) ∈ path.take i :=
      (mem_take_iff path i _).mpr ⟨i - 1, by omega, hx⟩
    have ynotin : (y.1, y.2) ∉ path.take i := by
      intro hmem
      obtain ⟨k, hki, hk⟩ := (mem_take_iff path i _).mp hmem
      have := List.nodup_iff_getElem?_ne_getElem?.mp hG.nodup k i hki hilt
      apply this
      rw [hk, hy]
    have sx : (flipPath M (path.take i)).get x.1 x.2 = 1 :=
      (hstar _ _ hx1 hx2).mpr (Or.inl ⟨xin, hxp⟩)
    have sy : (flipPath M (path.take i)).get y.1 y.2 = 1 :=
      (hstar _ _ hy1 hyc).mpr (Or.inr ⟨ynotin, hys⟩)
    obtain ⟨x1, x2⟩ := x
    obtain ⟨y1, y2⟩ := y
    simp only at hy2 sx sy hxp hys hx1 hy1 hx2
    subst hy2
    have er : x1 = y1 := huniq x1 y1 x2 hx1 hy1 hx2 sx sy
    subst er
    omega

/-! ## Star uniqueness during a run -/

/-- The flips of one augmentation, read at every stopping point of the flip loop. -/
theorem augmentation_flips {n : Nat} {C : Matrix Int} {s s1 : State} {start : Nat × Nat}
    {path : List (Nat × Nat)} {pathFuel : Nat} (h : Inv n C s)
    (hsearch : search n s = (s1, some start))
    (hbuild : buildPath s1.zeroMarkMatrix n pathFuel [start] = Except.ok path) :
    Square n (flipPath s1.zeroMarkMatrix path) ∧ ∀ i,
      StarsUniqueInRows n (flipPath s1.zeroMarkMatrix (path.take i)) ∧
      ((i % 2 = 0 ∨ i = path.length) →
        StarsUniqueInColumns n (flipPath s1.zeroMarkMatrix (path.take i))) ∧
      (i % 2 = 1 → i < path.length →
        ¬ StarsUniqueInColumns n (flipPath s1.zeroMarkMatrix (path.take i))) := by
  rcases search_spec h with ⟨hnone, _⟩ | ⟨s0, r0, c0, hsome, hinv, haug, hs1, _⟩
  · rw [hsearch] at hnone
    exact Option.noConfusion hnone
  · rw [hsearch] at hsome hs1
    simp only at hsome hs1
    have hstart : start = (r0, c0) := Option.some.inj hsome
    subst hstart
    subst hs1
    simp only at hbuild ⊢
    obtain ⟨hPR, _, prime_iff⟩ := pathReady_of_augStart hinv haug
    obtain ⟨path', last, hbuild', hG, _⟩ :=
      buildPath_from_start hinv haug (Nat.le_max_right pathFuel n)
    have hmono := buildPath_mono _ n pathFuel (max pathFuel n) _ _ (Nat.le_max_left _ _) hbuild
    rw [hmono] at hbuild'
    have e := Except.ok.inj hbuild'
    subst e
    have hprime0 : (s0.zeroMarkMatrix.set r0 c0 2).get r0 c0 = 2 :=
      (prime_iff r0 c0 haug.row_lt haug.col_lt).mpr (Or.inl ⟨rfl, rfl⟩)
    obtain ⟨hA, hfirst, hfree⟩ := buildPath_alternating _ n pathFuel _ _
      (@alternating_singleton _ (r0, c0) hprime0) hbuild
    have hfull := (flips_so_far_stars hPR.square hG path.length).1
    rw [List.take_length] at hfull
    exact ⟨hfull, fun i => flips_so_far_unique hPR hG hA ⟨c0, by rw [hfirst]; rfl⟩ hfree i⟩

theorem cost_example_valid : ValidCost 2 (⟨2, 2, [0, 0, 0, 1]⟩ : Matrix Int) := by
  refine ⟨⟨rfl, rfl, rfl⟩, by decide, ?_⟩
  intro r c hr hc
  have hr' : r = 0 ∨ r = 1 := by omega
  have hc' : c = 0 ∨ c = 1 := by omega
  rcases hr' with rfl | rfl <;> rcases hc' with rfl | rfl <;> decide

/-- Claim C11, counterexample: on the valid matrix `[[0, 0], [0, 1]]` the first pass of the main
loop primes `(0, 1)` and `(1, 0)` and builds the path `(1, 0), (0, 0), (0, 1)`; after the first
flip the cells `(0, 0)` and `(1, 0)` of column 0 are both starred. -/
theorem first_flip_leaves_two_stars_in_column :
    ValidCost 2 (⟨2, 2, [0, 0, 0, 1]⟩ : Matrix Int) ∧
      Matrix.filled 2 2 (0 : Int) = Except.ok ⟨2, 2, [0, 0, 0, 0]⟩ ∧
      (initialState ⟨2, 2, [0, 0, 0, 1]⟩ ⟨2, 2, [0, 0, 0, 0]⟩ 2).zeroMarkMatrix =
        ⟨2, 2, [1, 0, 0, 0]⟩ ∧
      (initialState ⟨2, 2, [0, 0, 0, 1]⟩ ⟨2, 2, [0, 0, 0, 0]⟩ 2).numberOfCoveredColumns < 2 ∧
      (search 2 (initialState ⟨2, 2, [0, 0, 0, 1]⟩ ⟨2, 2, [0, 0, 0, 0]⟩ 2)).2 = some (1, 0) ∧
      (search 2 (initialState ⟨2, 2, [0, 0, 0, 1]⟩ ⟨2, 2, [0, 0, 0, 0]⟩ 2)).1.zeroMarkMatrix =
        ⟨2, 2, [1, 2, 2, 0]⟩ ∧
      buildPath ⟨2, 2, [1, 2, 2, 0]⟩ 2 5 [(1, 0)] = Except.ok [(1, 0), (0, 0), (0, 1)] ∧
      flipPath ⟨2, 2, [1, 2, 2, 0]⟩ ([(1, 0), (0, 0), (0, 1)].take 1) = ⟨2, 2, [1, 2, 1, 0]⟩ ∧
      (⟨2, 2, [1, 2, 1, 0]⟩ : Matrix Int).get 0 0 = 1 ∧
      (⟨2, 2, [1, 2, 1, 0]⟩ : Matrix Int).get 1 0 = 1 ∧
      ¬ StarsUniqueInColumns 2 ⟨2, 2, [1, 2, 1, 0]⟩ ∧
      run_munkres_algorithm 5 ⟨2, 2, [0, 0, 0, 1]⟩ = Except.ok ⟨2, 2, [0, 1, 1, 0]⟩ := by
  refine ⟨cost_example_valid, by rfl, by rfl, by decide, by rfl, by rfl, by rfl, by rfl,
    by decide, by decide, ?_, by rfl⟩
  intro h
  have := h 0 1 0 (by decide) (by decide) (by decide) (by decide) (by decide)
  omega

/-- Claim C11, amended: in a run on a valid square matrix, every row of the mark grid holds at
most one starred cell after every single mutation of the grid: at every stopping point of the
initial starring scan, of the search that primes zeros, of the flip loop and of the loop that
erases the primes. Every column holds at most one starred cell at all these points except
inside the flip loop: there it does after an even number of flips and after the last flip,
while after an odd number of flips short of the last some column holds two starred cells. -/
theorem stars_unique_except_between_paired_flips (n pathFuel : Nat) (C Z : Matrix Int)
    (hC : ValidCost n C) (hZ : Matrix.filled n n (0 : Int) = Except.ok Z) :
    (∀ r c, r ≤ n → c ≤ n → (c = 0 ∨ r < n) →
      StarsUniqueInRows n (initialStarringUpTo (reduce C n) Z n r c).1 ∧
        StarsUniqueInColumns n (initialStarringUpTo (reduce C n) Z n r c).1) ∧
      initialStarringUpTo (reduce C n) Z n n 0 = initialStarring (reduce C n) Z n ∧
      ∀ s, LoopState n pathFuel (initialState C Z n) s → s.numberOfCoveredColumns < n →
        (∀ k, k ≤ n → StarsUniqueInRows n (searchUpTo n s k).1.zeroMarkMatrix ∧
          StarsUniqueInColumns n (searchUpTo n s k).1.zeroMarkMatrix) ∧
        searchUpTo n s n = search n s ∧
        ∀ s1 start path, search n s = (s1, some start) →
          buildPath s1.zeroMarkMatrix n pathFuel [start] = Except.ok path →
          (∀ i, i ≤ path.length →
            StarsUniqueInRows n (flipPath s1.zeroMarkMatrix (path.take i)) ∧
            ((i % 2 = 0 ∨ i = path.length) →
              StarsUniqueInColumns n (flipPath s1.zeroMarkMatrix (path.take i))) ∧
            (i % 2 = 1 → i < path.length →
              ¬ StarsUniqueInColumns n (flipPath s1.zeroMarkMatrix (path.take i)))) ∧
          (∀ r c, r ≤ n → c ≤ n → (c = 0 ∨ r < n) →
            StarsUniqueInRows n (clearPrimesUpTo (flipPath s1.zeroMarkMatrix path) n r c) ∧
              StarsUniqueInColumns n
                (clearPrimesUpTo (flipPath s1.zeroMarkMatrix path) n r c)) ∧
          clearPrimesUpTo (flipPath s1.zeroMarkMatrix path) n n 0 =
            clearPrimes (flipPath s1.zeroMarkMatrix path) n := by
  have hn : 0 < n := by
    rcases Nat.eq_zero_or_pos n with e | e
    · subst e; simp [Matrix.filled] at hZ
    · exact e
  obtain ⟨Z', hZ', hZsq, hZ0⟩ := filled_square hn hC.2.1 (0 : Int)
  rw [hZ] at hZ'
  have hZeq : Z = Z' := Except.ok.inj hZ'
  subst hZeq
  have hinv0 : Inv n C (initialState C Z n) :=
    initialState_inv hC.1 hZsq hZ0 (fun r c hr hc => reduce_le_of_valid hn hC hr hc)
  refine ⟨?_, initialStarringUpTo_full _ _ _, ?_⟩
  · intro r c hr hc hrc
    have hI := initialStarringUpTo_inv (reduce C n) hZsq hZ0 r c hr hc hrc
    exact ⟨hI.row_unique, hI.col_unique⟩
  · intro s hs hlt
    have hinv := loopState_inv hinv0 hs
    refine ⟨fun k hk => searchUpTo_stars hinv k hk, rfl, ?_⟩
    intro s1 start path hsearch hbuild
    obtain ⟨hsq, hflips⟩ := augmentation_flips hinv hsearch hbuild
    refine ⟨fun i _ => hflips i, ?_, clearPrimesUpTo_full _ _⟩
    intro r c hr hc hrc
    obtain ⟨_, hst⟩ := clearPrimesUpTo_stars hsq r c hr hc hrc
    obtain ⟨hrows, hcols, _⟩ := hflips path.length
    rw [List.take_length] at hrows hcols
    have hcols' := hcols (Or.inr rfl)
    constructor
    · intro i j j' hi hj hj' h1 h2
      exact hrows i j j' hi hj hj' ((hst i j hi hj).mp h1) ((hst i j' hi hj').mp h2)
    · intro i i' j hi hi' hj h1 h2
      exact hcols' i i' j hi hi' hj ((hst i j hi hj).mp h1) ((hst i' j hi' hj).mp h2)

theorem stars_unique_except_between_paired_flips_witness :
    (ValidCost 2 (⟨2, 2, [0, 0, 0, 1]⟩ : Matrix Int) ∧
      Matrix.filled 2 2 (0 : Int) = Except.ok ⟨2, 2, [0, 0, 0, 0]⟩) ∧
    (∀ i, i ≤ 3 →
      StarsUniqueInRows 2 (flipPath ⟨2, 2, [1, 2, 2, 0]⟩ ([(1, 0), (0, 0), (0, 1)].take i)) ∧
      ((i % 2 = 0 ∨ i = 3) →
        StarsUniqueInColumns 2
          (flipPath ⟨2, 2, [1, 2, 2, 0]⟩ ([(1, 0), (0, 0), (0, 1)].take i))) ∧
      (i % 2 = 1 → i < 3 →
        ¬ StarsUniqueInColumns 2
          (flipPath ⟨2, 2, [1, 2, 2, 0]⟩ ([(1, 0), (0, 0), (0, 1)].take i)))) :=
  ⟨⟨cost_example_valid, rfl⟩,
    ((stars_unique_except_between_paired_flips 2 5 ⟨2, 2, [0, 0, 0, 1]⟩ ⟨2, 2, [0, 0, 0, 0]⟩
      cost_example_valid rfl).2.2 _ LoopState.start (by decide)).2.2
      (search 2 (initialState ⟨2, 2, [0, 0, 0, 1]⟩ ⟨2, 2, [0, 0, 0, 0]⟩ 2)).1 (1, 0)
      [(1, 0), (0, 0), (0, 1)] (by rfl) (by rfl) |>.1⟩

theorem extraction_copies_stars_witness :
    (0 < 2 ∧ ValidCost 2 ⟨2, 2, [1, 2, 3, 4]⟩ ∧ 2 * 2 * 2 + 4 * 2 + 1 ≤ 17) ∧
      ∃ Z s R, Matrix.filled 2 2 (0 : Int) = Except.ok Z ∧
        (∀ M : Matrix Int, Square 2 M →
          (extractAssignment M Z 2).nrows = (⟨2, 2, [1, 2, 3, 4]⟩ : Matrix Int).nrows ∧
          (extractAssignment M Z 2).ncols = (⟨2, 2, [1, 2, 3, 4]⟩ : Matrix Int).ncols ∧
          ∀ r c, r < 2 → c < 2 →
            (extractAssignment M Z 2).get r c = if M.get r c = 1 then 1 else 0) ∧
        mainLoop 2 17 17 (initialState ⟨2, 2, [1, 2, 3, 4]⟩ Z 2) = Except.ok s ∧
        run_munkres_algorithm 17 ⟨2, 2, [1, 2, 3, 4]⟩ = Except.ok R ∧
        R = extractAssignment s.zeroMarkMatrix Z 2 ∧
        R.nrows = (⟨2, 2, [1, 2, 3, 4]⟩ : Matrix Int).nrows ∧
        R.ncols = (⟨2, 2, [1, 2, 3, 4]⟩ : Matrix Int).ncols ∧
        ∀ r c, r < 2 → c < 2 → R.get r c = if s.zeroMarkMatrix.get r c = 1 then 1 else 0 :=
  ⟨⟨by decide, small_valid, by decide⟩,
    extraction_copies_stars 2 17 ⟨2, 2, [1, 2, 3, 4]⟩ (by decide) small_valid (by decide)⟩

theorem ofRows_spec_witness :
    ([[1, 2], [3, 4]] : List (List Int)).length *
        (([[1, 2], [3, 4]] : List (List Int)).headD []).length < SIZE_MODULUS ∧
      (∃ m, Matrix.ofRows ([[1, 2], [3, 4]] : List (List Int)) = Except.ok m ∧
        m.nrows = 2 ∧ m.ncols = 2 ∧ m.access 1 0 = Except.ok 3) :=
  ⟨by decide, by
    obtain ⟨m, h1, h2, h3, _, h5⟩ :=
      (ofRows_spec [[1, 2], [3, 4]] (by decide)).2.2 (by decide)
    exact ⟨m, h1, h2, h3, h5 1 0 [3, 4] 3 rfl rfl⟩⟩

/-! ## The initial starring is the greedy scan -/

/-- Rule for a doubly nested loop whose invariant mentions the cell the scan has arrived at. -/
theorem nested_position_rule {β : Type} (P : Nat → Nat → β → Prop) (body : Nat → β → Nat → β)
    (n : Nat)
    (hcell : ∀ r c, r < n → c < n → ∀ acc, P r c acc → P r (c + 1) (body r acc c))
    (hrow : ∀ r, r < n → ∀ acc, P r n acc → P (r + 1) 0 acc)
    (init : β) (h0 : P 0 0 init) :
    P n 0 ((List.range n).foldl (fun acc row => (List.range n).foldl (body row) acc) init) :=
  foldl_range_rule (fun k acc => P k 0 acc) _ init n h0
    (fun k hk acc hacc => hrow k hk _
      (foldl_range_rule (fun j acc' => P k j acc') (body k) acc n hacc
        (fun j hj acc' hacc' => hcell k j hk hj acc' hacc')))

/-- When the starring scan arrives at a cell, the stars sit at cells scanned before, a flag is
set only for a line that holds a star, and a cell scanned before is starred exactly when it
holds a zero and no star lies before it in its row or above it in its column. -/
theorem initialStarring_greedy {n : Nat} (cost : Matrix Int) {Z : Matrix Int} (hZ : Square n Z)
    (hZ0 : ∀ r c, r < n → c < n → Z.get r c = 0) :
    StarringInv n cost (initialStarring cost Z n) ∧
      ∀ r c, r < n → c < n →
        ((initialStarring cost Z n).1.get r c = 1 ↔
          (cost.get r c = 0 ∧ (∀ c', c' < c → (initialStarring cost Z n).1.get r c' ≠ 1) ∧
            ∀ r', r' < r → (initialStarring cost Z n).1.get r' c ≠ 1)) := by
  have key := nested_position_rule
    (fun r c (acc : Matrix Int × List Bool × List Bool) =>
      StarringInv n cost acc ∧
      (∀ r' c', r' < n → c' < n → acc.1.get r' c' = 1 → (r' < r ∨ (r' = r ∧ c' < c))) ∧
      (∀ r', r' < n → acc.2.1.getD r' false = true → ∃ c', c' < n ∧ acc.1.get r' c' = 1) ∧
      (∀ c', c' < n → acc.2.2.getD c' false = true → ∃ r', r' < n ∧ acc.1.get r' c' = 1) ∧
      (∀ r' c', r' < n → c' < n → (r' < r ∨ (r' = r ∧ c' < c)) →
        (acc.1.get r' c' = 1 ↔
          (cost.get r' c' = 0 ∧ (∀ c'', c'' < c' → acc.1.get r' c'' ≠ 1) ∧
            ∀ r'', r'' < r' → acc.1.get r'' c' ≠ 1))))
    (starCell cost) n
    (by
      rintro r c hr hc acc ⟨hI, hscan, hrf, hcf, hchar⟩
      have hI' := starCell_inv cost hr hc hI
      refine ⟨hI', ?_⟩
      unfold starCell
      by_cases hcond : cost.get r c = 0 ∧ acc.2.1.getD r false = false ∧
          acc.2.2.getD c false = false
      · rw [if_pos hcond]
        obtain ⟨hz, hrow, hcol⟩ := hcond
        have hg : ∀ r' c', r' < n → c' < n →
            (acc.1.set r c 1).get r' c' = if r = r' ∧ c = c' then 1 else acc.1.get r' c' :=
          fun r' c' _ hc' => get_set hI.square hr hc hc' 1
        have norow : ∀ c', c' < n → acc.1.get r c' ≠ 1 := by
          intro c' hc' h
          have := hI.row_flag r c' hr hc' h
          rw [hrow] at this
          exact Bool.noConfusion this
        have nocol : ∀ r', r' < n → acc.1.get r' c ≠ 1 := by
          intro r' hr' h
          have := hI.col_flag r' c hr' hc h
          rw [hcol] at this
          exact Bool.noConfusion this
        refine ⟨?_, ?_, ?_, ?_⟩
        · intro r' c' hr' hc' h
          change (acc.1.set r c 1).get r' c' = 1 at h
          rw [hg r' c' hr' hc'] at h
          by_cases e : r = r' ∧ c = c'
          · omega
          · rw [if_neg e] at h
            rcases hscan r' c' hr' hc' h with h1 | h1
            · exact Or.inl h1
            · exact Or.inr ⟨h1.1, by omega⟩
        · intro r' hr' h
          change (acc.2.1.set r true).getD r' false = true at h
          show ∃ c', c' < n ∧ (acc.1.set r c 1).get r' c' = 1
          by_cases e : r = r'
          · subst e
            exact ⟨c, hc, by rw [hg r c hr hc]; simp⟩
          · rw [getD_set_other _ _ _ _ _ e] at h
            obtain ⟨c', hc', hs⟩ := hrf r' hr' h
            exact ⟨c', hc', by rw [hg r' c' hr' hc', if_neg (fun h' => e h'.1)]; exact hs⟩
        · intro c' hc' h
          change (acc.2.2.set c true).getD c' false = true at h
          show ∃ r', r' < n ∧ (acc.1.set r c 1).get r' c' = 1
          by_cases e : c = c'
          · subst e
            exact ⟨r, hr, by rw [hg r c hr hc]; simp⟩
          · rw [getD_set_other _ _ _ _ _ e] at h
            obtain ⟨r', hr', hs⟩ := hcf c' hc' h
            exact ⟨r', hr', by rw [hg r' c' hr' hc', if_neg (fun h' => e h'.2)]; exact hs⟩
        · intro r' c' hr' hc' hsc
          show (acc.1.set r c 1).get r' c' = 1 ↔
            (cost.get r' c' = 0 ∧ (∀ c'', c'' < c' → (acc.1.set r c 1).get r' c'' ≠ 1) ∧
              ∀ r'', r'' < r' → (acc.1.set r c 1).get r'' c' ≠ 1)
          by_cases e : r = r' ∧ c = c'
          · obtain ⟨e1, e2⟩ := e
            subst e1
            subst e2
            rw [hg r c hr hc, if_pos ⟨rfl, rfl⟩]
            refine ⟨fun _ => ⟨hz, ?_, ?_⟩, fun _ => rfl⟩
            · intro c'' hc''
              rw [hg r c'' hr (by omega), if_neg (fun h' => by omega)]
              exact norow c'' (by omega)
            · intro r'' hr''
              rw [hg r'' c (by omega) hc, if_neg (fun h' => by omega)]
              exact nocol r'' (by omega)
          · have hold : r' < r ∨ (r' = r ∧ c' < c) := by
              rcases hsc with h1 | ⟨h1, h2⟩
              · exact Or.inl h1
              · refine Or.inr ⟨h1, ?_⟩
                by_contra hge
                exact e ⟨h1.symm, by omega⟩
            rw [hg r' c' hr' hc', if_neg e, hchar r' c' hr' hc' hold]
            have e1 : ∀ c'', c'' < c' →
                (acc.1.set r c 1).get r' c'' = acc.1.get r' c'' := by
              intro c'' hc''
              rw [hg r' c'' hr' (by omega), if_neg (fun h' => by omega)]
            have e2 : ∀ r'', r'' < r' →
                (acc.1.set r c 1).get r'' c' = acc.1.get r'' c' := by
              intro r'' hr''
              rw [hg r'' c' (by omega) hc', if_neg (fun h' => by omega)]
            constructor
            · rintro ⟨a1, a2, a3⟩
              exact ⟨a1, fun c'' h => by rw [e1 c'' h]; exact a2 c'' h,
                fun r'' h => by rw [e2 r'' h]; exact a3 r'' h⟩
            · rintro ⟨a1, a2, a3⟩
              exact ⟨a1, fun c'' h => by rw [← e1 c'' h]; exact a2 c'' h,
                fun r'' h => by rw [← e2 r'' h]; exact a3 r'' h⟩
      · rw [if_neg hcond]
        refine ⟨?_, hrf, hcf, ?_⟩
        · intro r' c' hr' hc' h
          rcases hscan r' c' hr' hc' h with h1 | h1
          · exact Or.inl h1
          · exact Or.inr ⟨h1.1, by omega⟩
        · intro r' c' hr' hc' hsc
          by_cases e : r' = r ∧ c' = c
          · obtain ⟨e1, e2⟩ := e
            subst e1
            subst e2
            have hnot : acc.1.get r' c' ≠ 1 := by
              intro h
              have := hscan r' c' hr' hc' h
              omega
            constructor
            · intro h; exact absurd h hnot
            · rintro ⟨a1, a2, a3⟩
              exfalso
              apply hcond
              refine ⟨a1, ?_, ?_⟩
              · cases hb : acc.2.1.getD r' false
                · rfl
                · obtain ⟨c2, hc2, hs⟩ := hrf r' hr' hb
                  have := hscan r' c2 hr' hc2 hs
                  exact absurd hs (a2 c2 (by omega))
              · cases hb : acc.2.2.getD c' false
                · rfl
                · obtain ⟨r2, hr2, hs⟩ := hcf c' hc' hb
                  have := hscan r2 c' hr2 hc' hs
                  exact absurd hs (a3 r2 (by omega))
          · exact hchar r' c' hr' hc' (by
              rcases hsc with h1 | ⟨h1, h2⟩
              · exact Or.inl h1
              · refine Or.inr ⟨h1, ?_⟩
                by_contra hge
                exact e ⟨h1, by omega⟩))
    (by
      rintro r hr acc ⟨hI, hscan, hrf, hcf, hchar⟩
      refine ⟨hI, ?_, hrf, hcf, ?_⟩
      · intro r' c' hr' hc' h
        rcases hscan r' c' hr' hc' h with h1 | h1
        · exact Or.inl (by omega)
        · exact Or.inl (by omega)
      · intro r' c' hr' hc' hsc
        exact hchar r' c' hr' hc' (by
          rcases hsc with h1 | h1
          · by_cases e : r' = r
            · exact Or.inr ⟨e, hc'⟩
            · exact Or.inl (by omega)
          · omega))
    (Z, List.replicate n false, List.replicate n false)
    ⟨starringInv_init cost hZ hZ0,
      by intro r' c' hr' hc' h; rw [hZ0 r' c' hr' hc'] at h; omega,
      by
        intro r' hr' h
        rw [getD_replicate_lt _ _ _ _ hr'] at h
        exact Bool.noConfusion h,
      by
        intro c' hc' h
        rw [getD_replicate_lt _ _ _ _ hc'] at h
        exact Bool.noConfusion h,
      by intro r' c' _ _ h; omega⟩
  obtain ⟨hI, _, _, _, hchar⟩ := key
  exact ⟨hI, fun r c hr hc => hchar r c hr hc (Or.inl hr)⟩

/-- Claim C21: after the initial starring on the reduced matrix every starred cell holds 0, no
two starred cells share a row or a column, every zero cell has a starred cell in its row or
in its column, and the starred set is the one of the greedy row-major scan: a cell is starred
exactly when it holds 0 and no starred cell lies before it in its row or above it in its
column. -/
theorem initial_starring_greedy_maximal (n : Nat) (C Z : Matrix Int) (hC : ValidCost n C)
    (hZ : Matrix.filled n n (0 : Int) = Except.ok Z) :
    (initialState C Z n).costMatrix = reduce C n ∧
      (initialState C Z n).zeroMarkMatrix = (initialStarring (reduce C n) Z n).1 ∧
      (∀ r c, r < n → c < n → (initialState C Z n).zeroMarkMatrix.get r c = 0 ∨
        (initialState C Z n).zeroMarkMatrix.get r c = 1) ∧
      (∀ r c, r < n → c < n → (initialState C Z n).zeroMarkMatrix.get r c = 1 →
        (reduce C n).get r c = 0) ∧
      StarsUniqueInRows n (initialState C Z n).zeroMarkMatrix ∧
      StarsUniqueInColumns n (initialState C Z n).zeroMarkMatrix ∧
      (∀ r c, r < n → c < n → (reduce C n).get r c = 0 →
        (∃ c', c' < n ∧ (initialState C Z n).zeroMarkMatrix.get r c' = 1) ∨
          ∃ r', r' < n ∧ (initialState C Z n).zeroMarkMatrix.get r' c = 1) ∧
      (∀ r c, r < n → c < n →
        ((initialState C Z n).zeroMarkMatrix.get r c = 1 ↔
          ((reduce C n).get r c = 0 ∧
            (∀ c', c' < c → (initialState C Z n).zeroMarkMatrix.get r c' ≠ 1) ∧
            ∀ r', r' < r → (initialState C Z n).zeroMarkMatrix.get r' c ≠ 1))) := by
  have hn : 0 < n := by
    rcases Nat.eq_zero_or_pos n with e | e
    · subst e; simp [Matrix.filled] at hZ
    · exact e
  obtain ⟨Z', hZ', hZsq, hZ0⟩ := filled_square hn hC.2.1 (0 : Int)
  rw [hZ] at hZ'
  have hZeq : Z = Z' := Except.ok.inj hZ'
  subst hZeq
  obtain ⟨hI, hchar⟩ := initialStarring_greedy (reduce C n) hZsq hZ0
  refine ⟨rfl, rfl, hI.range, hI.zero, hI.row_unique, hI.col_unique, ?_, hchar⟩
  intro r c hr hc hz
  by_cases hs : (initialStarring (reduce C n) Z n).1.get r c = 1
  · exact Or.inl ⟨c, hc, hs⟩
  · have hnot := fun h => hs ((hchar r c hr hc).mpr h)
    by_contra hcon
    apply hnot
    refine ⟨hz, ?_, ?_⟩
    · intro c' hc' h
      exact hcon (Or.inl ⟨c', by omega, h⟩)
    · intro r' hr' h
      exact hcon (Or.inr ⟨r', by omega, h⟩)

/-! ## The adjustment step -/

/-- The adjustment branch of a pass: the search of the pass returned without a start cell. -/
theorem loopBody_adjusts {n pathFuel : Nat} {s s1 : State} (hsearch : search n s = (s1, none)) :
    loopBody n pathFuel s = Except.ok (adjust n s1) := by
  unfold loopBody
  rw [hsearch]

/-- What the search leaves behind when the pass takes the adjustment branch. -/
theorem search_none_spec {n : Nat} {C : Matrix Int} {s s1 : State} (h : Inv n C s)
    (hlt : s.numberOfCoveredColumns < n) (hsearch : search n s = (s1, none)) :
    Inv n C s1 ∧ (starredColumns n s1.zeroMarkMatrix).card < n ∧
      starredColumns n s1.zeroMarkMatrix = starredColumns n s.zeroMarkMatrix ∧
      ((s1 = s ∧ ¬ HasUncoveredZero n s) ∨
        (coveredRows n s.isRowCurrentlyCovered).card <
          (coveredRows n s1.isRowCurrentlyCovered).card) := by
  have hcnt := h.count
  rcases search_spec h with ⟨_, hinv, hst, hprog⟩ | ⟨s0, r0, c0, hsome, _⟩
  · rw [hsearch] at hinv hst hprog
    simp only at hinv hst hprog
    exact ⟨hinv, by rw [hst]; omega, hst, hprog⟩
  · rw [hsearch] at hsome
    exact Option.noConfusion hsome

/-- The value computed by the adjustment branch is positive exactly when no uncovered cell
holds a zero. -/
theorem delta_pos_iff {n : Nat} {C : Matrix Int} {s : State} (h : Inv n C s)
    (hlt : (starredColumns n s.zeroMarkMatrix).card < n) :
    (0 < smallestUncoveredValue n s ↔ ¬ HasUncoveredZero n s) := by
  obtain ⟨d0, dle, r1, c1, hr1, hc1, hrow1, hcol1, datt⟩ := smallestUncoveredValue_attained h hlt
  constructor
  · rintro hpos ⟨r, c, hr, hc, hrow, hcol, hz⟩
    have := dle r c hr hc hrow hcol
    omega
  · intro hno
    by_contra hle
    exact hno ⟨r1, c1, hr1, hc1, hrow1, hcol1, by omega⟩

theorem delta_example_valid : ValidCost 3 (⟨3, 3, [0, 0, 1, 0, 1, 1, 0, 0, 0]⟩ : Matrix Int) := by
  refine ⟨⟨rfl, rfl, rfl⟩, by decide, ?_⟩
  intro r c hr hc
  interval_cases r <;> interval_cases c <;> simp [Matrix.get, INT_MAX]

/-- Claim C22, counterexample: on the valid matrix `[[0,0,1],[0,1,1],[0,0,0]]` the first pass
of the main loop primes `(2, 2)`, covers row 2 and uncovers column 1, and finds nothing else;
the adjustment branch runs although the cell `(0, 1)`, whose row and column are uncovered,
holds 0, and the computed value is 0. -/
theorem adjustment_runs_with_uncovered_zero :
    ValidCost 3 (⟨3, 3, [0, 0, 1, 0, 1, 1, 0, 0, 0]⟩ : Matrix Int) ∧
      Matrix.filled 3 3 (0 : Int) = Except.ok ⟨3, 3, [0, 0, 0, 0, 0, 0, 0, 0, 0]⟩ ∧
      (initialState ⟨3, 3, [0, 0, 1, 0, 1, 1, 0, 0, 0]⟩ ⟨3, 3, [0, 0, 0, 0, 0, 0, 0, 0, 0]⟩
        3).numberOfCoveredColumns < 3 ∧
      search 3 (initialState ⟨3, 3, [0, 0, 1, 0, 1, 1, 0, 0, 0]⟩
          ⟨3, 3, [0, 0, 0, 0, 0, 0, 0, 0, 0]⟩ 3) =
        (⟨⟨3, 3, [0, 0, 1, 0, 1, 1, 0, 0, 0]⟩, ⟨3, 3, [1, 0, 0, 0, 0, 0, 0, 1, 2]⟩,
          [false, false, true], [true, false, false], 2⟩, none) ∧
      loopBody 3 5 (initialState ⟨3, 3, [0, 0, 1, 0, 1, 1, 0, 0, 0]⟩
          ⟨3, 3, [0, 0, 0, 0, 0, 0, 0, 0, 0]⟩ 3) =
        Except.ok (adjust 3 ⟨⟨3, 3, [0, 0, 1, 0, 1, 1, 0, 0, 0]⟩,
          ⟨3, 3, [1, 0, 0, 0, 0, 0, 0, 1, 2]⟩, [false, false, true], [true, false, false], 2⟩) ∧
      HasUncoveredZero 3 ⟨⟨3, 3, [0, 0, 1, 0, 1, 1, 0, 0, 0]⟩,
        ⟨3, 3, [1, 0, 0, 0, 0, 0, 0, 1, 2]⟩, [false, false, true], [true, false, false], 2⟩ ∧
      smallestUncoveredValue 3 ⟨⟨3, 3, [0, 0, 1, 0, 1, 1, 0, 0, 0]⟩,
        ⟨3, 3, [1, 0, 0, 0, 0, 0, 0, 1, 2]⟩, [false, false, true], [true, false, false], 2⟩ = 0 := by
  refine ⟨delta_example_valid, by rfl, by decide, by rfl, by rfl, ?_, by rfl⟩
  exact ⟨0, 1, by decide, by decide, by rfl, by rfl, by rfl⟩

/-- Claim C24, counterexample: on the valid matrix `[[0,0,1],[0,1,1],[0,0,0]]` the adjustment
step of the first pass runs with the value 0 and changes nothing, so no cell holds 0 after the
step that did not hold 0 before it. -/
theorem adjustment_without_new_zero :
    ValidCost 3 (⟨3, 3, [0, 0, 1, 0, 1, 1, 0, 0, 0]⟩ : Matrix Int) ∧
      Matrix.filled 3 3 (0 : Int) = Except.ok ⟨3, 3, [0, 0, 0, 0, 0, 0, 0, 0, 0]⟩ ∧
      (initialState ⟨3, 3, [0, 0, 1, 0, 1, 1, 0, 0, 0]⟩ ⟨3, 3, [0, 0, 0, 0, 0, 0, 0, 0, 0]⟩
        3).numberOfCoveredColumns < 3 ∧
      search 3 (initialState ⟨3, 3, [0, 0, 1, 0, 1, 1, 0, 0, 0]⟩
          ⟨3, 3, [0, 0, 0, 0, 0, 0, 0, 0, 0]⟩ 3) =
        (⟨⟨3, 3, [0, 0, 1, 0, 1, 1, 0, 0, 0]⟩, ⟨3, 3, [1, 0, 0, 0, 0, 0, 0, 1, 2]⟩,
          [false, false, true], [true, false, false], 2⟩, none) ∧
      adjust 3 ⟨⟨3, 3, [0, 0, 1, 0, 1, 1, 0, 0, 0]⟩, ⟨3, 3, [1, 0, 0, 0, 0, 0, 0, 1, 2]⟩,
          [false, false, true], [true, false, false], 2⟩ =
        ⟨⟨3, 3, [0, 0, 1, 0, 1, 1, 0, 0, 0]⟩, ⟨3, 3, [1, 0, 0, 0, 0, 0, 0, 1, 2]⟩,
          [false, false, true], [true, false, false], 2⟩ ∧
      ¬ ∃ r c, r < 3 ∧ c < 3 ∧
        (adjust 3 ⟨⟨3, 3, [0, 0, 1, 0, 1, 1, 0, 0, 0]⟩, ⟨3, 3, [1, 0, 0, 0, 0, 0, 0, 1, 2]⟩,
          [false, false, true], [true, false, false], 2⟩).costMatrix.get r c = 0 ∧
        (⟨3, 3, [0, 0, 1, 0, 1, 1, 0, 0, 0]⟩ : Matrix Int).get r c ≠ 0 := by
  have e : adjust 3 ⟨⟨3, 3, [0, 0, 1, 0, 1, 1, 0, 0, 0]⟩, ⟨3, 3, [1, 0, 0, 0, 0, 0, 0, 1, 2]⟩,
      [false, false, true], [true, false, false], 2⟩ =
      ⟨⟨3, 3, [0, 0, 1, 0, 1, 1, 0, 0, 0]⟩, ⟨3, 3, [1, 0, 0, 0, 0, 0, 0, 1, 2]⟩,
        [false, false, true], [true, false, false], 2⟩ := by rfl
  refine ⟨delta_example_valid, by rfl, by decide, by rfl, e, ?_⟩
  rintro ⟨r, c, _, _, h1, h2⟩
  rw [e] at h1
  exact h2 h1

/-! ## The adjustment step and the cost of a permutation -/

theorem sum_fin_indicator (n : Nat) (p : Nat → Prop) [DecidablePred p] (d : Int) :
    (∑ r : Fin n, if p r.val then d else 0) = d * ((Finset.range n).filter p).card := by
  rw [Fin.sum_univ_eq_sum_range (fun i => if p i then d else 0) n, Finset.sum_ite,
    Finset.sum_const, Finset.sum_const_zero, add_zero, nsmul_eq_mul, mul_comm]

/-! ## Counting augmentations and adjustments -/

/-- With at most one star per column, there are as many starred cells as starred columns. -/
theorem starredCells_card {n : Nat} {M : Matrix Int} (hcol : StarsUniqueInColumns n M) :
    (starredCells n M).card = (starredColumns n M).card := by
  unfold starredCells starredColumns
  apply Finset.card_bij (fun p _ => p.2)
  · intro p hp
    simp only [Finset.mem_filter, Finset.mem_product, Finset.mem_range] at hp ⊢
    exact ⟨hp.1.2, p.1, hp.1.1, hp.2⟩
  · intro p hp q hq e
    simp only [Finset.mem_filter, Finset.mem_product, Finset.mem_range] at hp hq
    have hq2 := hq.2
    rw [← e] at hq2
    exact Prod.ext (hcol p.1 q.1 p.2 hp.1.1 hq.1.1 hp.1.2 hp.2 hq2) e
  · intro c hc
    simp only [Finset.mem_filter, Finset.mem_range] at hc
    obtain ⟨hc1, r, hr, hs⟩ := hc
    refine ⟨(r, c), ?_, rfl⟩
    simp only [Finset.mem_filter, Finset.mem_product, Finset.mem_range]
    exact ⟨⟨hr, hc1⟩, hs⟩

/-- Every covered row holds a starred zero, so there are at most as many covered rows as
starred columns. -/
theorem Inv.covered_le_stars {n : Nat} {C : Matrix Int} {s : State} (h : Inv n C s) :
    (coveredRows n s.isRowCurrentlyCovered).card ≤ (starredColumns n s.zeroMarkMatrix).card := by
  have hall : ∀ r, ∃ c, r < n → s.isRowCurrentlyCovered.getD r false = true →
      c < n ∧ s.zeroMarkMatrix.get r c = 1 := by
    intro r
    by_cases hr : r < n ∧ s.isRowCurrentlyCovered.getD r false = true
    · obtain ⟨c, hc, hs⟩ := h.row_cover_star r hr.1 hr.2
      exact ⟨c, fun _ _ => ⟨hc, hs⟩⟩
    · exact ⟨0, fun h1 h2 => absurd ⟨h1, h2⟩ hr⟩
  choose f hf using hall
  apply Finset.card_le_card_of_injOn f
  · intro r hr
    unfold coveredRows at hr
    simp only [Finset.mem_filter, Finset.mem_range] at hr
    unfold starredColumns
    simp only [Finset.mem_filter, Finset.mem_range]
    exact ⟨(hf r hr.1 hr.2).1, r, hr.1, (hf r hr.1 hr.2).2⟩
  · intro r1 h1 r2 h2 e
    unfold coveredRows at h1 h2
    simp only [Finset.coe_filter, Finset.mem_range, Set.mem_setOf_eq] at h1 h2
    have s1 := (hf r1 h1.1 h1.2).2
    have s2 := (hf r2 h2.1 h2.2).2
    rw [e] at s1
    exact h.star_col_unique r1 r2 (f r2) h1.1 h2.1 (hf r2 h2.1 h2.2).1 s1 s2

/-- What the search leaves behind when the pass takes the augmentation branch. -/
theorem search_some_spec {n : Nat} {C : Matrix Int} {s s1 : State} {first : Nat × Nat}
    (h : Inv n C s) (hsearch : search n s = (s1, some first)) :
    ∃ s0 r0 c0, first = (r0, c0) ∧ Inv n C s0 ∧ AugStart n s0 r0 c0 ∧
      s1 = { s0 with zeroMarkMatrix := s0.zeroMarkMatrix.set r0 c0 2 } ∧
      starredColumns n s0.zeroMarkMatrix = starredColumns n s.zeroMarkMatrix := by
  rcases search_spec h with ⟨hnone, _⟩ | ⟨s0, r0, c0, hsome, hinv, haug, hs1, hst⟩
  · rw [hsearch] at hnone
    exact Option.noConfusion hnone
  · rw [hsearch] at hsome hs1
    exact ⟨s0, r0, c0, Option.some.inj hsome, hinv, haug, hs1, hst⟩

/-- A pass through the augmentation branch keeps the loop facts and adds one starred
column. -/
theorem augment_step_spec {n pathFuel : Nat} {C : Matrix Int} {s s1 s2 : State}
    {first : Nat × Nat} (h : Inv n C s) (hsearch : search n s = (s1, some first))
    (haugment : augment n pathFuel s1 first = Except.ok s2) :
    Inv n C s2 ∧
      (starredColumns n s2.zeroMarkMatrix).card =
        (starredColumns n s.zeroMarkMatrix).card + 1 := by
  obtain ⟨s0, r0, c0, hfirst, hinv, haug, hs1, hst⟩ := search_some_spec h hsearch
  have hbody : loopBody n pathFuel s = Except.ok s2 := by
    unfold loopBody
    rw [hsearch]
    exact haugment
  have hbody' := loopBody_mono n (Nat.le_max_left pathFuel n) hbody
  unfold loopBody at hbody'
  rw [hsearch] at hbody'
  simp only at hbody'
  obtain ⟨s', heq, hinv', hcard⟩ := augment_spec hinv haug (Nat.le_max_right pathFuel n)
  rw [hs1, hfirst, heq] at hbody'
  have e := Except.ok.inj hbody'
  rw [← e, ← hst]
  exact ⟨hinv', hcard⟩

theorem loopCount_loopState {n pathFuel : Nat} {s0 s : State} {a j : Nat}
    (h : LoopCount n pathFuel s0 s a j) : LoopState n pathFuel s0 s := by
  induction h with
  | start => exact LoopState.start
  | adjusted _ hlt hsearch ih => exact LoopState.pass ih hlt (loopBody_adjusts hsearch)
  | augmented _ hlt hsearch haugment ih =>
    refine LoopState.pass ih hlt ?_
    unfold loopBody
    rw [hsearch]
    exact haugment

/-- The loop facts hold at every counted state, and the number of starred columns is the
initial number plus the number of augmentations. -/
theorem loopCount_stars {n pathFuel : Nat} {C : Matrix Int} {s0 s : State} {a j : Nat}
    (h0 : Inv n C s0) (h : LoopCount n pathFuel s0 s a j) :
    Inv n C s ∧
      (starredColumns n s.zeroMarkMatrix).card =
        (starredColumns n s0.zeroMarkMatrix).card + a := by
  induction h with
  | start => exact ⟨h0, rfl⟩
  | adjusted _ hlt hsearch ih =>
    obtain ⟨hinv, hcard⟩ := ih
    obtain ⟨hinv1, hst1, hst, _⟩ := search_none_spec hinv hlt hsearch
    refine ⟨(adjust_inv hinv1 hst1).1, ?_⟩
    show (starredColumns n _).card = _
    rw [← hcard, ← hst]
    rfl
  | augmented _ _ hsearch haugment ih =>
    obtain ⟨hinv, hcard⟩ := ih
    obtain ⟨hinv2, hcard2⟩ := augment_step_spec hinv hsearch haugment
    exact ⟨hinv2, by rw [hcard2, hcard]; omega⟩

/-- The state in which the main loop ends is a counted state. -/
theorem mainLoop_loopCount {n pathFuel : Nat} {s0 : State} :
    ∀ (fuel : Nat) (s s' : State) (a j : Nat), LoopCount n pathFuel s0 s a j →
      mainLoop n pathFuel fuel s = Except.ok s' →
      ∃ a' j', LoopCount n pathFuel s0 s' a' j' := by
  intro fuel
  induction fuel with
  | zero =>
    intro s s' a j h hrun
    unfold mainLoop at hrun
    by_cases hlt : s.numberOfCoveredColumns < n
    · rw [if_pos hlt] at hrun; exact Except.noConfusion hrun
    · rw [if_neg hlt] at hrun
      rw [← Except.ok.inj hrun]
      exact ⟨a, j, h⟩
  | succ fuel ih =>
    intro s s' a j h hrun
    unfold mainLoop at hrun
    by_cases hlt : s.numberOfCoveredColumns < n
    · rw [if_pos hlt] at hrun
      unfold loopBody at hrun
      cases hsr : search n s with
      | mk s1 found =>
        rw [hsr] at hrun
        cases found with
        | none =>
          simp only at hrun
          exact ih _ s' a (j + 1) (LoopCount.adjusted h hlt hsr) hrun
        | some first =>
          simp only at hrun
          cases haug : augment n pathFuel s1 first with
          | error e => rw [haug] at hrun; exact Except.noConfusion hrun
          | ok s2 =>
            rw [haug] at hrun
            simp only at hrun
            exact ih _ s' (a + 1) 0 (LoopCount.augmented h hlt hsr haug) hrun
    · rw [if_neg hlt] at hrun
      rw [← Except.ok.inj hrun]
      exact ⟨a, j, h⟩

/-- Claim C26: every augmentation performed during a run on a valid square matrix adds exactly
one starred cell and leaves at most one starred cell per row and per column, both when the
flip is complete and after the primes are erased; the number of starred cells is the initial
number plus the number of augmentations, so at most `n` augmentations occur in one run. With
a budget of `n` passes for the path-building loop the augmentation returns. -/
theorem augmentation_adds_one_star (n pathFuel : Nat) (C Z : Matrix Int) (hC : ValidCost n C)
    (hZ : Matrix.filled n n (0 : Int) = Except.ok Z) :
    (∀ s a j, LoopCount n pathFuel (initialState C Z n) s a j →
      a ≤ n ∧
      (starredCells n s.zeroMarkMatrix).card =
        (starredCells n (initialState C Z n).zeroMarkMatrix).card + a ∧
      StarsUniqueInRows n s.zeroMarkMatrix ∧ StarsUniqueInColumns n s.zeroMarkMatrix ∧
      (s.numberOfCoveredColumns < n → ∀ s1 first, search n s = (s1, some first) →
        (n ≤ pathFuel → ∃ s2, augment n pathFuel s1 first = Except.ok s2) ∧
        ∀ s2, augment n pathFuel s1 first = Except.ok s2 →
          (starredCells n s2.zeroMarkMatrix).card =
            (starredCells n s.zeroMarkMatrix).card + 1 ∧
          StarsUniqueInRows n s2.zeroMarkMatrix ∧ StarsUniqueInColumns n s2.zeroMarkMatrix ∧
          ∃ path, buildPath s1.zeroMarkMatrix n pathFuel [first] = Except.ok path ∧
            StarsUniqueInRows n (flipPath s1.zeroMarkMatrix path) ∧
            StarsUniqueInColumns n (flipPath s1.zeroMarkMatrix path) ∧
            s2.zeroMarkMatrix = clearPrimes (flipPath s1.zeroMarkMatrix path) n)) ∧
      ∀ fuel s', mainLoop n pathFuel fuel (initialState C Z n) = Except.ok s' →
        ∃ a j, LoopCount n pathFuel (initialState C Z n) s' a j ∧ a ≤ n := by
  have hn : 0 < n := by
    rcases Nat.eq_zero_or_pos n with e | e
    · subst e; simp [Matrix.filled] at hZ
    · exact e
  obtain ⟨Z', hZ', hZsq, hZ0⟩ := filled_square hn hC.2.1 (0 : Int)
  rw [hZ] at hZ'
  have hZeq : Z = Z' := Except.ok.inj hZ'
  subst hZeq
  have hinv0 : Inv n C (initialState C Z n) :=
    initialState_inv hC.1 hZsq hZ0 (fun r c hr hc => reduce_le_of_valid hn hC hr hc)
  have hbound : ∀ s a j, LoopCount n pathFuel (initialState C Z n) s a j → a ≤ n := by
    intro s a j hs
    obtain ⟨_, hcard⟩ := loopCount_stars hinv0 hs
    have := starredColumns_card_le n s.zeroMarkMatrix
    omega
  refine ⟨?_, ?_⟩
  · intro s a j hs
    obtain ⟨hinv, hcard⟩ := loopCount_stars hinv0 hs
    refine ⟨hbound s a j hs, ?_, hinv.star_row_unique, hinv.star_col_unique, ?_⟩
    · rw [starredCells_card hinv.star_col_unique, starredCells_card hinv0.star_col_unique]
      exact hcard
    · intro hlt s1 first hsearch
      refine ⟨?_, ?_⟩
      · intro hfuel
        obtain ⟨s0, r0, c0, hfirst, hinv', haug, hs1, _⟩ := search_some_spec hinv hsearch
        obtain ⟨s', heq, _, _⟩ := augment_spec hinv' haug hfuel
        rw [hs1, hfirst]
        exact ⟨s', heq⟩
      · intro s2 haugment
        obtain ⟨hinv2, hcard2⟩ := augment_step_spec hinv hsearch haugment
        refine ⟨?_, hinv2.star_row_unique, hinv2.star_col_unique, ?_⟩
        · rw [starredCells_card hinv2.star_col_unique, starredCells_card hinv.star_col_unique]
          exact hcard2
        · unfold augment at haugment
          cases hb : buildPath s1.zeroMarkMatrix n pathFuel [first] with
          | error e => rw [hb] at haugment; exact Except.noConfusion haugment
          | ok path =>
            rw [hb] at haugment
            simp only at haugment
            have e := Except.ok.inj haugment
            obtain ⟨_, hflips⟩ := augmentation_flips hinv hsearch hb
            obtain ⟨hrows, hcols, _⟩ := hflips path.length
            rw [List.take_length] at hrows hcols
            exact ⟨path, rfl, hrows, hcols (Or.inr rfl), by rw [← e]⟩
  · intro fuel s' hrun
    obtain ⟨a, j, hs⟩ := mainLoop_loopCount fuel _ s' 0 0 LoopCount.start hrun
    exact ⟨a, j, hs, hbound s' a j hs⟩

/-- Claim C27: in a run on a valid `n×n` matrix the adjustment branch is taken at most `n`
times between two consecutive augmentations, and at most `n` times before the first one, the
passes that leave the matrix unchanged included. -/
theorem adjustments_between_augmentations_bounded (n pathFuel : Nat) (C Z : Matrix Int)
    (hC : ValidCost n C) (hZ : Matrix.filled n n (0 : Int) = Except.ok Z) :
    ∀ s a j, LoopCount n pathFuel (initialState C Z n) s a j → j ≤ n := by
  have hn : 0 < n := by
    rcases Nat.eq_zero_or_pos n with e | e
    · subst e; simp [Matrix.filled] at hZ
    · exact e
  obtain ⟨Z', hZ', hZsq, hZ0⟩ := filled_square hn hC.2.1 (0 : Int)
  rw [hZ] at hZ'
  have hZeq : Z = Z' := Except.ok.inj hZ'
  subst hZeq
  have hinv0 : Inv n C (initialState C Z n) :=
    initialState_inv hC.1 hZsq hZ0 (fun r c hr hc => reduce_le_of_valid hn hC hr hc)
  have key : ∀ s a j, LoopCount n pathFuel (initialState C Z n) s a j →
      Inv n C s ∧ (j = 0 ∨ (HasUncoveredZero n s ∧
        j ≤ 1 + (coveredRows n s.isRowCurrentlyCovered).card ∧
        (starredColumns n s.zeroMarkMatrix).card < n)) := by
    intro s a j hs
    induction hs with
    | start => exact ⟨hinv0, Or.inl rfl⟩
    | @adjusted sa sb _ jj _ hlt hsearch ih =>
      obtain ⟨hinv, hj⟩ := ih
      obtain ⟨hinv1, hst1, _, hprog⟩ := search_none_spec hinv hlt hsearch
      obtain ⟨hinv2, huz⟩ := adjust_inv hinv1 hst1
      refine ⟨hinv2, Or.inr ⟨huz, ?_, hst1⟩⟩
      show jj + 1 ≤ 1 + (coveredRows n sb.isRowCurrentlyCovered).card
      rcases hj with e | ⟨huz0, hle, _⟩
      · rw [e]; omega
      · rcases hprog with ⟨_, hno⟩ | hgt
        · exact absurd huz0 hno
        · omega
    | augmented _ _ hsearch haugment ih =>
      exact ⟨(augment_step_spec ih.1 hsearch haugment).1, Or.inl rfl⟩
  intro s a j hs
  obtain ⟨hinv, hj⟩ := key s a j hs
  rcases hj with e | ⟨_, hle, hst⟩
  · omega
  · have := hinv.covered_le_stars
    omega

/-! ## The detour of the search -/

/-- A scan over `0 .. n-1` that leaves at the first hit returns the least index that passes
the test. -/
theorem find?_range_first (p : Nat → Bool) :
    ∀ (n x : Nat), (List.range n).find? p = some x →
      x < n ∧ p x = true ∧ ∀ y, y < x → p y = false := by
  intro n
  induction n with
  | zero => intro x h; simp at h
  | succ m ih =>
    intro x h
    rw [List.range_succ, List.find?_append] at h
    cases hm : (List.range m).find? p with
    | some x' =>
      rw [hm] at h
      change some x' = some x at h
      have h := Option.some.inj h
      subst h
      obtain ⟨h1, h2, h3⟩ := ih x' hm
      exact ⟨by omega, h2, h3⟩
    | none =>
      rw [hm] at h
      simp only [Option.none_or] at h
      have hall := List.find?_eq_none.mp hm
      by_cases hp : p m = true
      · simp only [List.find?, hp, Option.some.injEq] at h
        subst h
        refine ⟨by omega, hp, ?_⟩
        intro y hy
        have := hall y (List.mem_range.mpr hy)
        simpa using this
      · simp [List.find?, hp] at h

/-- A scan over `0 .. n-1` returns `x` when `x` passes the test and no smaller index does. -/
theorem find?_range_eq (p : Nat → Bool) {n x : Nat} (hx : x < n) (hp : p x = true)
    (hfirst : ∀ y, y < x → p y = false) : (List.range n).find? p = some x := by
  cases h : (List.range n).find? p with
  | none =>
    have := List.find?_eq_none.mp h x (List.mem_range.mpr hx)
    rw [hp] at this
    exact absurd rfl this
  | some z =>
    obtain ⟨_, h2, h3⟩ := find?_range_first p n z h
    have e : z = x := by
      rcases Nat.lt_trichotomy z x with hlt | heq | hgt
      · have := hfirst z hlt
        rw [h2] at this
        exact Bool.noConfusion this
      · exact heq
      · have := h3 x hgt
        rw [hp] at this
        exact Bool.noConfusion this
    rw [e]

/-- Claim C28: when the search arrives at an uncovered row `r` whose first uncovered zero is
`(r, c)` and whose starred cell is `(r, c')`, the step marks `(r, c)` as primed, sets row `r`
covered and column `c'` uncovered and changes nothing else: every other mark, every other row
cover, every other column cover, the cost matrix and the covered-column count are as before,
and no augmentation is started for the cell. -/
theorem detour_frame (n : Nat) (s : State) (r c c' : Nat)
    (hsq : Square n s.zeroMarkMatrix) (hrl : s.isRowCurrentlyCovered.length = n)
    (hcl : s.isColumnCurrentlyCovered.length = n) (hr : r < n) (hc : c < n) (hc' : c' < n)
    (hrow : s.isRowCurrentlyCovered.getD r false = false)
    (hzero : s.costMatrix.get r c = 0)
    (hcol : s.isColumnCurrentlyCovered.getD c false = false)
    (hfirst : ∀ c2, c2 < c →
      ¬ (s.costMatrix.get r c2 = 0 ∧ s.isColumnCurrentlyCovered.getD c2 false = false))
    (hne : c ≠ c') (hstar : s.zeroMarkMatrix.get r c' = 1)
    (hunique : ∀ j, j < n → s.zeroMarkMatrix.get r j = 1 → j = c') :
    ∃ s', searchRow n s r = (s', none) ∧
      s'.zeroMarkMatrix.get r c = 2 ∧
      (∀ r2 c2, r2 < n → c2 < n → ¬ (r2 = r ∧ c2 = c) →
        s'.zeroMarkMatrix.get r2 c2 = s.zeroMarkMatrix.get r2 c2) ∧
      s'.isRowCurrentlyCovered.getD r false = true ∧
      (∀ r2, r2 ≠ r → s'.isRowCurrentlyCovered.getD r2 false =
        s.isRowCurrentlyCovered.getD r2 false) ∧
      s'.isColumnCurrentlyCovered.getD c' false = false ∧
      (∀ c2, c2 ≠ c' → s'.isColumnCurrentlyCovered.getD c2 false =
        s.isColumnCurrentlyCovered.getD c2 false) ∧
      s'.isRowCurrentlyCovered.length = n ∧ s'.isColumnCurrentlyCovered.length = n ∧
      s'.costMatrix = s.costMatrix ∧
      s'.numberOfCoveredColumns = s.numberOfCoveredColumns := by
  have hg : ∀ r2 c2, r2 < n → c2 < n →
      (s.zeroMarkMatrix.set r c 2).get r2 c2 =
        if r = r2 ∧ c = c2 then 2 else s.zeroMarkMatrix.get r2 c2 :=
    fun r2 c2 _ hc2 => get_set hsq hr hc hc2 2
  have hfind1 : (List.range n).find? (fun currentColumn =>
      decide (s.costMatrix.get r currentColumn = 0 ∧
        s.isColumnCurrentlyCovered.getD currentColumn false = false)) = some c := by
    apply find?_range_eq _ hc
    · simp only [decide_eq_true_eq]; exact ⟨hzero, hcol⟩
    · intro y hy
      simp only [decide_eq_false_iff_not]
      exact hfirst y hy
  have hfind2 : (List.range n).find?
      (fun j => decide ((s.zeroMarkMatrix.set r c 2).get r j = 1)) = some c' := by
    apply find?_range_eq _ hc'
    · simp only [decide_eq_true_eq]
      rw [hg r c' hr hc', if_neg (fun h => hne h.2)]
      exact hstar
    · intro y hy
      simp only [decide_eq_false_iff_not]
      rw [hg r y hr (by omega)]
      by_cases e : r = r ∧ c = y
      · rw [if_pos e]; omega
      · rw [if_neg e]
        intro h
        have := hunique y (by omega) h
        omega
  refine ⟨{ s with
      zeroMarkMatrix := s.zeroMarkMatrix.set r c 2
      isRowCurrentlyCovered := s.isRowCurrentlyCovered.set r true
      isColumnCurrentlyCovered := s.isColumnCurrentlyCovered.set c' false }, ?_, ?_, ?_, ?_, ?_,
    ?_, ?_, ?_, ?_, rfl, rfl⟩
  · simp only [searchRow, if_pos hrow, hfind1, hfind2]
  · show (s.zeroMarkMatrix.set r c 2).get r c = 2
    rw [hg r c hr hc, if_pos ⟨rfl, rfl⟩]
  · intro r2 c2 hr2 hc2 hne2
    show (s.zeroMarkMatrix.set r c 2).get r2 c2 = _
    rw [hg r2 c2 hr2 hc2, if_neg (fun h => hne2 ⟨h.1.symm, h.2.symm⟩)]
  · show (s.isRowCurrentlyCovered.set r true).getD r false = true
    exact getD_set_self _ _ _ _ (by omega)
  · intro r2 hr2
    show (s.isRowCurrentlyCovered.set r true).getD r2 false = _
    exact getD_set_other _ _ _ _ _ (fun e => hr2 e.symm)
  · show (s.isColumnCurrentlyCovered.set c' false).getD c' false = false
    exact getD_set_self _ _ _ _ (by omega)
  · intro c2 hc2
    show (s.isColumnCurrentlyCovered.set c' false).getD c2 false = _
    exact getD_set_other _ _ _ _ _ (fun e => hc2 e.symm)
  · show (s.isRowCurrentlyCovered.set r true).length = n
    rw [List.length_set]; exact hrl
  · show (s.isColumnCurrentlyCovered.set c' false).length = n
    rw [List.length_set]; exact hcl

/-! ## The completed path -/

/-- An assertion failure of the path-building loop does not depend on the step budget. -/
theorem buildPath_assertion_mono (M : Matrix Int) (n : Nat) :
    ∀ (fuel fuel' : Nat) (path : List (Nat × Nat)), fuel ≤ fuel' →
      buildPath M n fuel path = Except.error Error.AssertionFailed →
      buildPath M n fuel' path = Except.error Error.AssertionFailed := by
  intro fuel
  induction fuel with
  | zero =>
    intro fuel' path _ h
    simp [buildPath] at h
  | succ fuel ih =>
    intro fuel' path hle h
    obtain ⟨f, rfl⟩ : ∃ f, fuel' = f + 1 := ⟨fuel' - 1, by omega⟩
    unfold buildPath at h ⊢
    cases hl : path.getLast? with
    | none => rfl
    | some last =>
      rw [hl] at h
      simp only at h ⊢
      cases h1 : (List.range n).find? (fun row => decide (M.get row last.2 = 1)) with
      | none => rw [h1] at h; simp at h
      | some r' =>
        rw [h1] at h
        simp only at h ⊢
        cases h2 : (List.range n).find? (fun col => decide (M.get r' col = 2)) with
        | none => rfl
        | some c' =>
          rw [h2] at h
          simp only at h ⊢
          exact ih f _ (by omega) h

/-- The path completed in a pass of a run: its shape, its first cell and its last cell. -/
theorem built_path_facts {n pathFuel : Nat} {C : Matrix Int} {s s1 : State}
    {first : Nat × Nat} {path : List (Nat × Nat)} (h : Inv n C s)
    (hsearch : search n s = (s1, some first))
    (hbuild : buildPath s1.zeroMarkMatrix n pathFuel [first] = Except.ok path) :
    PathReady n s1.zeroMarkMatrix first.1 ∧
      (∃ last, GoodPath n s1.zeroMarkMatrix first.1 path last) ∧
      Alternating s1.zeroMarkMatrix path ∧ path[0]? = some first ∧
      s1.zeroMarkMatrix.get first.1 first.2 = 2 ∧
      (∃ last, path.getLast? = some last ∧ ∀ r, r < n → s1.zeroMarkMatrix.get r last.2 ≠ 1) ∧
      (∀ r c, r < n → c < n → s1.zeroMarkMatrix.get r c ≠ 0 → s1.costMatrix.get r c = 0) := by
  obtain ⟨s0, r0, c0, hfirst, hinv, haug, hs1, _⟩ := search_some_spec h hsearch
  subst hfirst
  subst hs1
  simp only at hbuild ⊢
  obtain ⟨hPR, _, prime_iff⟩ := pathReady_of_augStart hinv haug
  obtain ⟨path', last, hbuild', hG, _⟩ :=
    buildPath_from_start hinv haug (Nat.le_max_right pathFuel n)
  have hmono := buildPath_mono _ n pathFuel (max pathFuel n) _ _ (Nat.le_max_left _ _) hbuild
  rw [hmono] at hbuild'
  have e := Except.ok.inj hbuild'
  subst e
  have hprime0 : (s0.zeroMarkMatrix.set r0 c0 2).get r0 c0 = 2 :=
    (prime_iff r0 c0 haug.row_lt haug.col_lt).mpr (Or.inl ⟨rfl, rfl⟩)
  obtain ⟨hA, hfirst, hfree⟩ := buildPath_alternating _ n pathFuel _ _
    (@alternating_singleton _ (r0, c0) hprime0) hbuild
  refine ⟨hPR, ⟨last, hG⟩, hA, by rw [hfirst]; rfl, hprime0, hfree, ?_⟩
  intro r c hr hc hm
  rw [get_set hinv.marks_square haug.row_lt haug.col_lt hc 2] at hm
  by_cases e : r0 = r ∧ c0 = c
  · obtain ⟨e1, e2⟩ := e
    subst e1
    subst e2
    exact haug.zero
  · rw [if_neg e] at hm
    exact hinv.marked_zero r c hr hc hm

/-- Claim C29: every augmenting path built during a run on a valid square matrix has odd
length; its cells at even positions are primed zeros and its cells at odd positions are
starred zeros of the mark grid in which the path is completed; each starred cell lies in the
column of the cell before it and in the row of the cell after it; the first cell is the primed
zero just found, whose row holds no starred cell; the last cell is a primed zero whose column
holds no starred cell. With a budget of `n` passes the path-building loop returns. -/
theorem augmenting_path_shape (n pathFuel : Nat) (C Z : Matrix Int) (hC : ValidCost n C)
    (hZ : Matrix.filled n n (0 : Int) = Except.ok Z) :
    ∀ s, LoopState n pathFuel (initialState C Z n) s → s.numberOfCoveredColumns < n →
      ∀ s1 first, search n s = (s1, some first) →
        (n ≤ pathFuel →
          ∃ path, buildPath s1.zeroMarkMatrix n pathFuel [first] = Except.ok path) ∧
        ∀ path, buildPath s1.zeroMarkMatrix n pathFuel [first] = Except.ok path →
          path.length % 2 = 1 ∧
          (∀ k x, k % 2 = 0 → path[k]? = some x →
            s1.zeroMarkMatrix.get x.1 x.2 = 2 ∧ s1.costMatrix.get x.1 x.2 = 0) ∧
          (∀ k x, k % 2 = 1 → path[k]? = some x →
            s1.zeroMarkMatrix.get x.1 x.2 = 1 ∧ s1.costMatrix.get x.1 x.2 = 0 ∧
            (∃ y, path[k - 1]? = some y ∧ y.2 = x.2) ∧
            (∃ z, path[k + 1]? = some z ∧ z.1 = x.1)) ∧
          path[0]? = some first ∧
          s1.zeroMarkMatrix.get first.1 first.2 = 2 ∧
          (∀ c, c < n → s1.zeroMarkMatrix.get first.1 c ≠ 1) ∧
          ∃ last, path.getLast? = some last ∧ s1.zeroMarkMatrix.get last.1 last.2 = 2 ∧
            ∀ r, r < n → s1.zeroMarkMatrix.get r last.2 ≠ 1 := by
  have hn : 0 < n := by
    rcases Nat.eq_zero_or_pos n with e | e
    · subst e; simp [Matrix.filled] at hZ
    · exact e
  obtain ⟨Z', hZ', hZsq, hZ0⟩ := filled_square hn hC.2.1 (0 : Int)
  rw [hZ] at hZ'
  have hZeq : Z = Z' := Except.ok.inj hZ'
  subst hZeq
  have hinv0 : Inv n C (initialState C Z n) :=
    initialState_inv hC.1 hZsq hZ0 (fun r c hr hc => reduce_le_of_valid hn hC hr hc)
  intro s hs _ s1 first hsearch
  have hinv := loopState_inv hinv0 hs
  refine ⟨?_, ?_⟩
  · intro hfuel
    obtain ⟨s0, r0, c0, hfirst, hinv', haug, hs1, _⟩ := search_some_spec hinv hsearch
    obtain ⟨path, _, hb, _, _⟩ := buildPath_from_start hinv' haug hfuel
    rw [hs1, hfirst]
    exact ⟨path, hb⟩
  · intro path hbuild
    obtain ⟨hPR, ⟨glast, hG⟩, hA, hfirst, hprime0, ⟨last, hlast, hfree⟩, hzero⟩ :=
      built_path_facts hinv hsearch hbuild
    have hcells : ∀ (k : Nat) (x : Nat × Nat), path[k]? = some x → x.1 < n ∧ x.2 < n := by
      intro k x hx
      obtain ⟨h1, h2, _⟩ := hG.cells x (List.mem_iff_getElem?.mpr ⟨k, hx⟩)
      exact ⟨h1, h2⟩
    refine ⟨hA.odd_length, ?_, ?_, hfirst, hprime0, hPR.no_star, last, hlast, ?_, hfree⟩
    · intro k x hk hx
      have hp := hA.prime_at k x hk hx
      obtain ⟨h1, h2⟩ := hcells k x hx
      exact ⟨hp, hzero x.1 x.2 h1 h2 (by omega)⟩
    · intro k x hk hx
      obtain ⟨hs', hy, hz⟩ := hA.star_at k x hk hx
      obtain ⟨h1, h2⟩ := hcells k x hx
      exact ⟨hs', hzero x.1 x.2 h1 h2 (by omega), hy, hz⟩
    · have hodd := hA.odd_length
      rw [List.getLast?_eq_getElem?] at hlast
      exact hA.prime_at (path.length - 1) last (by omega) hlast

/-- Claim C30: during path construction in a run on a valid square matrix the lookup of a
primed cell in the row of an appended starred cell succeeds: the path-building loop never ends
in a failed assertion, the cell after a starred cell of the path is the primed cell that the
lookup returns, and every cell of the path has its row and its column in `0 .. n-1`, so every
access of the flip loop passes the check of `operator()`. -/
theorem path_lookup_succeeds (n pathFuel : Nat) (C Z : Matrix Int) (hC : ValidCost n C)
    (hZ : Matrix.filled n n (0 : Int) = Except.ok Z) :
    ∀ s, LoopState n pathFuel (initialState C Z n) s → s.numberOfCoveredColumns < n →
      ∀ s1 first, search n s = (s1, some first) →
        (∀ fuel, buildPath s1.zeroMarkMatrix n fuel [first] ≠
          Except.error Error.AssertionFailed) ∧
        (∀ fuel, n ≤ fuel → ∃ path, buildPath s1.zeroMarkMatrix n fuel [first] = Except.ok path) ∧
        ∀ path, buildPath s1.zeroMarkMatrix n pathFuel [first] = Except.ok path →
          (∀ k x, k % 2 = 1 → path[k]? = some x →
            ∃ columnWithPrimedZero,
              (List.range n).find? (fun col => decide (s1.zeroMarkMatrix.get x.1 col = 2)) =
                some columnWithPrimedZero ∧
              path[k + 1]? = some (x.1, columnWithPrimedZero)) ∧
          ∀ x ∈ path, x.1 < n ∧ x.2 < n ∧
            ∀ i, (flipPath s1.zeroMarkMatrix (path.take i)).access x.1 x.2 =
              Except.ok ((flipPath s1.zeroMarkMatrix (path.take i)).get x.1 x.2) := by
  have hn : 0 < n := by
    rcases Nat.eq_zero_or_pos n with e | e
    · subst e; simp [Matrix.filled] at hZ
    · exact e
  obtain ⟨Z', hZ', hZsq, hZ0⟩ := filled_square hn hC.2.1 (0 : Int)
  rw [hZ] at hZ'
  have hZeq : Z = Z' := Except.ok.inj hZ'
  subst hZeq
  have hinv0 : Inv n C (initialState C Z n) :=
    initialState_inv hC.1 hZsq hZ0 (fun r c hr hc => reduce_le_of_valid hn hC hr hc)
  intro s hs _ s1 first hsearch
  have hinv := loopState_inv hinv0 hs
  have hreturns : ∀ fuel, n ≤ fuel →
      ∃ path, buildPath s1.zeroMarkMatrix n fuel [first] = Except.ok path := by
    intro fuel hfuel
    obtain ⟨s0, r0, c0, hfirst, hinv', haug, hs1, _⟩ := search_some_spec hinv hsearch
    obtain ⟨path, _, hb, _, _⟩ := buildPath_from_start hinv' haug hfuel
    rw [hs1, hfirst]
    exact ⟨path, hb⟩
  refine ⟨?_, hreturns, ?_⟩
  · intro fuel hfail
    have h1 := buildPath_assertion_mono _ n fuel (max fuel n) _ (Nat.le_max_left _ _) hfail
    obtain ⟨path, h2⟩ := hreturns (max fuel n) (Nat.le_max_right _ _)
    rw [h1] at h2
    exact Except.noConfusion h2
  · intro path hbuild
    obtain ⟨hPR, ⟨glast, hG⟩, hA, _, _, _, _⟩ := built_path_facts hinv hsearch hbuild
    refine ⟨?_, ?_⟩
    · intro k x hk hx
      obtain ⟨_, _, ⟨z, hz, hz1⟩⟩ := hA.star_at k x hk hx
      obtain ⟨hzr, hzc, _⟩ := hG.cells z (List.mem_iff_getElem?.mpr ⟨k + 1, hz⟩)
      have hzp := hA.prime_at (k + 1) z (by omega) hz
      refine ⟨z.2, ?_, by rw [hz, ← hz1]⟩
      apply find?_range_eq _ hzc
      · simp only [decide_eq_true_eq]
        rw [← hz1]; exact hzp
      · intro y hy
        simp only [decide_eq_false_iff_not]
        intro hp
        rw [← hz1] at hp
        have := hPR.prime_row_unique z.1 y z.2 hzr (by omega) hzc hp hzp
        omega
    · intro x hx
      obtain ⟨h1, h2, _⟩ := hG.cells x hx
      refine ⟨h1, h2, ?_⟩
      intro i
      exact access_eq_get (flips_so_far_stars hPR.square hG i).1 hC.2.1 h1 h2

/-! ## The statements of the loop phases at concrete inputs -/

theorem adjust_example_valid : ValidCost 3 (⟨3, 3, [0, 1, 1, 0, 1, 1, 0, 0, 0]⟩ : Matrix Int) := by
  refine ⟨⟨rfl, rfl, rfl⟩, by decide, ?_⟩
  intro r c hr hc
  interval_cases r <;> interval_cases c <;> simp [Matrix.get, INT_MAX]

theorem adjust_example_search :
    search 3 (initialState ⟨3, 3, [0, 1, 1, 0, 1, 1, 0, 0, 0]⟩
        ⟨3, 3, [0, 0, 0, 0, 0, 0, 0, 0, 0]⟩ 3) =
      (⟨⟨3, 3, [0, 1, 1, 0, 1, 1, 0, 0, 0]⟩, ⟨3, 3, [1, 0, 0, 0, 0, 0, 0, 1, 2]⟩,
        [false, false, true], [true, false, false], 2⟩, none) := by
  rfl

theorem augment_example_search :
    search 2 (initialState ⟨2, 2, [0, 0, 0, 1]⟩ ⟨2, 2, [0, 0, 0, 0]⟩ 2) =
      (⟨⟨2, 2, [0, 0, 0, 1]⟩, ⟨2, 2, [1, 2, 2, 0]⟩, [true, false], [false, false], 1⟩,
        some (1, 0)) := by
  rfl

theorem initial_starring_greedy_maximal_witness :
    (ValidCost 3 (⟨3, 3, [0, 1, 1, 0, 1, 1, 0, 0, 0]⟩ : Matrix Int) ∧
      Matrix.filled 3 3 (0 : Int) = Except.ok ⟨3, 3, [0, 0, 0, 0, 0, 0, 0, 0, 0]⟩) ∧
    (∀ r c, r < 3 → c < 3 →
      (reduce ⟨3, 3, [0, 1, 1, 0, 1, 1, 0, 0, 0]⟩ 3).get r c = 0 →
      (∃ c', c' < 3 ∧ (initialState ⟨3, 3, [0, 1, 1, 0, 1, 1, 0, 0, 0]⟩
          ⟨3, 3, [0, 0, 0, 0, 0, 0, 0, 0, 0]⟩ 3).zeroMarkMatrix.get r c' = 1) ∨
        ∃ r', r' < 3 ∧ (initialState ⟨3, 3, [0, 1, 1, 0, 1, 1, 0, 0, 0]⟩
          ⟨3, 3, [0, 0, 0, 0, 0, 0, 0, 0, 0]⟩ 3).zeroMarkMatrix.get r' c = 1) :=
  ⟨⟨adjust_example_valid, rfl⟩,
    (initial_starring_greedy_maximal 3 ⟨3, 3, [0, 1, 1, 0, 1, 1, 0, 0, 0]⟩
      ⟨3, 3, [0, 0, 0, 0, 0, 0, 0, 0, 0]⟩ adjust_example_valid rfl).2.2.2.2.2.2.1⟩

theorem augmentation_adds_one_star_witness :
    (ValidCost 2 (⟨2, 2, [0, 0, 0, 1]⟩ : Matrix Int) ∧
      Matrix.filled 2 2 (0 : Int) = Except.ok ⟨2, 2, [0, 0, 0, 0]⟩) ∧
    ((starredCells 2 ⟨2, 2, [0, 1, 1, 0]⟩).card =
        (starredCells 2 (initialState ⟨2, 2, [0, 0, 0, 1]⟩
          ⟨2, 2, [0, 0, 0, 0]⟩ 2).zeroMarkMatrix).card + 1 ∧
      StarsUniqueInRows 2 ⟨2, 2, [0, 1, 1, 0]⟩ ∧ StarsUniqueInColumns 2 ⟨2, 2, [0, 1, 1, 0]⟩) :=
  ⟨⟨cost_example_valid, rfl⟩, by
    obtain ⟨h1, h2, h3, _⟩ :=
      ((augmentation_adds_one_star 2 5 ⟨2, 2, [0, 0, 0, 1]⟩ ⟨2, 2, [0, 0, 0, 0]⟩
        cost_example_valid rfl).1 _ 0 0 LoopCount.start).2.2.2.2 (by decide) _ (1, 0)
        augment_example_search |>.2
        ⟨⟨2, 2, [0, 0, 0, 1]⟩, ⟨2, 2, [0, 1, 1, 0]⟩, [false, false], [true, true], 2⟩ (by rfl)
    exact ⟨h1, h2, h3⟩⟩

theorem adjustments_between_augmentations_bounded_witness :
    (ValidCost 3 (⟨3, 3, [0, 1, 1, 0, 1, 1, 0, 0, 0]⟩ : Matrix Int) ∧
      Matrix.filled 3 3 (0 : Int) = Except.ok ⟨3, 3, [0, 0, 0, 0, 0, 0, 0, 0, 0]⟩) ∧
    ∀ s a j, LoopCount 3 5 (initialState ⟨3, 3, [0, 1, 1, 0, 1, 1, 0, 0, 0]⟩
      ⟨3, 3, [0, 0, 0, 0, 0, 0, 0, 0, 0]⟩ 3) s a j → j ≤ 3 :=
  ⟨⟨adjust_example_valid, rfl⟩,
    adjustments_between_augmentations_bounded 3 5 ⟨3, 3, [0, 1, 1, 0, 1, 1, 0, 0, 0]⟩
      ⟨3, 3, [0, 0, 0, 0, 0, 0, 0, 0, 0]⟩ adjust_example_valid rfl⟩

theorem detour_example_first :
    ∀ c2, c2 < 2 →
      ¬ ((⟨3, 3, [0, 1, 1, 0, 1, 1, 0, 0, 0]⟩ : Matrix Int).get 2 c2 = 0 ∧
        [true, true, false].getD c2 false = false) := by
  intro c2 h
  interval_cases c2 <;> simp

theorem detour_example_unique :
    ∀ j, j < 3 → (⟨3, 3, [1, 0, 0, 0, 0, 0, 0, 1, 0]⟩ : Matrix Int).get 2 j = 1 → j = 1 := by
  intro j h
  interval_cases j <;> simp [Matrix.get]

theorem detour_frame_witness :
    (Square 3 (⟨3, 3, [1, 0, 0, 0, 0, 0, 0, 1, 0]⟩ : Matrix Int) ∧
      ([false, false, false] : List Bool).length = 3 ∧
      ([true, true, false] : List Bool).length = 3 ∧ 2 < 3 ∧ 1 < 3 ∧
      ([false, false, false] : List Bool).getD 2 false = false ∧
      (⟨3, 3, [0, 1, 1, 0, 1, 1, 0, 0, 0]⟩ : Matrix Int).get 2 2 = 0 ∧
      ([true, true, false] : List Bool).getD 2 false = false ∧
      (∀ c2, c2 < 2 →
        ¬ ((⟨3, 3, [0, 1, 1, 0, 1, 1, 0, 0, 0]⟩ : Matrix Int).get 2 c2 = 0 ∧
          [true, true, false].getD c2 false = false)) ∧
      (2 : Nat) ≠ 1 ∧ (⟨3, 3, [1, 0, 0, 0, 0, 0, 0, 1, 0]⟩ : Matrix Int).get 2 1 = 1 ∧
      ∀ j, j < 3 → (⟨3, 3, [1, 0, 0, 0, 0, 0, 0, 1, 0]⟩ : Matrix Int).get 2 j = 1 → j = 1) ∧
    ∃ s', searchRow 3 ⟨⟨3, 3, [0, 1, 1, 0, 1, 1, 0, 0, 0]⟩,
        ⟨3, 3, [1, 0, 0, 0, 0, 0, 0, 1, 0]⟩, [false, false, false], [true, true, false], 2⟩ 2 =
        (s', none) ∧
      s'.zeroMarkMatrix.get 2 2 = 2 ∧ s'.isRowCurrentlyCovered.getD 2 false = true ∧
      s'.isColumnCurrentlyCovered.getD 1 false = false ∧
      s'.costMatrix = ⟨3, 3, [0, 1, 1, 0, 1, 1, 0, 0, 0]⟩ :=
  ⟨⟨⟨rfl, rfl, rfl⟩, rfl, rfl, by decide, by decide, rfl, by decide, rfl,
      detour_example_first, by decide, by decide, detour_example_unique⟩, by
    obtain ⟨s', h1, h2, _, h4, _, h6, _, _, _, h10, _⟩ :=
      detour_frame 3 ⟨⟨3, 3, [0, 1, 1, 0, 1, 1, 0, 0, 0]⟩,
        ⟨3, 3, [1, 0, 0, 0, 0, 0, 0, 1, 0]⟩, [false, false, false], [true, true, false], 2⟩
        2 2 1 ⟨rfl, rfl, rfl⟩ rfl rfl (by decide) (by decide) (by decide) rfl (by decide) rfl
        detour_example_first (by decide) (by decide) detour_example_unique
    exact ⟨s', h1, h2, h4, h6, h10⟩⟩

theorem augmenting_path_shape_witness :
    (ValidCost 2 (⟨2, 2, [0, 0, 0, 1]⟩ : Matrix Int) ∧
      Matrix.filled 2 2 (0 : Int) = Except.ok ⟨2, 2, [0, 0, 0, 0]⟩) ∧
    (([(1, 0), (0, 0), (0, 1)] : List (Nat × Nat)).length % 2 = 1 ∧
      ([(1, 0), (0, 0), (0, 1)] : List (Nat × Nat))[0]? = some (1, 0) ∧
      ∃ last, ([(1, 0), (0, 0), (0, 1)] : List (Nat × Nat)).getLast? = some last ∧
        (⟨2, 2, [1, 2, 2, 0]⟩ : Matrix Int).get last.1 last.2 = 2 ∧
        ∀ r, r < 2 → (⟨2, 2, [1, 2, 2, 0]⟩ : Matrix Int).get r last.2 ≠ 1) :=
  ⟨⟨cost_example_valid, rfl⟩, by
    obtain ⟨h1, _, _, h4, _, _, h7⟩ :=
      (augmenting_path_shape 2 5 ⟨2, 2, [0, 0, 0, 1]⟩ ⟨2, 2, [0, 0, 0, 0]⟩
        cost_example_valid rfl _ LoopState.start (by decide) _ (1, 0)
        augment_example_search).2 [(1, 0), (0, 0), (0, 1)] (by rfl)
    exact ⟨h1, h4, h7⟩⟩

theorem path_lookup_succeeds_witness :
    (ValidCost 2 (⟨2, 2, [0, 0, 0, 1]⟩ : Matrix Int) ∧
      Matrix.filled 2 2 (0 : Int) = Except.ok ⟨2, 2, [0, 0, 0, 0]⟩) ∧
    ((∀ fuel, buildPath ⟨2, 2, [1, 2, 2, 0]⟩ 2 fuel [(1, 0)] ≠
        Except.error Error.AssertionFailed) ∧
      ∀ fuel, 2 ≤ fuel → ∃ path, buildPath ⟨2, 2, [1, 2, 2, 0]⟩ 2 fuel [(1, 0)] =
        Except.ok path) :=
  ⟨⟨cost_example_valid, rfl⟩, by
    obtain ⟨h1, h2, _⟩ :=
      path_lookup_succeeds 2 5 ⟨2, 2, [0, 0, 0, 1]⟩ ⟨2, 2, [0, 0, 0, 0]⟩
        cost_example_valid rfl _ LoopState.start (by decide) _ (1, 0) augment_example_search
    exact ⟨h1, h2⟩⟩

/-! ## Termination of the path-building loop -/

/-- An alternating path without repeated cell has at most `2 * n - 1` cells: its starred
cells lie in pairwise distinct rows, none of them in the row where the path starts. -/
theorem alternating_length_le {n : Nat} {M : Matrix Int} {r0 : Nat} {path : List (Nat × Nat)}
    {last : Nat × Nat} (hM : PathReady n M r0) (hG : GoodPath n M r0 path last)
    (hA : Alternating M path) (hr0 : r0 < n) : path.length ≤ 2 * n - 1 := by
  have hodd := hA.odd_length
  have hget : ∀ k, k < (path.length - 1) / 2 →
      ∃ x, path[2 * k + 1]? = some x ∧ (path.getD (2 * k + 1) (0, 0)) = x := by
    intro k hk
    have hlt : 2 * k + 1 < path.length := by omega
    refine ⟨path[2 * k + 1], List.getElem?_eq_getElem hlt, ?_⟩
    rw [List.getD_eq_getElem?_getD, List.getElem?_eq_getElem hlt]
    rfl
  have hcard : (Finset.range ((path.length - 1) / 2)).card ≤
      ((Finset.range n).erase r0).card := by
    apply Finset.card_le_card_of_injOn (fun k => (path.getD (2 * k + 1) (0, 0)).1)
    · intro k hk
      simp only [Finset.mem_range] at hk
      obtain ⟨x, hx, hxe⟩ := hget k hk
      simp only [Finset.mem_erase, Finset.mem_range]
      rw [hxe]
      obtain ⟨hs, _, _⟩ := hA.star_at (2 * k + 1) x (by omega) hx
      obtain ⟨h1, h2, _⟩ := hG.cells x (List.mem_iff_getElem?.mpr ⟨_, hx⟩)
      refine ⟨?_, h1⟩
      intro e
      rw [e] at hs
      exact hM.no_star x.2 h2 hs
    · intro k1 hk1 k2 hk2 e
      simp only [Finset.coe_range, Set.mem_Iio] at hk1 hk2
      obtain ⟨x, hx, hxe⟩ := hget k1 hk1
      obtain ⟨y, hy, hye⟩ := hget k2 hk2
      simp only at e
      rw [hxe, hye] at e
      obtain ⟨hsx, _, _⟩ := hA.star_at (2 * k1 + 1) x (by omega) hx
      obtain ⟨hsy, _, _⟩ := hA.star_at (2 * k2 + 1) y (by omega) hy
      obtain ⟨hx1, hx2, _⟩ := hG.cells x (List.mem_iff_getElem?.mpr ⟨_, hx⟩)
      obtain ⟨hy1, hy2, _⟩ := hG.cells y (List.mem_iff_getElem?.mpr ⟨_, hy⟩)
      obtain ⟨xr, xc⟩ := x
      obtain ⟨yr, yc⟩ := y
      simp only at e hsx hsy hx1 hx2 hy1 hy2
      subst e
      have hc : xc = yc := hM.star_row_unique xr xc yc hx1 hx2 hy2 hsx hsy
      subst hc
      by_contra hne
      have hne' : 2 * k1 + 1 ≠ 2 * k2 + 1 := by omega
      have hlt1 : 2 * k1 + 1 < path.length := by omega
      have hlt2 : 2 * k2 + 1 < path.length := by omega
      rcases Nat.lt_or_gt_of_ne hne' with hlt | hgt
      · exact (List.nodup_iff_getElem?_ne_getElem?.mp hG.nodup) _ _ hlt hlt2 (by rw [hx, hy])
      · exact (List.nodup_iff_getElem?_ne_getElem?.mp hG.nodup) _ _ hgt hlt1 (by rw [hx, hy])
  rw [Finset.card_range, Finset.card_erase_of_mem (Finset.mem_range.mpr hr0),
    Finset.card_range] at hcard
  omega

/-- Every list that the path-building loop holds on the way to its result is an initial
segment of the result. -/
theorem buildPath_extends (M : Matrix Int) (n : Nat) :
    ∀ (fuel : Nat) (path result : List (Nat × Nat)),
      buildPath M n fuel path = Except.ok result → ∃ rest, result = path ++ rest := by
  intro fuel
  induction fuel with
  | zero =>
    intro path result h
    simp [buildPath] at h
  | succ fuel ih =>
    intro path result h
    unfold buildPath at h
    cases hl : path.getLast? with
    | none => rw [hl] at h; simp at h
    | some last =>
      rw [hl] at h
      simp only at h
      cases hs : (List.range n).find? (fun row => decide (M.get row last.2 = 1)) with
      | none =>
        rw [hs] at h
        simp only at h
        exact ⟨[], by rw [List.append_nil]; exact (Except.ok.inj h).symm⟩
      | some rs =>
        rw [hs] at h
        simp only at h
        cases hp : (List.range n).find? (fun col => decide (M.get rs col = 2)) with
        | none => rw [hp] at h; simp at h
        | some cp =>
          rw [hp] at h
          simp only at h
          obtain ⟨rest, hrest⟩ := ih _ _ h
          exact ⟨[(rs, last.2), (rs, cp)] ++ rest, by rw [hrest, List.append_assoc]⟩

/-- Number of passes of the path-building loop: a run that returns a path of `2 * k + 1`
cells has evaluated the loop condition `k + 1` times, so a budget of `k + 1` suffices and no
smaller budget does. -/
theorem buildPath_passes (M : Matrix Int) (n : Nat) :
    ∀ (fuel : Nat) (path result : List (Nat × Nat)),
      buildPath M n fuel path = Except.ok result →
      ∀ fuel', (buildPath M n fuel' path = Except.ok result ↔
        (result.length - path.length) / 2 + 1 ≤ fuel') := by
  intro fuel
  induction fuel with
  | zero =>
    intro path result h
    simp [buildPath] at h
  | succ fuel ih =>
    intro path result h fuel'
    unfold buildPath at h
    cases hl : path.getLast? with
    | none => rw [hl] at h; simp at h
    | some last =>
      rw [hl] at h
      simp only at h
      cases hs : (List.range n).find? (fun row => decide (M.get row last.2 = 1)) with
      | none =>
        rw [hs] at h
        simp only at h
        have he : path = result := Except.ok.inj h
        subst he
        cases fuel' with
        | zero => simp [buildPath]
        | succ f =>
          unfold buildPath
          rw [hl]
          simp only
          rw [hs]
          simp
      | some rs =>
        rw [hs] at h
        simp only at h
        cases hp : (List.range n).find? (fun col => decide (M.get rs col = 2)) with
        | none => rw [hp] at h; simp at h
        | some cp =>
          rw [hp] at h
          simp only at h
          obtain ⟨rest, hrest⟩ := buildPath_extends M n _ _ _ h
          have hlen : result.length = path.length + 2 + rest.length := by
            rw [hrest]; simp; omega
          cases fuel' with
          | zero =>
            simp [buildPath]
          | succ f =>
            have := ih _ _ h f
            unfold buildPath
            rw [hl]
            simp only
            rw [hs]
            simp only
            rw [hp]
            simp only
            rw [this]
            simp only [List.length_append, List.length_cons, List.length_nil]
            omega

/-- Claim C31: the path-building loop terminates for every state met in a run on a valid
n×n matrix. With a budget of at least `n` evaluations of its condition the loop returns; the
returned path holds no cell twice and has at most `2 * n - 1` cells; the loop has then run
`(length + 1) / 2 ≤ n` times, and every list it held on the way is an initial segment of the
returned path, hence without repeated cell as well. -/
theorem path_building_terminates (n pathFuel : Nat) (C Z : Matrix Int) (hC : ValidCost n C)
    (hZ : Matrix.filled n n (0 : Int) = Except.ok Z) :
    ∀ s, LoopState n pathFuel (initialState C Z n) s → s.numberOfCoveredColumns < n →
      ∀ s1 first, search n s = (s1, some first) →
        (∀ fuel, n ≤ fuel → ∃ path, buildPath s1.zeroMarkMatrix n fuel [first] = Except.ok path) ∧
        ∀ path, buildPath s1.zeroMarkMatrix n pathFuel [first] = Except.ok path →
          path.Nodup ∧ path.length ≤ 2 * n - 1 ∧ (path.length + 1) / 2 ≤ n ∧
          (∀ fuel, buildPath s1.zeroMarkMatrix n fuel [first] = Except.ok path ↔
            (path.length + 1) / 2 ≤ fuel) ∧
          ∀ i, (path.take i).Nodup ∧ (path.take i).length ≤ 2 * n - 1 := by
  have hn : 0 < n := by
    rcases Nat.eq_zero_or_pos n with e | e
    · subst e; simp [Matrix.filled] at hZ
    · exact e
  obtain ⟨Z', hZ', hZsq, hZ0⟩ := filled_square hn hC.2.1 (0 : Int)
  rw [hZ] at hZ'
  have hZeq : Z = Z' := Except.ok.inj hZ'
  subst hZeq
  have hinv0 : Inv n C (initialState C Z n) :=
    initialState_inv hC.1 hZsq hZ0 (fun r c hr hc => reduce_le_of_valid hn hC hr hc)
  intro s hs _ s1 first hsearch
  have hinv := loopState_inv hinv0 hs
  refine ⟨?_, ?_⟩
  · intro fuel hfuel
    obtain ⟨s0, r0, c0, hfirst, hinv', haug, hs1, _⟩ := search_some_spec hinv hsearch
    obtain ⟨path, _, hb, _, _⟩ := buildPath_from_start hinv' haug hfuel
    rw [hs1, hfirst]
    exact ⟨path, hb⟩
  · intro path hbuild
    obtain ⟨hPR, ⟨glast, hG⟩, hA, hfirst, _, _, _⟩ := built_path_facts hinv hsearch hbuild
    obtain ⟨hr0, _, _⟩ := hG.cells first (List.mem_iff_getElem?.mpr ⟨0, hfirst⟩)
    have hlen := alternating_length_le hPR hG hA hr0
    have hodd := hA.odd_length
    refine ⟨hG.nodup, hlen, by omega, ?_, ?_⟩
    · intro fuel
      rw [buildPath_passes _ n pathFuel [first] path hbuild fuel]
      simp only [List.length_cons, List.length_nil]
      omega
    · intro i
      refine ⟨List.Nodup.sublist (List.take_sublist i path) hG.nodup, ?_⟩
      rw [List.length_take]
      omega

/-! ## Effect of the flip and of the reset that follows it -/

/-- Claim C32: the flip of an augmenting path changes exactly the cells on the path. Every
cell of the path is starred or primed before the flip; a path cell that was starred is
unmarked after it, a path cell that was primed is starred after it, so every path cell has
changed; every cell off the path keeps its mark. A primed cell off the path is therefore still
primed after the flip; it is unmarked only by the clearing pass, which changes no other
cell. -/
theorem flip_changes_exactly_path (n pathFuel : Nat) (C Z : Matrix Int) (hC : ValidCost n C)
    (hZ : Matrix.filled n n (0 : Int) = Except.ok Z) :
    ∀ s, LoopState n pathFuel (initialState C Z n) s → s.numberOfCoveredColumns < n →
      ∀ s1 first, search n s = (s1, some first) →
        ∀ path, buildPath s1.zeroMarkMatrix n pathFuel [first] = Except.ok path →
          Square n (flipPath s1.zeroMarkMatrix path) ∧
          (∀ x ∈ path, x.1 < n ∧ x.2 < n ∧
            (s1.zeroMarkMatrix.get x.1 x.2 = 1 ∨ s1.zeroMarkMatrix.get x.1 x.2 = 2)) ∧
          (∀ r c, (r, c) ∈ path → s1.zeroMarkMatrix.get r c = 1 →
            (flipPath s1.zeroMarkMatrix path).get r c = 0) ∧
          (∀ r c, (r, c) ∈ path → s1.zeroMarkMatrix.get r c = 2 →
            (flipPath s1.zeroMarkMatrix path).get r c = 1) ∧
          (∀ r c, (r, c) ∈ path →
            (flipPath s1.zeroMarkMatrix path).get r c ≠ s1.zeroMarkMatrix.get r c) ∧
          (∀ r c, r < n → c < n → (r, c) ∉ path →
            (flipPath s1.zeroMarkMatrix path).get r c = s1.zeroMarkMatrix.get r c) ∧
          (∀ r c, r < n → c < n → (r, c) ∉ path → s1.zeroMarkMatrix.get r c = 2 →
            (flipPath s1.zeroMarkMatrix path).get r c = 2 ∧
            (clearPrimes (flipPath s1.zeroMarkMatrix path) n).get r c = 0) ∧
          (∀ r c, r < n → c < n → (flipPath s1.zeroMarkMatrix path).get r c ≠ 2 →
            (clearPrimes (flipPath s1.zeroMarkMatrix path) n).get r c =
              (flipPath s1.zeroMarkMatrix path).get r c) ∧
          ∀ s2, augment n pathFuel s1 first = Except.ok s2 →
            s2.zeroMarkMatrix = clearPrimes (flipPath s1.zeroMarkMatrix path) n := by
  have hn : 0 < n := by
    rcases Nat.eq_zero_or_pos n with e | e
    · subst e; simp [Matrix.filled] at hZ
    · exact e
  obtain ⟨Z', hZ', hZsq, hZ0⟩ := filled_square hn hC.2.1 (0 : Int)
  rw [hZ] at hZ'
  have hZeq : Z = Z' := Except.ok.inj hZ'
  subst hZeq
  have hinv0 : Inv n C (initialState C Z n) :=
    initialState_inv hC.1 hZsq hZ0 (fun r c hr hc => reduce_le_of_valid hn hC hr hc)
  intro s hs _ s1 first hsearch path hbuild
  have hinv := loopState_inv hinv0 hs
  obtain ⟨hPR, ⟨glast, hG⟩, _, _, _, _, _⟩ := built_path_facts hinv hsearch hbuild
  obtain ⟨hsq, hflip⟩ := flipPath_spec path s1.zeroMarkMatrix hPR.square hG.nodup
    (fun x hx => ⟨(hG.cells x hx).1, (hG.cells x hx).2.1⟩)
  obtain ⟨_, hclear⟩ := clearPrimes_spec hsq
  refine ⟨hsq, hG.cells, ?_, ?_, ?_, ?_, ?_, ?_, ?_⟩
  · intro r c hmem h1
    obtain ⟨hr, hc, _⟩ := hG.cells (r, c) hmem
    rw [hflip r c hr hc, if_pos hmem, if_pos h1]
  · intro r c hmem h2
    obtain ⟨hr, hc, _⟩ := hG.cells (r, c) hmem
    rw [hflip r c hr hc, if_pos hmem, if_neg (by omega), if_pos h2]
  · intro r c hmem
    obtain ⟨hr, hc, hm⟩ := hG.cells (r, c) hmem
    rw [hflip r c hr hc, if_pos hmem]
    rcases hm with h1 | h2
    · rw [if_pos h1]; simp only at h1; omega
    · simp only at h2
      rw [if_neg (by omega), if_pos h2]; omega
  · intro r c hr hc hmem
    rw [hflip r c hr hc, if_neg hmem]
  · intro r c hr hc hmem h2
    have hf : (flipPath s1.zeroMarkMatrix path).get r c = 2 := by
      rw [hflip r c hr hc, if_neg hmem]; exact h2
    refine ⟨hf, ?_⟩
    rw [hclear r c hr hc, if_pos hf]
  · intro r c hr hc hne
    rw [hclear r c hr hc, if_neg hne]
  · intro s2 haugment
    unfold augment at haugment
    rw [hbuild] at haugment
    simp only at haugment
    rw [← Except.ok.inj haugment]

/-- Claim C33: after every augmentation of a run on a valid square matrix, at the point where
control returns to the loop condition, no cell of the mark grid is primed, no row is covered,
a column is covered if and only if it contains a starred cell, and `numberOfCoveredColumns`
equals the number of covered columns. With a budget of `n` passes for the path-building loop
the augmentation does return. -/
theorem augmentation_resets_coverage (n pathFuel : Nat) (C Z : Matrix Int) (hC : ValidCost n C)
    (hZ : Matrix.filled n n (0 : Int) = Except.ok Z) :
    ∀ s, LoopState n pathFuel (initialState C Z n) s → s.numberOfCoveredColumns < n →
      ∀ s1 first, search n s = (s1, some first) →
        (n ≤ pathFuel → ∃ s2, augment n pathFuel s1 first = Except.ok s2) ∧
        ∀ s2, augment n pathFuel s1 first = Except.ok s2 →
          loopBody n pathFuel s = Except.ok s2 ∧
          LoopState n pathFuel (initialState C Z n) s2 ∧
          (∀ r c, r < n → c < n → s2.zeroMarkMatrix.get r c ≠ 2) ∧
          s2.isRowCurrentlyCovered.length = n ∧ s2.isColumnCurrentlyCovered.length = n ∧
          (∀ r, r < n → s2.isRowCurrentlyCovered.getD r false = false) ∧
          (∀ c, c < n → (s2.isColumnCurrentlyCovered.getD c false = true ↔
            ∃ r, r < n ∧ s2.zeroMarkMatrix.get r c = 1)) ∧
          s2.numberOfCoveredColumns =
            ((Finset.range n).filter
              (fun c => s2.isColumnCurrentlyCovered.getD c false = true)).card := by
  have hn : 0 < n := by
    rcases Nat.eq_zero_or_pos n with e | e
    · subst e; simp [Matrix.filled] at hZ
    · exact e
  obtain ⟨Z', hZ', hZsq, hZ0⟩ := filled_square hn hC.2.1 (0 : Int)
  rw [hZ] at hZ'
  have hZeq : Z = Z' := Except.ok.inj hZ'
  subst hZeq
  have hinv0 : Inv n C (initialState C Z n) :=
    initialState_inv hC.1 hZsq hZ0 (fun r c hr hc => reduce_le_of_valid hn hC hr hc)
  intro s hs hlt s1 first hsearch
  have hinv := loopState_inv hinv0 hs
  obtain ⟨s0, r0, c0, hfirst, hinv', haug, hs1, _⟩ := search_some_spec hinv hsearch
  refine ⟨?_, ?_⟩
  · intro hfuel
    obtain ⟨s', heq, _, _⟩ := augment_spec hinv' haug hfuel
    rw [hs1, hfirst]
    exact ⟨s', heq⟩
  · intro s2 haugment
    have hbody : loopBody n pathFuel s = Except.ok s2 := by
      unfold loopBody
      rw [hsearch]
      exact haugment
    have hcols : s1.isColumnCurrentlyCovered.length = n := by
      rw [hs1]; exact hinv'.cols_length
    have hrows : s1.isRowCurrentlyCovered.length = n := by
      rw [hs1]; exact hinv'.rows_length
    unfold augment at haugment
    cases hb : buildPath s1.zeroMarkMatrix n pathFuel [first] with
    | error e => rw [hb] at haugment; exact Except.noConfusion haugment
    | ok path =>
      rw [hb] at haugment
      simp only at haugment
      have e := Except.ok.inj haugment
      obtain ⟨hPR, ⟨glast, hG⟩, _, _, _, _, _⟩ := built_path_facts hinv hsearch hb
      obtain ⟨hsq, _⟩ := flipPath_spec path s1.zeroMarkMatrix hPR.square hG.nodup
        (fun x hx => ⟨(hG.cells x hx).1, (hG.cells x hx).2.1⟩)
      obtain ⟨_, hclear⟩ := clearPrimes_spec hsq
      obtain ⟨r1, r2, _⟩ := recount_spec
        (clearPrimes (flipPath s1.zeroMarkMatrix path) n) n s1.isColumnCurrentlyCovered hcols
      obtain ⟨u1, u2⟩ := uncoverAll_spec s1.isRowCurrentlyCovered n
      refine ⟨hbody, LoopState.pass hs hlt hbody, ?_⟩
      rw [← e]
      refine ⟨?_, ?_, r1, u2, r2, countCoveredColumns_eq _ n⟩
      · intro r c hr hc h2
        simp only at h2
        rw [hclear r c hr hc] at h2
        by_cases h : (flipPath s1.zeroMarkMatrix path).get r c = 2
        · rw [if_pos h] at h2; omega
        · rw [if_neg h] at h2; exact h h2
      · show (uncoverAll s1.isRowCurrentlyCovered n).length = n
        rw [u1]; exact hrows

/-! ## The number of covered columns between two resets -/

theorem countCoveredColumns_le (flags : List Bool) (n : Nat) : countCoveredColumns flags n ≤ n := by
  rw [countCoveredColumns_eq]
  calc ((Finset.range n).filter (fun c => flags.getD c false = true)).card
      ≤ (Finset.range n).card := Finset.card_filter_le _ _
    _ = n := Finset.card_range n

/-- Covering a column does not lower the number of covered columns. -/
theorem countCoveredColumns_set_true (flags : List Bool) (n c : Nat) :
    countCoveredColumns flags n ≤ countCoveredColumns (flags.set c true) n := by
  rw [countCoveredColumns_eq, countCoveredColumns_eq]
  apply Finset.card_le_card
  intro i hi
  simp only [Finset.mem_filter, Finset.mem_range] at hi ⊢
  refine ⟨hi.1, ?_⟩
  by_cases e : c = i
  · subst e
    by_cases hl : c < flags.length
    · exact getD_set_self flags c true false hl
    · have := hi.2
      simp [List.getD_eq_getElem?_getD, List.getElem?_eq_none (Nat.le_of_not_lt hl)] at this
  · rw [getD_set_other flags c i true false e]
    exact hi.2

/-- Uncovering a covered column lowers the number of covered columns by exactly one. -/
theorem countCoveredColumns_set_false {flags : List Bool} {n j : Nat} (hj : j < n)
    (hcov : flags.getD j false = true) :
    countCoveredColumns (flags.set j false) n + 1 = countCoveredColumns flags n := by
  have hl : j < flags.length := by
    by_contra hl
    simp [List.getD_eq_getElem?_getD, List.getElem?_eq_none (Nat.le_of_not_lt hl)] at hcov
  rw [countCoveredColumns_eq, countCoveredColumns_eq]
  have hset : (Finset.range n).filter (fun c => (flags.set j false).getD c false = true) =
      ((Finset.range n).filter (fun c => flags.getD c false = true)).erase j := by
    ext i
    simp only [Finset.mem_filter, Finset.mem_range, Finset.mem_erase]
    by_cases e : j = i
    · subst e
      rw [getD_set_self flags j false false hl]
      simp
    · rw [getD_set_other flags j i false false e]
      constructor
      · rintro ⟨h1, h2⟩; exact ⟨fun h => e h.symm, h1, h2⟩
      · rintro ⟨_, h1, h2⟩; exact ⟨h1, h2⟩
  have hmem : j ∈ (Finset.range n).filter (fun c => flags.getD c false = true) := by
    simp only [Finset.mem_filter, Finset.mem_range]
    exact ⟨hj, hcov⟩
  rw [hset, Finset.card_erase_of_mem hmem]
  have : 0 < ((Finset.range n).filter (fun c => flags.getD c false = true)).card :=
    Finset.card_pos.mpr ⟨j, hmem⟩
  omega

theorem coverStarredColumnsUpTo_zero (marks : Matrix Int) (n : Nat) (flags : List Bool) :
    coverStarredColumnsUpTo marks n flags 0 0 = flags := rfl

theorem coverStarredColumnsUpTo_full (marks : Matrix Int) (n : Nat) (flags : List Bool) :
    coverStarredColumnsUpTo marks n flags n 0 = coverStarredColumns marks n flags := rfl

/-- The end of one row of the covering loop is the start of the next row. -/
theorem coverStarredColumnsUpTo_row (marks : Matrix Int) (n : Nat) (flags : List Bool)
    (r : Nat) :
    coverStarredColumnsUpTo marks n flags (r + 1) 0 = coverStarredColumnsUpTo marks n flags r n := by
  unfold coverStarredColumnsUpTo
  rw [List.range_succ, List.foldl_append]
  rfl

/-- One cell of the covering loop does not lower the number of covered columns. -/
theorem coverStarredColumnsUpTo_cell (marks : Matrix Int) (n : Nat) (flags : List Bool)
    (r c : Nat) :
    countCoveredColumns (coverStarredColumnsUpTo marks n flags r c) n ≤
      countCoveredColumns (coverStarredColumnsUpTo marks n flags r (c + 1)) n := by
  have e : coverStarredColumnsUpTo marks n flags r (c + 1) =
      if marks.get r c = 1 then (coverStarredColumnsUpTo marks n flags r c).set c true
      else coverStarredColumnsUpTo marks n flags r c := by
    unfold coverStarredColumnsUpTo
    rw [List.range_succ, List.foldl_append]
    rfl
  rw [e]
  by_cases h : marks.get r c = 1
  · rw [if_pos h]; exact countCoveredColumns_set_true _ n c
  · rw [if_neg h]

theorem coverStarredColumnsUpTo_mono_col (marks : Matrix Int) (n : Nat) (flags : List Bool)
    (r c : Nat) : ∀ c', c ≤ c' →
    countCoveredColumns (coverStarredColumnsUpTo marks n flags r c) n ≤
      countCoveredColumns (coverStarredColumnsUpTo marks n flags r c') n := by
  intro c' h
  induction c' with
  | zero =>
    have : c = 0 := by omega
    subst this; exact Nat.le_refl _
  | succ d ih =>
    rcases Nat.eq_or_lt_of_le h with e | hlt
    · rw [e]
    · exact Nat.le_trans (ih (by omega)) (coverStarredColumnsUpTo_cell marks n flags r d)

theorem coverStarredColumnsUpTo_mono_row (marks : Matrix Int) (n : Nat) (flags : List Bool)
    (r : Nat) : ∀ r', r ≤ r' →
    countCoveredColumns (coverStarredColumnsUpTo marks n flags r 0) n ≤
      countCoveredColumns (coverStarredColumnsUpTo marks n flags r' 0) n := by
  intro r' h
  induction r' with
  | zero =>
    have : r = 0 := by omega
    subst this; exact Nat.le_refl _
  | succ d ih =>
    rcases Nat.eq_or_lt_of_le h with e | hlt
    · rw [e]
    · rw [coverStarredColumnsUpTo_row]
      exact Nat.le_trans (ih (by omega))
        (coverStarredColumnsUpTo_mono_col marks n flags d 0 n (Nat.zero_le n))

/-- While the covering loop runs, the number of covered columns never decreases. -/
theorem coverStarredColumnsUpTo_mono (marks : Matrix Int) (n : Nat) (flags : List Bool)
    {r c r' c' : Nat} (hpos : r < r' ∨ (r = r' ∧ c ≤ c')) (hc : c ≤ n) :
    countCoveredColumns (coverStarredColumnsUpTo marks n flags r c) n ≤
      countCoveredColumns (coverStarredColumnsUpTo marks n flags r' c') n := by
  rcases hpos with hlt | ⟨e, hle⟩
  · calc countCoveredColumns (coverStarredColumnsUpTo marks n flags r c) n
        ≤ countCoveredColumns (coverStarredColumnsUpTo marks n flags r n) n :=
          coverStarredColumnsUpTo_mono_col marks n flags r c n hc
      _ = countCoveredColumns (coverStarredColumnsUpTo marks n flags (r + 1) 0) n := by
          rw [coverStarredColumnsUpTo_row]
      _ ≤ countCoveredColumns (coverStarredColumnsUpTo marks n flags r' 0) n :=
          coverStarredColumnsUpTo_mono_row marks n flags (r + 1) r' hlt
      _ ≤ countCoveredColumns (coverStarredColumnsUpTo marks n flags r' c') n :=
          coverStarredColumnsUpTo_mono_col marks n flags r' 0 c' (Nat.zero_le c')
  · subst e
    exact coverStarredColumnsUpTo_mono_col marks n flags r c c' hle

theorem searchUpTo_succ (n : Nat) (s : State) (k : Nat) :
    searchUpTo n s (k + 1) =
      match (searchUpTo n s k).2 with
      | some _ => searchUpTo n s k
      | none => searchRow n (searchUpTo n s k).1 k := by
  unfold searchUpTo
  rw [List.range_succ, List.foldl_append]
  rfl

/-- One row of the search leaves the column flags alone or, when it makes a detour, uncovers
exactly one covered column. -/
theorem searchUpTo_columns {n : Nat} {C : Matrix Int} {s : State} (h : Inv n C s) {k : Nat}
    (hk : k < n) :
    (searchUpTo n s (k + 1)).1.isColumnCurrentlyCovered =
        (searchUpTo n s k).1.isColumnCurrentlyCovered ∨
      ∃ j, j < n ∧ (searchUpTo n s k).2 = none ∧
        (searchUpTo n s k).1.zeroMarkMatrix.get k j = 1 ∧
        (searchUpTo n s k).1.isColumnCurrentlyCovered.getD j false = true ∧
        (searchUpTo n s (k + 1)).1.isColumnCurrentlyCovered =
          (searchUpTo n s k).1.isColumnCurrentlyCovered.set j false ∧
        countCoveredColumns (searchUpTo n s (k + 1)).1.isColumnCurrentlyCovered n + 1 =
          countCoveredColumns (searchUpTo n s k).1.isColumnCurrentlyCovered n := by
  rw [searchUpTo_succ]
  rcases searchUpTo_spec h k (Nat.le_of_lt hk) with ⟨hnone, hinv⟩ | ⟨s0, r0, c0, hsome, _⟩
  · rw [hnone]
    simp only
    rcases searchRow_cases hinv hk with ⟨e, _⟩ |
        ⟨c, j, hc, hj, hrow, hcol, hzero, hstar, e⟩ | ⟨c, haug, e⟩
    · rw [e]; exact Or.inl rfl
    · rw [e]
      right
      have hcov : (searchUpTo n s k).1.isColumnCurrentlyCovered.getD j false = true := by
        cases hb : (searchUpTo n s k).1.isColumnCurrentlyCovered.getD j false
        · have := (hinv.star_cover k j hk hj hstar).mpr hb
          rw [hrow] at this
          exact Bool.noConfusion this
        · rfl
      exact ⟨j, hj, trivial, hstar, hcov, rfl, countCoveredColumns_set_false hj hcov⟩
    · rw [e]; exact Or.inl rfl
  · rw [hsome]
    exact Or.inl rfl

/-- From the end of the covering loop on, the rows of the search never raise the number of
covered columns. -/
theorem searchUpTo_columns_mono {n : Nat} {C : Matrix Int} {s : State} (h : Inv n C s)
    (k : Nat) : ∀ k', k ≤ k' → k' ≤ n →
    countCoveredColumns (searchUpTo n s k').1.isColumnCurrentlyCovered n ≤
      countCoveredColumns (searchUpTo n s k).1.isColumnCurrentlyCovered n := by
  intro k' hle
  induction k' with
  | zero =>
    intro _
    have : k = 0 := by omega
    subst this; exact Nat.le_refl _
  | succ d ih =>
    intro hd
    rcases Nat.eq_or_lt_of_le hle with e | hlt
    · rw [e]
    · have h1 := ih (by omega) (by omega)
      rcases searchUpTo_columns h (show d < n by omega) with e | ⟨j, _, _, _, _, _, e⟩
      · rw [e]; exact h1
      · omega

/-- Claim C34, counterexample: in the run on `[[0,0],[0,1]]` the covering loop before the main
loop covers column 0; the first row of the first search makes a detour and uncovers it again,
so the number of covered columns drops from 1 to 0 with no reset in between. -/
theorem detour_lowers_covered_columns :
    ValidCost 2 (⟨2, 2, [0, 0, 0, 1]⟩ : Matrix Int) ∧
      Matrix.filled 2 2 (0 : Int) = Except.ok ⟨2, 2, [0, 0, 0, 0]⟩ ∧
      (initialState ⟨2, 2, [0, 0, 0, 1]⟩ ⟨2, 2, [0, 0, 0, 0]⟩ 2).isColumnCurrentlyCovered =
        [true, false] ∧
      (initialState ⟨2, 2, [0, 0, 0, 1]⟩ ⟨2, 2, [0, 0, 0, 0]⟩ 2).numberOfCoveredColumns < 2 ∧
      searchUpTo 2 (initialState ⟨2, 2, [0, 0, 0, 1]⟩ ⟨2, 2, [0, 0, 0, 0]⟩ 2) 1 =
        (⟨⟨2, 2, [0, 0, 0, 1]⟩, ⟨2, 2, [1, 2, 0, 0]⟩, [true, false], [false, false], 1⟩, none) ∧
      countCoveredColumns [false, false] 2 < countCoveredColumns [true, false] 2 ∧
      ¬ (countCoveredColumns
          (initialState ⟨2, 2, [0, 0, 0, 1]⟩ ⟨2, 2, [0, 0, 0, 0]⟩ 2).isColumnCurrentlyCovered 2 ≤
        countCoveredColumns
          (searchUpTo 2 (initialState ⟨2, 2, [0, 0, 0, 1]⟩ ⟨2, 2, [0, 0, 0, 0]⟩ 2)
            1).1.isColumnCurrentlyCovered 2) := by
  refine ⟨cost_example_valid, by rfl, by rfl, by decide, by rfl, by decide, by decide⟩

/-- Claim C34, amended: between one full reset of the coverage and the next, the number of
columns marked covered never exceeds `n`; it never decreases while the loop that covers the
starred columns runs; from the end of that loop until the next reset it never increases: a
row of the search leaves the column flags unchanged or, when it makes a detour, uncovers
exactly one covered column, and the adjustment branch leaves the flags unchanged. -/
theorem covered_columns_between_resets (n pathFuel : Nat) (C Z : Matrix Int)
    (hC : ValidCost n C) (hZ : Matrix.filled n n (0 : Int) = Except.ok Z) :
    (∀ flags : List Bool, countCoveredColumns flags n ≤ n) ∧
    (∀ (marks : Matrix Int) (flags : List Bool),
      coverStarredColumnsUpTo marks n flags 0 0 = flags ∧
      coverStarredColumnsUpTo marks n flags n 0 = coverStarredColumns marks n flags ∧
      ∀ r c r' c', (r < r' ∨ (r = r' ∧ c ≤ c')) → c ≤ n →
        countCoveredColumns (coverStarredColumnsUpTo marks n flags r c) n ≤
          countCoveredColumns (coverStarredColumnsUpTo marks n flags r' c') n) ∧
    ∀ s, LoopState n pathFuel (initialState C Z n) s → s.numberOfCoveredColumns < n →
      s.isColumnCurrentlyCovered.length = n ∧
      searchUpTo n s 0 = (s, none) ∧ searchUpTo n s n = search n s ∧
      (∀ k, k < n →
        (searchUpTo n s (k + 1)).1.isColumnCurrentlyCovered =
            (searchUpTo n s k).1.isColumnCurrentlyCovered ∨
          ∃ j, j < n ∧ (searchUpTo n s k).2 = none ∧
            (searchUpTo n s k).1.zeroMarkMatrix.get k j = 1 ∧
            (searchUpTo n s k).1.isColumnCurrentlyCovered.getD j false = true ∧
            (searchUpTo n s (k + 1)).1.isColumnCurrentlyCovered =
              (searchUpTo n s k).1.isColumnCurrentlyCovered.set j false ∧
            countCoveredColumns (searchUpTo n s (k + 1)).1.isColumnCurrentlyCovered n + 1 =
              countCoveredColumns (searchUpTo n s k).1.isColumnCurrentlyCovered n) ∧
      (∀ k k', k ≤ k' → k' ≤ n →
        countCoveredColumns (searchUpTo n s k').1.isColumnCurrentlyCovered n ≤
          countCoveredColumns (searchUpTo n s k).1.isColumnCurrentlyCovered n) ∧
      ∀ s1, search n s = (s1, none) →
        loopBody n pathFuel s = Except.ok (adjust n s1) ∧
        (adjust n s1).isColumnCurrentlyCovered = s1.isColumnCurrentlyCovered ∧
        countCoveredColumns (adjust n s1).isColumnCurrentlyCovered n ≤
          countCoveredColumns s.isColumnCurrentlyCovered n := by
  have hn : 0 < n := by
    rcases Nat.eq_zero_or_pos n with e | e
    · subst e; simp [Matrix.filled] at hZ
    · exact e
  obtain ⟨Z', hZ', hZsq, hZ0⟩ := filled_square hn hC.2.1 (0 : Int)
  rw [hZ] at hZ'
  have hZeq : Z = Z' := Except.ok.inj hZ'
  subst hZeq
  have hinv0 : Inv n C (initialState C Z n) :=
    initialState_inv hC.1 hZsq hZ0 (fun r c hr hc => reduce_le_of_valid hn hC hr hc)
  refine ⟨fun flags => countCoveredColumns_le flags n, ?_, ?_⟩
  · intro marks flags
    exact ⟨rfl, rfl, fun r c r' c' hpos hc => coverStarredColumnsUpTo_mono marks n flags hpos hc⟩
  · intro s hs _
    have hinv := loopState_inv hinv0 hs
    refine ⟨hinv.cols_length, rfl, rfl, fun k hk => searchUpTo_columns hinv hk,
      fun k k' hle hk' => searchUpTo_columns_mono hinv k k' hle hk', ?_⟩
    intro s1 hsearch
    refine ⟨loopBody_adjusts hsearch, rfl, ?_⟩
    have hm := searchUpTo_columns_mono hinv 0 n (Nat.zero_le n) (Nat.le_refl n)
    have e : searchUpTo n s n = search n s := rfl
    rw [e, hsearch] at hm
    exact hm

/-! ## Facts that hold at every evaluation of the loop condition -/

/-- One row of the search does not write `numberOfCoveredColumns` or the cost matrix. -/
theorem searchRow_keeps (n : Nat) (s : State) (r : Nat) :
    (searchRow n s r).1.numberOfCoveredColumns = s.numberOfCoveredColumns ∧
      (searchRow n s r).1.costMatrix = s.costMatrix := by
  unfold searchRow
  split
  · split
    · exact ⟨rfl, rfl⟩
    · dsimp only
      split
      · exact ⟨rfl, rfl⟩
      · exact ⟨rfl, rfl⟩
  · exact ⟨rfl, rfl⟩

/-- The search does not write `numberOfCoveredColumns` or the cost matrix. -/
theorem searchUpTo_keeps (n : Nat) (s : State) (k : Nat) :
    (searchUpTo n s k).1.numberOfCoveredColumns = s.numberOfCoveredColumns ∧
      (searchUpTo n s k).1.costMatrix = s.costMatrix := by
  induction k with
  | zero => exact ⟨rfl, rfl⟩
  | succ d ih =>
    rw [searchUpTo_succ]
    cases hf : (searchUpTo n s d).2 with
    | some x => exact ih
    | none =>
      simp only
      obtain ⟨h1, h2⟩ := searchRow_keeps n (searchUpTo n s d).1 d
      rw [h1, h2]
      exact ih

/-- The main loop returns only states in which the loop condition is false. -/
theorem mainLoop_exit (n pathFuel : Nat) :
    ∀ (fuel : Nat) (s s' : State), mainLoop n pathFuel fuel s = Except.ok s' →
      ¬ (s'.numberOfCoveredColumns < n) := by
  intro fuel
  induction fuel with
  | zero =>
    intro s s' h
    unfold mainLoop at h
    by_cases hlt : s.numberOfCoveredColumns < n
    · rw [if_pos hlt] at h; exact Except.noConfusion h
    · rw [if_neg hlt] at h
      rw [← Except.ok.inj h]; exact hlt
  | succ fuel ih =>
    intro s s' h
    unfold mainLoop at h
    by_cases hlt : s.numberOfCoveredColumns < n
    · rw [if_pos hlt] at h
      cases hb : loopBody n pathFuel s with
      | error e => rw [hb] at h; exact Except.noConfusion h
      | ok s1 =>
        rw [hb] at h
        exact ih s1 s' h
    · rw [if_neg hlt] at h
      rw [← Except.ok.inj h]; exact hlt

theorem Inv.coverage {n : Nat} {C : Matrix Int} {s : State} (h : Inv n C s) :
    CoverageConsistent n s := by
  refine ⟨?_, ?_, h.prime_cover, h.prime_row_unique⟩
  · intro r c hr hc hs
    have hiff := h.star_cover r c hr hc hs
    cases hb : s.isRowCurrentlyCovered.getD r false
    · right
      refine ⟨rfl, ?_⟩
      cases hb' : s.isColumnCurrentlyCovered.getD c false
      · have := hiff.mpr hb'
        rw [hb] at this
        exact Bool.noConfusion this
      · rfl
    · left
      exact ⟨rfl, hiff.mp hb⟩
  · intro r hr hcov
    exact ⟨h.row_cover_star r hr hcov, h.row_cover_prime r hr hcov⟩

/-- Claim C35: at every evaluation of the main loop condition in a run on a valid square
matrix `numberOfCoveredColumns` equals the number of starred cells of the mark grid, so the
loop condition is false exactly when `n` cells are starred and the main loop returns only with
`n` starred cells. Neither a row of the search (detours included) nor the adjustment branch
writes the variable or changes the number of starred cells. -/
theorem covered_count_equals_stars (n pathFuel : Nat) (C Z : Matrix Int) (hC : ValidCost n C)
    (hZ : Matrix.filled n n (0 : Int) = Except.ok Z) :
    (∀ s, LoopState n pathFuel (initialState C Z n) s →
      s.numberOfCoveredColumns = (starredCells n s.zeroMarkMatrix).card ∧
      (¬ (s.numberOfCoveredColumns < n) ↔ (starredCells n s.zeroMarkMatrix).card = n) ∧
      (∀ fuel, ¬ (s.numberOfCoveredColumns < n) → mainLoop n pathFuel fuel s = Except.ok s) ∧
      (∀ k, k ≤ n →
        (searchUpTo n s k).1.numberOfCoveredColumns = s.numberOfCoveredColumns) ∧
      (s.numberOfCoveredColumns < n → ∀ s1, search n s = (s1, none) →
        loopBody n pathFuel s = Except.ok (adjust n s1) ∧
        (adjust n s1).numberOfCoveredColumns = s.numberOfCoveredColumns ∧
        (starredCells n (adjust n s1).zeroMarkMatrix).card =
          (starredCells n s.zeroMarkMatrix).card)) ∧
    ∀ fuel s', mainLoop n pathFuel fuel (initialState C Z n) = Except.ok s' →
      LoopState n pathFuel (initialState C Z n) s' ∧
      (starredCells n s'.zeroMarkMatrix).card = n := by
  have hn : 0 < n := by
    rcases Nat.eq_zero_or_pos n with e | e
    · subst e; simp [Matrix.filled] at hZ
    · exact e
  obtain ⟨Z', hZ', hZsq, hZ0⟩ := filled_square hn hC.2.1 (0 : Int)
  rw [hZ] at hZ'
  have hZeq : Z = Z' := Except.ok.inj hZ'
  subst hZeq
  have hinv0 : Inv n C (initialState C Z n) :=
    initialState_inv hC.1 hZsq hZ0 (fun r c hr hc => reduce_le_of_valid hn hC hr hc)
  have hcount : ∀ s, LoopState n pathFuel (initialState C Z n) s →
      s.numberOfCoveredColumns = (starredCells n s.zeroMarkMatrix).card ∧
      (¬ (s.numberOfCoveredColumns < n) ↔ (starredCells n s.zeroMarkMatrix).card = n) := by
    intro s hs
    have hinv := loopState_inv hinv0 hs
    have hc : s.numberOfCoveredColumns = (starredCells n s.zeroMarkMatrix).card := by
      rw [starredCells_card hinv.star_col_unique]; exact hinv.count
    have hle := starredColumns_card_le n s.zeroMarkMatrix
    rw [← starredCells_card hinv.star_col_unique] at hle
    exact ⟨hc, by omega⟩
  refine ⟨?_, ?_⟩
  · intro s hs
    have hinv := loopState_inv hinv0 hs
    obtain ⟨hc, hiff⟩ := hcount s hs
    refine ⟨hc, hiff, ?_, fun k _ => (searchUpTo_keeps n s k).1, ?_⟩
    · intro fuel hge
      cases fuel with
      | zero => unfold mainLoop; rw [if_neg hge]
      | succ f => unfold mainLoop; rw [if_neg hge]
    · intro hlt s1 hsearch
      have hbody := @loopBody_adjusts n pathFuel s s1 hsearch
      have hs' := LoopState.pass hs hlt hbody
      have hk := (searchUpTo_keeps n s n).1
      have e : searchUpTo n s n = search n s := rfl
      rw [e, hsearch] at hk
      have hnum : (adjust n s1).numberOfCoveredColumns = s.numberOfCoveredColumns := hk
      refine ⟨hbody, hnum, ?_⟩
      rw [← (hcount _ hs').1, hnum, hc]
  · intro fuel s' hrun
    obtain ⟨a, j, hcnt⟩ := mainLoop_loopCount fuel _ s' 0 0 LoopCount.start hrun
    have hs' := loopCount_loopState hcnt
    exact ⟨hs', (hcount s' hs').2.mp (mainLoop_exit n pathFuel fuel _ s' hrun)⟩

/-- Claim C36: at every evaluation of the main loop condition of a run on a valid square
matrix, and after every row of the search that did not start an augmenting path (so after
every detour), every starred cell is covered by exactly one of its row and its column, a
covered row holds a starred cell and a primed cell, every primed cell lies in a covered row
and an uncovered column, and every row holds at most one primed cell. -/
theorem coverage_consistent_at_boundaries (n pathFuel : Nat) (C Z : Matrix Int)
    (hC : ValidCost n C) (hZ : Matrix.filled n n (0 : Int) = Except.ok Z) :
    ∀ s, LoopState n pathFuel (initialState C Z n) s →
      CoverageConsistent n s ∧
      ∀ k, k ≤ n → (searchUpTo n s k).2 = none → CoverageConsistent n (searchUpTo n s k).1 := by
  have hn : 0 < n := by
    rcases Nat.eq_zero_or_pos n with e | e
    · subst e; simp [Matrix.filled] at hZ
    · exact e
  obtain ⟨Z', hZ', hZsq, hZ0⟩ := filled_square hn hC.2.1 (0 : Int)
  rw [hZ] at hZ'
  have hZeq : Z = Z' := Except.ok.inj hZ'
  subst hZeq
  have hinv0 : Inv n C (initialState C Z n) :=
    initialState_inv hC.1 hZsq hZ0 (fun r c hr hc => reduce_le_of_valid hn hC hr hc)
  intro s hs
  have hinv := loopState_inv hinv0 hs
  refine ⟨hinv.coverage, ?_⟩
  intro k hk hnone
  rcases searchUpTo_spec hinv k hk with ⟨_, hinv'⟩ | ⟨s0, r0, c0, hsome, _⟩
  · exact hinv'.coverage
  · rw [hnone] at hsome
    exact Option.noConfusion hsome

/-- Claim C37: at every evaluation of the main loop condition of a run on a valid square
matrix every starred cell and every primed cell of the mark grid holds 0 in the working cost
matrix; the adjustment branch keeps the value 0 at every starred and every primed cell; and
every cell selected in the returned assignment is starred in the final mark grid and holds 0
in the final working matrix. -/
theorem marked_cells_hold_zero (n fuel : Nat) (C Z : Matrix Int) (hC : ValidCost n C)
    (hZ : Matrix.filled n n (0 : Int) = Except.ok Z) :
    (∀ s, LoopState n fuel (initialState C Z n) s →
      (∀ r c, r < n → c < n →
        s.zeroMarkMatrix.get r c = 1 ∨ s.zeroMarkMatrix.get r c = 2 →
        s.costMatrix.get r c = 0) ∧
      (s.numberOfCoveredColumns < n → ∀ s1, search n s = (s1, none) →
        loopBody n fuel s = Except.ok (adjust n s1) ∧
        ∀ r c, r < n → c < n →
          s1.zeroMarkMatrix.get r c = 1 ∨ s1.zeroMarkMatrix.get r c = 2 →
          s1.costMatrix.get r c = 0 ∧ (adjust n s1).costMatrix.get r c = 0)) ∧
    (2 * n * n + 4 * n + 1 ≤ fuel →
      ∃ s', mainLoop n fuel fuel (initialState C Z n) = Except.ok s') ∧
    ∀ s', mainLoop n fuel fuel (initialState C Z n) = Except.ok s' →
      LoopState n fuel (initialState C Z n) s' ∧
      run_munkres_algorithm fuel C = Except.ok (extractAssignment s'.zeroMarkMatrix Z n) ∧
      ∀ r c, r < n → c < n → (extractAssignment s'.zeroMarkMatrix Z n).get r c = 1 →
        s'.zeroMarkMatrix.get r c = 1 ∧ s'.costMatrix.get r c = 0 := by
  have hn : 0 < n := by
    rcases Nat.eq_zero_or_pos n with e | e
    · subst e; simp [Matrix.filled] at hZ
    · exact e
  obtain ⟨Z', hZ', hZsq, hZ0⟩ := filled_square hn hC.2.1 (0 : Int)
  rw [hZ] at hZ'
  have hZeq : Z = Z' := Except.ok.inj hZ'
  subst hZeq
  have hinv0 : Inv n C (initialState C Z n) :=
    initialState_inv hC.1 hZsq hZ0 (fun r c hr hc => reduce_le_of_valid hn hC hr hc)
  have hzero : ∀ s, LoopState n fuel (initialState C Z n) s →
      ∀ r c, r < n → c < n →
        s.zeroMarkMatrix.get r c = 1 ∨ s.zeroMarkMatrix.get r c = 2 →
        s.costMatrix.get r c = 0 := by
    intro s hs r c hr hc hm
    exact (loopState_inv hinv0 hs).marked_zero r c hr hc (by omega)
  refine ⟨?_, ?_, ?_⟩
  · intro s hs
    refine ⟨hzero s hs, ?_⟩
    intro hlt s1 hsearch
    have hbody := @loopBody_adjusts n fuel s s1 hsearch
    refine ⟨hbody, ?_⟩
    intro r c hr hc hm
    obtain ⟨hinv1, _, _, _⟩ := search_none_spec (loopState_inv hinv0 hs) hlt hsearch
    exact ⟨hinv1.marked_zero r c hr hc (by omega),
      hzero _ (LoopState.pass hs hlt hbody) r c hr hc hm⟩
  · intro hfuel
    obtain ⟨Z', s', hZ', _, _, hrun, _⟩ := run_core hn hC.2.1 hC.1
      (fun r c hr hc => reduce_le_of_valid hn hC hr hc) hfuel
    rw [hZ] at hZ'
    rw [← Except.ok.inj hZ'] at hrun
    exact ⟨s', hrun⟩
  · intro s' hrun
    obtain ⟨a, j, hcnt⟩ := mainLoop_loopCount fuel _ s' 0 0 LoopCount.start hrun
    have hs' := loopCount_loopState hcnt
    refine ⟨hs', ?_, ?_⟩
    · have e1 : C.nrows = n := hC.1.1
      have e2 : C.ncols = n := hC.1.2.1
      unfold run_munkres_algorithm
      rw [e1, e2]
      simp only [ne_eq, not_true_eq_false, if_false, hZ, hrun]
    · intro r c hr hc hsel
      obtain ⟨_, x2⟩ := extractAssignment_spec s'.zeroMarkMatrix hZsq
      rw [x2 r c hr hc, hZ0 r c hr hc] at hsel
      have hstar : s'.zeroMarkMatrix.get r c = 1 := by
        by_contra hne
        rw [if_neg hne] at hsel
        omega
      exact ⟨hstar, hzero s' hs' r c hr hc (Or.inl hstar)⟩

/-! ## Sign and size of the working matrix and of the adjustment value -/

/-- The adjustment value is never negative on a non-negative matrix, and the adjusted matrix
is non-negative again. -/
theorem adjust_nonneg {n : Nat} {s : State} (hsq : Square n s.costMatrix)
    (hnn : ∀ r c, r < n → c < n → 0 ≤ s.costMatrix.get r c) :
    0 ≤ smallestUncoveredValue n s ∧ Square n (adjust n s).costMatrix ∧
      ∀ r c, r < n → c < n → 0 ≤ (adjust n s).costMatrix.get r c := by
  obtain ⟨_, h2, h3⟩ := smallestUncoveredValue_spec n s
  have hd : 0 ≤ smallestUncoveredValue n s := by
    rcases h3 with e | ⟨r, c, hr, hc, _, _, e⟩
    · rw [e]; unfold INT_MAX; norm_num
    · rw [e]; exact hnn r c hr hc
  obtain ⟨a1, a2⟩ := adjustMatrix_spec s (smallestUncoveredValue n s) hsq
  refine ⟨hd, a1, ?_⟩
  intro r c hr hc
  show 0 ≤ (adjustMatrix n s (smallestUncoveredValue n s)).get r c
  rw [a2 r c hr hc]
  have h0 := hnn r c hr hc
  by_cases hcol : s.isColumnCurrentlyCovered.getD c false = false
  · rw [if_pos hcol]
    by_cases hrow : s.isRowCurrentlyCovered.getD r false = true
    · rw [if_pos hrow]; omega
    · rw [if_neg hrow]
      have hrow' : s.isRowCurrentlyCovered.getD r false = false := by
        cases hb : s.isRowCurrentlyCovered.getD r false
        · rfl
        · exact absurd hb hrow
      have := h2 r c hr hc hrow' hcol
      omega
  · rw [if_neg hcol]
    by_cases hrow : s.isRowCurrentlyCovered.getD r false = true
    · rw [if_pos hrow]; omega
    · rw [if_neg hrow]; omega

/-- One pass of the main loop keeps the working matrix square and non-negative. -/
theorem loopBody_nonneg {n pathFuel : Nat} {s s1 : State} (hsq : Square n s.costMatrix)
    (hnn : ∀ r c, r < n → c < n → 0 ≤ s.costMatrix.get r c)
    (hb : loopBody n pathFuel s = Except.ok s1) :
    Square n s1.costMatrix ∧ ∀ r c, r < n → c < n → 0 ≤ s1.costMatrix.get r c := by
  have hk := (searchUpTo_keeps n s n).2
  have e : searchUpTo n s n = search n s := rfl
  rw [e] at hk
  unfold loopBody at hb
  cases hsearch : search n s with
  | mk s' found =>
    rw [hsearch] at hb hk
    simp only at hk
    cases found with
    | none =>
      simp only at hb
      rw [← Except.ok.inj hb]
      rw [← hk] at hsq hnn
      exact (adjust_nonneg hsq hnn).2
    | some start =>
      simp only at hb
      unfold augment at hb
      cases hp : buildPath s'.zeroMarkMatrix n pathFuel [start] with
      | error e => rw [hp] at hb; exact Except.noConfusion hb
      | ok path =>
        rw [hp] at hb
        simp only at hb
        rw [← Except.ok.inj hb]
        simp only
        rw [hk]
        exact ⟨hsq, hnn⟩

theorem sentinel_example_valid :
    ValidCost 3 (⟨3, 3, [0, 2147483647, 2147483647, 0, 2147483647, 2147483647, 0, 0, 0]⟩ :
      Matrix Int) := by
  refine ⟨⟨rfl, rfl, rfl⟩, by decide, ?_⟩
  intro r c hr hc
  interval_cases r <;> interval_cases c <;> simp [Matrix.get, INT_MAX]

/-- Claim C39, counterexample: on the valid matrix `[[0,M,M],[0,M,M],[0,0,0]]` with
`M = std::numeric_limits<int>::max()` the first pass of the main loop makes a detour in row 2
and takes the adjustment branch. Every cell in an uncovered row and an uncovered column holds
`M`, so the test `cost < smallestUncoveredValue` never succeeds, the variable keeps its initial
value `M`, and the adjustment adds `M` to the cell `(2, 0)`. -/
theorem adjustment_uses_sentinel_value :
    ValidCost 3 (⟨3, 3, [0, 2147483647, 2147483647, 0, 2147483647, 2147483647, 0, 0, 0]⟩ :
      Matrix Int) ∧
    Matrix.filled 3 3 (0 : Int) = Except.ok ⟨3, 3, [0, 0, 0, 0, 0, 0, 0, 0, 0]⟩ ∧
    (initialState ⟨3, 3, [0, 2147483647, 2147483647, 0, 2147483647, 2147483647, 0, 0, 0]⟩
      ⟨3, 3, [0, 0, 0, 0, 0, 0, 0, 0, 0]⟩ 3).numberOfCoveredColumns < 3 ∧
    search 3 (initialState
        ⟨3, 3, [0, 2147483647, 2147483647, 0, 2147483647, 2147483647, 0, 0, 0]⟩
        ⟨3, 3, [0, 0, 0, 0, 0, 0, 0, 0, 0]⟩ 3) =
      (⟨⟨3, 3, [0, 2147483647, 2147483647, 0, 2147483647, 2147483647, 0, 0, 0]⟩,
        ⟨3, 3, [1, 0, 0, 0, 0, 0, 0, 1, 2]⟩, [false, false, true], [true, false, false], 2⟩,
        none) ∧
    loopBody 3 5 (initialState
        ⟨3, 3, [0, 2147483647, 2147483647, 0, 2147483647, 2147483647, 0, 0, 0]⟩
        ⟨3, 3, [0, 0, 0, 0, 0, 0, 0, 0, 0]⟩ 3) =
      Except.ok (adjust 3
        ⟨⟨3, 3, [0, 2147483647, 2147483647, 0, 2147483647, 2147483647, 0, 0, 0]⟩,
          ⟨3, 3, [1, 0, 0, 0, 0, 0, 0, 1, 2]⟩, [false, false, true], [true, false, false],
          2⟩) ∧
    (∀ r c, r < 3 → c < 3 →
      ([false, false, true] : List Bool).getD r false = false →
      ([true, false, false] : List Bool).getD c false = false →
      ¬ ((⟨3, 3, [0, 2147483647, 2147483647, 0, 2147483647, 2147483647, 0, 0, 0]⟩ :
        Matrix Int).get r c < INT_MAX)) ∧
    smallestUncoveredValue 3
      ⟨⟨3, 3, [0, 2147483647, 2147483647, 0, 2147483647, 2147483647, 0, 0, 0]⟩,
        ⟨3, 3, [1, 0, 0, 0, 0, 0, 0, 1, 2]⟩, [false, false, true], [true, false, false], 2⟩ =
      INT_MAX ∧
    (adjust 3
      ⟨⟨3, 3, [0, 2147483647, 2147483647, 0, 2147483647, 2147483647, 0, 0, 0]⟩,
        ⟨3, 3, [1, 0, 0, 0, 0, 0, 0, 1, 2]⟩, [false, false, true], [true, false, false],
        2⟩).costMatrix = ⟨3, 3, [0, 0, 0, 0, 0, 0, 2147483647, 0, 0]⟩ := by
  refine ⟨sentinel_example_valid, by rfl, by decide, by rfl, by rfl, ?_, by rfl, by rfl⟩
  intro r c hr hc
  interval_cases r <;> interval_cases c <;> simp [Matrix.get, INT_MAX]

/-- Claim C39, amended: whenever the adjustment branch runs during a run on a valid square
matrix, some row is uncovered and some column is uncovered, and `smallestUncoveredValue` is
the least value of the cells in an uncovered row and an uncovered column, hence the value of
an actual cell of the matrix and not larger than `std::numeric_limits<int>::max()`. It equals
that initial value exactly when no such cell holds a smaller value. -/
theorem adjustment_value_is_cell_value (n pathFuel : Nat) (C Z : Matrix Int)
    (hC : ValidCost n C) (hZ : Matrix.filled n n (0 : Int) = Except.ok Z) :
    ∀ s, LoopState n pathFuel (initialState C Z n) s → s.numberOfCoveredColumns < n →
      ∀ s1, search n s = (s1, none) →
        loopBody n pathFuel s = Except.ok (adjust n s1) ∧
        (∃ r, r < n ∧ s1.isRowCurrentlyCovered.getD r false = false) ∧
        (∃ c, c < n ∧ s1.isColumnCurrentlyCovered.getD c false = false) ∧
        (∃ r c, r < n ∧ c < n ∧ s1.isRowCurrentlyCovered.getD r false = false ∧
          s1.isColumnCurrentlyCovered.getD c false = false ∧
          smallestUncoveredValue n s1 = s1.costMatrix.get r c) ∧
        (∀ r c, r < n → c < n → s1.isRowCurrentlyCovered.getD r false = false →
          s1.isColumnCurrentlyCovered.getD c false = false →
          smallestUncoveredValue n s1 ≤ s1.costMatrix.get r c) ∧
        0 ≤ smallestUncoveredValue n s1 ∧ smallestUncoveredValue n s1 ≤ INT_MAX ∧
        (smallestUncoveredValue n s1 = INT_MAX ↔
          ∀ r c, r < n → c < n → s1.isRowCurrentlyCovered.getD r false = false →
            s1.isColumnCurrentlyCovered.getD c false = false →
            ¬ (s1.costMatrix.get r c < INT_MAX)) := by
  have hn : 0 < n := by
    rcases Nat.eq_zero_or_pos n with e | e
    · subst e; simp [Matrix.filled] at hZ
    · exact e
  obtain ⟨Z', hZ', hZsq, hZ0⟩ := filled_square hn hC.2.1 (0 : Int)
  rw [hZ] at hZ'
  have hZeq : Z = Z' := Except.ok.inj hZ'
  subst hZeq
  have hinv0 : Inv n C (initialState C Z n) :=
    initialState_inv hC.1 hZsq hZ0 (fun r c hr hc => reduce_le_of_valid hn hC hr hc)
  intro s hs hlt s1 hsearch
  have hinv := loopState_inv hinv0 hs
  obtain ⟨hinv1, hcard, _, _⟩ := search_none_spec hinv hlt hsearch
  obtain ⟨h0, hle, r, c, hr, hc, hrow, hcol, hatt⟩ := smallestUncoveredValue_attained hinv1 hcard
  obtain ⟨hmax, _, _⟩ := smallestUncoveredValue_spec n s1
  refine ⟨loopBody_adjusts hsearch, ⟨r, hr, hrow⟩, ⟨c, hc, hcol⟩,
    ⟨r, c, hr, hc, hrow, hcol, hatt⟩, hle, h0, hmax, ?_⟩
  constructor
  · intro e r' c' hr' hc' hrow' hcol'
    have := hle r' c' hr' hc' hrow' hcol'
    omega
  · intro hall
    have := hall r c hr hc hrow hcol
    omega

/-! ## Adding a constant to a row of the input -/

/-- Adding `k` to every entry of row `i` adds `k` to the minimum of row `i` and leaves the
other row minima alone. -/
theorem minimumRowValue_shift {n : Nat} {C C' : Matrix Int} {i : Nat} {k : Int} (hn : 0 < n)
    (hshift : ∀ r c, r < n → c < n → C'.get r c = C.get r c + if r = i then k else 0)
    {r : Nat} (hr : r < n) :
    minimumRowValue C' n r = minimumRowValue C n r + if r = i then k else 0 := by
  obtain ⟨c0, hc0, e0⟩ := minimumRowValue_attained C hn r
  obtain ⟨c1, hc1, e1⟩ := minimumRowValue_attained C' hn r
  have h0 := minimumRowValue_le C' (r := r) hc0
  have h1 := minimumRowValue_le C (r := r) hc1
  rw [hshift r c0 hr hc0] at h0
  rw [hshift r c1 hr hc1] at e1
  omega

/-- Adding `k` to every entry of a row does not change the row-reduced matrix. -/
theorem reduceRows_shift {n : Nat} {C C' : Matrix Int} {i : Nat} {k : Int} (hn : 0 < n)
    (hC : Square n C) (hC' : Square n C')
    (hshift : ∀ r c, r < n → c < n → C'.get r c = C.get r c + if r = i then k else 0) :
    reduceRows C' n = reduceRows C n := by
  obtain ⟨s1, g1⟩ := reduceRows_spec hC
  obtain ⟨s2, g2⟩ := reduceRows_spec hC'
  apply matrix_ext s2 s1
  intro r c hr hc
  rw [g1 r c hr hc, g2 r c hr hc, hshift r c hr hc, minimumRowValue_shift hn hshift hr]
  omega

/-- Claim C40: for every square integer matrix `C` of size `n ≥ 1`, every row index `i` and
every integer `k`, the matrix obtained from `C` by adding `k` to every entry of row `i` has the
same row-reduced matrix as `C`, hence the same reduced matrix and the same state at the start
of the main loop, and `run_munkres_algorithm` gives the same outcome for both with every
budget. When the reduced entries fit the type `int`, the function returns for both inputs the
same assignment matrix, a permutation matrix. No sign condition on the entries is used. -/
theorem row_shift_same_assignment (n : Nat) (C C' : Matrix Int) (i : Nat) (k : Int)
    (hn : 0 < n) (hC : Square n C) (hC' : Square n C')
    (hshift : ∀ r c, r < n → c < n → C'.get r c = C.get r c + if r = i then k else 0) :
    reduceRows C' n = reduceRows C n ∧ reduce C' n = reduce C n ∧
    (∀ Z, initialState C' Z n = initialState C Z n) ∧
    (∀ fuel, run_munkres_algorithm fuel C' = run_munkres_algorithm fuel C) ∧
    (n * n < SIZE_MODULUS → (∀ r c, r < n → c < n → (reduce C n).get r c ≤ INT_MAX) →
      ∀ fuel, 2 * n * n + 4 * n + 1 ≤ fuel →
        ∃ R, run_munkres_algorithm fuel C = Except.ok R ∧
          run_munkres_algorithm fuel C' = Except.ok R ∧ IsPermutationMatrix n R) := by
  have hrows := reduceRows_shift hn hC hC' hshift
  have hred : reduce C' n = reduce C n := by
    unfold reduce
    rw [hrows]
  have hinit : ∀ Z, initialState C' Z n = initialState C Z n := by
    intro Z
    unfold initialState
    rw [hred]
  have hrun : ∀ fuel, run_munkres_algorithm fuel C' = run_munkres_algorithm fuel C := by
    intro fuel
    have e1 : C.nrows = n := hC.1
    have e2 : C.ncols = n := hC.2.1
    have e3 : C'.nrows = n := hC'.1
    have e4 : C'.ncols = n := hC'.2.1
    unfold run_munkres_algorithm
    rw [e1, e2, e3, e4]
    simp only [hinit]
  refine ⟨hrows, hred, hinit, hrun, ?_⟩
  intro hsz hb fuel hfuel
  obtain ⟨R, hR, hperm, _⟩ := run_result hn hsz hC hb hfuel
  exact ⟨R, hR, by rw [hrun fuel]; exact hR, hperm⟩

/-! ## The statements about paths, covers and invariants at concrete inputs -/

theorem augment_example_path :
    buildPath ⟨2, 2, [1, 2, 2, 0]⟩ 2 5 [(1, 0)] = Except.ok [(1, 0), (0, 0), (0, 1)] := by
  rfl

theorem path_building_terminates_witness :
    (ValidCost 2 (⟨2, 2, [0, 0, 0, 1]⟩ : Matrix Int) ∧
      Matrix.filled 2 2 (0 : Int) = Except.ok ⟨2, 2, [0, 0, 0, 0]⟩) ∧
    (([(1, 0), (0, 0), (0, 1)] : List (Nat × Nat)).Nodup ∧
      ([(1, 0), (0, 0), (0, 1)] : List (Nat × Nat)).length ≤ 2 * 2 - 1 ∧
      ∀ fuel, 2 ≤ fuel → ∃ path, buildPath ⟨2, 2, [1, 2, 2, 0]⟩ 2 fuel [(1, 0)] =
        Except.ok path) :=
  ⟨⟨cost_example_valid, rfl⟩, by
    obtain ⟨h1, h2⟩ :=
      path_building_terminates 2 5 ⟨2, 2, [0, 0, 0, 1]⟩ ⟨2, 2, [0, 0, 0, 0]⟩
        cost_example_valid rfl _ LoopState.start (by decide) _ (1, 0) augment_example_search
    obtain ⟨a, b, _⟩ := h2 [(1, 0), (0, 0), (0, 1)] augment_example_path
    exact ⟨a, b, h1⟩⟩

theorem flip_changes_exactly_path_witness :
    (ValidCost 2 (⟨2, 2, [0, 0, 0, 1]⟩ : Matrix Int) ∧
      Matrix.filled 2 2 (0 : Int) = Except.ok ⟨2, 2, [0, 0, 0, 0]⟩) ∧
    ((flipPath ⟨2, 2, [1, 2, 2, 0]⟩ [(1, 0), (0, 0), (0, 1)]).get 0 0 = 0 ∧
      (flipPath ⟨2, 2, [1, 2, 2, 0]⟩ [(1, 0), (0, 0), (0, 1)]).get 1 0 = 1 ∧
      (flipPath ⟨2, 2, [1, 2, 2, 0]⟩ [(1, 0), (0, 0), (0, 1)]).get 1 1 =
        (⟨2, 2, [1, 2, 2, 0]⟩ : Matrix Int).get 1 1) :=
  ⟨⟨cost_example_valid, rfl⟩, by
    obtain ⟨_, _, h3, h4, _, h6, _⟩ :=
      flip_changes_exactly_path 2 5 ⟨2, 2, [0, 0, 0, 1]⟩ ⟨2, 2, [0, 0, 0, 0]⟩
        cost_example_valid rfl _ LoopState.start (by decide) _ (1, 0) augment_example_search
        [(1, 0), (0, 0), (0, 1)] augment_example_path
    exact ⟨h3 0 0 (by decide) (by rfl), h4 1 0 (by decide) (by rfl),
      h6 1 1 (by decide) (by decide) (by decide)⟩⟩

theorem augmentation_resets_coverage_witness :
    (ValidCost 2 (⟨2, 2, [0, 0, 0, 1]⟩ : Matrix Int) ∧
      Matrix.filled 2 2 (0 : Int) = Except.ok ⟨2, 2, [0, 0, 0, 0]⟩) ∧
    ((∀ r c, r < 2 → c < 2 → (⟨2, 2, [0, 1, 1, 0]⟩ : Matrix Int).get r c ≠ 2) ∧
      (∀ r, r < 2 → ([false, false] : List Bool).getD r false = false) ∧
      (∀ c, c < 2 → (([true, true] : List Bool).getD c false = true ↔
        ∃ r, r < 2 ∧ (⟨2, 2, [0, 1, 1, 0]⟩ : Matrix Int).get r c = 1))) :=
  ⟨⟨cost_example_valid, rfl⟩, by
    obtain ⟨_, _, h3, _, _, h6, h7, _⟩ :=
      (augmentation_resets_coverage 2 5 ⟨2, 2, [0, 0, 0, 1]⟩ ⟨2, 2, [0, 0, 0, 0]⟩
        cost_example_valid rfl _ LoopState.start (by decide) _ (1, 0)
        augment_example_search).2
        ⟨⟨2, 2, [0, 0, 0, 1]⟩, ⟨2, 2, [0, 1, 1, 0]⟩, [false, false], [true, true], 2⟩ (by rfl)
    exact ⟨h3, h6, h7⟩⟩

theorem covered_columns_between_resets_witness :
    (ValidCost 2 (⟨2, 2, [0, 0, 0, 1]⟩ : Matrix Int) ∧
      Matrix.filled 2 2 (0 : Int) = Except.ok ⟨2, 2, [0, 0, 0, 0]⟩) ∧
    ((∀ flags : List Bool, countCoveredColumns flags 2 ≤ 2) ∧
      ∀ k k', k ≤ k' → k' ≤ 2 →
        countCoveredColumns (searchUpTo 2 (initialState ⟨2, 2, [0, 0, 0, 1]⟩
            ⟨2, 2, [0, 0, 0, 0]⟩ 2) k').1.isColumnCurrentlyCovered 2 ≤
          countCoveredColumns (searchUpTo 2 (initialState ⟨2, 2, [0, 0, 0, 1]⟩
            ⟨2, 2, [0, 0, 0, 0]⟩ 2) k).1.isColumnCurrentlyCovered 2) :=
  ⟨⟨cost_example_valid, rfl⟩, by
    obtain ⟨h1, _, h3⟩ :=
      covered_columns_between_resets 2 5 ⟨2, 2, [0, 0, 0, 1]⟩ ⟨2, 2, [0, 0, 0, 0]⟩
        cost_example_valid rfl
    obtain ⟨_, _, _, _, h5, _⟩ := h3 _ LoopState.start (by decide)
    exact ⟨h1, h5⟩⟩

theorem covered_count_equals_stars_witness :
    (ValidCost 2 (⟨2, 2, [0, 0, 0, 1]⟩ : Matrix Int) ∧
      Matrix.filled 2 2 (0 : Int) = Except.ok ⟨2, 2, [0, 0, 0, 0]⟩) ∧
    (initialState ⟨2, 2, [0, 0, 0, 1]⟩ ⟨2, 2, [0, 0, 0, 0]⟩ 2).numberOfCoveredColumns =
      (starredCells 2 (initialState ⟨2, 2, [0, 0, 0, 1]⟩
        ⟨2, 2, [0, 0, 0, 0]⟩ 2).zeroMarkMatrix).card :=
  ⟨⟨cost_example_valid, rfl⟩,
    ((covered_count_equals_stars 2 5 ⟨2, 2, [0, 0, 0, 1]⟩ ⟨2, 2, [0, 0, 0, 0]⟩
      cost_example_valid rfl).1 _ LoopState.start).1⟩

theorem coverage_consistent_at_boundaries_witness :
    (ValidCost 2 (⟨2, 2, [0, 0, 0, 1]⟩ : Matrix Int) ∧
      Matrix.filled 2 2 (0 : Int) = Except.ok ⟨2, 2, [0, 0, 0, 0]⟩) ∧
    CoverageConsistent 2 (initialState ⟨2, 2, [0, 0, 0, 1]⟩ ⟨2, 2, [0, 0, 0, 0]⟩ 2) :=
  ⟨⟨cost_example_valid, rfl⟩,
    (coverage_consistent_at_boundaries 2 5 ⟨2, 2, [0, 0, 0, 1]⟩ ⟨2, 2, [0, 0, 0, 0]⟩
      cost_example_valid rfl _ LoopState.start).1⟩

theorem marked_cells_hold_zero_witness :
    (ValidCost 2 (⟨2, 2, [0, 0, 0, 1]⟩ : Matrix Int) ∧
      Matrix.filled 2 2 (0 : Int) = Except.ok ⟨2, 2, [0, 0, 0, 0]⟩) ∧
    ((∀ r c, r < 2 → c < 2 →
        (initialState ⟨2, 2, [0, 0, 0, 1]⟩ ⟨2, 2, [0, 0, 0, 0]⟩ 2).zeroMarkMatrix.get r c = 1 ∨
          (initialState ⟨2, 2, [0, 0, 0, 1]⟩ ⟨2, 2, [0, 0, 0, 0]⟩ 2).zeroMarkMatrix.get r c = 2 →
        (initialState ⟨2, 2, [0, 0, 0, 1]⟩ ⟨2, 2, [0, 0, 0, 0]⟩ 2).costMatrix.get r c = 0) ∧
      ∃ s', mainLoop 2 17 17 (initialState ⟨2, 2, [0, 0, 0, 1]⟩ ⟨2, 2, [0, 0, 0, 0]⟩ 2) =
        Except.ok s') :=
  ⟨⟨cost_example_valid, rfl⟩, by
    obtain ⟨h1, h2, _⟩ :=
      marked_cells_hold_zero 2 17 ⟨2, 2, [0, 0, 0, 1]⟩ ⟨2, 2, [0, 0, 0, 0]⟩
        cost_example_valid rfl
    exact ⟨(h1 _ LoopState.start).1, h2 (by decide)⟩⟩

theorem adjustment_value_is_cell_value_witness :
    (ValidCost 3 (⟨3, 3, [0, 1, 1, 0, 1, 1, 0, 0, 0]⟩ : Matrix Int) ∧
      Matrix.filled 3 3 (0 : Int) = Except.ok ⟨3, 3, [0, 0, 0, 0, 0, 0, 0, 0, 0]⟩) ∧
    ((∃ r c, r < 3 ∧ c < 3 ∧ ([false, false, true] : List Bool).getD r false = false ∧
        ([true, false, false] : List Bool).getD c false = false ∧
        smallestUncoveredValue 3 ⟨⟨3, 3, [0, 1, 1, 0, 1, 1, 0, 0, 0]⟩,
            ⟨3, 3, [1, 0, 0, 0, 0, 0, 0, 1, 2]⟩, [false, false, true], [true, false, false],
            2⟩ =
          (⟨3, 3, [0, 1, 1, 0, 1, 1, 0, 0, 0]⟩ : Matrix Int).get r c) ∧
      smallestUncoveredValue 3 ⟨⟨3, 3, [0, 1, 1, 0, 1, 1, 0, 0, 0]⟩,
          ⟨3, 3, [1, 0, 0, 0, 0, 0, 0, 1, 2]⟩, [false, false, true], [true, false, false],
          2⟩ ≤ INT_MAX) :=
  ⟨⟨adjust_example_valid, rfl⟩, by
    obtain ⟨_, _, _, h4, _, _, h7, _⟩ :=
      adjustment_value_is_cell_value 3 5 ⟨3, 3, [0, 1, 1, 0, 1, 1, 0, 0, 0]⟩
        ⟨3, 3, [0, 0, 0, 0, 0, 0, 0, 0, 0]⟩ adjust_example_valid rfl _ LoopState.start
        (by decide) _ adjust_example_search
    exact ⟨h4, h7⟩⟩

theorem row_shift_example :
    ∀ r c, r < 2 → c < 2 →
      (⟨2, 2, [-4, -3, 3, 4]⟩ : Matrix Int).get r c =
        (⟨2, 2, [1, 2, 3, 4]⟩ : Matrix Int).get r c + if r = 0 then -5 else 0 := by
  intro r c hr hc
  interval_cases r <;> interval_cases c <;> simp [Matrix.get]

theorem row_shift_same_assignment_witness :
    (0 < 2 ∧ Square 2 (⟨2, 2, [1, 2, 3, 4]⟩ : Matrix Int) ∧
      Square 2 (⟨2, 2, [-4, -3, 3, 4]⟩ : Matrix Int) ∧
      ∀ r c, r < 2 → c < 2 →
        (⟨2, 2, [-4, -3, 3, 4]⟩ : Matrix Int).get r c =
          (⟨2, 2, [1, 2, 3, 4]⟩ : Matrix Int).get r c + if r = 0 then -5 else 0) ∧
    (reduceRows ⟨2, 2, [-4, -3, 3, 4]⟩ 2 = reduceRows ⟨2, 2, [1, 2, 3, 4]⟩ 2 ∧
      ∀ fuel, run_munkres_algorithm fuel ⟨2, 2, [-4, -3, 3, 4]⟩ =
        run_munkres_algorithm fuel ⟨2, 2, [1, 2, 3, 4]⟩) :=
  ⟨⟨by decide, ⟨rfl, rfl, rfl⟩, ⟨rfl, rfl, rfl⟩, row_shift_example⟩, by
    obtain ⟨h1, _, _, h4, _⟩ :=
      row_shift_same_assignment 2 ⟨2, 2, [1, 2, 3, 4]⟩ ⟨2, 2, [-4, -3, 3, 4]⟩ 0 (-5)
        (by decide) ⟨rfl, rfl, rfl⟩ ⟨rfl, rfl, rfl⟩ row_shift_example
    exact ⟨h1, h4⟩⟩

/-! ## Runs that stay within the type `int` -/

/-- On a valid matrix no subtraction of the reduction phase leaves the type `int`: every
difference lies between 0 and `INT_MAX`. -/
theorem reductionFits_of_valid {n : Nat} (hn : 0 < n) {C : Matrix Int} (hC : ValidCost n C) :
    ReductionFits n C := by
  intro r c hr hc
  obtain ⟨h0, h1⟩ := hC.2.2 r c hr hc
  obtain ⟨c0, hc0, e⟩ := minimumRowValue_attained C hn r
  have hm0 := (hC.2.2 r c0 hr hc0).1
  have hle := minimumRowValue_le C (r := r) hc
  have hred0 := reduce_nonneg hC.1 hr hc
  have hred1 := reduce_le_of_valid hn hC hr hc
  rw [reduce_get hC.1 hr hc] at hred0 hred1
  rw [(reduceRows_spec hC.1).2 r c hr hc]
  unfold FitsInt INT_MIN
  unfold INT_MAX at h1 hred1 ⊢
  refine ⟨⟨by omega, by omega⟩, ⟨by omega, by omega⟩, ⟨by omega, by omega⟩⟩

/-- When no subtraction of the reduction leaves the type `int`, the entries of the row-reduced
matrix and of the reduced matrix are values of `int`. -/
theorem reduction_fits {n : Nat} {C : Matrix Int} (hC : Square n C) (hfit : ReductionFits n C)
    {r c : Nat} (hr : r < n) (hc : c < n) :
    FitsInt ((reduceRows C n).get r c) ∧ FitsInt ((reduce C n).get r c) := by
  obtain ⟨_, h2, h3⟩ := hfit r c hr hc
  refine ⟨?_, ?_⟩
  · rw [(reduceRows_spec hC).2 r c hr hc]; exact h2
  · have e : (reduce C n).get r c =
        (reduceRows C n).get r c - minimumColumnValue (reduceRows C n) n c := by
      unfold reduce
      exact (reduceColumns_spec (reduceRows_spec hC).1).2 r c hr hc
    rw [e]; exact h3

/-- When no operation of an adjustment leaves the type `int`, the entries of the adjusted
matrix are values of `int`. -/
theorem adjust_fits {n : Nat} {s : State} (hsq : Square n s.costMatrix)
    (hfit : AdjustFits n s) {r c : Nat} (hr : r < n) (hc : c < n) :
    FitsInt ((adjust n s).costMatrix.get r c) := by
  obtain ⟨h1, h2, h3⟩ := hfit r c hr hc
  obtain ⟨_, a2⟩ := adjustMatrix_spec s (smallestUncoveredValue n s) hsq
  show FitsInt ((adjustMatrix n s (smallestUncoveredValue n s)).get r c)
  rw [a2 r c hr hc]
  by_cases hcol : s.isColumnCurrentlyCovered.getD c false = false
  · have h := h3 hcol
    rw [if_pos hcol]
    by_cases hrow : s.isRowCurrentlyCovered.getD r false = true
    · rw [if_pos hrow] at h ⊢; exact h
    · rw [if_neg hrow] at h ⊢
      rw [add_zero]; exact h
  · rw [if_neg hcol, sub_zero]
    by_cases hrow : s.isRowCurrentlyCovered.getD r false = true
    · rw [if_pos hrow]; exact h2 hrow
    · rw [if_neg hrow, add_zero]; exact h1

/-- In a run whose adjustments stay within `int`, the working matrix at every evaluation of
the loop condition is square and holds values between 0 and `INT_MAX`. -/
theorem runFits_states {n pathFuel : Nat} {s0 : State} (hsq : Square n s0.costMatrix)
    (h0 : ∀ r c, r < n → c < n → 0 ≤ s0.costMatrix.get r c ∧ s0.costMatrix.get r c ≤ INT_MAX)
    (hfit : RunFits n pathFuel s0) :
    ∀ s, LoopState n pathFuel s0 s →
      Square n s.costMatrix ∧
        ∀ r c, r < n → c < n → 0 ≤ s.costMatrix.get r c ∧ s.costMatrix.get r c ≤ INT_MAX := by
  intro s hs
  induction hs with
  | start => exact ⟨hsq, h0⟩
  | @pass s s1 hs hlt hb ih =>
    obtain ⟨hsq1, hnn1⟩ := loopBody_nonneg ih.1 (fun r c hr hc => (ih.2 r c hr hc).1) hb
    refine ⟨hsq1, fun r c hr hc => ⟨hnn1 r c hr hc, ?_⟩⟩
    have hk := (searchUpTo_keeps n s n).2
    have e : searchUpTo n s n = search n s := rfl
    rw [e] at hk
    unfold loopBody at hb
    cases hsearch : search n s with
    | mk s' found =>
      rw [hsearch] at hb hk
      simp only at hk
      cases found with
      | none =>
        simp only at hb
        rw [← Except.ok.inj hb]
        have hsq' : Square n s'.costMatrix := by rw [hk]; exact ih.1
        exact (adjust_fits hsq' (hfit s hs hlt s' hsearch) hr hc).2
      | some start =>
        simp only at hb
        unfold augment at hb
        cases hp : buildPath s'.zeroMarkMatrix n pathFuel [start] with
        | error e => rw [hp] at hb; exact Except.noConfusion hb
        | ok path =>
          rw [hp] at hb
          simp only at hb
          rw [← Except.ok.inj hb]
          simp only
          rw [hk]
          exact (ih.2 r c hr hc).2

/-- A state met at the loop condition is the first one, or it is met in the run that continues
from the state after the first pass. -/
theorem loopState_head {n pathFuel : Nat} {s0 s : State} (h : LoopState n pathFuel s0 s) :
    s = s0 ∨ (s0.numberOfCoveredColumns < n ∧
      ∃ s', loopBody n pathFuel s0 = Except.ok s' ∧ LoopState n pathFuel s' s) := by
  induction h with
  | start => exact Or.inl rfl
  | @pass s s1 hs hlt hb ih =>
    right
    rcases ih with e | ⟨h0, s', hb', hs'⟩
    · subst e
      exact ⟨hlt, s1, hb, LoopState.start⟩
    · exact ⟨h0, s', hb', LoopState.pass hs' hlt hb⟩

/-- A run that arrives at the loop with a false loop condition makes no adjustment. -/
theorem runFits_of_exit {n pathFuel : Nat} {s0 : State}
    (hge : ¬ (s0.numberOfCoveredColumns < n)) : RunFits n pathFuel s0 := by
  intro s hs hlt
  rcases loopState_head hs with e | ⟨h0, _⟩
  · subst e; exact absurd hlt hge
  · exact absurd h0 hge

/-- The adjustments of a run are the adjustment of its first pass, if that pass takes the
adjustment branch, and the adjustments of the run that continues after it. -/
theorem runFits_of_pass {n pathFuel : Nat} {s0 s' : State}
    (hb : loopBody n pathFuel s0 = Except.ok s')
    (hadj : ∀ s1, search n s0 = (s1, none) → AdjustFits n s1)
    (hrest : RunFits n pathFuel s') : RunFits n pathFuel s0 := by
  intro s hs hlt s1 hsearch
  rcases loopState_head hs with e | ⟨_, s'', hb', hs'⟩
  · subst e; exact hadj s1 hsearch
  · rw [hb] at hb'
    rw [← Except.ok.inj hb'] at hs'
    exact hrest s hs' hlt s1 hsearch

/-- In a run on a valid matrix whose adjustments stay within `int`, the working matrix holds
values between 0 and `INT_MAX` at every evaluation of the loop condition. -/
theorem valid_run_states_fit {n fuel : Nat} {C Z : Matrix Int} (hn : 0 < n)
    (hC : ValidCost n C) (hZ : Matrix.filled n n (0 : Int) = Except.ok Z)
    (hfit : RunFits n fuel (initialState C Z n)) :
    ∀ s, LoopState n fuel (initialState C Z n) s →
      ∀ r c, r < n → c < n → 0 ≤ s.costMatrix.get r c ∧ s.costMatrix.get r c ≤ INT_MAX := by
  obtain ⟨Z', hZ', hZsq, hZ0⟩ := filled_square hn hC.2.1 (0 : Int)
  rw [hZ] at hZ'
  have hZeq : Z = Z' := Except.ok.inj hZ'
  subst hZeq
  have hinv0 : Inv n C (initialState C Z n) :=
    initialState_inv hC.1 hZsq hZ0 (fun r c hr hc => reduce_le_of_valid hn hC hr hc)
  intro s hs r c hr hc
  refine ⟨(loopState_inv hinv0 hs).cost_nonneg r c hr hc, ?_⟩
  exact ((runFits_states (reduce_square hC.1)
    (fun r c hr hc => ⟨reduce_nonneg hC.1 hr hc, reduce_le_of_valid hn hC hr hc⟩)
    hfit s hs).2 r c hr hc).2

/-! ## Three concrete runs -/

/-- The adjustment of the run on `[[1,2,3],[2,4,6],[3,6,9]]` (value 1) stays within `int`. -/
theorem scenario_adjust_fits :
    AdjustFits 3 ⟨⟨3, 3, [0, 0, 0, 0, 1, 2, 0, 2, 4]⟩, ⟨3, 3, [0, 1, 2, 1, 0, 0, 0, 0, 0]⟩,
      [true, false, false], [true, false, false], 2⟩ := by
  have hd : smallestUncoveredValue 3 ⟨⟨3, 3, [0, 0, 0, 0, 1, 2, 0, 2, 4]⟩,
      ⟨3, 3, [0, 1, 2, 1, 0, 0, 0, 0, 0]⟩, [true, false, false], [true, false, false], 2⟩ = 1 := by
    rfl
  intro r c hr hc
  rw [hd]
  interval_cases r <;> interval_cases c <;> simp [FitsInt, INT_MIN, INT_MAX, Matrix.get]

/-- The run on `[[1,2,3],[2,4,6],[3,6,9]]` makes an augmentation, an adjustment and a second
augmentation; none of its operations leaves the type `int`. -/
theorem scenario_run_fits :
    RunFits 3 31 (initialState ⟨3, 3, [1, 2, 3, 2, 4, 6, 3, 6, 9]⟩
      ⟨3, 3, [0, 0, 0, 0, 0, 0, 0, 0, 0]⟩ 3) := by
  refine @runFits_of_pass 3 31 _ ⟨⟨3, 3, [0, 0, 0, 0, 1, 2, 0, 2, 4]⟩,
    ⟨3, 3, [0, 1, 0, 1, 0, 0, 0, 0, 0]⟩, [false, false, false], [true, true, false], 2⟩
    (by rfl) ?_ ?_
  · intro s1 h
    have e : search 3 (initialState ⟨3, 3, [1, 2, 3, 2, 4, 6, 3, 6, 9]⟩
        ⟨3, 3, [0, 0, 0, 0, 0, 0, 0, 0, 0]⟩ 3) =
        (⟨⟨3, 3, [0, 0, 0, 0, 1, 2, 0, 2, 4]⟩, ⟨3, 3, [1, 2, 0, 2, 0, 0, 0, 0, 0]⟩,
          [true, false, false], [false, false, false], 1⟩, some (1, 0)) := by rfl
    rw [e] at h
    exact Option.noConfusion (Prod.mk.inj h).2
  refine @runFits_of_pass 3 31 _ ⟨⟨3, 3, [1, 0, 0, 0, 0, 1, 0, 1, 3]⟩,
    ⟨3, 3, [0, 1, 2, 1, 0, 0, 0, 0, 0]⟩, [true, false, false], [true, false, false], 2⟩
    (by rfl) ?_ ?_
  · intro s1 h
    have e : search 3 ⟨⟨3, 3, [0, 0, 0, 0, 1, 2, 0, 2, 4]⟩,
        ⟨3, 3, [0, 1, 0, 1, 0, 0, 0, 0, 0]⟩, [false, false, false], [true, true, false], 2⟩ =
        (⟨⟨3, 3, [0, 0, 0, 0, 1, 2, 0, 2, 4]⟩, ⟨3, 3, [0, 1, 2, 1, 0, 0, 0, 0, 0]⟩,
          [true, false, false], [true, false, false], 2⟩, none) := by rfl
    rw [e] at h
    rw [← (Prod.mk.inj h).1]
    exact scenario_adjust_fits
  refine @runFits_of_pass 3 31 _ ⟨⟨3, 3, [1, 0, 0, 0, 0, 1, 0, 1, 3]⟩,
    ⟨3, 3, [0, 0, 1, 0, 1, 0, 1, 0, 0]⟩, [false, false, false], [true, true, true], 3⟩
    (by rfl) ?_ ?_
  · intro s1 h
    have e : search 3 ⟨⟨3, 3, [1, 0, 0, 0, 0, 1, 0, 1, 3]⟩,
        ⟨3, 3, [0, 1, 2, 1, 0, 0, 0, 0, 0]⟩, [true, false, false], [true, false, false], 2⟩ =
        (⟨⟨3, 3, [1, 0, 0, 0, 0, 1, 0, 1, 3]⟩, ⟨3, 3, [0, 1, 2, 1, 2, 0, 2, 0, 0]⟩,
          [true, true, false], [false, false, false], 2⟩, some (2, 0)) := by rfl
    rw [e] at h
    exact Option.noConfusion (Prod.mk.inj h).2
  exact runFits_of_exit (by decide)

/-- The adjustment of the run on `[[0,1,1],[0,1,1],[0,0,0]]` (value 1) stays within `int`. -/
theorem adjust_example_fits :
    AdjustFits 3 ⟨⟨3, 3, [0, 1, 1, 0, 1, 1, 0, 0, 0]⟩, ⟨3, 3, [1, 0, 0, 0, 0, 0, 0, 1, 2]⟩,
      [false, false, true], [true, false, false], 2⟩ := by
  have hd : smallestUncoveredValue 3 ⟨⟨3, 3, [0, 1, 1, 0, 1, 1, 0, 0, 0]⟩,
      ⟨3, 3, [1, 0, 0, 0, 0, 0, 0, 1, 2]⟩, [false, false, true], [true, false, false], 2⟩ = 1 := by
    rfl
  intro r c hr hc
  rw [hd]
  interval_cases r <;> interval_cases c <;> simp [FitsInt, INT_MIN, INT_MAX, Matrix.get]

/-- The run on `[[0,1,1],[0,1,1],[0,0,0]]` makes an adjustment and an augmentation; none of
its operations leaves the type `int`. -/
theorem adjust_example_run_fits :
    RunFits 3 5 (initialState ⟨3, 3, [0, 1, 1, 0, 1, 1, 0, 0, 0]⟩
      ⟨3, 3, [0, 0, 0, 0, 0, 0, 0, 0, 0]⟩ 3) := by
  refine @runFits_of_pass 3 5 _ ⟨⟨3, 3, [0, 0, 0, 0, 0, 0, 1, 0, 0]⟩,
    ⟨3, 3, [1, 0, 0, 0, 0, 0, 0, 1, 2]⟩, [false, false, true], [true, false, false], 2⟩
    (by rfl) ?_ ?_
  · intro s1 h
    rw [adjust_example_search] at h
    rw [← (Prod.mk.inj h).1]
    exact adjust_example_fits
  refine @runFits_of_pass 3 5 _ ⟨⟨3, 3, [0, 0, 0, 0, 0, 0, 1, 0, 0]⟩,
    ⟨3, 3, [0, 1, 0, 1, 0, 0, 0, 0, 1]⟩, [false, false, false], [true, true, true], 3⟩
    (by rfl) ?_ ?_
  · intro s1 h
    have e : search 3 ⟨⟨3, 3, [0, 0, 0, 0, 0, 0, 1, 0, 0]⟩,
        ⟨3, 3, [1, 0, 0, 0, 0, 0, 0, 1, 2]⟩, [false, false, true], [true, false, false], 2⟩ =
        (⟨⟨3, 3, [0, 0, 0, 0, 0, 0, 1, 0, 0]⟩, ⟨3, 3, [1, 2, 0, 2, 0, 0, 0, 1, 2]⟩,
          [true, false, true], [false, false, false], 2⟩, some (1, 0)) := by rfl
    rw [e] at h
    exact Option.noConfusion (Prod.mk.inj h).2
  exact runFits_of_exit (by decide)

/-- A valid matrix whose run leaves the type `int`: on `[[0,1,1],[0,1,1],[M,0,0]]` with
`M = INT_MAX` the first pass makes a detour in row 2 and adjusts with the value 1; the cell
`(2, 0)` lies in a covered row and a covered column, and line 149 adds 1 to `M`. -/
theorem valid_run_may_overflow :
    ValidCost 3 (⟨3, 3, [0, 1, 1, 0, 1, 1, 2147483647, 0, 0]⟩ : Matrix Int) ∧
      ¬ RunFits 3 5 (initialState ⟨3, 3, [0, 1, 1, 0, 1, 1, 2147483647, 0, 0]⟩
        ⟨3, 3, [0, 0, 0, 0, 0, 0, 0, 0, 0]⟩ 3) := by
  refine ⟨?_, ?_⟩
  · refine ⟨⟨rfl, rfl, rfl⟩, by decide, ?_⟩
    intro r c hr hc
    interval_cases r <;> interval_cases c <;> simp [Matrix.get, INT_MAX]
  · intro hfit
    have hs : search 3 (initialState ⟨3, 3, [0, 1, 1, 0, 1, 1, 2147483647, 0, 0]⟩
        ⟨3, 3, [0, 0, 0, 0, 0, 0, 0, 0, 0]⟩ 3) =
        (⟨⟨3, 3, [0, 1, 1, 0, 1, 1, 2147483647, 0, 0]⟩, ⟨3, 3, [1, 0, 0, 0, 0, 0, 0, 1, 2]⟩,
          [false, false, true], [true, false, false], 2⟩, none) := by rfl
    have h := (hfit _ LoopState.start (by decide) _ hs 2 0 (by decide) (by decide)).2.1 (by rfl)
    have hd : smallestUncoveredValue 3 ⟨⟨3, 3, [0, 1, 1, 0, 1, 1, 2147483647, 0, 0]⟩,
        ⟨3, 3, [1, 0, 0, 0, 0, 0, 0, 1, 2]⟩, [false, false, true], [true, false, false],
        2⟩ = 1 := by rfl
    rw [hd] at h
    simp [FitsInt, INT_MAX, Matrix.get] at h

/-! ## Statements that depend on the computed values

The statements of this section are about values that the program computes in the type `int`.
They carry the hypothesis that the run stays within that type (`ReductionFits`, `AdjustFits`,
`RunFits`), and they conclude, besides the property itself, that the values concerned are
values of `int`. -/

/-- Claim C2: for a valid square cost matrix whose run stays within the type `int`, the total
cost of the returned assignment equals the minimum, over all permutations of the columns, of
the total cost of the permutation. The reduction stays within `int` on every valid matrix,
and the working matrix holds values between 0 and `INT_MAX` at every evaluation of the loop
condition. -/
theorem run_munkres_algorithm_cost_is_minimum (n fuel : Nat) (C Z : Matrix Int)
    (hn : 0 < n) (hC : ValidCost n C) (hZ : Matrix.filled n n (0 : Int) = Except.ok Z)
    (hfit : RunFits n fuel (initialState C Z n))
    (hfuel : 2 * n * n + 4 * n + 1 ≤ fuel) :
    (∃ R, run_munkres_algorithm fuel C = Except.ok R ∧
      IsLeast (Set.range (fun σ : Equiv.Perm (Fin n) => permutationCost C σ))
        (selectedCost n C R)) ∧
    ReductionFits n C ∧
    ∀ s, LoopState n fuel (initialState C Z n) s →
      ∀ r c, r < n → c < n → 0 ≤ s.costMatrix.get r c ∧ s.costMatrix.get r c ≤ INT_MAX := by
  refine ⟨?_, reductionFits_of_valid hn hC, valid_run_states_fit hn hC hZ hfit⟩
  obtain ⟨R, σ, hrun, _, hsel, hopt⟩ := run_optimal hn hC hfuel
  refine ⟨R, hrun, ⟨σ, (hsel C).symm⟩, ?_⟩
  rintro b ⟨τ, rfl⟩
  rw [hsel C]
  exact hopt τ

/-- Claim C8: when a constant `k` is added to every entry of one row or of one column of a
valid matrix `C`, the result `C'` is still valid, and both runs stay within the type `int`,
the assignment returned for `C'` is a cost-minimal assignment for `C`, and its cost under `C'`
is the cost under `C` of the assignment returned for `C`, plus `k`. In both runs the working
matrix holds values between 0 and `INT_MAX` at every evaluation of the loop condition. -/
theorem row_or_column_shift_keeps_optimum (n fuel : Nat) (C C' Z : Matrix Int) (i : Nat)
    (k : Int) (hn : 0 < n) (hi : i < n) (hC : ValidCost n C) (hC' : ValidCost n C')
    (hshift :
      (∀ r c, r < n → c < n → C'.get r c = C.get r c + if r = i then k else 0) ∨
      (∀ r c, r < n → c < n → C'.get r c = C.get r c + if c = i then k else 0))
    (hZ : Matrix.filled n n (0 : Int) = Except.ok Z)
    (hfit : RunFits n fuel (initialState C Z n))
    (hfit' : RunFits n fuel (initialState C' Z n))
    (hfuel : 2 * n * n + 4 * n + 1 ≤ fuel) :
    (∃ R R', run_munkres_algorithm fuel C = Except.ok R ∧
      run_munkres_algorithm fuel C' = Except.ok R' ∧ IsPermutationMatrix n R' ∧
      IsLeast (Set.range (fun σ : Equiv.Perm (Fin n) => permutationCost C σ))
        (selectedCost n C R') ∧
      selectedCost n C' R' = selectedCost n C R + k) ∧
    (∀ s, LoopState n fuel (initialState C Z n) s →
      ∀ r c, r < n → c < n → 0 ≤ s.costMatrix.get r c ∧ s.costMatrix.get r c ≤ INT_MAX) ∧
    ∀ s, LoopState n fuel (initialState C' Z n) s →
      ∀ r c, r < n → c < n → 0 ≤ s.costMatrix.get r c ∧ s.costMatrix.get r c ≤ INT_MAX := by
  refine ⟨?_, valid_run_states_fit hn hC hZ hfit, valid_run_states_fit hn hC' hZ hfit'⟩
  obtain ⟨R, σ, hrun, _, hsel, hopt⟩ := run_optimal hn hC hfuel
  obtain ⟨R', σ', hrun', hperm', hsel', hopt'⟩ := run_optimal hn hC' hfuel
  have hsh : ∀ τ : Equiv.Perm (Fin n), permutationCost C' τ = permutationCost C τ + k :=
    fun τ => shifted_permutationCost hi k hshift τ
  have hopt2 : ∀ τ : Equiv.Perm (Fin n), permutationCost C σ' ≤ permutationCost C τ := by
    intro τ
    have := hopt' τ
    rw [hsh σ', hsh τ] at this
    omega
  refine ⟨R, R', hrun, hrun', hperm', ⟨⟨σ', (hsel' C).symm⟩, ?_⟩, ?_⟩
  · rintro b ⟨τ, rfl⟩
    rw [hsel' C]
    exact hopt2 τ
  · rw [hsel' C', hsel C, hsh σ']
    have h1 := hopt σ'
    have h2 := hopt2 σ
    omega

/-- Claim C9: for a square integer matrix whose reduction stays within the type `int`, after
row reduction and column reduction the working matrix has no negative entry, every row holds a
zero and every column holds a zero; a zero produced by the row reduction is still a zero after
the column reduction. The entries of the row-reduced and of the reduced matrix are values of
`int`. -/
theorem reduction_postcondition (n : Nat) (C Z : Matrix Int) (hn : 0 < n) (hC : Square n C)
    (hfit : ReductionFits n C) :
    (initialState C Z n).costMatrix = reduce C n ∧
      (∀ r c, r < n → c < n → 0 ≤ (reduce C n).get r c) ∧
      (∀ r, r < n → ∃ c, c < n ∧ (reduce C n).get r c = 0) ∧
      (∀ c, c < n → ∃ r, r < n ∧ (reduce C n).get r c = 0) ∧
      (∀ r c, r < n → c < n → (reduceRows C n).get r c = 0 → (reduce C n).get r c = 0) ∧
      (∀ r c, r < n → c < n →
        FitsInt ((reduceRows C n).get r c) ∧ FitsInt ((reduce C n).get r c)) := by
  refine ⟨rfl, fun r c hr hc => reduce_nonneg hC hr hc,
    fun r hr => reduce_row_has_zero hC hn hr, fun c hc => reduce_column_has_zero hC hn hc, ?_,
    fun r c hr hc => reduction_fits hC hfit hr hc⟩
  intro r c hr hc h0
  have h2 := minimumColumnValue_le (reduceRows C n) (c := c) hr
  have h3 := minimumColumnValue_reduceRows_nonneg hC hn hc
  unfold reduce
  rw [(reduceColumns_spec (reduceRows_spec hC).1).2 r c hr hc]
  omega

/-- Claim C10: for a square matrix whose reduction stays within the type `int`, cost reduction
lowers the cost of every permutation by the same constant, the sum of the subtracted row
minima and column minima; so a permutation is cost-minimal for the reduced matrix exactly if
it is cost-minimal for the input. The entries of the reduced matrix are values of `int`. -/
theorem reduction_preserves_optimal_assignment (n : Nat) (C : Matrix Int) (hC : Square n C)
    (hfit : ReductionFits n C) :
    (∀ σ : Equiv.Perm (Fin n),
      permutationCost (reduce C n) σ = permutationCost C σ - reductionConstant n C) ∧
    (∀ σ : Equiv.Perm (Fin n),
      (∀ τ : Equiv.Perm (Fin n), permutationCost (reduce C n) σ ≤ permutationCost (reduce C n) τ) ↔
        (∀ τ : Equiv.Perm (Fin n), permutationCost C σ ≤ permutationCost C τ)) ∧
    (∀ r c, r < n → c < n →
      FitsInt ((reduceRows C n).get r c) ∧ FitsInt ((reduce C n).get r c)) := by
  refine ⟨fun σ => permutationCost_reduce hC σ, ?_,
    fun r c hr hc => reduction_fits hC hfit hr hc⟩
  intro σ
  constructor
  · intro h τ
    have := h τ
    rw [permutationCost_reduce hC σ, permutationCost_reduce hC τ] at this
    omega
  · intro h τ
    have := h τ
    rw [permutationCost_reduce hC σ, permutationCost_reduce hC τ]
    omega

/-- Claim C20: for a square matrix whose reduction stays within the type `int`, the reduction
phase computes the reference definition: the row-reduced matrix is the input with the minimum
of its row taken from every entry, and the reduced matrix is the row-reduced matrix with the
minimum of its column, a minimum over the row-reduced matrix, taken from every entry. The
entries of both matrices are values of `int`. -/
theorem reduction_equals_reference (n : Nat) (C Z : Matrix Int) (hn : 0 < n)
    (hC : Square n C) (hfit : ReductionFits n C) :
    reduceRows C n = referenceRowReduced C n ∧
      reduce C n = referenceReduced C n ∧
      (initialState C Z n).costMatrix = referenceReduced C n ∧
      (∀ r, r < n → IsLeast {x | ∃ c, c < n ∧ x = C.get r c} (referenceRowMinimum C n r)) ∧
      (∀ c, c < n → IsLeast {x | ∃ r, r < n ∧ x = (referenceRowReduced C n).get r c}
        (referenceColumnMinimum (referenceRowReduced C n) n c)) ∧
      (∀ r c, r < n → c < n →
        (reduce C n).get r c =
          C.get r c - referenceRowMinimum C n r -
            referenceColumnMinimum (referenceRowReduced C n) n c) ∧
      (∀ r c, r < n → c < n →
        FitsInt ((referenceRowReduced C n).get r c) ∧
          FitsInt ((referenceReduced C n).get r c)) := by
  have e1 := reduceRows_eq_reference hn hC
  have e2 : reduce C n = referenceReduced C n := by
    apply matrix_ext (reduce_square hC) (tabulated_square n _)
    intro r c hr hc
    rw [tabulated_get n _ hr hc, index_div hc, index_mod hc,
      referenceColumnMinimum_eq _ hn c, ← e1]
    unfold reduce
    rw [(reduceColumns_spec (reduceRows_spec hC).1).2 r c hr hc]
  refine ⟨e1, e2, e2, fun r _ => referenceRowMinimum_isLeast C hn r,
    fun c _ => referenceColumnMinimum_isLeast _ hn c, ?_, ?_⟩
  swap
  · intro r c hr hc
    rw [← e1, ← e2]
    exact reduction_fits hC hfit hr hc
  intro r c hr hc
  rw [reduce_get hC hr hc, referenceRowMinimum_eq C hn r, referenceColumnMinimum_eq _ hn c, e1]

/-- Claim C22, amended: in a run on a valid matrix that stays within the type `int`, the
adjustment branch of a pass runs exactly when the row scan of that pass ended without a zero
that starts an augmenting path. The computed value δ is never negative, and it is strictly
positive exactly when no cell whose row and column are uncovered holds 0. That is the case
whenever the scan changed nothing; an uncovered zero at this point occurs only after a scan
that covered a row. The adjusted matrix holds values of `int`. -/
theorem adjustment_delta_sign (n pathFuel : Nat) (C Z : Matrix Int) (hC : ValidCost n C)
    (hZ : Matrix.filled n n (0 : Int) = Except.ok Z)
    (hfit : RunFits n pathFuel (initialState C Z n)) :
    ∀ s, LoopState n pathFuel (initialState C Z n) s → s.numberOfCoveredColumns < n →
      ((∃ s1, search n s = (s1, none)) ∨ ∃ s1 first, search n s = (s1, some first)) ∧
      (∀ s1 first, search n s = (s1, some first) →
        loopBody n pathFuel s = augment n pathFuel s1 first) ∧
      ∀ s1, search n s = (s1, none) →
        loopBody n pathFuel s = Except.ok (adjust n s1) ∧
        0 ≤ smallestUncoveredValue n s1 ∧
        (0 < smallestUncoveredValue n s1 ↔ ¬ HasUncoveredZero n s1) ∧
        (s1 = s → ¬ HasUncoveredZero n s1 ∧ 0 < smallestUncoveredValue n s1) ∧
        (HasUncoveredZero n s1 →
          (coveredRows n s.isRowCurrentlyCovered).card <
            (coveredRows n s1.isRowCurrentlyCovered).card) ∧
        AdjustFits n s1 ∧
        ∀ r c, r < n → c < n → FitsInt ((adjust n s1).costMatrix.get r c) := by
  have hn : 0 < n := by
    rcases Nat.eq_zero_or_pos n with e | e
    · subst e; simp [Matrix.filled] at hZ
    · exact e
  obtain ⟨Z', hZ', hZsq, hZ0⟩ := filled_square hn hC.2.1 (0 : Int)
  rw [hZ] at hZ'
  have hZeq : Z = Z' := Except.ok.inj hZ'
  subst hZeq
  have hinv0 : Inv n C (initialState C Z n) :=
    initialState_inv hC.1 hZsq hZ0 (fun r c hr hc => reduce_le_of_valid hn hC hr hc)
  intro s hs hlt
  have hinv := loopState_inv hinv0 hs
  refine ⟨?_, ?_, ?_⟩
  · cases hsr : search n s with
    | mk a found =>
      cases found with
      | none => exact Or.inl ⟨a, rfl⟩
      | some first => exact Or.inr ⟨a, first, rfl⟩
  · intro s1 first hsearch
    unfold loopBody
    rw [hsearch]
  · intro s1 hsearch
    obtain ⟨hinv1, hst1, _, hprog⟩ := search_none_spec hinv hlt hsearch
    have hiff := delta_pos_iff hinv1 hst1
    refine ⟨loopBody_adjusts hsearch, (smallestUncoveredValue_attained hinv1 hst1).1, hiff,
      ?_, ?_, hfit s hs hlt s1 hsearch,
      fun r c hr hc => adjust_fits hinv1.cost_square (hfit s hs hlt s1 hsearch) hr hc⟩
    · intro e
      rcases hprog with ⟨_, hno⟩ | hgt
      · rw [e]
        rw [e] at hiff
        exact ⟨hno, hiff.mpr hno⟩
      · rw [e] at hgt; omega
    · intro huz
      rcases hprog with ⟨e, hno⟩ | hgt
      · rw [e] at huz; exact absurd huz hno
      · exact hgt

/-- Claim C23: in a run on a valid matrix that stays within the type `int`, in a pass that
takes the adjustment branch δ is the least value among the cells whose row and column are
uncovered, every cell `(r, c)` becomes `old(r, c) + δ·[row r covered] − δ·[column c uncovered]`
(doubly covered cells gain δ, doubly uncovered cells lose δ, the others keep their value), and
the mark grid, the two covers and the covered-column count are left as they were. The sums and
differences formed on the way and the entries of the adjusted matrix are values of `int`. -/
theorem adjustment_step_formula (n pathFuel : Nat) (C Z : Matrix Int) (hC : ValidCost n C)
    (hZ : Matrix.filled n n (0 : Int) = Except.ok Z)
    (hfit : RunFits n pathFuel (initialState C Z n)) :
    ∀ s, LoopState n pathFuel (initialState C Z n) s → s.numberOfCoveredColumns < n →
      ∀ s1, search n s = (s1, none) →
        loopBody n pathFuel s = Except.ok (adjust n s1) ∧
        IsLeast {x | ∃ r c, r < n ∧ c < n ∧ s1.isRowCurrentlyCovered.getD r false = false ∧
            s1.isColumnCurrentlyCovered.getD c false = false ∧ x = s1.costMatrix.get r c}
          (smallestUncoveredValue n s1) ∧
        (∀ r c, r < n → c < n →
          (adjust n s1).costMatrix.get r c =
            s1.costMatrix.get r c
              + (if s1.isRowCurrentlyCovered.getD r false = true then
                  smallestUncoveredValue n s1 else 0)
              - (if s1.isColumnCurrentlyCovered.getD c false = false then
                  smallestUncoveredValue n s1 else 0)) ∧
        (∀ r c, r < n → c < n → s1.isRowCurrentlyCovered.getD r false = true →
          s1.isColumnCurrentlyCovered.getD c false = true →
          (adjust n s1).costMatrix.get r c =
            s1.costMatrix.get r c + smallestUncoveredValue n s1) ∧
        (∀ r c, r < n → c < n → s1.isRowCurrentlyCovered.getD r false = false →
          s1.isColumnCurrentlyCovered.getD c false = false →
          (adjust n s1).costMatrix.get r c =
            s1.costMatrix.get r c - smallestUncoveredValue n s1) ∧
        (∀ r c, r < n → c < n →
          (s1.isRowCurrentlyCovered.getD r false = true ↔
            s1.isColumnCurrentlyCovered.getD c false = false) →
          (adjust n s1).costMatrix.get r c = s1.costMatrix.get r c) ∧
        (adjust n s1).zeroMarkMatrix = s1.zeroMarkMatrix ∧
        (adjust n s1).isRowCurrentlyCovered = s1.isRowCurrentlyCovered ∧
        (adjust n s1).isColumnCurrentlyCovered = s1.isColumnCurrentlyCovered ∧
        (adjust n s1).numberOfCoveredColumns = s1.numberOfCoveredColumns ∧
        AdjustFits n s1 ∧
        ∀ r c, r < n → c < n → FitsInt ((adjust n s1).costMatrix.get r c) := by
  have hn : 0 < n := by
    rcases Nat.eq_zero_or_pos n with e | e
    · subst e; simp [Matrix.filled] at hZ
    · exact e
  obtain ⟨Z', hZ', hZsq, hZ0⟩ := filled_square hn hC.2.1 (0 : Int)
  rw [hZ] at hZ'
  have hZeq : Z = Z' := Except.ok.inj hZ'
  subst hZeq
  have hinv0 : Inv n C (initialState C Z n) :=
    initialState_inv hC.1 hZsq hZ0 (fun r c hr hc => reduce_le_of_valid hn hC hr hc)
  intro s hs hlt s1 hsearch
  have hinv := loopState_inv hinv0 hs
  obtain ⟨hinv1, hst1, _, _⟩ := search_none_spec hinv hlt hsearch
  obtain ⟨_, dle, r1, c1, hr1, hc1, hrow1, hcol1, datt⟩ :=
    smallestUncoveredValue_attained hinv1 hst1
  obtain ⟨_, aget⟩ := adjustMatrix_spec s1 (smallestUncoveredValue n s1) hinv1.cost_square
  have bcase : ∀ b : Bool, b = true ∨ b = false := fun b => by cases b <;> simp
  refine ⟨loopBody_adjusts hsearch, ⟨⟨r1, c1, hr1, hc1, hrow1, hcol1, datt⟩, ?_⟩,
    aget, ?_, ?_, ?_, rfl, rfl, rfl, rfl, hfit s hs hlt s1 hsearch,
    fun r c hr hc => adjust_fits hinv1.cost_square (hfit s hs hlt s1 hsearch) hr hc⟩
  · rintro x ⟨r, c, hr, hc, hrow, hcol, rfl⟩
    exact dle r c hr hc hrow hcol
  · intro r c hr hc hrow hcol
    show (adjustMatrix n s1 (smallestUncoveredValue n s1)).get r c = _
    rw [aget r c hr hc, hrow, hcol]
    simp
  · intro r c hr hc hrow hcol
    show (adjustMatrix n s1 (smallestUncoveredValue n s1)).get r c = _
    rw [aget r c hr hc, hrow, hcol]
    simp
  · intro r c hr hc hiff
    show (adjustMatrix n s1 (smallestUncoveredValue n s1)).get r c = _
    rw [aget r c hr hc]
    rcases bcase (s1.isRowCurrentlyCovered.getD r false) with e1 | e1
    · have e2 := hiff.mp e1
      rw [e1, e2]; simp
    · have e2 : s1.isColumnCurrentlyCovered.getD c false = true := by
        rcases bcase (s1.isColumnCurrentlyCovered.getD c false) with e | e
        · exact e
        · have := hiff.mpr e
          rw [e1] at this
          exact Bool.noConfusion this
      rw [e1, e2]; simp

/-- Claim C24, amended: after every adjustment step of a run on a valid square matrix that
stays within the type `int`, some cell whose row and column are uncovered holds 0. When the
computed value δ is positive, which is the case exactly when no such cell held 0 before the
step, the step makes a new zero appear among these cells; when δ is 0 the step changes no
cell. The adjusted matrix holds values of `int`. -/
theorem adjustment_new_zero_when_delta_positive (n pathFuel : Nat) (C Z : Matrix Int)
    (hC : ValidCost n C) (hZ : Matrix.filled n n (0 : Int) = Except.ok Z)
    (hfit : RunFits n pathFuel (initialState C Z n)) :
    ∀ s, LoopState n pathFuel (initialState C Z n) s → s.numberOfCoveredColumns < n →
      ∀ s1, search n s = (s1, none) →
        HasUncoveredZero n (adjust n s1) ∧
        (0 < smallestUncoveredValue n s1 ↔ ¬ HasUncoveredZero n s1) ∧
        (0 < smallestUncoveredValue n s1 →
          ∃ r c, r < n ∧ c < n ∧ (adjust n s1).isRowCurrentlyCovered.getD r false = false ∧
            (adjust n s1).isColumnCurrentlyCovered.getD c false = false ∧
            (adjust n s1).costMatrix.get r c = 0 ∧ s1.costMatrix.get r c ≠ 0) ∧
        (smallestUncoveredValue n s1 = 0 → adjust n s1 = s1) ∧
        AdjustFits n s1 ∧
        ∀ r c, r < n → c < n → FitsInt ((adjust n s1).costMatrix.get r c) := by
  have hn : 0 < n := by
    rcases Nat.eq_zero_or_pos n with e | e
    · subst e; simp [Matrix.filled] at hZ
    · exact e
  obtain ⟨Z', hZ', hZsq, hZ0⟩ := filled_square hn hC.2.1 (0 : Int)
  rw [hZ] at hZ'
  have hZeq : Z = Z' := Except.ok.inj hZ'
  subst hZeq
  have hinv0 : Inv n C (initialState C Z n) :=
    initialState_inv hC.1 hZsq hZ0 (fun r c hr hc => reduce_le_of_valid hn hC hr hc)
  intro s hs hlt s1 hsearch
  have hinv := loopState_inv hinv0 hs
  obtain ⟨hinv1, hst1, _, _⟩ := search_none_spec hinv hlt hsearch
  obtain ⟨_, dle, r1, c1, hr1, hc1, hrow1, hcol1, datt⟩ :=
    smallestUncoveredValue_attained hinv1 hst1
  obtain ⟨asq, aget⟩ := adjustMatrix_spec s1 (smallestUncoveredValue n s1) hinv1.cost_square
  refine ⟨(adjust_inv hinv1 hst1).2, delta_pos_iff hinv1 hst1, ?_, ?_,
    hfit s hs hlt s1 hsearch,
    fun r c hr hc => adjust_fits hinv1.cost_square (hfit s hs hlt s1 hsearch) hr hc⟩
  · intro hpos
    refine ⟨r1, c1, hr1, hc1, hrow1, hcol1, ?_, by omega⟩
    show (adjustMatrix n s1 (smallestUncoveredValue n s1)).get r1 c1 = 0
    rw [aget r1 c1 hr1 hc1, hrow1, hcol1]
    simp only [Bool.false_eq_true, if_false, if_true]
    omega
  · intro hzero
    have hm : adjustMatrix n s1 (smallestUncoveredValue n s1) = s1.costMatrix := by
      apply matrix_ext asq hinv1.cost_square
      intro r c hr hc
      rw [aget r c hr hc, hzero]
      simp
    unfold adjust
    rw [hm]

/-- Claim C25: an adjustment step that stays within the type `int`, with value δ on a state
with `a` covered rows and `u` uncovered columns, adds `δ·(a − u)` to the cost of every
permutation, so the differences of permutation costs, and with them the cost-minimal
permutations of the working matrix, are the same before and after the step. The adjusted
matrix holds values of `int`. -/
theorem adjustment_preserves_minimal_permutations (n : Nat) (s : State)
    (hsq : Square n s.costMatrix) (hfit : AdjustFits n s) :
    (∀ σ : Equiv.Perm (Fin n),
      permutationCost (adjust n s).costMatrix σ =
        permutationCost s.costMatrix σ +
          smallestUncoveredValue n s *
            (((coveredRows n s.isRowCurrentlyCovered).card : Int) -
              ((uncoveredColumns n s.isColumnCurrentlyCovered).card : Int))) ∧
      (∀ σ : Equiv.Perm (Fin n),
        ((∀ τ : Equiv.Perm (Fin n),
            permutationCost s.costMatrix σ ≤ permutationCost s.costMatrix τ) ↔
          ∀ τ : Equiv.Perm (Fin n),
            permutationCost (adjust n s).costMatrix σ ≤
              permutationCost (adjust n s).costMatrix τ)) ∧
      ∀ r c, r < n → c < n → FitsInt ((adjust n s).costMatrix.get r c) := by
  obtain ⟨_, aget⟩ := adjustMatrix_spec s (smallestUncoveredValue n s) hsq
  have shift : ∀ σ : Equiv.Perm (Fin n),
      permutationCost (adjust n s).costMatrix σ =
        permutationCost s.costMatrix σ +
          smallestUncoveredValue n s *
            (((coveredRows n s.isRowCurrentlyCovered).card : Int) -
              ((uncoveredColumns n s.isColumnCurrentlyCovered).card : Int)) := by
    intro σ
    have hcell : ∀ r : Fin n,
        (adjust n s).costMatrix.get r.val (σ r).val =
          s.costMatrix.get r.val (σ r).val
            + (if s.isRowCurrentlyCovered.getD r.val false = true then
                smallestUncoveredValue n s else 0)
            - (if s.isColumnCurrentlyCovered.getD (σ r).val false = false then
                smallestUncoveredValue n s else 0) :=
      fun r => aget r.val (σ r).val r.isLt (σ r).isLt
    unfold permutationCost
    rw [Finset.sum_congr rfl (fun r _ => hcell r), Finset.sum_sub_distrib,
      Finset.sum_add_distrib]
    have hcols : (∑ r : Fin n, if s.isColumnCurrentlyCovered.getD (σ r).val false = false then
        smallestUncoveredValue n s else 0) =
        ∑ c : Fin n, if s.isColumnCurrentlyCovered.getD c.val false = false then
          smallestUncoveredValue n s else 0 :=
      Equiv.sum_comp σ (fun c : Fin n =>
        if s.isColumnCurrentlyCovered.getD c.val false = false then
          smallestUncoveredValue n s else 0)
    rw [hcols,
      sum_fin_indicator n (fun r => s.isRowCurrentlyCovered.getD r false = true),
      sum_fin_indicator n (fun c => s.isColumnCurrentlyCovered.getD c false = false)]
    unfold coveredRows uncoveredColumns
    ring
  refine ⟨shift, ?_, fun r c hr hc => adjust_fits hsq hfit hr hc⟩
  intro σ
  constructor
  · intro h τ
    rw [shift σ, shift τ]
    have := h τ
    omega
  · intro h τ
    have := h τ
    rw [shift σ, shift τ] at this
    omega

/-- Claim C38: in a run on a square integer matrix that stays within the type `int`, every
entry of the working cost matrix is non-negative (and at most `INT_MAX`) after the reduction
phase, at every evaluation of the main loop condition and after every adjustment step; the
adjustment value itself is never negative. No assumption on the sign of the input entries is
used. -/
theorem working_matrix_nonneg (n pathFuel : Nat) (C Z : Matrix Int) (hC : Square n C)
    (hred : ReductionFits n C) (hfit : RunFits n pathFuel (initialState C Z n)) :
    (initialState C Z n).costMatrix = reduce C n ∧
    (∀ r c, r < n → c < n → 0 ≤ (reduce C n).get r c ∧ (reduce C n).get r c ≤ INT_MAX) ∧
    ∀ s, LoopState n pathFuel (initialState C Z n) s →
      (∀ r c, r < n → c < n → 0 ≤ s.costMatrix.get r c ∧ s.costMatrix.get r c ≤ INT_MAX) ∧
      (s.numberOfCoveredColumns < n → ∀ s1, search n s = (s1, none) →
        loopBody n pathFuel s = Except.ok (adjust n s1) ∧
        0 ≤ smallestUncoveredValue n s1 ∧
        ∀ r c, r < n → c < n →
          0 ≤ (adjust n s1).costMatrix.get r c ∧ (adjust n s1).costMatrix.get r c ≤ INT_MAX) := by
  have h0 : ∀ r c, r < n → c < n → 0 ≤ (reduce C n).get r c ∧ (reduce C n).get r c ≤ INT_MAX :=
    fun r c hr hc => ⟨reduce_nonneg hC hr hc, (reduction_fits hC hred hr hc).2.2⟩
  have hall := runFits_states (reduce_square hC) h0 hfit
  refine ⟨rfl, h0, ?_⟩
  intro s hs
  obtain ⟨hsq, hnn⟩ := hall s hs
  refine ⟨hnn, ?_⟩
  intro hlt s1 hsearch
  have hbody := @loopBody_adjusts n pathFuel s s1 hsearch
  have hk := (searchUpTo_keeps n s n).2
  have e : searchUpTo n s n = search n s := rfl
  rw [e, hsearch] at hk
  simp only at hk
  rw [← hk] at hsq hnn
  obtain ⟨h1, _, _⟩ := adjust_nonneg hsq (fun r c hr hc => (hnn r c hr hc).1)
  exact ⟨hbody, h1, (hall _ (LoopState.pass hs hlt hbody)).2⟩

/-! ## The value-dependent statements at concrete inputs -/

theorem shifted_scenario_valid : ValidCost 3 ⟨3, 3, [2, 3, 4, 2, 4, 6, 3, 6, 9]⟩ := by
  refine ⟨⟨rfl, rfl, rfl⟩, by decide, ?_⟩
  intro r c hr hc
  interval_cases r <;> interval_cases c <;> simp [Matrix.get, INT_MAX]

theorem shifted_scenario_relation :
    ∀ r c, r < 3 → c < 3 →
      (⟨3, 3, [2, 3, 4, 2, 4, 6, 3, 6, 9]⟩ : Matrix Int).get r c =
        (⟨3, 3, [1, 2, 3, 2, 4, 6, 3, 6, 9]⟩ : Matrix Int).get r c + if r = 0 then 1 else 0 := by
  intro r c hr hc
  interval_cases r <;> interval_cases c <;> simp [Matrix.get]

/-- Raising row 0 of `[[1,2,3],[2,4,6],[3,6,9]]` by 1 leaves the reduced matrix as it is, so
the run is the same. -/
theorem shifted_scenario_run_fits :
    RunFits 3 31 (initialState ⟨3, 3, [2, 3, 4, 2, 4, 6, 3, 6, 9]⟩
      ⟨3, 3, [0, 0, 0, 0, 0, 0, 0, 0, 0]⟩ 3) := by
  have e : initialState ⟨3, 3, [2, 3, 4, 2, 4, 6, 3, 6, 9]⟩
      ⟨3, 3, [0, 0, 0, 0, 0, 0, 0, 0, 0]⟩ 3 =
      initialState ⟨3, 3, [1, 2, 3, 2, 4, 6, 3, 6, 9]⟩ ⟨3, 3, [0, 0, 0, 0, 0, 0, 0, 0, 0]⟩ 3 := by
    rfl
  rw [e]
  exact scenario_run_fits

/-- A square matrix with negative entries whose reduction stays within `int`. -/
theorem signed_example_fits :
    ReductionFits 3 (⟨3, 3, [-4, -3, -2, 2, 4, 6, 3, 6, 9]⟩ : Matrix Int) := by
  intro r c hr hc
  interval_cases r <;> interval_cases c <;> decide

/-- Lowering row 0 of `[[1,2,3],[2,4,6],[3,6,9]]` by 5 leaves the reduced matrix as it is, so
the run is the same. -/
theorem signed_example_run_fits :
    RunFits 3 31 (initialState ⟨3, 3, [-4, -3, -2, 2, 4, 6, 3, 6, 9]⟩
      ⟨3, 3, [0, 0, 0, 0, 0, 0, 0, 0, 0]⟩ 3) := by
  have e : initialState ⟨3, 3, [-4, -3, -2, 2, 4, 6, 3, 6, 9]⟩
      ⟨3, 3, [0, 0, 0, 0, 0, 0, 0, 0, 0]⟩ 3 =
      initialState ⟨3, 3, [1, 2, 3, 2, 4, 6, 3, 6, 9]⟩ ⟨3, 3, [0, 0, 0, 0, 0, 0, 0, 0, 0]⟩ 3 := by
    rfl
  rw [e]
  exact scenario_run_fits

theorem small_adjust_fits :
    AdjustFits 2 ⟨⟨2, 2, [0, 1, 2, 1]⟩, ⟨2, 2, [1, 0, 0, 0]⟩, [true, false], [false, false],
      1⟩ := by
  intro r c hr hc
  interval_cases r <;> interval_cases c <;> decide

theorem run_munkres_algorithm_cost_is_minimum_witness :
    (0 < 3 ∧ ValidCost 3 ⟨3, 3, [1, 2, 3, 2, 4, 6, 3, 6, 9]⟩ ∧
      Matrix.filled 3 3 (0 : Int) = Except.ok ⟨3, 3, [0, 0, 0, 0, 0, 0, 0, 0, 0]⟩ ∧
      RunFits 3 31 (initialState ⟨3, 3, [1, 2, 3, 2, 4, 6, 3, 6, 9]⟩
        ⟨3, 3, [0, 0, 0, 0, 0, 0, 0, 0, 0]⟩ 3) ∧
      2 * 3 * 3 + 4 * 3 + 1 ≤ 31) ∧
      ∃ R, run_munkres_algorithm 31 ⟨3, 3, [1, 2, 3, 2, 4, 6, 3, 6, 9]⟩ = Except.ok R ∧
        IsLeast
          (Set.range (fun σ : Equiv.Perm (Fin 3) =>
            permutationCost ⟨3, 3, [1, 2, 3, 2, 4, 6, 3, 6, 9]⟩ σ))
          (selectedCost 3 ⟨3, 3, [1, 2, 3, 2, 4, 6, 3, 6, 9]⟩ R) :=
  ⟨⟨by decide, scenario_valid, rfl, scenario_run_fits, by decide⟩,
    (run_munkres_algorithm_cost_is_minimum 3 31 ⟨3, 3, [1, 2, 3, 2, 4, 6, 3, 6, 9]⟩
      ⟨3, 3, [0, 0, 0, 0, 0, 0, 0, 0, 0]⟩ (by decide) scenario_valid rfl scenario_run_fits
      (by decide)).1⟩

theorem row_or_column_shift_keeps_optimum_witness :
    (0 < 3 ∧ 0 < 3 ∧ ValidCost 3 ⟨3, 3, [1, 2, 3, 2, 4, 6, 3, 6, 9]⟩ ∧
      ValidCost 3 ⟨3, 3, [2, 3, 4, 2, 4, 6, 3, 6, 9]⟩ ∧
      (∀ r c, r < 3 → c < 3 →
        (⟨3, 3, [2, 3, 4, 2, 4, 6, 3, 6, 9]⟩ : Matrix Int).get r c =
          (⟨3, 3, [1, 2, 3, 2, 4, 6, 3, 6, 9]⟩ : Matrix Int).get r c +
            if r = 0 then 1 else 0) ∧
      Matrix.filled 3 3 (0 : Int) = Except.ok ⟨3, 3, [0, 0, 0, 0, 0, 0, 0, 0, 0]⟩ ∧
      RunFits 3 31 (initialState ⟨3, 3, [1, 2, 3, 2, 4, 6, 3, 6, 9]⟩
        ⟨3, 3, [0, 0, 0, 0, 0, 0, 0, 0, 0]⟩ 3) ∧
      RunFits 3 31 (initialState ⟨3, 3, [2, 3, 4, 2, 4, 6, 3, 6, 9]⟩
        ⟨3, 3, [0, 0, 0, 0, 0, 0, 0, 0, 0]⟩ 3) ∧
      2 * 3 * 3 + 4 * 3 + 1 ≤ 31) ∧
      ∃ R R', run_munkres_algorithm 31 ⟨3, 3, [1, 2, 3, 2, 4, 6, 3, 6, 9]⟩ = Except.ok R ∧
        run_munkres_algorithm 31 ⟨3, 3, [2, 3, 4, 2, 4, 6, 3, 6, 9]⟩ = Except.ok R' ∧
        IsPermutationMatrix 3 R' ∧
        IsLeast
          (Set.range (fun σ : Equiv.Perm (Fin 3) =>
            permutationCost ⟨3, 3, [1, 2, 3, 2, 4, 6, 3, 6, 9]⟩ σ))
          (selectedCost 3 ⟨3, 3, [1, 2, 3, 2, 4, 6, 3, 6, 9]⟩ R') ∧
        selectedCost 3 ⟨3, 3, [2, 3, 4, 2, 4, 6, 3, 6, 9]⟩ R' =
          selectedCost 3 ⟨3, 3, [1, 2, 3, 2, 4, 6, 3, 6, 9]⟩ R + 1 :=
  ⟨⟨by decide, by decide, scenario_valid, shifted_scenario_valid, shifted_scenario_relation,
      rfl, scenario_run_fits, shifted_scenario_run_fits, by decide⟩,
    (row_or_column_shift_keeps_optimum 3 31 ⟨3, 3, [1, 2, 3, 2, 4, 6, 3, 6, 9]⟩
      ⟨3, 3, [2, 3, 4, 2, 4, 6, 3, 6, 9]⟩ ⟨3, 3, [0, 0, 0, 0, 0, 0, 0, 0, 0]⟩ 0 1
      (by decide) (by decide) scenario_valid shifted_scenario_valid
      (Or.inl shifted_scenario_relation) rfl scenario_run_fits shifted_scenario_run_fits
      (by decide)).1⟩

theorem reduction_postcondition_witness :
    (0 < 3 ∧ Square 3 ⟨3, 3, [-4, -3, -2, 2, 4, 6, 3, 6, 9]⟩ ∧
      ReductionFits 3 ⟨3, 3, [-4, -3, -2, 2, 4, 6, 3, 6, 9]⟩) ∧
      ((∀ r c, r < 3 → c < 3 →
          0 ≤ (reduce ⟨3, 3, [-4, -3, -2, 2, 4, 6, 3, 6, 9]⟩ 3).get r c) ∧
        (∀ r, r < 3 → ∃ c, c < 3 ∧
          (reduce ⟨3, 3, [-4, -3, -2, 2, 4, 6, 3, 6, 9]⟩ 3).get r c = 0) ∧
        (∀ c, c < 3 → ∃ r, r < 3 ∧
          (reduce ⟨3, 3, [-4, -3, -2, 2, 4, 6, 3, 6, 9]⟩ 3).get r c = 0)) :=
  ⟨⟨by decide, ⟨rfl, rfl, rfl⟩, signed_example_fits⟩, by
    obtain ⟨_, h2, h3, h4, _⟩ :=
      reduction_postcondition 3 ⟨3, 3, [-4, -3, -2, 2, 4, 6, 3, 6, 9]⟩
        ⟨3, 3, [0, 0, 0, 0, 0, 0, 0, 0, 0]⟩ (by decide) ⟨rfl, rfl, rfl⟩ signed_example_fits
    exact ⟨h2, h3, h4⟩⟩

theorem reduction_preserves_optimal_assignment_witness :
    (Square 3 ⟨3, 3, [-4, -3, -2, 2, 4, 6, 3, 6, 9]⟩ ∧
      ReductionFits 3 ⟨3, 3, [-4, -3, -2, 2, 4, 6, 3, 6, 9]⟩) ∧
      ∀ σ : Equiv.Perm (Fin 3),
        permutationCost (reduce ⟨3, 3, [-4, -3, -2, 2, 4, 6, 3, 6, 9]⟩ 3) σ =
          permutationCost ⟨3, 3, [-4, -3, -2, 2, 4, 6, 3, 6, 9]⟩ σ -
            reductionConstant 3 ⟨3, 3, [-4, -3, -2, 2, 4, 6, 3, 6, 9]⟩ :=
  ⟨⟨⟨rfl, rfl, rfl⟩, signed_example_fits⟩,
    (reduction_preserves_optimal_assignment 3 ⟨3, 3, [-4, -3, -2, 2, 4, 6, 3, 6, 9]⟩
      ⟨rfl, rfl, rfl⟩ signed_example_fits).1⟩

theorem reduction_equals_reference_witness :
    (0 < 3 ∧ Square 3 ⟨3, 3, [-4, -3, -2, 2, 4, 6, 3, 6, 9]⟩ ∧
      ReductionFits 3 ⟨3, 3, [-4, -3, -2, 2, 4, 6, 3, 6, 9]⟩) ∧
      (reduceRows ⟨3, 3, [-4, -3, -2, 2, 4, 6, 3, 6, 9]⟩ 3 =
          referenceRowReduced ⟨3, 3, [-4, -3, -2, 2, 4, 6, 3, 6, 9]⟩ 3 ∧
        reduce ⟨3, 3, [-4, -3, -2, 2, 4, 6, 3, 6, 9]⟩ 3 =
          referenceReduced ⟨3, 3, [-4, -3, -2, 2, 4, 6, 3, 6, 9]⟩ 3) :=
  ⟨⟨by decide, ⟨rfl, rfl, rfl⟩, signed_example_fits⟩, by
    obtain ⟨h1, h2, _⟩ :=
      reduction_equals_reference 3 ⟨3, 3, [-4, -3, -2, 2, 4, 6, 3, 6, 9]⟩
        ⟨3, 3, [0, 0, 0, 0, 0, 0, 0, 0, 0]⟩ (by decide) ⟨rfl, rfl, rfl⟩ signed_example_fits
    exact ⟨h1, h2⟩⟩

theorem adjustment_delta_sign_witness :
    (ValidCost 3 (⟨3, 3, [0, 1, 1, 0, 1, 1, 0, 0, 0]⟩ : Matrix Int) ∧
      Matrix.filled 3 3 (0 : Int) = Except.ok ⟨3, 3, [0, 0, 0, 0, 0, 0, 0, 0, 0]⟩ ∧
      RunFits 3 5 (initialState ⟨3, 3, [0, 1, 1, 0, 1, 1, 0, 0, 0]⟩
        ⟨3, 3, [0, 0, 0, 0, 0, 0, 0, 0, 0]⟩ 3)) ∧
    (0 ≤ smallestUncoveredValue 3 ⟨⟨3, 3, [0, 1, 1, 0, 1, 1, 0, 0, 0]⟩,
        ⟨3, 3, [1, 0, 0, 0, 0, 0, 0, 1, 2]⟩, [false, false, true], [true, false, false], 2⟩ ∧
      (0 < smallestUncoveredValue 3 ⟨⟨3, 3, [0, 1, 1, 0, 1, 1, 0, 0, 0]⟩,
          ⟨3, 3, [1, 0, 0, 0, 0, 0, 0, 1, 2]⟩, [false, false, true], [true, false, false], 2⟩ ↔
        ¬ HasUncoveredZero 3 ⟨⟨3, 3, [0, 1, 1, 0, 1, 1, 0, 0, 0]⟩,
          ⟨3, 3, [1, 0, 0, 0, 0, 0, 0, 1, 2]⟩, [false, false, true], [true, false, false], 2⟩)) :=
  ⟨⟨adjust_example_valid, rfl, adjust_example_run_fits⟩, by
    obtain ⟨_, h2, h3, _⟩ :=
      (adjustment_delta_sign 3 5 ⟨3, 3, [0, 1, 1, 0, 1, 1, 0, 0, 0]⟩
        ⟨3, 3, [0, 0, 0, 0, 0, 0, 0, 0, 0]⟩ adjust_example_valid rfl adjust_example_run_fits
        _ LoopState.start (by decide)).2.2 _ adjust_example_search
    exact ⟨h2, h3⟩⟩

theorem adjustment_step_formula_witness :
    (ValidCost 3 (⟨3, 3, [0, 1, 1, 0, 1, 1, 0, 0, 0]⟩ : Matrix Int) ∧
      Matrix.filled 3 3 (0 : Int) = Except.ok ⟨3, 3, [0, 0, 0, 0, 0, 0, 0, 0, 0]⟩ ∧
      RunFits 3 5 (initialState ⟨3, 3, [0, 1, 1, 0, 1, 1, 0, 0, 0]⟩
        ⟨3, 3, [0, 0, 0, 0, 0, 0, 0, 0, 0]⟩ 3)) ∧
    (IsLeast {x | ∃ r c, r < 3 ∧ c < 3 ∧
          [false, false, true].getD r false = false ∧
          [true, false, false].getD c false = false ∧
          x = (⟨3, 3, [0, 1, 1, 0, 1, 1, 0, 0, 0]⟩ : Matrix Int).get r c}
        (smallestUncoveredValue 3 ⟨⟨3, 3, [0, 1, 1, 0, 1, 1, 0, 0, 0]⟩,
          ⟨3, 3, [1, 0, 0, 0, 0, 0, 0, 1, 2]⟩, [false, false, true], [true, false, false], 2⟩) ∧
      (adjust 3 ⟨⟨3, 3, [0, 1, 1, 0, 1, 1, 0, 0, 0]⟩,
          ⟨3, 3, [1, 0, 0, 0, 0, 0, 0, 1, 2]⟩, [false, false, true], [true, false, false],
          2⟩).zeroMarkMatrix = ⟨3, 3, [1, 0, 0, 0, 0, 0, 0, 1, 2]⟩) :=
  ⟨⟨adjust_example_valid, rfl, adjust_example_run_fits⟩, by
    obtain ⟨_, h2, _, _, _, _, h7, _⟩ :=
      adjustment_step_formula 3 5 ⟨3, 3, [0, 1, 1, 0, 1, 1, 0, 0, 0]⟩
        ⟨3, 3, [0, 0, 0, 0, 0, 0, 0, 0, 0]⟩ adjust_example_valid rfl adjust_example_run_fits
        _ LoopState.start (by decide) _ adjust_example_search
    exact ⟨h2, h7⟩⟩

theorem adjustment_new_zero_when_delta_positive_witness :
    (ValidCost 3 (⟨3, 3, [0, 1, 1, 0, 1, 1, 0, 0, 0]⟩ : Matrix Int) ∧
      Matrix.filled 3 3 (0 : Int) = Except.ok ⟨3, 3, [0, 0, 0, 0, 0, 0, 0, 0, 0]⟩ ∧
      RunFits 3 5 (initialState ⟨3, 3, [0, 1, 1, 0, 1, 1, 0, 0, 0]⟩
        ⟨3, 3, [0, 0, 0, 0, 0, 0, 0, 0, 0]⟩ 3)) ∧
    ∃ r c, r < 3 ∧ c < 3 ∧ [false, false, true].getD r false = false ∧
      [true, false, false].getD c false = false ∧
      (adjust 3 ⟨⟨3, 3, [0, 1, 1, 0, 1, 1, 0, 0, 0]⟩,
        ⟨3, 3, [1, 0, 0, 0, 0, 0, 0, 1, 2]⟩, [false, false, true], [true, false, false],
        2⟩).costMatrix.get r c = 0 ∧
      (⟨3, 3, [0, 1, 1, 0, 1, 1, 0, 0, 0]⟩ : Matrix Int).get r c ≠ 0 :=
  ⟨⟨adjust_example_valid, rfl, adjust_example_run_fits⟩,
    (adjustment_new_zero_when_delta_positive 3 5 ⟨3, 3, [0, 1, 1, 0, 1, 1, 0, 0, 0]⟩
      ⟨3, 3, [0, 0, 0, 0, 0, 0, 0, 0, 0]⟩ adjust_example_valid rfl adjust_example_run_fits
      _ LoopState.start (by decide) _ adjust_example_search).2.2.1 (by decide)⟩

theorem adjustment_preserves_minimal_permutations_witness :
    (Square 2 (⟨⟨2, 2, [0, 1, 2, 1]⟩, ⟨2, 2, [1, 0, 0, 0]⟩, [true, false], [false, false],
        1⟩ : State).costMatrix ∧
      AdjustFits 2 ⟨⟨2, 2, [0, 1, 2, 1]⟩, ⟨2, 2, [1, 0, 0, 0]⟩, [true, false], [false, false],
        1⟩) ∧
    ∀ σ : Equiv.Perm (Fin 2),
      permutationCost (adjust 2 ⟨⟨2, 2, [0, 1, 2, 1]⟩, ⟨2, 2, [1, 0, 0, 0]⟩, [true, false],
          [false, false], 1⟩).costMatrix σ =
        permutationCost (⟨2, 2, [0, 1, 2, 1]⟩ : Matrix Int) σ +
          smallestUncoveredValue 2 ⟨⟨2, 2, [0, 1, 2, 1]⟩, ⟨2, 2, [1, 0, 0, 0]⟩, [true, false],
              [false, false], 1⟩ *
            (((coveredRows 2 [true, false]).card : Int) -
              ((uncoveredColumns 2 [false, false]).card : Int)) :=
  ⟨⟨⟨rfl, rfl, rfl⟩, small_adjust_fits⟩,
    (adjustment_preserves_minimal_permutations 2
      ⟨⟨2, 2, [0, 1, 2, 1]⟩, ⟨2, 2, [1, 0, 0, 0]⟩, [true, false], [false, false], 1⟩
      ⟨rfl, rfl, rfl⟩ small_adjust_fits).1⟩

theorem working_matrix_nonneg_witness :
    (Square 3 (⟨3, 3, [-4, -3, -2, 2, 4, 6, 3, 6, 9]⟩ : Matrix Int) ∧
      ReductionFits 3 ⟨3, 3, [-4, -3, -2, 2, 4, 6, 3, 6, 9]⟩ ∧
      RunFits 3 31 (initialState ⟨3, 3, [-4, -3, -2, 2, 4, 6, 3, 6, 9]⟩
        ⟨3, 3, [0, 0, 0, 0, 0, 0, 0, 0, 0]⟩ 3)) ∧
    ∀ s, LoopState 3 31 (initialState ⟨3, 3, [-4, -3, -2, 2, 4, 6, 3, 6, 9]⟩
        ⟨3, 3, [0, 0, 0, 0, 0, 0, 0, 0, 0]⟩ 3) s →
      ∀ r c, r < 3 → c < 3 → 0 ≤ s.costMatrix.get r c ∧ s.costMatrix.get r c ≤ INT_MAX :=
  ⟨⟨⟨rfl, rfl, rfl⟩, signed_example_fits, signed_example_run_fits⟩,
    fun s hs =>
      ((working_matrix_nonneg 3 31 ⟨3, 3, [-4, -3, -2, 2, 4, 6, 3, 6, 9]⟩
        ⟨3, 3, [0, 0, 0, 0, 0, 0, 0, 0, 0]⟩ ⟨rfl, rfl, rfl⟩ signed_example_fits
        signed_example_run_fits).2.2 s hs).1⟩

/-! ## The solver in memory: what a call leaves unchanged -/

namespace InMemory

theorem foldl_keeps {β ι : Type} (P : β → Prop) (f : β → ι → β) (l : List ι) (b : β)
    (h0 : P b) (hstep : ∀ b i, P b → P (f b i)) : P (l.foldl f b) := by
  induction l generalizing b with
  | nil => exact h0
  | cons i l ih => exact ih _ (hstep b i h0)

theorem prefix_set_of_le {base memory : List (List Int)} (h : base <+: memory) {a : Nat}
    (ha : base.length ≤ a) (x : List Int) : base <+: memory.set a x := by
  obtain ⟨t, rfl⟩ := h
  rw [List.set_append_right _ _ ha]
  exact List.prefix_append _ _

theorem set_extends {base memory : List (List Int)} (m : MatrixObject) (h : base <+: memory)
    (ha : base.length ≤ m.rawData_) (r c : Nat) (v : Int) : base <+: m.set memory r c v :=
  prefix_set_of_le h ha _

theorem subtractFromRow_extends {base memory : List (List Int)} (m : MatrixObject)
    (h : base <+: memory) (ha : base.length ≤ m.rawData_) (n r : Nat) (v : Int) :
    base <+: subtractFromRow memory m n r v :=
  foldl_keeps (fun x => base <+: x) _ _ _ h (fun _ _ hx => set_extends m hx ha _ _ _)

theorem reduceRows_extends {base memory : List (List Int)} (m : MatrixObject)
    (h : base <+: memory) (ha : base.length ≤ m.rawData_) (n : Nat) :
    base <+: reduceRows memory m n :=
  foldl_keeps (fun x => base <+: x) _ _ _ h
    (fun _ _ hx => subtractFromRow_extends m hx ha _ _ _)

theorem subtractFromColumn_extends {base memory : List (List Int)} (m : MatrixObject)
    (h : base <+: memory) (ha : base.length ≤ m.rawData_) (n c : Nat) (v : Int) :
    base <+: subtractFromColumn memory m n c v :=
  foldl_keeps (fun x => base <+: x) _ _ _ h (fun _ _ hx => set_extends m hx ha _ _ _)

theorem reduceColumns_extends {base memory : List (List Int)} (m : MatrixObject)
    (h : base <+: memory) (ha : base.length ≤ m.rawData_) (n : Nat) :
    base <+: reduceColumns memory m n :=
  foldl_keeps (fun x => base <+: x) _ _ _ h
    (fun _ _ hx => subtractFromColumn_extends m hx ha _ _ _)

theorem reduce_extends {base memory : List (List Int)} (m : MatrixObject)
    (h : base <+: memory) (ha : base.length ≤ m.rawData_) (n : Nat) :
    base <+: reduce memory m n :=
  reduceColumns_extends m (reduceRows_extends m h ha n) ha n

theorem starCell_extends {base : List (List Int)} (cost marks : MatrixObject) (r : Nat)
    (acc : List (List Int) × List Bool × List Bool) (c : Nat) (h : base <+: acc.1)
    (ha : base.length ≤ marks.rawData_) : base <+: (starCell cost marks r acc c).1 := by
  unfold starCell
  split
  · exact set_extends marks h ha _ _ _
  · exact h

theorem initialStarring_extends {base memory : List (List Int)} (cost marks : MatrixObject)
    (h : base <+: memory) (ha : base.length ≤ marks.rawData_) (n : Nat) :
    base <+: (initialStarring memory cost marks n).1 :=
  foldl_keeps (fun x : List (List Int) × List Bool × List Bool => base <+: x.1) _ _ _ h
    (fun _ r hx => foldl_keeps
      (fun x : List (List Int) × List Bool × List Bool => base <+: x.1) _ _ _ hx
      (fun acc c hacc => starCell_extends cost marks r acc c hacc ha))

theorem initialState_extends {base memory : List (List Int)} (cost marks : MatrixObject)
    (h : base <+: memory) (hc : base.length ≤ cost.rawData_)
    (hm : base.length ≤ marks.rawData_) (n : Nat) :
    (initialState memory cost marks n).Extends base :=
  ⟨initialStarring_extends cost marks (reduce_extends cost h hc n) hm n, hc, hm⟩

theorem searchRow_extends {base : List (List Int)} (n : Nat) (s : Variables) (r : Nat)
    (h : s.Extends base) : (searchRow n s r).1.Extends base := by
  unfold searchRow
  split
  · split
    · exact h
    · dsimp only
      split
      · exact ⟨set_extends _ h.1 h.2.2 _ _ _, h.2.1, h.2.2⟩
      · exact ⟨set_extends _ h.1 h.2.2 _ _ _, h.2.1, h.2.2⟩
  · exact h

theorem search_extends {base : List (List Int)} (n : Nat) (s : Variables)
    (h : s.Extends base) : (search n s).1.Extends base := by
  refine foldl_keeps (fun x : Variables × Option (Nat × Nat) => x.1.Extends base) _ _ _ h ?_
  intro acc r hacc
  dsimp only
  split
  · exact hacc
  · exact searchRow_extends n acc.1 r hacc

theorem adjustCell_extends {base memory : List (List Int)} (s : Variables) (delta : Int)
    (r c : Nat) (h : base <+: memory) (ha : base.length ≤ s.costMatrix.rawData_) :
    base <+: adjustCell s delta r memory c := by
  unfold adjustCell
  dsimp only
  have h1 : base <+: (if s.isRowCurrentlyCovered.getD r false = true then
      s.costMatrix.set memory r c (s.costMatrix.get memory r c + delta) else memory) := by
    split
    · exact set_extends _ h ha _ _ _
    · exact h
  split
  · exact set_extends _ h1 ha _ _ _
  · exact h1

theorem adjust_extends {base : List (List Int)} (n : Nat) (s : Variables)
    (h : s.Extends base) : (adjust n s).Extends base := by
  refine ⟨?_, h.2.1, h.2.2⟩
  exact foldl_keeps (fun x => base <+: x) _ _ _ h.1
    (fun _ r hx => foldl_keeps (fun x => base <+: x) _ _ _ hx
      (fun _ c hy => adjustCell_extends s _ r c hy h.2.1))

theorem flipPath_extends {base memory : List (List Int)} (marks : MatrixObject)
    (h : base <+: memory) (ha : base.length ≤ marks.rawData_) (path : List (Nat × Nat)) :
    base <+: flipPath memory marks path := by
  refine foldl_keeps (fun x => base <+: x) _ _ _ h ?_
  intro x cell hx
  unfold flipCell
  split
  · exact set_extends _ hx ha _ _ _
  · split
    · exact set_extends _ hx ha _ _ _
    · exact hx

theorem clearPrimes_extends {base memory : List (List Int)} (marks : MatrixObject)
    (h : base <+: memory) (ha : base.length ≤ marks.rawData_) (n : Nat) :
    base <+: clearPrimes memory marks n := by
  refine foldl_keeps (fun x => base <+: x) _ _ _ h
    (fun _ r hx => foldl_keeps (fun x => base <+: x) _ _ _ hx ?_)
  intro x c hy
  dsimp only
  split
  · exact set_extends _ hy ha _ _ _
  · exact hy

theorem augment_extends {base : List (List Int)} (n fuel : Nat) (s : Variables)
    (start : Nat × Nat) (h : s.Extends base) {s1 : Variables}
    (hs1 : augment n fuel s start = Except.ok s1) : s1.Extends base := by
  unfold augment at hs1
  split at hs1
  · exact Except.noConfusion hs1
  · rw [← Except.ok.inj hs1]
    exact ⟨clearPrimes_extends _ (flipPath_extends _ h.1 h.2.2 _) h.2.2 _, h.2.1, h.2.2⟩

theorem loopBody_extends {base : List (List Int)} (n fuel : Nat) (s : Variables)
    (h : s.Extends base) {s1 : Variables} (hs1 : loopBody n fuel s = Except.ok s1) :
    s1.Extends base := by
  unfold loopBody at hs1
  have hsearch := search_extends n s h
  split at hs1
  next x heq =>
    rw [heq] at hsearch
    rw [← Except.ok.inj hs1]
    exact adjust_extends n x hsearch
  next x start heq =>
    rw [heq] at hsearch
    exact augment_extends n fuel x start hsearch hs1

theorem mainLoop_extends {base : List (List Int)} (n pathFuel : Nat) (fuel : Nat)
    (s : Variables) (h : s.Extends base) :
    base <+: (mainLoop n pathFuel fuel s).1 ∧
      ∀ s1, (mainLoop n pathFuel fuel s).2 = Except.ok s1 → s1.Extends base := by
  induction fuel generalizing s with
  | zero =>
    unfold mainLoop
    split
    · exact ⟨h.1, fun s1 hs1 => Except.noConfusion hs1⟩
    · exact ⟨h.1, fun s1 hs1 => by rw [← Except.ok.inj hs1]; exact h⟩
  | succ fuel ih =>
    unfold mainLoop
    split
    · split
      next e he => exact ⟨(search_extends n s h).1, fun s1 hs1 => Except.noConfusion hs1⟩
      next s1 hs1 => exact ih s1 (loopBody_extends n pathFuel s h hs1)
    · exact ⟨h.1, fun s1 hs1 => by rw [← Except.ok.inj hs1]; exact h⟩

theorem construct_extends {base memory : List (List Int)} (h : base <+: memory)
    (rows cols : Nat) (v : Int) :
    base <+: (construct memory rows cols v).1 ∧
      ∀ m, (construct memory rows cols v).2 = Except.ok m →
        m.rawData_ = memory.length ∧ m.nrows = rows ∧ m.ncols = cols := by
  have hp : base <+: memory ++ [List.replicate ((rows * cols) % SIZE_MODULUS) (0 : Int)] :=
    h.trans (List.prefix_append _ _)
  unfold construct allocate
  dsimp only
  split
  · exact ⟨hp, fun m hm => Except.noConfusion hm⟩
  · refine ⟨prefix_set_of_le hp h.length_le _, ?_⟩
    intro m hm
    rw [← Except.ok.inj hm]
    exact ⟨rfl, rfl, rfl⟩

theorem extractAssignment_extends {base memory : List (List Int)}
    (marks result : MatrixObject) (h : base <+: memory) (ha : base.length ≤ result.rawData_)
    (n : Nat) : base <+: extractAssignment memory marks result n := by
  refine foldl_keeps (fun x => base <+: x) _ _ _ h
    (fun _ r hx => foldl_keeps (fun x => base <+: x) _ _ _ hx ?_)
  intro x c hy
  dsimp only
  split
  · exact set_extends _ hy ha _ _ _
  · exact hy

theorem run_extends {base memory : List (List Int)} (fuel : Nat) (cost : MatrixObject)
    (h : base <+: memory) (ha : base.length ≤ cost.rawData_) :
    base <+: (run_munkres_algorithm fuel memory cost).1 := by
  unfold run_munkres_algorithm
  split
  · exact h
  · dsimp only
    obtain ⟨hc1, hc2⟩ := construct_extends h cost.nrows cost.nrows 0
    split
    next memory1 e heq =>
      rw [heq] at hc1
      exact hc1
    next memory1 marks heq =>
      rw [heq] at hc1 hc2
      have hmarks := (hc2 marks rfl).1
      have hinit := initialState_extends cost marks hc1 ha
        (by rw [hmarks]; exact h.length_le) cost.nrows
      obtain ⟨hl1, hl2⟩ := mainLoop_extends cost.nrows fuel fuel _ hinit
      split
      next memory2 e heq2 =>
        rw [heq2] at hl1
        exact hl1
      next memory2 s heq2 =>
        rw [heq2] at hl2
        have hs := hl2 s rfl
        obtain ⟨hr1, hr2⟩ := construct_extends hs.1 cost.nrows cost.nrows 0
        split
        next memory3 e heq3 =>
          rw [heq3] at hr1
          exact hr1
        next memory3 result heq3 =>
          rw [heq3] at hr1 hr2
          refine extractAssignment_extends _ _ hr1 ?_ _
          rw [(hr2 result rfl).1]
          exact hs.1.length_le

theorem callSolve_extends (fuel : Nat) (memory : List (List Int)) (callerMatrix : MatrixObject) :
    memory <+: (callSolve fuel memory callerMatrix).1 := by
  unfold callSolve copyConstruct allocate
  dsimp only
  refine run_extends fuel _ ?_ (le_refl _)
  exact prefix_set_of_le (List.prefix_append _ _) (le_refl _) _

end InMemory

/-! ## The solver in memory computes what the value model computes -/

namespace InMemory

theorem foldl_rel {α β ι : Type} (R : α → β → Prop) (f : α → ι → α) (g : β → ι → β)
    (l : List ι) (a : α) (b : β) (h : R a b)
    (hstep : ∀ a b i, R a b → R (f a i) (g b i)) : R (l.foldl f a) (l.foldl g b) := by
  induction l generalizing a b with
  | nil => exact h
  | cons i l ih => exact ih _ _ (hstep a b i h)

theorem length_set (m : MatrixObject) (memory : List (List Int)) (r c : Nat) (v : Int) :
    (m.set memory r c v).length = memory.length := by
  unfold MatrixObject.set
  exact List.length_set _ _ _

theorem memory_getD_set_same (memory : List (List Int)) {a : Nat} (h : a < memory.length)
    (x : List Int) : (memory.set a x).getD a [] = x := by
  rw [List.getD_eq_getElem?_getD, List.getElem?_set_self h]
  rfl

theorem memory_getD_set_other (memory : List (List Int)) {a b : Nat} (h : a ≠ b) (x : List Int) :
    (memory.set b x).getD a [] = memory.getD a [] := by
  rw [List.getD_eq_getElem?_getD, List.getD_eq_getElem?_getD,
    List.getElem?_set_ne (Ne.symm h)]

theorem value_congr (m : MatrixObject) {x y : List (List Int)}
    (h : x.getD m.rawData_ [] = y.getD m.rawData_ []) : m.value x = m.value y := by
  unfold MatrixObject.value MatrixObject.data
  rw [h]

theorem writes_refl (m : MatrixObject) (memory : List (List Int)) :
    Writes m memory memory (m.value memory) :=
  ⟨rfl, rfl, fun _ _ => rfl⟩

theorem writes_get {m : MatrixObject} {memory0 x : List (List Int)} {X : Matrix Int}
    (h : Writes m memory0 x X) (r c : Nat) : m.get x r c = X.get r c := by
  rw [← h.1]
  rfl

theorem writes_other {m : MatrixObject} {memory0 x : List (List Int)} {X : Matrix Int}
    (h : Writes m memory0 x X) (other : MatrixObject) (hne : other.rawData_ ≠ m.rawData_) :
    other.value x = other.value memory0 :=
  value_congr other (h.2.2 _ hne)

theorem writes_set {m : MatrixObject} {memory0 x : List (List Int)} {X : Matrix Int}
    (h : Writes m memory0 x X) (ha : m.rawData_ < memory0.length) (r c : Nat) (v : Int) :
    Writes m memory0 (m.set x r c v) (X.set r c v) := by
  refine ⟨?_, ?_, ?_⟩
  · rw [← h.1]
    unfold MatrixObject.value Matrix.set MatrixObject.set MatrixObject.data
    rw [memory_getD_set_same x (by rw [h.2.1]; exact ha)]
  · rw [length_set, h.2.1]
  · intro a hne
    rw [← h.2.2 a hne]
    exact memory_getD_set_other x hne _

theorem writes_trans {m : MatrixObject} {memory0 x y : List (List Int)} {X Y : Matrix Int}
    (h : Writes m memory0 x X) (h1 : Writes m x y Y) : Writes m memory0 y Y :=
  ⟨h1.1, h1.2.1.trans h.2.1, fun a hne => (h1.2.2 a hne).trans (h.2.2 a hne)⟩

theorem subtractFromRow_writes {m : MatrixObject} {memory0 x : List (List Int)}
    {X : Matrix Int} (h : Writes m memory0 x X) (ha : m.rawData_ < memory0.length)
    (n r : Nat) (v : Int) :
    Writes m memory0 (subtractFromRow x m n r v) (Munkres.subtractFromRow X n r v) := by
  refine foldl_rel (Writes m memory0) _ _ _ x X h ?_
  intro y Y c hy
  dsimp only
  rw [writes_get hy]
  exact writes_set hy ha _ _ _

theorem minimumRowValue_value {m : MatrixObject} {memory0 x : List (List Int)}
    {X : Matrix Int} (h : Writes m memory0 x X) (n r : Nat) :
    minimumRowValue x m n r = Munkres.minimumRowValue X n r := by
  rw [← h.1]
  rfl

theorem reduceRows_writes {m : MatrixObject} {memory0 x : List (List Int)}
    {X : Matrix Int} (h : Writes m memory0 x X) (ha : m.rawData_ < memory0.length) (n : Nat) :
    Writes m memory0 (reduceRows x m n) (Munkres.reduceRows X n) := by
  refine foldl_rel (Writes m memory0) _ _ _ x X h ?_
  intro y Y r hy
  dsimp only
  rw [minimumRowValue_value hy]
  exact subtractFromRow_writes hy ha _ _ _

theorem subtractFromColumn_writes {m : MatrixObject} {memory0 x : List (List Int)}
    {X : Matrix Int} (h : Writes m memory0 x X) (ha : m.rawData_ < memory0.length)
    (n c : Nat) (v : Int) :
    Writes m memory0 (subtractFromColumn x m n c v) (Munkres.subtractFromColumn X n c v) := by
  refine foldl_rel (Writes m memory0) _ _ _ x X h ?_
  intro y Y r hy
  dsimp only
  rw [writes_get hy]
  exact writes_set hy ha _ _ _

theorem minimumColumnValue_value {m : MatrixObject} {memory0 x : List (List Int)}
    {X : Matrix Int} (h : Writes m memory0 x X) (n c : Nat) :
    minimumColumnValue x m n c = Munkres.minimumColumnValue X n c := by
  rw [← h.1]
  rfl

theorem reduceColumns_writes {m : MatrixObject} {memory0 x : List (List Int)}
    {X : Matrix Int} (h : Writes m memory0 x X) (ha : m.rawData_ < memory0.length) (n : Nat) :
    Writes m memory0 (reduceColumns x m n) (Munkres.reduceColumns X n) := by
  refine foldl_rel (Writes m memory0) _ _ _ x X h ?_
  intro y Y c hy
  dsimp only
  rw [minimumColumnValue_value hy]
  exact subtractFromColumn_writes hy ha _ _ _

theorem reduce_writes {m : MatrixObject} {memory0 x : List (List Int)}
    {X : Matrix Int} (h : Writes m memory0 x X) (ha : m.rawData_ < memory0.length) (n : Nat) :
    Writes m memory0 (reduce x m n) (Munkres.reduce X n) :=
  reduceColumns_writes (reduceRows_writes h ha n) ha n

end InMemory

namespace InMemory

theorem starCell_writes {cost marks : MatrixObject} {memory0 : List (List Int)}
    (hm : marks.rawData_ < memory0.length) (hne : cost.rawData_ ≠ marks.rawData_) (r : Nat)
    (acc : List (List Int) × List Bool × List Bool) (ACC : Matrix Int × List Bool × List Bool)
    (c : Nat) (h : Writes marks memory0 acc.1 ACC.1 ∧ acc.2 = ACC.2) :
    Writes marks memory0 (starCell cost marks r acc c).1
        (Munkres.starCell (cost.value memory0) r ACC c).1 ∧
      (starCell cost marks r acc c).2 = (Munkres.starCell (cost.value memory0) r ACC c).2 := by
  obtain ⟨hw, hflags⟩ := h
  have hcost : cost.get acc.1 r c = (cost.value memory0).get r c := by
    rw [← writes_other hw cost hne]
    rfl
  unfold starCell Munkres.starCell
  rw [hcost, hflags]
  split
  · exact ⟨writes_set hw hm _ _ _, rfl⟩
  · exact ⟨hw, hflags⟩

theorem initialStarring_writes {cost marks : MatrixObject} {memory0 : List (List Int)}
    (hm : marks.rawData_ < memory0.length) (hne : cost.rawData_ ≠ marks.rawData_) (n : Nat) :
    Writes marks memory0 (initialStarring memory0 cost marks n).1
        (Munkres.initialStarring (cost.value memory0) (marks.value memory0) n).1 ∧
      (initialStarring memory0 cost marks n).2 =
        (Munkres.initialStarring (cost.value memory0) (marks.value memory0) n).2 := by
  refine foldl_rel
    (fun (acc : List (List Int) × List Bool × List Bool)
      (ACC : Matrix Int × List Bool × List Bool) =>
        Writes marks memory0 acc.1 ACC.1 ∧ acc.2 = ACC.2) _ _ _ _ _
    ⟨writes_refl marks memory0, rfl⟩ ?_
  intro acc ACC r hacc
  refine foldl_rel
    (fun (acc : List (List Int) × List Bool × List Bool)
      (ACC : Matrix Int × List Bool × List Bool) =>
        Writes marks memory0 acc.1 ACC.1 ∧ acc.2 = ACC.2) _ _ _ _ _ hacc ?_
  intro acc1 ACC1 c hacc1
  exact starCell_writes hm hne r acc1 ACC1 c hacc1

theorem coverStarredColumns_value (memory : List (List Int)) (marks : MatrixObject) (n : Nat)
    (flags : List Bool) :
    coverStarredColumns memory marks n flags =
      Munkres.coverStarredColumns (marks.value memory) n flags := rfl

theorem initialState_represents {cost marks : MatrixObject} {memory : List (List Int)}
    (hc : cost.rawData_ < memory.length) (hm : marks.rawData_ < memory.length)
    (hne : cost.rawData_ ≠ marks.rawData_) (n : Nat) :
    (initialState memory cost marks n).Represents cost marks memory.length
      (Munkres.initialState (cost.value memory) (marks.value memory) n) := by
  have hred := reduce_writes (writes_refl cost memory) hc n
  have hstar := @initialStarring_writes cost marks (reduce memory cost n)
    (by rw [hred.2.1]; exact hm) hne n
  rw [hred.1, writes_other hred marks (Ne.symm hne)] at hstar
  obtain ⟨hs1, hs2⟩ := hstar
  refine ⟨rfl, rfl, ?_, ?_⟩
  · show (initialStarring (reduce memory cost n) cost marks n).1.length = memory.length
    rw [hs1.2.1, hred.2.1]
  · have hcv : cost.value (initialStarring (reduce memory cost n) cost marks n).1 =
        Munkres.reduce (cost.value memory) n := by
      rw [writes_other hs1 cost hne, hred.1]
    unfold initialState Munkres.initialState Variables.state
    dsimp only
    rw [coverStarredColumns_value, hcv, hs1.1, hs2]

theorem represents_separate {cost marks : MatrixObject} {size : Nat} {s : Variables}
    {S : State} (h : s.Represents cost marks size S) (hc : cost.rawData_ < size)
    (hm : marks.rawData_ < size) (hne : cost.rawData_ ≠ marks.rawData_) : s.Separate := by
  obtain ⟨rfl, rfl, rfl, _⟩ := h
  exact ⟨hc, hm, hne⟩

theorem state_write_marks (s : Variables) {memory1 : List (List Int)} {Z : Matrix Int}
    (hw : Writes s.zeroMarkMatrix s.memory memory1 Z)
    (hne : s.costMatrix.rawData_ ≠ s.zeroMarkMatrix.rawData_) (rows cols : List Bool)
    (count : Nat) :
    Variables.state
        { memory := memory1, costMatrix := s.costMatrix, zeroMarkMatrix := s.zeroMarkMatrix,
          isRowCurrentlyCovered := rows, isColumnCurrentlyCovered := cols,
          numberOfCoveredColumns := count } =
      { costMatrix := s.state.costMatrix, zeroMarkMatrix := Z, isRowCurrentlyCovered := rows,
        isColumnCurrentlyCovered := cols, numberOfCoveredColumns := count } := by
  unfold Variables.state
  dsimp only
  rw [hw.1, writes_other hw s.costMatrix hne]

theorem state_write_cost (s : Variables) {memory1 : List (List Int)} {C : Matrix Int}
    (hw : Writes s.costMatrix s.memory memory1 C)
    (hne : s.costMatrix.rawData_ ≠ s.zeroMarkMatrix.rawData_) (rows cols : List Bool)
    (count : Nat) :
    Variables.state
        { memory := memory1, costMatrix := s.costMatrix, zeroMarkMatrix := s.zeroMarkMatrix,
          isRowCurrentlyCovered := rows, isColumnCurrentlyCovered := cols,
          numberOfCoveredColumns := count } =
      { costMatrix := C, zeroMarkMatrix := s.state.zeroMarkMatrix, isRowCurrentlyCovered := rows,
        isColumnCurrentlyCovered := cols, numberOfCoveredColumns := count } := by
  unfold Variables.state
  dsimp only
  rw [hw.1, writes_other hw s.zeroMarkMatrix (Ne.symm hne)]

theorem searchRow_represents {cost marks : MatrixObject} {size : Nat} (hc : cost.rawData_ < size)
    (hm : marks.rawData_ < size) (hne : cost.rawData_ ≠ marks.rawData_) (n : Nat)
    {s : Variables} {S : State} (h : s.Represents cost marks size S) (r : Nat) :
    (searchRow n s r).1.Represents cost marks size (Munkres.searchRow n S r).1 ∧
      (searchRow n s r).2 = (Munkres.searchRow n S r).2 := by
  have hsep := represents_separate h hc hm hne
  obtain ⟨rfl, rfl, rfl, rfl⟩ := h
  unfold searchRow Munkres.searchRow
  by_cases hrow : s.isRowCurrentlyCovered.getD r false = false
  · have hrow1 : s.state.isRowCurrentlyCovered.getD r false = false := hrow
    rw [if_pos hrow, if_pos hrow1]
    cases hfind : (List.range n).find? (fun currentColumn =>
        decide (s.costMatrix.get s.memory r currentColumn = 0 ∧
          s.isColumnCurrentlyCovered.getD currentColumn false = false)) with
    | none =>
      have hfind1 : (List.range n).find? (fun currentColumn =>
          decide (s.state.costMatrix.get r currentColumn = 0 ∧
            s.state.isColumnCurrentlyCovered.getD currentColumn false = false)) = none := hfind
      rw [hfind1]
      exact ⟨⟨rfl, rfl, rfl, rfl⟩, rfl⟩
    | some c =>
      have hfind1 : (List.range n).find? (fun currentColumn =>
          decide (s.state.costMatrix.get r currentColumn = 0 ∧
            s.state.isColumnCurrentlyCovered.getD currentColumn false = false)) = some c :=
        hfind
      have hw : Writes s.zeroMarkMatrix s.memory (s.zeroMarkMatrix.set s.memory r c 2)
          (s.state.zeroMarkMatrix.set r c 2) :=
        writes_set (writes_refl _ _) hsep.2.1 _ _ _
      have hpred : (fun j => decide (s.zeroMarkMatrix.get (s.zeroMarkMatrix.set s.memory r c 2)
            r j = 1)) = (fun j => decide ((s.state.zeroMarkMatrix.set r c 2).get r j = 1)) := by
        funext j
        rw [writes_get hw]
      rw [hfind1]
      dsimp only
      rw [hpred]
      cases hstar : (List.range n).find?
          (fun j => decide ((s.state.zeroMarkMatrix.set r c 2).get r j = 1)) with
      | none =>
        dsimp only
        refine ⟨⟨rfl, rfl, ?_, ?_⟩, rfl⟩
        · exact hw.2.1
        · exact state_write_marks s hw hsep.2.2 _ _ _
      | some j =>
        dsimp only
        refine ⟨⟨rfl, rfl, ?_, ?_⟩, rfl⟩
        · exact hw.2.1
        · exact state_write_marks s hw hsep.2.2 _ _ _
  · have hrow1 : ¬ s.state.isRowCurrentlyCovered.getD r false = false := hrow
    rw [if_neg hrow, if_neg hrow1]
    exact ⟨⟨rfl, rfl, rfl, rfl⟩, rfl⟩

theorem search_represents {cost marks : MatrixObject} {size : Nat} (hc : cost.rawData_ < size)
    (hm : marks.rawData_ < size) (hne : cost.rawData_ ≠ marks.rawData_) (n : Nat)
    {s : Variables} {S : State} (h : s.Represents cost marks size S) :
    (search n s).1.Represents cost marks size (Munkres.search n S).1 ∧
      (search n s).2 = (Munkres.search n S).2 := by
  refine foldl_rel
    (fun (acc : Variables × Option (Nat × Nat)) (ACC : State × Option (Nat × Nat)) =>
      acc.1.Represents cost marks size ACC.1 ∧ acc.2 = ACC.2) _ _ _ _ _ ⟨h, rfl⟩ ?_
  intro acc ACC r hacc
  obtain ⟨h1, h2⟩ := hacc
  rw [← h2]
  cases hfound : acc.2 with
  | some start =>
    dsimp only
    exact ⟨h1, h2⟩
  | none =>
    dsimp only
    exact searchRow_represents hc hm hne n h1 r

end InMemory

namespace InMemory

theorem smallestUncoveredValue_value (n : Nat) (s : Variables) :
    smallestUncoveredValue n s = Munkres.smallestUncoveredValue n s.state := rfl

theorem adjustCell_writes (s : Variables) {memory0 x : List (List Int)} {X : Matrix Int}
    (h : Writes s.costMatrix memory0 x X) (ha : s.costMatrix.rawData_ < memory0.length)
    (delta : Int) (r c : Nat) :
    Writes s.costMatrix memory0 (adjustCell s delta r x c)
      (Munkres.adjustCell s.state delta r X c) := by
  unfold adjustCell Munkres.adjustCell
  dsimp only
  have h1 : Writes s.costMatrix memory0
      (if s.isRowCurrentlyCovered.getD r false = true then
        s.costMatrix.set x r c (s.costMatrix.get x r c + delta) else x)
      (if s.state.isRowCurrentlyCovered.getD r false = true then
        X.set r c (X.get r c + delta) else X) := by
    show Writes s.costMatrix memory0
      (if s.isRowCurrentlyCovered.getD r false = true then
        s.costMatrix.set x r c (s.costMatrix.get x r c + delta) else x)
      (if s.isRowCurrentlyCovered.getD r false = true then
        X.set r c (X.get r c + delta) else X)
    split
    · rw [writes_get h]
      exact writes_set h ha _ _ _
    · exact h
  show Writes s.costMatrix memory0
    (if s.isColumnCurrentlyCovered.getD c false = false then _ else _)
    (if s.isColumnCurrentlyCovered.getD c false = false then _ else _)
  split
  · rw [writes_get h1]
    exact writes_set h1 ha _ _ _
  · exact h1

theorem adjust_represents {cost marks : MatrixObject} {size : Nat} (hc : cost.rawData_ < size)
    (hm : marks.rawData_ < size) (hne : cost.rawData_ ≠ marks.rawData_) (n : Nat)
    {s : Variables} {S : State} (h : s.Represents cost marks size S) :
    (adjust n s).Represents cost marks size (Munkres.adjust n S) := by
  have hsep := represents_separate h hc hm hne
  obtain ⟨rfl, rfl, rfl, rfl⟩ := h
  have hw : Writes s.costMatrix s.memory (adjustMatrix n s (smallestUncoveredValue n s))
      (Munkres.adjustMatrix n s.state (Munkres.smallestUncoveredValue n s.state)) := by
    rw [smallestUncoveredValue_value]
    refine foldl_rel (Writes s.costMatrix s.memory) _ _ _ _ _ (writes_refl _ _) ?_
    intro x X r hx
    refine foldl_rel (Writes s.costMatrix s.memory) _ _ _ _ _ hx ?_
    intro y Y c hy
    exact adjustCell_writes s hy hsep.1 _ r c
  refine ⟨rfl, rfl, hw.2.1, ?_⟩
  exact state_write_cost s hw hsep.2.2 _ _ _

theorem buildPath_value (memory : List (List Int)) (marks : MatrixObject) (n fuel : Nat)
    (path : List (Nat × Nat)) :
    buildPath memory marks n fuel path = Munkres.buildPath (marks.value memory) n fuel path := by
  induction fuel generalizing path with
  | zero => rfl
  | succ fuel ih =>
    unfold buildPath Munkres.buildPath
    simp only [ih]
    rfl

theorem flipPath_writes {m : MatrixObject} {memory0 x : List (List Int)} {X : Matrix Int}
    (h : Writes m memory0 x X) (ha : m.rawData_ < memory0.length) (path : List (Nat × Nat)) :
    Writes m memory0 (flipPath x m path) (Munkres.flipPath X path) := by
  refine foldl_rel (Writes m memory0) _ _ _ x X h ?_
  intro y Y cell hy
  unfold flipCell Munkres.flipCell
  rw [writes_get hy]
  split
  · exact writes_set hy ha _ _ _
  · split
    · exact writes_set hy ha _ _ _
    · exact hy

theorem clearPrimes_writes {m : MatrixObject} {memory0 x : List (List Int)} {X : Matrix Int}
    (h : Writes m memory0 x X) (ha : m.rawData_ < memory0.length) (n : Nat) :
    Writes m memory0 (clearPrimes x m n) (Munkres.clearPrimes X n) := by
  refine foldl_rel (Writes m memory0) _ _ _ x X h ?_
  intro y Y r hy
  refine foldl_rel (Writes m memory0) _ _ _ y Y hy ?_
  intro z Z c hz
  dsimp only
  rw [writes_get hz]
  split
  · exact writes_set hz ha _ _ _
  · exact hz

theorem augment_represents {cost marks : MatrixObject} {size : Nat} (hc : cost.rawData_ < size)
    (hm : marks.rawData_ < size) (hne : cost.rawData_ ≠ marks.rawData_) (n fuel : Nat)
    {s : Variables} {S : State} (h : s.Represents cost marks size S) (start : Nat × Nat) :
    RepresentsOutcome cost marks size (augment n fuel s start)
      (Munkres.augment n fuel S start) := by
  have hsep := represents_separate h hc hm hne
  obtain ⟨rfl, rfl, rfl, rfl⟩ := h
  unfold augment Munkres.augment
  rw [buildPath_value]
  show RepresentsOutcome _ _ _
    (match Munkres.buildPath s.state.zeroMarkMatrix n fuel [start] with
      | Except.error e => _
      | Except.ok path => _)
    (match Munkres.buildPath s.state.zeroMarkMatrix n fuel [start] with
      | Except.error e => _
      | Except.ok path => _)
  cases Munkres.buildPath s.state.zeroMarkMatrix n fuel [start] with
  | error e => exact rfl
  | ok path =>
    dsimp only
    have hw : Writes s.zeroMarkMatrix s.memory
        (clearPrimes (flipPath s.memory s.zeroMarkMatrix path) s.zeroMarkMatrix n)
        (Munkres.clearPrimes (Munkres.flipPath s.state.zeroMarkMatrix path) n) :=
      clearPrimes_writes (flipPath_writes (writes_refl _ _) hsep.2.1 path) hsep.2.1 n
    refine ⟨rfl, rfl, hw.2.1, ?_⟩
    rw [state_write_marks s hw hsep.2.2, coverStarredColumns_value, hw.1]
    rfl

theorem loopBody_represents {cost marks : MatrixObject} {size : Nat} (hc : cost.rawData_ < size)
    (hm : marks.rawData_ < size) (hne : cost.rawData_ ≠ marks.rawData_) (n fuel : Nat)
    {s : Variables} {S : State} (h : s.Represents cost marks size S) :
    RepresentsOutcome cost marks size (loopBody n fuel s) (Munkres.loopBody n fuel S) := by
  obtain ⟨h1, h2⟩ := search_represents hc hm hne n h
  unfold loopBody Munkres.loopBody
  rcases hx : search n s with ⟨s1, found⟩
  rcases hX : Munkres.search n S with ⟨S1, FOUND⟩
  rw [hx, hX] at h1 h2
  dsimp only at h1 h2
  subst h2
  cases found with
  | none => exact adjust_represents hc hm hne n h1
  | some start => exact augment_represents hc hm hne n fuel h1 start

theorem mainLoop_represents {cost marks : MatrixObject} {size : Nat} (hc : cost.rawData_ < size)
    (hm : marks.rawData_ < size) (hne : cost.rawData_ ≠ marks.rawData_) (n pathFuel : Nat)
    (fuel : Nat) {s : Variables} {S : State} (h : s.Represents cost marks size S) :
    RepresentsOutcome cost marks size (mainLoop n pathFuel fuel s).2
      (Munkres.mainLoop n pathFuel fuel S) := by
  have hcount : s.numberOfCoveredColumns = S.numberOfCoveredColumns := by
    rw [← h.2.2.2]
    rfl
  induction fuel generalizing s S with
  | zero =>
    unfold mainLoop Munkres.mainLoop
    rw [hcount]
    split
    · exact rfl
    · exact h
  | succ fuel ih =>
    unfold mainLoop Munkres.mainLoop
    rw [hcount]
    split
    · have hbody := loopBody_represents hc hm hne n pathFuel h
      rcases hb : loopBody n pathFuel s with e | s1
      · rcases hB : Munkres.loopBody n pathFuel S with E | S1
        · rw [hb, hB] at hbody
          exact hbody
        · rw [hb, hB] at hbody
          exact hbody.elim
      · rcases hB : Munkres.loopBody n pathFuel S with E | S1
        · rw [hb, hB] at hbody
          exact hbody.elim
        · rw [hb, hB] at hbody
          dsimp only
          refine ih hbody ?_
          rw [← hbody.2.2.2]
          rfl
    · exact h

end InMemory

namespace InMemory

theorem getD_append_set_other (memory : List (List Int)) (x y : List Int) {a : Nat}
    (h : a ≠ memory.length) :
    ((memory ++ [x]).set memory.length y).getD a [] = memory.getD a [] := by
  rw [memory_getD_set_other _ h, List.getD_eq_getElem?_getD, List.getD_eq_getElem?_getD]
  rcases Nat.lt_or_gt_of_ne h with hlt | hgt
  · rw [List.getElem?_append_left hlt]
  · rw [List.getElem?_eq_none (by rw [List.length_append]; simp; omega),
      List.getElem?_eq_none (by omega)]

theorem getD_append_set_same (memory : List (List Int)) (x y : List Int) :
    ((memory ++ [x]).set memory.length y).getD memory.length [] = y :=
  memory_getD_set_same _ (by rw [List.length_append]; simp) _

theorem construct_represents (memory : List (List Int)) (rows cols : Nat) (v : Int) :
    (∀ e, Matrix.filled rows cols v = Except.error e →
      (construct memory rows cols v).2 = Except.error e) ∧
    (∀ M, Matrix.filled rows cols v = Except.ok M →
      ∃ m, (construct memory rows cols v).2 = Except.ok m ∧ m.rawData_ = memory.length ∧
        (construct memory rows cols v).1.length = memory.length + 1 ∧
        m.value (construct memory rows cols v).1 = M ∧
        ∀ a, a ≠ memory.length →
          (construct memory rows cols v).1.getD a [] = memory.getD a []) := by
  unfold construct Matrix.filled allocate
  dsimp only
  by_cases h : rows = 0 ∨ cols = 0
  · rw [if_pos h, if_pos h]
    exact ⟨fun e he => by rw [← Except.error.inj he], fun M hM => Except.noConfusion hM⟩
  · rw [if_neg h, if_neg h]
    refine ⟨fun e he => Except.noConfusion he, ?_⟩
    intro M hM
    refine ⟨_, rfl, rfl, ?_, ?_, ?_⟩
    · rw [List.length_set, List.length_append]
      rfl
    · rw [← Except.ok.inj hM]
      unfold MatrixObject.value MatrixObject.data
      dsimp only
      rw [getD_append_set_same]
    · intro a ha
      exact getD_append_set_other memory _ _ ha

theorem copyConstruct_represents (memory : List (List Int)) (original : MatrixObject) :
    (copyConstruct memory original).2.rawData_ = memory.length ∧
      (copyConstruct memory original).1.length = memory.length + 1 ∧
      (copyConstruct memory original).2.value (copyConstruct memory original).1 =
        Matrix.copy (original.value memory) ∧
      ∀ a, a ≠ memory.length →
        (copyConstruct memory original).1.getD a [] = memory.getD a [] := by
  unfold copyConstruct allocate
  dsimp only
  refine ⟨rfl, ?_, ?_, ?_⟩
  · rw [List.length_set, List.length_append]
    rfl
  · unfold MatrixObject.value MatrixObject.data Matrix.copy
    dsimp only
    rw [getD_append_set_same]
    rfl
  · intro a ha
    exact getD_append_set_other memory _ _ ha

theorem extractAssignment_writes {marks result : MatrixObject} {memory0 : List (List Int)}
    (ha : result.rawData_ < memory0.length) (hne : marks.rawData_ ≠ result.rawData_)
    (n : Nat) :
    Writes result memory0 (extractAssignment memory0 marks result n)
      (Munkres.extractAssignment (marks.value memory0) (result.value memory0) n) := by
  refine foldl_rel (Writes result memory0) _ _ _ _ _ (writes_refl _ _) ?_
  intro y Y r hy
  refine foldl_rel (Writes result memory0) _ _ _ y Y hy ?_
  intro z Z c hz
  have hmark : marks.get z r c = (marks.value memory0).get r c := by
    rw [← writes_other hz marks hne]
    rfl
  rw [hmark]
  split
  · exact writes_set hz ha _ _ _
  · exact hz

theorem run_represents (fuel : Nat) (memory : List (List Int)) (cost : MatrixObject)
    (hc : cost.rawData_ < memory.length) :
    RepresentsResult (run_munkres_algorithm fuel memory cost).1
      (run_munkres_algorithm fuel memory cost).2
      (Munkres.run_munkres_algorithm fuel (cost.value memory)) := by
  unfold run_munkres_algorithm Munkres.run_munkres_algorithm
  by_cases hsq : cost.nrows ≠ cost.ncols
  · have hsq1 : (cost.value memory).nrows ≠ (cost.value memory).ncols := hsq
    rw [if_pos hsq, if_pos hsq1]
    exact rfl
  · have hsq1 : ¬ (cost.value memory).nrows ≠ (cost.value memory).ncols := hsq
    rw [if_neg hsq, if_neg hsq1]
    dsimp only
    show RepresentsResult _ _
      (match Matrix.filled cost.nrows cost.nrows (0 : Int) with
        | Except.error e => Except.error e
        | Except.ok zeroMarkMatrix =>
          match Munkres.mainLoop cost.nrows fuel fuel
              (Munkres.initialState (cost.value memory) zeroMarkMatrix cost.nrows) with
          | Except.error e => Except.error e
          | Except.ok s =>
            match Matrix.filled cost.nrows cost.nrows (0 : Int) with
            | Except.error e => Except.error e
            | Except.ok resultAssignmentMatrix =>
              Except.ok (Munkres.extractAssignment s.zeroMarkMatrix resultAssignmentMatrix
                cost.nrows))
    obtain ⟨hce, hco⟩ := construct_represents memory cost.nrows cost.nrows 0
    rcases hZ : Matrix.filled cost.nrows cost.nrows (0 : Int) with e | Z
    · have h1 := hce e hZ
      rcases hcon : construct memory cost.nrows cost.nrows 0 with ⟨memory1, out⟩
      rw [hcon] at h1
      dsimp only at h1
      subst h1
      exact rfl
    · obtain ⟨marks, h1, h2, h3, h4, h5⟩ := hco Z hZ
      rcases hcon : construct memory cost.nrows cost.nrows 0 with ⟨memory1, out⟩
      rw [hcon] at h1 h3 h4 h5
      dsimp only at h1 h3 h4 h5
      subst h1
      dsimp only
      have hc1 : cost.rawData_ < memory1.length := by omega
      have hm1 : marks.rawData_ < memory1.length := by omega
      have hne : cost.rawData_ ≠ marks.rawData_ := by omega
      have hinit := initialState_represents hc1 hm1 hne cost.nrows
      rw [h4, value_congr cost (h5 _ (by omega))] at hinit
      have hloop := mainLoop_represents hc1 hm1 hne cost.nrows fuel fuel hinit
      rcases hl : mainLoop cost.nrows fuel fuel (initialState memory1 cost marks cost.nrows)
        with ⟨memory2, outcome⟩
      rw [hl] at hloop
      dsimp only at hloop
      rcases hL : Munkres.mainLoop cost.nrows fuel fuel
          (Munkres.initialState (cost.value memory) Z cost.nrows) with E | S
      · rw [hL] at hloop
        cases outcome with
        | error e =>
          dsimp only
          exact hloop
        | ok s => exact hloop.elim
      · rw [hL] at hloop
        cases outcome with
        | error e => exact hloop.elim
        | ok s =>
          dsimp only
          obtain ⟨_, hs2, hs3, hs4⟩ := hloop
          obtain ⟨_, hro⟩ := construct_represents s.memory cost.nrows cost.nrows 0
          obtain ⟨result, g1, g2, g3, g4, g5⟩ := hro Z hZ
          rcases hcon2 : construct s.memory cost.nrows cost.nrows 0 with ⟨memory3, out3⟩
          rw [hcon2] at g1 g3 g4 g5
          dsimp only at g1 g3 g4 g5
          subst g1
          dsimp only
          have hw := @extractAssignment_writes s.zeroMarkMatrix result memory3
            (by omega) (by rw [hs2]; omega) cost.nrows
          rw [g4, value_congr s.zeroMarkMatrix (g5 _ (by rw [hs2]; omega))] at hw
          have hmarks : s.zeroMarkMatrix.value s.memory = S.zeroMarkMatrix := by
            rw [← hs4]
            rfl
          rw [hmarks] at hw
          exact hw.1

theorem callSolve_represents (fuel : Nat) (memory : List (List Int))
    (callerMatrix : MatrixObject) :
    RepresentsResult (callSolve fuel memory callerMatrix).1
      (callSolve fuel memory callerMatrix).2
      (Munkres.run_munkres_algorithm fuel (Matrix.copy (callerMatrix.value memory))) := by
  obtain ⟨h1, h2, h3, _⟩ := copyConstruct_represents memory callerMatrix
  have h := run_represents fuel (copyConstruct memory callerMatrix).1
    (copyConstruct memory callerMatrix).2 (by omega)
  rw [h3] at h
  exact h

end InMemory

namespace InMemory

theorem adjust_writes_cost (n : Nat) (s : Variables)
    (h : s.costMatrix.rawData_ < s.memory.length) (a : Nat) (ha : a ≠ s.costMatrix.rawData_) :
    (adjust n s).memory.getD a [] = s.memory.getD a [] := by
  have hw : Writes s.costMatrix s.memory (adjustMatrix n s (smallestUncoveredValue n s))
      (Munkres.adjustMatrix n s.state (smallestUncoveredValue n s)) := by
    refine foldl_rel (Writes s.costMatrix s.memory) _ _ _ _ _ (writes_refl _ _) ?_
    intro x X r hx
    refine foldl_rel (Writes s.costMatrix s.memory) _ _ _ _ _ hx ?_
    intro y Y c hy
    exact adjustCell_writes s hy h _ r c
  exact hw.2.2 a ha

theorem getD_of_prefix {base memory : List (List Int)} (h : base <+: memory) {a : Nat}
    (ha : a < base.length) : memory.getD a [] = base.getD a [] := by
  obtain ⟨t, rfl⟩ := h
  rw [List.getD_eq_getElem?_getD, List.getD_eq_getElem?_getD, List.getElem?_append_left ha]

theorem copy_example_call :
    callSolve 31 [[1, 2, 3, 2, 4, 6, 3, 6, 9]] ⟨3, 3, 0⟩ =
      ([[1, 2, 3, 2, 4, 6, 3, 6, 9], [1, 0, 0, 0, 0, 1, 0, 1, 3],
          [0, 0, 1, 0, 1, 0, 1, 0, 0], [0, 0, 1, 0, 1, 0, 1, 0, 0]],
        Except.ok ⟨3, 3, 3⟩) := by
  rfl

theorem reference_example_call :
    callSolveByReference 31 [[1, 2, 3, 2, 4, 6, 3, 6, 9]] ⟨3, 3, 0⟩ =
      ([[1, 0, 0, 0, 0, 1, 0, 1, 3], [0, 0, 1, 0, 1, 0, 1, 0, 0],
          [0, 0, 1, 0, 1, 0, 1, 0, 0]],
        Except.ok ⟨3, 3, 2⟩) := by
  rfl

end InMemory

/-- Claim C13: a call `run_munkres_algorithm(callerMatrix)` leaves the matrix of the caller as it
was. The parameter is copy-constructed from the argument: it owns a new array, at an address
that no array had before the call and so not the address of `callerMatrix`; it has the same
`nrows` and `ncols` and, at every position below the element count, the element of the
original; the copy construction changes no array that existed. The body runs on the
parameter: the writes of the reduction and of every adjustment change the array of the
parameter and no other. Whatever the outcome of the call, every array that existed before it
is in the memory after it with the same elements, so every matrix object of the caller, and
`callerMatrix` in particular, holds the same element at every position as before. The outcome
is the one of the value model of the solver on the copy, which is the matrix of the caller
when that satisfies the class invariant. -/
theorem solve_call_leaves_caller_matrix (fuel : Nat) (memory : List (List Int))
    (callerMatrix : InMemory.MatrixObject) (h : callerMatrix.rawData_ < memory.length) :
    ((InMemory.copyConstruct memory callerMatrix).2.rawData_ = memory.length ∧
      (InMemory.copyConstruct memory callerMatrix).2.rawData_ ≠ callerMatrix.rawData_ ∧
      (InMemory.copyConstruct memory callerMatrix).2.nrows = callerMatrix.nrows ∧
      (InMemory.copyConstruct memory callerMatrix).2.ncols = callerMatrix.ncols ∧
      (∀ r c, r * callerMatrix.ncols + c <
          (callerMatrix.nrows * callerMatrix.ncols) % SIZE_MODULUS →
        (InMemory.copyConstruct memory callerMatrix).2.get
            (InMemory.copyConstruct memory callerMatrix).1 r c =
          callerMatrix.get memory r c) ∧
      memory <+: (InMemory.copyConstruct memory callerMatrix).1) ∧
    InMemory.callSolve fuel memory callerMatrix =
      InMemory.run_munkres_algorithm fuel (InMemory.copyConstruct memory callerMatrix).1
        (InMemory.copyConstruct memory callerMatrix).2 ∧
    (∀ (x : List (List Int)) (n a : Nat),
      (InMemory.copyConstruct memory callerMatrix).2.rawData_ < x.length →
      a ≠ (InMemory.copyConstruct memory callerMatrix).2.rawData_ →
        (InMemory.reduce x (InMemory.copyConstruct memory callerMatrix).2 n).getD a [] =
          x.getD a []) ∧
    (∀ (s : InMemory.Variables) (n a : Nat),
      s.costMatrix = (InMemory.copyConstruct memory callerMatrix).2 →
      s.costMatrix.rawData_ < s.memory.length →
      a ≠ (InMemory.copyConstruct memory callerMatrix).2.rawData_ →
        (InMemory.adjust n s).memory.getD a [] = s.memory.getD a []) ∧
    memory <+: (InMemory.callSolve fuel memory callerMatrix).1 ∧
    (∀ m : InMemory.MatrixObject, m.rawData_ < memory.length →
      m.value (InMemory.callSolve fuel memory callerMatrix).1 = m.value memory) ∧
    (∀ r c, callerMatrix.get (InMemory.callSolve fuel memory callerMatrix).1 r c =
      callerMatrix.get memory r c) ∧
    InMemory.RepresentsResult (InMemory.callSolve fuel memory callerMatrix).1
      (InMemory.callSolve fuel memory callerMatrix).2
      (run_munkres_algorithm fuel (Matrix.copy (callerMatrix.value memory))) ∧
    ((callerMatrix.value memory).WellFormed →
      InMemory.RepresentsResult (InMemory.callSolve fuel memory callerMatrix).1
        (InMemory.callSolve fuel memory callerMatrix).2
        (run_munkres_algorithm fuel (callerMatrix.value memory))) := by
  obtain ⟨c1, c2, c3, c4⟩ := InMemory.copyConstruct_represents memory callerMatrix
  have hframe := InMemory.callSolve_extends fuel memory callerMatrix
  have hvalue : ∀ m : InMemory.MatrixObject, m.rawData_ < memory.length →
      m.value (InMemory.callSolve fuel memory callerMatrix).1 = m.value memory :=
    fun m hm => InMemory.value_congr m (InMemory.getD_of_prefix hframe hm)
  refine ⟨⟨c1, ?_, rfl, rfl, ?_, ?_⟩, rfl, ?_, ?_, hframe, hvalue, ?_, ?_, ?_⟩
  · rw [c1]
    omega
  · intro r c hrc
    have hv : (InMemory.copyConstruct memory callerMatrix).2.get
        (InMemory.copyConstruct memory callerMatrix).1 r c =
        (Matrix.copy (callerMatrix.value memory)).get r c := by
      rw [← c3]
      rfl
    rw [hv]
    unfold Matrix.copy Matrix.get InMemory.MatrixObject.get InMemory.MatrixObject.value
    unfold Matrix.nrows Matrix.ncols
    dsimp only
    rw [List.getD_eq_getElem?_getD, List.getD_eq_getElem?_getD]
    have hrc1 : r * callerMatrix.totalColumns_ + c <
        callerMatrix.totalRows_ * callerMatrix.totalColumns_ % SIZE_MODULUS := hrc
    rw [List.getElem?_take_of_lt hrc1]
  · unfold InMemory.copyConstruct InMemory.allocate
    exact InMemory.prefix_set_of_le (List.prefix_append _ _) (le_refl _) _
  · intro x n a hx ha
    exact (InMemory.reduce_writes (InMemory.writes_refl _ x) hx n).2.2 a ha
  · intro s n a hs hlt ha
    exact InMemory.adjust_writes_cost n s hlt a (by rw [hs]; exact ha)
  · intro r c
    have hv := hvalue callerMatrix h
    show ((callerMatrix.value (InMemory.callSolve fuel memory callerMatrix).1).get r c) =
      (callerMatrix.value memory).get r c
    rw [hv]
  · exact InMemory.callSolve_represents fuel memory callerMatrix
  · intro hwf
    have hrep := InMemory.callSolve_represents fuel memory callerMatrix
    rw [copy_eq_self hwf] at hrep
    exact hrep

theorem solve_call_leaves_caller_matrix_witness :
    (0 < [[(1 : Int), 2, 3, 2, 4, 6, 3, 6, 9]].length) ∧
    (InMemory.callSolve 31 [[1, 2, 3, 2, 4, 6, 3, 6, 9]] ⟨3, 3, 0⟩).1.getD 0 [] =
      [1, 2, 3, 2, 4, 6, 3, 6, 9] ∧
    (InMemory.callSolveByReference 31 [[1, 2, 3, 2, 4, 6, 3, 6, 9]] ⟨3, 3, 0⟩).1.getD 0 [] =
      [1, 0, 0, 0, 0, 1, 0, 1, 3] ∧
    ∀ r c, (⟨3, 3, 0⟩ : InMemory.MatrixObject).get
        (InMemory.callSolve 31 [[1, 2, 3, 2, 4, 6, 3, 6, 9]] ⟨3, 3, 0⟩).1 r c =
      (⟨3, 3, 0⟩ : InMemory.MatrixObject).get [[1, 2, 3, 2, 4, 6, 3, 6, 9]] r c :=
  ⟨by decide, by rw [InMemory.copy_example_call]; rfl,
    by rw [InMemory.reference_example_call]; rfl,
    (solve_call_leaves_caller_matrix 31 [[1, 2, 3, 2, 4, 6, 3, 6, 9]] ⟨3, 3, 0⟩
      (by decide)).2.2.2.2.2.2.1⟩

end Munkres

/-! # k-mer hashing: `unhash_kmer` undoes `hash_kmer` -/

namespace Kmer

theorem dna_code {ch : Char} (h : ch = 'A' ∨ ch = 'C' ∨ ch = 'G' ∨ ch = 'T') :
    (base_to_int ch).toNat < 4 ∧ toUInt64 (base_to_int ch) = (base_to_int ch).toNat ∧
      int_to_base (((base_to_int ch).toNat : Nat) : Int) = ch := by
  rcases h with rfl | rfl | rfl | rfl <;> refine ⟨by decide, by decide, by decide⟩

theorem base4Value_take_succ (s : List Char) {i : Nat} (hi : i < s.length) :
    base4Value (s.take (i + 1)) = 4 * base4Value (s.take i) + (base_to_int s[i]).toNat := by
  unfold base4Value
  rw [List.take_succ, List.foldl_append, List.getElem?_eq_getElem hi]
  simp

theorem four_pow (t : Nat) : 4 ^ t = 2 ^ (2 * t) := by
  rw [Nat.pow_mul]

/-- On a DNA string of at most 32 letters the hash is the base-4 number of the letter codes. -/
theorem hash_kmer_eq_base4Value {s : List Char} (hs : IsDna s) (hk : s.length ≤ 32) :
    hash_kmer s = base4Value s := by
  unfold hash_kmer
  have key := Munkres.foldl_range_rule
    (fun i (h : Nat) => i ≤ s.length ∧ h = base4Value (s.take i) * 4 ^ (s.length - i))
    (fun h i =>
      h ||| ((toUInt64 (base_to_int (s.getD i 'A')) <<< (2 * (s.length - i - 1)))
        % UINT64_MODULUS))
    0 s.length ⟨Nat.zero_le _, by simp [base4Value]⟩
    (by
      rintro i hi h ⟨_, hh⟩
      refine ⟨hi, ?_⟩
      beta_reduce
      have hget : s.getD i 'A' = s[i] := by
        rw [List.getD_eq_getElem?_getD, List.getElem?_eq_getElem hi, Option.getD_some]
      obtain ⟨v4, vu, _⟩ := dna_code (hs s[i] (List.getElem_mem hi))
      rw [hget, vu, base4Value_take_succ s hi, hh, Nat.shiftLeft_eq]
      have ht : s.length - i = (s.length - i - 1) + 1 := by omega
      have e1 : s.length - (i + 1) = s.length - i - 1 := by omega
      rw [e1]
      generalize s.length - i - 1 = t at ht ⊢
      generalize (base_to_int s[i]).toNat = v at v4 ⊢
      generalize base4Value (s.take i) = B
      rw [ht]
      have hpow : 4 ^ (t + 1) = 2 ^ (2 * t + 2) := by rw [four_pow]; ring_nf
      have htle : t + 1 ≤ 32 := by omega
      have hb : v * 2 ^ (2 * t) < 2 ^ (2 * t + 2) := by
        have : 2 ^ (2 * t + 2) = 4 * 2 ^ (2 * t) := by ring
        rw [this]
        exact Nat.mul_lt_mul_of_pos_right v4 (Nat.pow_pos (by decide))
      have hmod : v * 2 ^ (2 * t) % UINT64_MODULUS = v * 2 ^ (2 * t) := by
        apply Nat.mod_eq_of_lt
        have h1 : 2 ^ (2 * t + 2) ≤ 2 ^ 64 := Nat.pow_le_pow_right (by decide) (by omega)
        unfold UINT64_MODULUS
        omega
      rw [hmod, hpow, Nat.mul_comm B, ← Nat.mul_add_lt_is_or hb B, four_pow]
      ring)
  obtain ⟨_, e⟩ := key
  rw [e, List.take_length, Nat.sub_self, Nat.pow_zero, Nat.mul_one]

/-- On the base-4 number of a DNA string, `unhash_kmer` rebuilds the string. -/
theorem unhash_kmer_base4Value {s : List Char} (hs : IsDna s) :
    unhash_kmer (base4Value s) s.length = s := by
  unfold unhash_kmer
  have key := Munkres.foldl_range_rule
    (fun t (acc : List Char × Nat) => t ≤ s.length ∧
      acc = (List.replicate (s.length - t) 'A' ++ s.drop (s.length - t),
        base4Value (s.take (s.length - t))))
    (fun (acc : List Char × Nat) t =>
      (acc.1.set (s.length - 1 - t) (int_to_base ((acc.2 &&& 3 : Nat) : Int)), acc.2 >>> 2))
    (List.replicate s.length 'A', base4Value s) s.length
    ⟨Nat.zero_le _, by simp⟩
    (by
      rintro t ht acc ⟨_, hacc⟩
      refine ⟨ht, ?_⟩
      beta_reduce
      have hj : s.length - 1 - t < s.length := by omega
      have e1 : s.length - t = (s.length - 1 - t) + 1 := by omega
      have e2 : s.length - (t + 1) = s.length - 1 - t := by omega
      rw [hacc, e2, e1]
      generalize s.length - 1 - t = j at hj ⊢
      obtain ⟨v4, _, vb⟩ := dna_code (hs s[j] (List.getElem_mem hj))
      simp only
      rw [base4Value_take_succ s hj]
      have hand : (4 * base4Value (s.take j) + (base_to_int s[j]).toNat) &&& 3 =
          (base_to_int s[j]).toNat := by
        have := Nat.and_pow_two_sub_one_eq_mod
          (4 * base4Value (s.take j) + (base_to_int s[j]).toNat) 2
        simp only [Nat.reducePow, Nat.add_one_sub_one] at this
        rw [this]
        omega
      have hshift : (4 * base4Value (s.take j) + (base_to_int s[j]).toNat) >>> 2 =
          base4Value (s.take j) := by
        rw [Nat.shiftRight_eq_div_pow]
        simp only [Nat.reducePow]
        omega
      rw [hand, hshift, vb]
      refine Prod.ext ?_ rfl
      simp only
      rw [List.set_append_left _ _ (by simp), List.replicate_succ', List.set_append_right _ _
        (by simp)]
      simp only [List.length_replicate, Nat.sub_self, List.set_cons_zero, List.append_assoc,
        List.singleton_append]
      rw [← List.drop_eq_getElem_cons hj])
  obtain ⟨_, e⟩ := key
  rw [e]
  simp

/-- Claim C17: for every string over `{A, C, G, T}` of length `k ≤ 32`,
`unhash_kmer(hash_kmer(s), k)` is `s`; hence two such strings of equal length with the same
hash are equal. -/
theorem unhash_hash_roundtrip (s : List Char) (hs : IsDna s) (hk : s.length ≤ 32) :
    unhash_kmer (hash_kmer s) s.length = s ∧
      ∀ s' : List Char, IsDna s' → s'.length = s.length → hash_kmer s' = hash_kmer s →
        s' = s := by
  have rt : ∀ x : List Char, IsDna x → x.length ≤ 32 →
      unhash_kmer (hash_kmer x) x.length = x := by
    intro x hx hxk
    rw [hash_kmer_eq_base4Value hx hxk]
    exact unhash_kmer_base4Value hx
  refine ⟨rt s hs hk, ?_⟩
  intro s' hs' hlen hh
  have h1 := rt s' hs' (by omega)
  have h2 := rt s hs hk
  rw [hh, hlen, h2] at h1
  exact h1.symm

theorem unhash_hash_roundtrip_witness :
    (IsDna ['G', 'A', 'T', 'C'] ∧ ['G', 'A', 'T', 'C'].length ≤ 32) ∧
      (unhash_kmer (hash_kmer ['G', 'A', 'T', 'C']) ['G', 'A', 'T', 'C'].length =
          ['G', 'A', 'T', 'C'] ∧
        ∀ s' : List Char, IsDna s' → s'.length = ['G', 'A', 'T', 'C'].length →
          hash_kmer s' = hash_kmer ['G', 'A', 'T', 'C'] → s' = ['G', 'A', 'T', 'C']) :=
  ⟨⟨by intro ch h; simp at h; tauto, by decide⟩,
    unhash_hash_roundtrip ['G', 'A', 'T', 'C'] (by intro ch h; simp at h; tauto) (by decide)⟩

end Kmer

/-! # Range coverage: the greedy count is the minimum -/

namespace Beamers

/-- The downward scan over `high, high - 1, …, high - len + 1` stops at the largest position
that satisfies the test. -/
theorem scan_down_spec (p : Int → Bool) (high : Int) (len : Nat) :
    (∃ j, ((List.range len).map (fun (t : Nat) => high - (t : Int))).find? p = some j ∧
        high - len < j ∧ j ≤ high ∧ p j = true ∧
        ∀ j', j < j' → j' ≤ high → p j' = false) ∨
      (((List.range len).map (fun (t : Nat) => high - (t : Int))).find? p = none ∧
        ∀ j', high - len < j' → j' ≤ high → p j' = false) := by
  induction len with
  | zero =>
    right
    refine ⟨rfl, ?_⟩
    intro j' h1 h2
    simp only [CharP.cast_eq_zero, sub_zero] at h1
    omega
  | succ m ih =>
    rw [List.range_succ, List.map_append, List.find?_append]
    rcases ih with ⟨j, hj, h1, h2, h3, h4⟩ | ⟨hnone, hall⟩
    · left
      refine ⟨j, by rw [hj]; rfl, ?_, h2, h3, h4⟩
      push_cast
      omega
    · rw [hnone]
      simp only [List.map_cons, List.map_nil, Option.none_or]
      by_cases hp : p (high - (m : Int)) = true
      · left
        refine ⟨high - (m : Int), by simp [List.find?, hp], by push_cast; omega, by omega, hp, ?_⟩
        intro j' h1 h2
        exact hall j' (by omega) h2
      · right
        refine ⟨by simp [List.find?, hp], ?_⟩
        intro j' h1 h2
        push_cast at h1
        by_cases e : j' = high - (m : Int)
        · rw [e]; exact Bool.eq_false_iff.mpr hp
        · exact hall j' (by omega) h2

/-- The value of `found`: the largest beamer position within `k - 1` positions of city `i`, or
−1 when there is none. -/
theorem findBeamer_spec (cities : List Int) (i k : Int) (hi0 : 0 ≤ i)
    (hin : i < (cities.length : Int)) (hk : 1 ≤ k) :
    (IsBeamer cities (findBeamer cities i k) ∧ i - (k - 1) ≤ findBeamer cities i k ∧
        findBeamer cities i k ≤ i + (k - 1) ∧
        ∀ j, IsBeamer cities j → j ≤ i + (k - 1) → j ≤ findBeamer cities i k) ∨
      (findBeamer cities i k = -1 ∧
        ∀ j, IsBeamer cities j → ¬ (i - (k - 1) ≤ j ∧ j ≤ i + (k - 1))) := by
  unfold findBeamer
  simp only
  have hlen : ((min ((cities.length : Int) - 1) (i + (k - 1)) - max 0 (i - (k - 1)) + 1).toNat :
      Int) = min ((cities.length : Int) - 1) (i + (k - 1)) - max 0 (i - (k - 1)) + 1 := by
    omega
  rcases scan_down_spec (fun j => decide (cities.getD j.toNat 0 = 1))
      (min ((cities.length : Int) - 1) (i + (k - 1)))
      (min ((cities.length : Int) - 1) (i + (k - 1)) - max 0 (i - (k - 1)) + 1).toNat with
    ⟨j, hj, h1, h2, h3, h4⟩ | ⟨hnone, hall⟩
  · left
    rw [hj]
    simp only
    rw [hlen] at h1
    simp only [decide_eq_true_eq] at h3
    refine ⟨⟨by omega, by omega, h3⟩, by omega, by omega, ?_⟩
    intro j' hb hle
    by_contra hgt
    have := h4 j' (by omega) (by have := hb.2.1; omega)
    simp only [decide_eq_false_iff_not] at this
    exact this hb.2.2
  · right
    rw [hnone]
    refine ⟨rfl, ?_⟩
    rintro j hb ⟨h1, h2⟩
    rw [hlen] at hall
    have := hall j (by have := hb.1; omega) (by have := hb.2.1; omega)
    simp only [decide_eq_false_iff_not] at this
    exact this hb.2.2

/-- Marking sets no flag beyond position `found + (k - 1)`. -/
theorem markCovered_bound (covered : List Bool) (n found k : Int) (c : Nat)
    (h : (markCovered covered n found k).getD c false = true) :
    covered.getD c false = true ∨ (c : Int) ≤ found + (k - 1) := by
  unfold markCovered at h
  simp only at h
  have gen : ∀ (js : List Int) (cov : List Bool), (∀ j ∈ js, 0 ≤ j ∧ j ≤ found + (k - 1)) →
      (js.foldl (fun cov j => cov.set j.toNat true) cov).getD c false = true →
      cov.getD c false = true ∨ (c : Int) ≤ found + (k - 1) := by
    intro js
    induction js with
    | nil => intro cov _ h; exact Or.inl h
    | cons j t ih =>
      intro cov hjs h
      simp only [List.foldl_cons] at h
      rcases ih (cov.set j.toNat true) (fun x hx => hjs x (List.mem_cons_of_mem _ hx)) h with
        h' | h'
      · by_cases e : j.toNat = c
        · right
          have := hjs j (List.mem_cons_self _ _)
          omega
        · left
          rw [List.getD_eq_getElem?_getD, List.getElem?_set_ne e,
            ← List.getD_eq_getElem?_getD] at h'
          exact h'
      · exact Or.inr h'
  apply gen _ covered _ h
  intro j hj
  simp only [List.mem_map, List.mem_range] at hj
  obtain ⟨t, ht, hjt⟩ := hj
  have h1 : 0 ≤ max 0 (found - (k - 1)) := le_max_left _ _
  have h2 : min (n - 1) (found + (k - 1)) ≤ found + (k - 1) := min_le_right _ _
  omega

/-- The loop from city `i` on: it ends within `n - i + 1` passes; it returns −1 when the
cities from `i` on cannot be covered, and otherwise adds to `count` the least number of
beamers that cover them. -/
theorem beamerLoop_spec (cities : List Int) (k : Int) (hk : 1 ≤ k) :
    ∀ (fuel : Nat) (i : Int) (covered : List Bool) (count : Int), 0 ≤ i →
      (∀ c : Nat, covered.getD c false = true → (c : Int) < i) →
      (cities.length : Int) - i < fuel → 0 < fuel →
      (beamerLoop cities k fuel i covered count = some (-1) ∧
          ¬ ∃ S, CoversFrom cities (k - 1) i S) ∨
        (∃ m : Nat, beamerLoop cities k fuel i covered count = some (count + m) ∧
          (∃ G, CoversFrom cities (k - 1) i G ∧ G.card ≤ m) ∧
          ∀ S, CoversFrom cities (k - 1) i S →
            m ≤ (S.filter (fun j => i - (k - 1) ≤ j)).card) := by
  intro fuel
  induction fuel with
  | zero =>
    intro i covered count _ _ _ hpos
    omega
  | succ fuel ih =>
    intro i covered count hi0 hcov hfuel _
    unfold beamerLoop
    by_cases hin : i < (cities.length : Int)
    · rw [if_pos hin]
      have hnot : ¬ covered.getD i.toNat false = true := by
        intro h
        have := hcov i.toNat h
        omega
      rw [if_neg hnot]
      simp only
      rcases findBeamer_spec cities i k hi0 hin hk with ⟨hb, hlo, hhi, hmax⟩ | ⟨hnone, hno⟩
      · have hne : findBeamer cities i k ≠ -1 := by
          have := hb.1
          omega
        rw [if_neg hne]
        have hcov' : ∀ c : Nat,
            (markCovered covered (cities.length : Int) (findBeamer cities i k) k).getD c false =
              true → (c : Int) < findBeamer cities i k + k := by
          intro c h
          rcases markCovered_bound covered _ _ k c h with h' | h'
          · have := hcov c h'
            omega
          · omega
        rcases ih (findBeamer cities i k + k) _ (count + 1) (by have := hb.1; omega) hcov'
            (by push_cast at hfuel; omega) (by push_cast at hfuel; omega) with ⟨hres, hnocover⟩ | ⟨m, hres, ⟨G, hG, hGc⟩, hlow⟩
        · left
          refine ⟨hres, ?_⟩
          rintro ⟨S, hS1, hS2⟩
          exact hnocover ⟨S, hS1, fun c h1 h2 => hS2 c (by omega) h2⟩
        · right
          refine ⟨m + 1, by rw [hres]; push_cast; ring_nf, ⟨insert (findBeamer cities i k) G, ⟨?_, ?_⟩,
            ?_⟩, ?_⟩
          · intro j hj
            rcases Finset.mem_insert.mp hj with e | e
            · rw [e]; exact hb
            · exact hG.1 j e
          · intro c h1 h2
            by_cases hc : c < findBeamer cities i k + k
            · exact ⟨_, Finset.mem_insert_self _ _, by omega, by omega⟩
            · obtain ⟨j, hj, h3, h4⟩ := hG.2 c (by omega) h2
              exact ⟨j, Finset.mem_insert_of_mem hj, h3, h4⟩
          · exact le_trans (Finset.card_insert_le _ _) (by omega)
          · intro S hS
            have h1 := hlow S ⟨hS.1, fun c h1 h2 => hS.2 c (by omega) h2⟩
            obtain ⟨j0, hj0, h3, h4⟩ := hS.2 i (le_refl _) hin
            have hj0le := hmax j0 (hS.1 j0 hj0) (by omega)
            have hsub : insert j0 (S.filter
                (fun j => findBeamer cities i k + k - (k - 1) ≤ j)) ⊆
                S.filter (fun j => i - (k - 1) ≤ j) := by
              intro x hx
              rcases Finset.mem_insert.mp hx with e | e
              · rw [e]
                exact Finset.mem_filter.mpr ⟨hj0, by omega⟩
              · obtain ⟨e1, e2⟩ := Finset.mem_filter.mp e
                exact Finset.mem_filter.mpr ⟨e1, by omega⟩
            have hnotmem : j0 ∉ S.filter
                (fun j => findBeamer cities i k + k - (k - 1) ≤ j) := by
              intro hmem
              have := (Finset.mem_filter.mp hmem).2
              omega
            have := Finset.card_le_card hsub
            rw [Finset.card_insert_of_not_mem hnotmem] at this
            omega
      · left
        rw [if_pos hnone]
        refine ⟨rfl, ?_⟩
        rintro ⟨S, hS1, hS2⟩
        obtain ⟨j, hj, h3, h4⟩ := hS2 i (le_refl _) hin
        exact hno j (hS1 j hj) ⟨by omega, by omega⟩
    · rw [if_neg hin]
      right
      refine ⟨0, by simp, ⟨∅, ⟨by simp, ?_⟩, by simp⟩, fun _ _ => Nat.zero_le _⟩
      intro c h1 h2
      omega

/-- Claim C18, counterexample: for the cities `[0, 1]` and `k = 1` the beamer at position 1
covers both cities when coverage reaches `k` positions to each side, yet `finding_beamers`
returns −1. No sum of this run leaves the type `int`. -/
theorem finding_beamers_rejects_radius_k_cover :
    finding_beamers 3 [0, 1] 1 = some (-1) ∧ IsCover [0, 1] 1 {1} ∧ SumsFit [0, 1] 1 := by
  refine ⟨by rfl, ⟨?_, ?_⟩, ⟨by decide, by decide, ?_⟩⟩
  · intro j hj
    rw [Finset.mem_singleton.mp hj]
    exact ⟨by decide, by decide, by rfl⟩
  · intro c h1 h2
    refine ⟨1, Finset.mem_singleton_self _, ?_, ?_⟩
    · omega
    · simp only [List.length_cons, List.length_nil] at h2
      omega
  · intro j _ h
    simp only [List.length_cons, List.length_nil] at h
    unfold INT_MAX
    omega

/-- Claim C18, amended: for every city vector and every `k ≥ 1` for which no sum of a position
and `k` leaves the type `int`, `finding_beamers` returns the minimum number of beamer
positions (entries equal to 1) that must be chosen so that every city is covered, where a
chosen beamer at position `j` covers the positions `j − (k − 1)` through `j + (k − 1)`,
clipped to the vector; it returns −1 exactly when no choice of beamers covers all cities. The
loop ends within `n + 1` passes; the result lies between −1 and the number of cities, and the
sums that the function forms at a beamer position are values of `int`. -/
theorem finding_beamers_minimum (cities : List Int) (k : Int) (fuel : Nat) (hk : 1 ≤ k)
    (hfit : SumsFit cities k) (hfuel : cities.length < fuel) :
    (∃ result, finding_beamers fuel cities k = some result ∧
      (result = -1 ↔ ¬ ∃ S, IsCover cities (k - 1) S) ∧
      (result ≠ -1 → ∃ S, IsCover cities (k - 1) S ∧ (S.card : Int) = result ∧
        ∀ S', IsCover cities (k - 1) S' → S.card ≤ S'.card) ∧
      -1 ≤ result ∧ result ≤ (cities.length : Int) ∧ result ≤ INT_MAX) ∧
    ∀ j, IsBeamer cities j →
      -INT_MAX ≤ j - (k - 1) ∧ j + (k - 1) ≤ INT_MAX ∧ j + k ≤ INT_MAX := by
  refine ⟨?_, ?_⟩
  swap
  · intro j hj
    have h := hfit.2.2 j hj.1 hj.2.1
    have h0 := hj.1
    have hk2 := hfit.2.1
    unfold INT_MAX at h hk2 ⊢
    omega
  have hinit : ∀ c : Nat, (List.replicate cities.length false).getD c false = true →
      (c : Int) < 0 := by
    intro c h
    rw [List.getD_eq_getElem?_getD, List.getElem?_replicate] at h
    by_cases hc : c < cities.length
    · rw [if_pos hc] at h; exact Bool.noConfusion h
    · rw [if_neg hc] at h; exact Bool.noConfusion h
  rcases beamerLoop_spec cities k hk fuel 0 (List.replicate cities.length false) 0 (le_refl _)
      hinit (by omega) (by omega) with ⟨hres, hno⟩ | ⟨m, hres, ⟨G, hG, hGc⟩, hlow⟩
  · have hn := hfit.1
    refine ⟨-1, hres, ⟨fun _ => hno, fun _ => rfl⟩, fun h => absurd rfl h, le_refl _,
      by omega, by unfold INT_MAX; norm_num⟩
  · have hle : ∀ S, IsCover cities (k - 1) S → m ≤ S.card := fun S hS =>
      le_trans (hlow S hS) (Finset.card_filter_le _ _)
    have hGm := hle G hG
    have hGn : G.card ≤ cities.length := by
      have hcard : G.card ≤ (Finset.range cities.length).card := by
        apply Finset.card_le_card_of_injOn (fun j : Int => j.toNat)
        · intro j hj
          obtain ⟨h0, h1, _⟩ := hG.1 j hj
          simp only [Finset.mem_range]
          omega
        · intro a ha b hb e
          have ha0 := (hG.1 a ha).1
          have hb0 := (hG.1 b hb).1
          simp only at e
          omega
      rw [Finset.card_range] at hcard
      exact hcard
    have hn := hfit.1
    refine ⟨(0 : Int) + m, hres, ⟨fun h => by omega, fun h => absurd ⟨G, hG⟩ h⟩, fun _ => ?_,
      by omega, by omega, by omega⟩
    refine ⟨G, hG, by omega, ?_⟩
    intro S' hS'
    have := hle S' hS'
    omega

theorem sums_fit_example : SumsFit [0, 1, 1, 1, 1, 0] 2 := by
  refine ⟨by decide, by decide, ?_⟩
  intro j _ h
  simp only [List.length_cons, List.length_nil] at h
  unfold INT_MAX
  omega

theorem finding_beamers_minimum_witness :
    ((1 : Int) ≤ 2 ∧ SumsFit [0, 1, 1, 1, 1, 0] 2 ∧ ([0, 1, 1, 1, 1, 0] : List Int).length < 7) ∧
      ∃ result, finding_beamers 7 [0, 1, 1, 1, 1, 0] 2 = some result ∧
        (result = -1 ↔ ¬ ∃ S, IsCover [0, 1, 1, 1, 1, 0] (2 - 1) S) ∧
        (result ≠ -1 → ∃ S, IsCover [0, 1, 1, 1, 1, 0] (2 - 1) S ∧ (S.card : Int) = result ∧
          ∀ S', IsCover [0, 1, 1, 1, 1, 0] (2 - 1) S' → S.card ≤ S'.card) ∧
        -1 ≤ result ∧ result ≤ (([0, 1, 1, 1, 1, 0] : List Int).length : Int) ∧
        result ≤ INT_MAX :=
  ⟨⟨by decide, sums_fit_example, by decide⟩,
    (finding_beamers_minimum [0, 1, 1, 1, 1, 0] 2 7 (by decide) sums_fit_example
      (by decide)).1⟩

end Beamers

/-! # Maximal cliques: `findCliques` lists each of them once -/

namespace Cliques

theorem mem_setInsert (v w : Nat) (s : List Nat) : w ∈ setInsert v s ↔ w = v ∨ w ∈ s := by
  unfold setInsert
  by_cases h : v ∈ s
  · rw [if_pos h]
    constructor
    · exact Or.inr
    · rintro (e | e)
      · rw [e]; exact h
      · exact e
  · rw [if_neg h]
    exact List.mem_orderedInsert _

theorem mem_neighborNodes (graph : List (List Int)) (v w : Nat) :
    w ∈ neighborNodes graph v ↔ w < graph.length ∧ Adjacent graph v w := by
  simp [neighborNodes, Adjacent]

/-- Adding a node that extends the clique gives a call that `findCliques` can rely on. -/
theorem callReady_step {graph : List (List Int)} (hg : IsAdjacencyMatrix graph)
    {R rest X : List Nat} {v : Nat} (hR : IsClique graph R.toFinset)
    (hnd : (v :: rest).Nodup)
    (hcand : ∀ w, (w ∈ v :: rest ∨ w ∈ X) ↔ Extends graph R w)
    (hdisj : ∀ w ∈ v :: rest, w ∉ X) :
    CallReady graph (setInsert v R)
      ((v :: rest).filter (fun u => decide (u ∈ neighborNodes graph v)))
      (X.filter (fun u => decide (u ∈ neighborNodes graph v))) := by
  obtain ⟨_, hsym, hdiag⟩ := hg
  have hv : Extends graph R v := (hcand v).mp (Or.inl (List.mem_cons_self _ _))
  refine ⟨⟨?_, ?_⟩, ?_, ?_, List.Nodup.filter _ hnd⟩
  · intro u hu
    rcases (mem_setInsert v u R).mp (List.mem_toFinset.mp hu) with e | e
    · rw [e]; exact hv.1
    · exact hR.1 u (List.mem_toFinset.mpr e)
  · intro u hu w hw hne
    rcases (mem_setInsert v u R).mp (List.mem_toFinset.mp hu) with e | e <;>
      rcases (mem_setInsert v w R).mp (List.mem_toFinset.mp hw) with e' | e'
    · exact absurd (e.trans e'.symm) hne
    · rw [e]
      exact hsym w v (hR.1 w (List.mem_toFinset.mpr e')) hv.1 (hv.2.2 w e')
    · rw [e']
      exact hv.2.2 u e
    · exact hR.2 u (List.mem_toFinset.mpr e) w (List.mem_toFinset.mpr e') hne
  · intro w
    simp only [List.mem_filter, decide_eq_true_eq]
    constructor
    · intro h
      have hw : Extends graph R w ∧ w ∈ neighborNodes graph v := by
        rcases h with ⟨h1, h2⟩ | ⟨h1, h2⟩
        · exact ⟨(hcand w).mp (Or.inl h1), h2⟩
        · exact ⟨(hcand w).mp (Or.inr h1), h2⟩
      obtain ⟨⟨hw1, hw2, hw3⟩, hwN⟩ := hw
      have hadj := ((mem_neighborNodes graph v w).mp hwN).2
      have hne : w ≠ v := fun e => hdiag v hv.1 (by rw [e] at hadj; exact hadj)
      refine ⟨hw1, ?_, ?_⟩
      · intro hmem
        rcases (mem_setInsert v w R).mp hmem with e | e
        · exact hne e
        · exact hw2 e
      · intro u hu
        rcases (mem_setInsert v u R).mp hu with e | e
        · rw [e]; exact hadj
        · exact hw3 u e
    · rintro ⟨hw1, hw2, hw3⟩
      have hadj : Adjacent graph v w := hw3 v ((mem_setInsert v v R).mpr (Or.inl rfl))
      have hwN : w ∈ neighborNodes graph v := (mem_neighborNodes graph v w).mpr ⟨hw1, hadj⟩
      have hext : Extends graph R w :=
        ⟨hw1, fun h => hw2 ((mem_setInsert v w R).mpr (Or.inr h)),
          fun u hu => hw3 u ((mem_setInsert v u R).mpr (Or.inr hu))⟩
      rcases (hcand w).mpr hext with h | h
      · exact Or.inl ⟨h, hwN⟩
      · exact Or.inr ⟨h, hwN⟩
  · intro w hw hwX
    simp only [List.mem_filter, decide_eq_true_eq] at hw hwX
    exact hdisj w hw.1 hwX.1

/-- The loop over the candidates appends the maximal cliques that contain the current clique
and some candidate and avoid the excluded nodes, each one once. -/
theorem candidateLoop_spec {graph : List (List Int)} (hg : IsAdjacencyMatrix graph)
    (call : List Nat → List Nat → List Nat → List (List Nat) → Option (List (List Nat)))
    (R : List Nat) (hR : IsClique graph R.toFinset) (bound : Nat)
    (hcall : ∀ R' P' X' all', CallReady graph R' P' X' → P'.length < bound →
      ∃ out, call R' P' X' all' = some (all' ++ out) ∧ Listed graph R' X' out) :
    ∀ (cs X : List Nat) (all : List (List Nat)), cs.Nodup →
      (∀ w, (w ∈ cs ∨ w ∈ X) ↔ Extends graph R w) → (∀ w ∈ cs, w ∉ X) → cs.length ≤ bound →
      ∃ out, candidateLoop call graph R cs cs X all = some (all ++ out) ∧
        (∀ K ∈ out, IsMaximalClique graph K.toFinset ∧ (∀ u ∈ R, u ∈ K) ∧ ∀ x ∈ X, x ∉ K) ∧
        (∀ M : Finset Nat, IsMaximalClique graph M → (∀ u ∈ R, u ∈ M) → (∀ x ∈ X, x ∉ M) →
          (∃ v ∈ cs, v ∈ M) → ∃ K ∈ out, K.toFinset = M) ∧
        (out.map List.toFinset).Nodup := by
  intro cs
  induction cs with
  | nil =>
    intro X all _ _ _ _
    refine ⟨[], by simp [candidateLoop], by simp, ?_, by simp⟩
    rintro M _ _ _ ⟨v, hv, _⟩
    exact absurd hv (List.not_mem_nil v)
  | cons v rest ih =>
    intro X all hnd hcand hdisj hlen
    have hv : Extends graph R v := (hcand v).mp (Or.inl (List.mem_cons_self _ _))
    have hvX : v ∉ X := hdisj v (List.mem_cons_self _ _)
    have hvN : ¬ decide (v ∈ neighborNodes graph v) = true := by
      simp only [decide_eq_true_eq]
      intro h
      exact hg.2.2 v hv.1 ((mem_neighborNodes graph v v).mp h).2
    have hready := callReady_step hg hR hnd hcand hdisj
    have hlt : ((v :: rest).filter (fun u => decide (u ∈ neighborNodes graph v))).length <
        bound := by
      rw [List.filter_cons_of_neg (p := fun u => decide (u ∈ neighborNodes graph v)) hvN]
      have := List.length_filter_le (fun u => decide (u ∈ neighborNodes graph v)) rest
      simp only [List.length_cons] at hlen
      omega
    obtain ⟨out1, hcall1, hL1⟩ := hcall _ _ _ all hready hlt
    have hnd' := List.nodup_cons.mp hnd
    obtain ⟨out2, h2, s2, c2, n2⟩ := ih (setInsert v X) (all ++ out1) hnd'.2
      (by
        intro w
        rw [mem_setInsert, ← hcand w, List.mem_cons]
        tauto)
      (by
        intro w hw hwX
        rcases (mem_setInsert v w X).mp hwX with e | e
        · rw [e] at hw; exact hnd'.1 hw
        · exact hdisj w (List.mem_cons_of_mem _ hw) e)
      (by simp only [List.length_cons] at hlen; omega)
    have hv1 : ∀ K ∈ out1, v ∈ K := fun K hK =>
      (hL1.sound K hK).2.1 v ((mem_setInsert v v R).mpr (Or.inl rfl))
    have hv2 : ∀ K ∈ out2, v ∉ K := fun K hK =>
      (s2 K hK).2.2 v ((mem_setInsert v v X).mpr (Or.inl rfl))
    refine ⟨out1 ++ out2, ?_, ?_, ?_, ?_⟩
    · simp only [candidateLoop, hcall1, List.erase_cons_head]
      rw [h2, List.append_assoc]
    · intro K hK
      rcases List.mem_append.mp hK with hK | hK
      · obtain ⟨k1, k2, k3⟩ := hL1.sound K hK
        refine ⟨k1, fun u hu => k2 u ((mem_setInsert v u R).mpr (Or.inr hu)), ?_⟩
        intro x hx hxK
        have hne : v ≠ x := fun e => hvX (e ▸ hx)
        have hadj := k1.1.2 v (List.mem_toFinset.mpr (hv1 K hK)) x (List.mem_toFinset.mpr hxK) hne
        have hxn := k1.1.1 x (List.mem_toFinset.mpr hxK)
        exact k3 x (List.mem_filter.mpr ⟨hx, by
          simp only [decide_eq_true_eq]
          exact (mem_neighborNodes graph v x).mpr ⟨hxn, hadj⟩⟩) hxK
      · obtain ⟨k1, k2, k3⟩ := s2 K hK
        exact ⟨k1, k2, fun x hx => k3 x ((mem_setInsert v x X).mpr (Or.inr hx))⟩
    · intro M hM hRM hXM hex
      by_cases hvM : v ∈ M
      · obtain ⟨K, hK, e⟩ := hL1.complete M hM
          (by
            intro u hu
            rcases (mem_setInsert v u R).mp hu with e | e
            · rw [e]; exact hvM
            · exact hRM u e)
          (fun x hx => hXM x (List.mem_filter.mp hx).1)
        exact ⟨K, List.mem_append.mpr (Or.inl hK), e⟩
      · obtain ⟨w, hw, hwM⟩ := hex
        have hwrest : w ∈ rest := by
          rcases List.mem_cons.mp hw with e | e
          · rw [e] at hwM; exact absurd hwM hvM
          · exact e
        obtain ⟨K, hK, e⟩ := c2 M hM hRM
          (by
            intro x hx
            rcases (mem_setInsert v x X).mp hx with e | e
            · rw [e]; exact hvM
            · exact hXM x e)
          ⟨w, hwrest, hwM⟩
        exact ⟨K, List.mem_append.mpr (Or.inr hK), e⟩
    · rw [List.map_append, List.nodup_append]
      refine ⟨hL1.once, n2, ?_⟩
      intro a ha1 ha2
      obtain ⟨K1, hK1, e1⟩ := List.mem_map.mp ha1
      obtain ⟨K2, hK2, e2⟩ := List.mem_map.mp ha2
      have h1 : v ∈ K1.toFinset := List.mem_toFinset.mpr (hv1 K1 hK1)
      rw [e1, ← e2] at h1
      exact hv2 K2 hK2 (List.mem_toFinset.mp h1)

/-- A call of `findCliques` with more budget than possible nodes appends the maximal cliques
that contain the current clique and avoid the excluded nodes, each one once. -/
theorem findCliques_spec {graph : List (List Int)} (hg : IsAdjacencyMatrix graph) :
    ∀ (fuel : Nat) (R P X : List Nat) (all : List (List Nat)), CallReady graph R P X →
      P.length < fuel →
      ∃ out, findCliques graph fuel R P X all = some (all ++ out) ∧ Listed graph R X out := by
  intro fuel
  induction fuel with
  | zero =>
    intro R P X all _ h
    omega
  | succ fuel ih =>
    intro R P X all hready hlen
    unfold findCliques
    have outside : ∀ M : Finset Nat, IsClique graph M → (∀ u ∈ R, u ∈ M) → ∀ w ∈ M, w ∉ R →
        w ∈ P ∨ w ∈ X := by
      intro M hM hRM w hw hwR
      refine (hready.candidates w).mpr ⟨hM.1 w hw, hwR, ?_⟩
      intro u hu
      exact hM.2 u (hRM u hu) w hw (fun e => hwR (e ▸ hu))
    by_cases hbase : P = [] ∧ X = []
    · rw [if_pos hbase]
      obtain ⟨hP, hX⟩ := hbase
      subst hP
      subst hX
      have hmax : IsMaximalClique graph R.toFinset := by
        refine ⟨hready.clique, ?_⟩
        intro w hw hwR hall
        have := (hready.candidates w).mpr
          ⟨hw, fun h => hwR (List.mem_toFinset.mpr h),
            fun u hu => hall u (List.mem_toFinset.mpr hu)⟩
        simp at this
      refine ⟨[R], rfl, ?_, ?_, by simp⟩
      · intro K hK
        rw [List.mem_singleton.mp hK]
        exact ⟨hmax, fun u hu => hu, fun x hx => absurd hx (List.not_mem_nil x)⟩
      · intro M hM hRM _
        refine ⟨R, List.mem_singleton.mpr rfl, ?_⟩
        ext w
        rw [List.mem_toFinset]
        constructor
        · exact hRM w
        · intro hw
          by_contra hwR
          have := outside M hM.1 hRM w hw hwR
          simp at this
    · rw [if_neg hbase]
      obtain ⟨out, hout, hs, hc, hn⟩ := candidateLoop_spec hg (findCliques graph fuel) R
        hready.clique fuel (fun R' P' X' all' h1 h2 => ih R' P' X' all' h1 h2)
        P X all hready.nodup hready.candidates hready.disjoint (by omega)
      refine ⟨out, hout, hs, ?_, hn⟩
      intro M hM hRM hXM
      apply hc M hM hRM hXM
      by_contra hnone
      have hMR : ∀ w ∈ M, w ∈ R := by
        intro w hw
        by_contra hwR
        rcases outside M hM.1 hRM w hw hwR with h | h
        · exact hnone ⟨w, h, hw⟩
        · exact hXM w h hw
      have hext : ∀ e, e ∈ P ∨ e ∈ X → False := by
        intro e he
        obtain ⟨e1, e2, e3⟩ := (hready.candidates e).mp he
        exact hM.2 e e1 (fun h => e2 (hMR e h)) (fun u hu => e3 u (hMR u hu))
      apply hbase
      constructor
      · cases hP : P with
        | nil => rfl
        | cons a t => exact (hext a (Or.inl (by rw [hP]; exact List.mem_cons_self _ _))).elim
      · cases hX : X with
        | nil => rfl
        | cons a t => exact (hext a (Or.inr (by rw [hX]; exact List.mem_cons_self _ _))).elim

/-- Claim C19: for a symmetric 0/1 adjacency matrix with zero diagonal, `findCliques` called
with an empty current clique, all node indices as possible nodes and an empty excluded set
returns (with a depth budget above the number of nodes) and appends exactly the maximal
cliques of the graph: every appended set is a clique that no node extends, every maximal
clique is appended, and none is appended twice. -/
theorem findCliques_lists_maximal_cliques (graph : List (List Int)) (fuel : Nat)
    (hg : IsAdjacencyMatrix graph) (hfuel : graph.length < fuel) :
    ∃ out, findCliques graph fuel [] (List.range graph.length) [] [] = some out ∧
      (∀ K ∈ out, IsMaximalClique graph K.toFinset) ∧
      (∀ M : Finset Nat, IsMaximalClique graph M → ∃ K ∈ out, K.toFinset = M) ∧
      (out.map List.toFinset).Nodup ∧ out.Nodup := by
  have hready : CallReady graph [] (List.range graph.length) [] := by
    refine ⟨⟨by simp, by simp⟩, ?_, by simp, List.nodup_range _⟩
    intro w
    simp [Extends]
  obtain ⟨out, hout, hL⟩ := findCliques_spec hg fuel [] (List.range graph.length) [] []
    hready (by simpa using hfuel)
  refine ⟨out, by simpa using hout, fun K hK => (hL.sound K hK).1, ?_, hL.once,
    List.Nodup.of_map _ hL.once⟩
  intro M hM
  exact hL.complete M hM (by simp) (by simp)

theorem path_graph_valid : IsAdjacencyMatrix [[0, 1, 0], [1, 0, 1], [0, 1, 0]] := by
  refine ⟨?_, ?_, ?_⟩
  · intro row hrow
    simp only [List.mem_cons, List.mem_singleton, List.not_mem_nil, or_false] at hrow
    rcases hrow with rfl | rfl | rfl <;> simp
  · intro u v hu hv
    simp only [List.length_cons, List.length_nil] at hu hv
    interval_cases u <;> interval_cases v <;> simp [Adjacent]
  · intro u hu
    simp only [List.length_cons, List.length_nil] at hu
    interval_cases u <;> simp [Adjacent]

theorem findCliques_lists_maximal_cliques_witness :
    (IsAdjacencyMatrix [[0, 1, 0], [1, 0, 1], [0, 1, 0]] ∧
      ([[0, 1, 0], [1, 0, 1], [0, 1, 0]] : List (List Int)).length < 4) ∧
    ∃ out, findCliques [[0, 1, 0], [1, 0, 1], [0, 1, 0]] 4 []
        (List.range ([[0, 1, 0], [1, 0, 1], [0, 1, 0]] : List (List Int)).length) [] [] =
          some out ∧
      (∀ K ∈ out, IsMaximalClique [[0, 1, 0], [1, 0, 1], [0, 1, 0]] K.toFinset) ∧
      (∀ M : Finset Nat, IsMaximalClique [[0, 1, 0], [1, 0, 1], [0, 1, 0]] M →
        ∃ K ∈ out, K.toFinset = M) ∧
      (out.map List.toFinset).Nodup ∧ out.Nodup :=
  ⟨⟨path_graph_valid, by decide⟩,
    findCliques_lists_maximal_cliques [[0, 1, 0], [1, 0, 1], [0, 1, 0]] 4 path_graph_valid
      (by decide)⟩

end Cliques
